import Mathlib

/-!
# FVENS mesh partitioning: a shallow embedding and its verification

This development embeds the replicated-global-mesh partitioner of FVENS
(`src/mesh/meshpartitioning.cpp`, with the containers of
`src/utilities/aarray2d.hpp` and the mesh store of `src/mesh/amesh2dh.hpp`)
and proves properties of it.

Modelling conventions.

* C++ statements that can fail are functions into `Res := Except Err`.
  An access to a `std::vector`, a `std::array` or the raw buffer of an
  `Array2d` outside the allocation (undefined behaviour in C++) is the
  error `Err.outOfBounds`; `std::map::at` on a missing key is
  `Err.outOfRange`; `throw std::runtime_error(m)` and
  `throw std::logic_error(m)` keep their message.
* `assert` is compiled out (release build, `NDEBUG`), and so are the
  `#ifdef DEBUG` blocks; console output is not modelled.
* `a_int` and `int` values stored in containers are `Int`; counts and loop
  counters are `Nat` and are cast when stored. Every index that is computed
  is bounded by the size of an allocated container, so machine arithmetic
  does not overflow and is not reduced modulo a word size. The one size that
  is computed before its container exists is the product `nrows*ncols` of
  `Array2d::resize`: `Array2d.resize` is the method for a product that
  `a_int` can hold, as for the sizes that the restriction passes, and
  `Array2d.resizeAInt` is the method with the product reduced to the width
  of `a_int`. The MPI communicator is replaced by explicit `nranks` and
  `rank` arguments.
* `new T[n]` leaves the cells indeterminate: `Array2d.resize` takes the
  value `junk` that fills them, and theorems hold for every `junk`.
* `for` loops whose body neither changes the counter nor the bound are
  `forLoop lo hi body`; loops left by `break` are `forLoopBrk`.
-/

namespace fvens

/-! ## Failure model -/

/-- Ways in which the embedded C++ can fail. -/
inductive Err
  | outOfBounds
  | outOfRange
  | runtimeError (msg : String)
  | logicError (msg : String)
deriving DecidableEq, Repr

/-- Result of a fallible computation. -/
abbrev Res (α : Type) := Except Err α

deriving instance DecidableEq for Except

/-! ## Loops -/

/-- Runs `body i` for `n` consecutive values of the counter starting at `i`. -/
def forLoopAux {σ : Type} (body : Nat → σ → Res σ) : Nat → Nat → σ → Res σ
  | 0, _, s => .ok s
  | n + 1, i, s =>
    match body i s with
    | .error e => .error e
    | .ok s' => forLoopAux body n (i + 1) s'

/-- The loop `for (i = lo; i < hi; i++) body`. -/
def forLoop {σ : Type} (lo hi : Nat) (body : Nat → σ → Res σ) (s : σ) : Res σ :=
  forLoopAux body (hi - lo) lo s

/-- Like `forLoopAux`, for a body that may `break`: the body returns `true`
together with the state to leave the loop with. -/
def forLoopBrkAux {σ : Type} (body : Nat → σ → Res (Bool × σ)) : Nat → Nat → σ → Res σ
  | 0, _, s => .ok s
  | n + 1, i, s =>
    match body i s with
    | .error e => .error e
    | .ok (true, s') => .ok s'
    | .ok (false, s') => forLoopBrkAux body n (i + 1) s'

/-- The loop `for (i = lo; i < hi; i++) body` whose body may `break`. -/
def forLoopBrk {σ : Type} (lo hi : Nat) (body : Nat → σ → Res (Bool × σ)) (s : σ) : Res σ :=
  forLoopBrkAux body (hi - lo) lo s

/-! ## `std::vector` -/

/-- Read `v[i]`. -/
def vecGet {α : Type} (v : List α) (i : Int) : Res α :=
  if 0 ≤ i then
    match v[i.toNat]? with
    | some x => .ok x
    | none => .error .outOfBounds
  else .error .outOfBounds

/-- Write `v[i] = x`. -/
def vecSet {α : Type} (v : List α) (i : Int) (x : α) : Res (List α) :=
  if 0 ≤ i ∧ i.toNat < v.length then .ok (v.set i.toNat x)
  else .error .outOfBounds

/-- The call `v.resize(n)` for a vector of integers: kept entries keep their
value, new entries are value-initialised to zero. -/
def vecResize (v : List Int) (n : Nat) : List Int :=
  v.take n ++ List.replicate (n - v.length) 0

/-! ## `amat::Array2d` (aarray2d.hpp) -/

/-- The value that a signed two's complement integer of `w` bits holds after
a computation whose exact result is `n`. The integer type `a_int` is declared
in `aconstants.hpp`, which is not part of the sources, so its width is taken
as the parameter `w` wherever a computed value need not fit. -/
def aIntWrap (w : Nat) (n : Int) : Int := (n + 2 ^ (w - 1)) % 2 ^ w - 2 ^ (w - 1)

/-- Dense row-major two-dimensional array. -/
structure Array2d (α : Type) where
  nrows : Nat
  ncols : Nat
  size : Nat
  elems : List α
deriving DecidableEq, Repr

namespace Array2d

/-- The no-argument constructor: no storage. -/
def empty {α : Type} : Array2d α := ⟨0, 0, 0, []⟩

/-- Method `resize(nr, nc)` for sizes whose product is a value of `a_int`: new
storage of `nr*nc` indeterminate cells. The restriction passes the sizes of
containers that exist; `resizeAInt` is the method for every pair of sizes. -/
def resize {α : Type} (_a : Array2d α) (nr nc : Nat) (junk : α) : Array2d α :=
  ⟨nr, nc, nr * nc, List.replicate (nr * nc) junk⟩

/-- Method `resize(nr, nc)` with the product `nrows*ncols` computed in `a_int`,
an integer of `w` bits, as the source computes it: `size` is the product
reduced to `w` bits, and `new T[nrows*ncols]` allocates that many
indeterminate cells, or throws `std::bad_array_new_length` when the reduced
product is negative. The arguments `nr` and `nc` are values of `a_int`. -/
def resizeAInt {α : Type} (w : Nat) (_a : Array2d α) (nr nc : Nat) (junk : α) :
    Res (Array2d α) :=
  let size := aIntWrap w ((nr : Int) * (nc : Int))
  if size < 0 then .error (.runtimeError "std::bad_array_new_length")
  else .ok ⟨nr, nc, size.toNat, List.replicate size.toNat junk⟩

/-- Method `get(i, j)` and the const `operator()`: `elems[i*ncols + j]`. -/
def get {α : Type} (a : Array2d α) (i j : Int) : Res α :=
  vecGet a.elems (i * a.ncols + j)

/-- Method `set(i, j, data)` and assignment through `operator()`. -/
def set {α : Type} (a : Array2d α) (i j : Int) (data : α) : Res (Array2d α) :=
  match vecSet a.elems (i * a.ncols + j) data with
  | .ok e => .ok { a with elems := e }
  | .error e => .error e

/-- Method `rows()`. -/
def rows {α : Type} (a : Array2d α) : Nat := a.nrows

/-- Method `cols()`. -/
def cols {α : Type} (a : Array2d α) : Nat := a.ncols

/-- Method `msize()`. -/
def msize {α : Type} (a : Array2d α) : Nat := a.size

end Array2d

/-! ## `UMesh2dh` (amesh2dh.hpp) -/

/-- Modelled from the spec: the constant `NDIM` of `aconstants.hpp`, which is
not part of the sources; the mesh is two-dimensional. -/
def NDIM : Nat := 2

/-- The members of `UMesh2dh<scalar>` that mesh partitioning reads or writes.
`R` is the scalar type of the coordinates. -/
structure UMesh2dh (R : Type) where
  npoin : Nat
  nelem : Nat
  nnode : List Int
  maxnnode : Nat
  nfael : List Int
  maxnfael : Nat
  nnofa : Nat
  naface : Nat
  nbface : Nat
  nbtag : Nat
  ndtag : Nat
  coords : Array2d R
  inpoel : Array2d Int
  bface : Array2d Int
  vol_regions : Array2d Int
  esuel : Array2d Int
  intfac : Array2d Int
  elemface : Array2d Int
  nelemglobal : Nat
  npoinglobal : Nat
  globalElemIndex : List Int
  nconnface : Nat
  connface : Array2d Int
deriving DecidableEq

namespace UMesh2dh

/-- A default-constructed mesh: no storage, counts zero. -/
def new {R : Type} : UMesh2dh R :=
  { npoin := 0, nelem := 0, nnode := [], maxnnode := 0, nfael := [], maxnfael := 0,
    nnofa := 0, naface := 0, nbface := 0, nbtag := 0, ndtag := 0,
    coords := Array2d.empty, inpoel := Array2d.empty, bface := Array2d.empty,
    vol_regions := Array2d.empty, esuel := Array2d.empty, intfac := Array2d.empty,
    elemface := Array2d.empty, nelemglobal := 0, npoinglobal := 0,
    globalElemIndex := [], nconnface := 0, connface := Array2d.empty }

/-- Accessor `gnelem()`. -/
def gnelem {R : Type} (m : UMesh2dh R) : Nat := m.nelem

/-- Accessor `gintfac(face, i)`. -/
def gintfac {R : Type} (m : UMesh2dh R) (face i : Int) : Res Int := m.intfac.get face i

/-- Accessor `gelemface(ielem, inode)`. -/
def gelemface {R : Type} (m : UMesh2dh R) (ielem inode : Int) : Res Int :=
  m.elemface.get ielem inode

end UMesh2dh

/-! ## The partitioner classes (meshpartitioning.cpp) -/

/-- State of a `ReplicatedGlobalMeshPartitioner`: the global mesh it refers to
and the element distribution `elemdist`. -/
structure ReplicatedGlobalMeshPartitioner (R : Type) where
  gm : UMesh2dh R
  elemdist : List Int
deriving DecidableEq

namespace ReplicatedGlobalMeshPartitioner

/-- The constructor; `mpisize` is `get_mpi_size(MPI_COMM_WORLD)`. -/
def new {R : Type} (mpisize : Nat) (globalmesh : UMesh2dh R) :
    Res (ReplicatedGlobalMeshPartitioner R) :=
  if globalmesh.gnelem < mpisize then
    .error (.runtimeError
      ("Not enough cells in this mesh for " ++ toString mpisize ++ " processes!"))
  else .ok { gm := globalmesh, elemdist := [] }

end ReplicatedGlobalMeshPartitioner

namespace TrivialReplicatedGlobalMeshPartitioner

/-- The constructor of the derived class only runs the base constructor. -/
def new {R : Type} (mpisize : Nat) (globalmesh : UMesh2dh R) :
    Res (ReplicatedGlobalMeshPartitioner R) :=
  ReplicatedGlobalMeshPartitioner.new mpisize globalmesh

/-- The loops of `compute_partition` on the element distribution, for a mesh
of `nelem` cells. -/
def fillElemdist (nranks nelem : Nat) (elemdist0 : List Int) : Res (List Int) :=
  let numloceleminit := nelem / nranks
  let elemdist := vecResize elemdist0 nelem
  match forLoop 0 nranks (fun irank ed =>
      forLoop (irank * numloceleminit) ((irank + 1) * numloceleminit)
        (fun iel ed => vecSet ed iel (irank : Int)) ed) elemdist with
  | .error e => .error e
  | .ok elemdist =>
    forLoop (nranks * numloceleminit) nelem
      (fun iel ed => vecSet ed iel ((nranks : Int) - 1)) elemdist

/-- Method `compute_partition()`; `nranks` is `get_mpi_size(MPI_COMM_WORLD)`. -/
def compute_partition {R : Type} (nranks : Nat) (p : ReplicatedGlobalMeshPartitioner R) :
    Res (ReplicatedGlobalMeshPartitioner R) :=
  match fillElemdist nranks p.gm.gnelem p.elemdist with
  | .error e => .error e
  | .ok ed => .ok { p with elemdist := ed }

end TrivialReplicatedGlobalMeshPartitioner

/-! ## `std::map`, `std::sort`, `std::unique` -/

/-- A `std::map<a_int,a_int>`: the binding of a key is the first pair with
that key. -/
abbrev StdMap := List (Int × Int)

namespace StdMap

/-- The assignment `m[k] = v`. -/
def assign (m : StdMap) (k v : Int) : StdMap := (k, v) :: m

/-- The call `m.at(k)`, which throws `std::out_of_range` on a missing key. -/
def atKey (m : StdMap) (k : Int) : Res Int :=
  match m.lookup k with
  | some v => .ok v
  | none => .error .outOfRange

end StdMap

/-- The call `std::sort(v.begin(), v.end())` on integers. -/
def stdSort (v : List Int) : List Int := v.insertionSort (· ≤ ·)

/-- The calls `std::unique` and `erase`: of every run of equal consecutive
entries only the first is kept. -/
def stdUnique : List Int → List Int
  | [] => []
  | [a] => [a]
  | a :: b :: l => if a = b then stdUnique (b :: l) else a :: stdUnique (b :: l)

/-! ## Restriction of the global mesh (meshpartitioning.cpp) -/

/-- Members of `UMesh2dh` that `meshpartitioning.cpp` calls and the sources do
not contain, taken as parameters: `getNodeEIndex(ielem, iface, inode)`, the
`gPhyBFaceStart()` of a mesh, and the array `esuel` that
`compute_elementsSurroundingPoints` followed by
`compute_elementsSurroundingElements` leaves in a mesh. -/
structure MeshMethods (R : Type) where
  getNodeEIndex : UMesh2dh R → Int → Int → Int → Int
  gPhyBFaceStart : UMesh2dh R → Int
  esuelOf : UMesh2dh R → Array2d Int

namespace ReplicatedGlobalMeshPartitioner

/-- Lines 26 to 29 of `restrictMeshToPartitions`: the count `lm.nelem`. -/
def countLocalElems {R : Type} (gm : UMesh2dh R) (elemdist : List Int) (rank : Int) : Res Nat :=
  forLoop 0 gm.nelem (fun iel n => do
    let d ← vecGet elemdist iel
    pure (if d = rank then n + 1 else n)) 0

/-- Body of the loop of `extractInpoel` for the global element `iel`; the
state is `lociel`, `elemLoc2Glob` and `lm`. -/
def extractInpoelStep {R : Type} (gm : UMesh2dh R) (elemdist : List Int) (rank : Int)
    (iel : Nat) (s : Nat × List Int × UMesh2dh R) : Res (Nat × List Int × UMesh2dh R) := do
  let d ← vecGet elemdist iel
  if d = rank then
    let lociel := s.1
    let e ← vecSet s.2.1 lociel (iel : Int)
    let inpoel ← forLoop 0 gm.maxnnode (fun j (a : Array2d Int) => do
      let v ← gm.inpoel.get iel j
      a.set lociel j v) s.2.2.inpoel
    let vol ← forLoop 0 gm.vol_regions.cols (fun j (a : Array2d Int) => do
      let v ← gm.vol_regions.get iel j
      a.set lociel j v) s.2.2.vol_regions
    let gn ← vecGet gm.nnode iel
    let nnode ← vecSet s.2.2.nnode lociel gn
    let gf ← vecGet gm.nfael iel
    let nfael ← vecSet s.2.2.nfael lociel gf
    pure (lociel + 1, e,
      { s.2.2 with inpoel := inpoel, vol_regions := vol, nnode := nnode, nfael := nfael })
  else pure s

/-- Method `extractInpoel(lm)`: returns `elemLoc2Glob` and the updated `lm`. -/
def extractInpoel {R : Type} (gm : UMesh2dh R) (elemdist : List Int) (rank : Int)
    (lm : UMesh2dh R) : Res (List Int × UMesh2dh R) := do
  let elemLoc2Glob : List Int := List.replicate lm.nelem 0
  let r ← forLoop 0 gm.nelem (extractInpoelStep gm elemdist rank) (0, elemLoc2Glob, lm)
  pure (r.2.1, r.2.2)

/-- The `while` loop of `extractPointCoords`. The global pointer advances in
every iteration, so `gm.npoin` units of `fuel` run the loop to its exit. -/
def copyCoords {R : Type} (gm : UMesh2dh R) (locpoints : List Int) (lmnpoin : Nat) :
    Nat → Nat → Nat → Array2d R → Res (Array2d R)
  | 0, _, _, c => .ok c
  | fuel + 1, globpointer, locpointer, c =>
    if globpointer < gm.npoin ∧ locpointer < lmnpoin then do
      let lp ← vecGet locpoints locpointer
      if (globpointer : Int) = lp then do
        let c ← forLoop 0 NDIM (fun i (c : Array2d R) => do
          let v ← gm.coords.get globpointer i
          c.set locpointer i v) c
        copyCoords gm locpoints lmnpoin fuel (globpointer + 1) (locpointer + 1) c
      else copyCoords gm locpoints lmnpoin fuel (globpointer + 1) locpointer c
    else .ok c

/-- Lines 189 to 191 of `extractPointCoords`: the node entries of all rows of
`lm.inpoel` are appended to `locpoints`. -/
def collectPoints {R : Type} (lm : UMesh2dh R) (locpoints0 : List Int) : Res (List Int) :=
  forLoop 0 lm.inpoel.rows (fun iel (lp : List Int) => do
    let nn ← vecGet lm.nnode iel
    forLoop 0 nn.toNat (fun inode (lp : List Int) => do
      let v ← lm.inpoel.get iel inode
      pure (lp ++ [v])) lp) locpoints0

/-- Lines 202 to 205 of `extractPointCoords`: the global-to-local map. -/
def buildGlbToLoc (locpoints : List Int) (npoin : Nat) : Res StdMap :=
  forLoop 0 npoin (fun i (m : StdMap) => do
    let k ← vecGet locpoints i
    pure (m.assign k i)) []

/-- Method `extractPointCoords(lm, locpoints)`: returns the global-to-local
point map, the final `locpoints` and the updated `lm`. -/
def extractPointCoords {R : Type} (gm : UMesh2dh R) (lm : UMesh2dh R)
    (locpoints0 : List Int) (junkR : R) : Res (StdMap × List Int × UMesh2dh R) := do
  let pushed ← collectPoints lm locpoints0
  let locpoints := stdUnique (stdSort pushed)
  let npoin := locpoints.length
  let coords := lm.coords.resize npoin NDIM junkR
  let glbToLocPointMap ← buildGlbToLoc locpoints npoin
  let coords ← copyCoords gm locpoints npoin gm.npoin 0 0 coords
  pure (glbToLocPointMap, locpoints, { lm with npoin := npoin, coords := coords })

/-- Step 3 of `restrictMeshToPartitions` (lines 64 to 66): the node lists are
rewritten from global to local point indices. -/
def convertInpoel {R : Type} (lm : UMesh2dh R) (pointGlob2Loc : StdMap) : Res (Array2d Int) :=
  forLoop 0 lm.nelem (fun iel (a : Array2d Int) => do
    let nn ← vecGet lm.nnode iel
    forLoop 0 nn.toNat (fun j (a : Array2d Int) => do
      let g ← a.get iel j
      let l ← pointGlob2Loc.atKey g
      a.set iel j l) a) lm.inpoel

/-- Body of the first loop of `extractbfaces` (lines 233 to 258) for the
global boundary face `iface`; the state is `tbfaces` and `lm.nbface`. -/
def extractbfacesStep {R : Type} (api : MeshMethods R) (gm : UMesh2dh R)
    (elemdist : List Int) (irank : Int) (pointGlob2Loc : StdMap) (junk : Int)
    (iface : Nat) (s : List (List Int) × Nat) : Res (List (List Int) × Nat) := do
  let locbfpoints : List Int := List.replicate 6 junk
  let globelem ← gm.gintfac ((iface : Int) + api.gPhyBFaceStart gm) 0
  let d ← vecGet elemdist globelem
  if d = irank then
    let locbfpoints ← forLoop 0 gm.nnofa (fun j (l : List Int) => do
      let g ← gm.bface.get iface j
      let v ← pointGlob2Loc.atKey g
      vecSet l j v) locbfpoints
    let locbfpoints ← forLoop 0 gm.nbtag (fun j (l : List Int) => do
      let t ← gm.bface.get iface ((gm.nnofa : Int) + j)
      vecSet l ((gm.nnofa : Int) + j) t) locbfpoints
    pure (s.1 ++ [locbfpoints], s.2 + 1)
  else pure s

/-- Lines 270 to 272 of `extractbfaces`: the rows of `tbfaces` are copied
into an array of `ncol` columns. -/
def fillBface (tbfaces : List (List Int)) (nbface ncol : Nat) (bface : Array2d Int) :
    Res (Array2d Int) :=
  forLoop 0 nbface (fun iface (a : Array2d Int) =>
    forLoop 0 ncol (fun j (a : Array2d Int) => do
      let row ← vecGet tbfaces iface
      let v ← vecGet row j
      a.set iface j v) a) bface

/-- Method `extractbfaces(pointGlob2Loc, lm)`. -/
def extractbfaces {R : Type} (api : MeshMethods R) (gm : UMesh2dh R) (elemdist : List Int)
    (irank : Int) (pointGlob2Loc : StdMap) (lm : UMesh2dh R) (junk : Int) :
    Res (UMesh2dh R) := do
  let r ← forLoop 0 gm.nbface (extractbfacesStep api gm elemdist irank pointGlob2Loc junk)
    ([], 0)
  let tbfaces := r.1
  let nbface := r.2
  let bface ← fillBface tbfaces nbface (lm.nnofa + lm.nbtag)
    (lm.bface.resize nbface (lm.nnofa + lm.nbtag) junk)
  pure { lm with nbface := nbface, bface := bface }

/-- Method `markLocalPhysicalBoundaryPoints(lm)`. -/
def markLocalPhysicalBoundaryPoints {R : Type} (lm : UMesh2dh R) : Res (List Bool) :=
  forLoop 0 lm.nbface (fun iface (isBounPoin : List Bool) =>
    forLoop 0 lm.nnofa (fun inode (isBounPoin : List Bool) => do
      let p ← lm.bface.get iface inode
      vecSet isBounPoin p true) isBounPoin) (List.replicate lm.npoin false)

/-- The innermost loop of `getConnectivityFaceEIndices`: the flag
`isconnface` of face `iface` of element `iel`. -/
def isConnFace {R : Type} (api : MeshMethods R) (lm : UMesh2dh R)
    (isPhyBounPoint : List Bool) (iel iface : Nat) : Res Bool :=
  forLoopBrk 0 lm.nnofa (fun inode (isconnface : Bool) => do
    let locpoint ← lm.inpoel.get iel (api.getNodeEIndex lm iel iface inode)
    let b ← vecGet isPhyBounPoint locpoint
    if !b then pure (true, true) else pure (false, isconnface)) false

/-- Method `getConnectivityFaceEIndices(lm, isPhyBounPoint)`. -/
def getConnectivityFaceEIndices {R : Type} (api : MeshMethods R) (lm : UMesh2dh R)
    (isPhyBounPoint : List Bool) : Res (List (List Int)) :=
  forLoop 0 lm.nelem (fun iel (conn : List (List Int)) => do
    let nf ← vecGet lm.nfael iel
    forLoop 0 nf.toNat (fun iface (conn : List (List Int)) => do
      let nb ← lm.esuel.get iel iface
      if nb = -1 then
        let isconnface ← isConnFace api lm isPhyBounPoint iel iface
        if isconnface then
          let l ← vecGet conn iel
          vecSet conn iel (l ++ [(iface : Int)])
        else pure conn
      else pure conn) conn) (List.replicate lm.nelem [])

/-- Lines 115 to 136: does every point of face `jgf` of the global element
`glind` occur among the global indices of `locfacepoints`? -/
def faceMatched {R : Type} (api : MeshMethods R) (gm lm : UMesh2dh R)
    (pointLoc2Glob locfacepoints : List Int) (glind : Int) (jgf : Nat) : Res Bool :=
  forLoopBrk 0 gm.nnofa (fun jnofa (matched : Bool) => do
    let globpoint ← gm.inpoel.get glind (api.getNodeEIndex gm glind jgf jnofa)
    let pointmatched ← forLoopBrk 0 lm.nnofa (fun linofa (pm : Bool) => do
      let lp ← vecGet locfacepoints linofa
      let gp ← vecGet pointLoc2Glob lp
      if gp = globpoint then pure (true, true) else pure (false, pm)) false
    if !pointmatched then pure (true, false) else pure (false, matched)) true

/-- Lines 99 to 149: the record of connectivity face number `iconface` of
local element `iel`, written to row `icofa` of `connface`. -/
def connFaceRow {R : Type} (api : MeshMethods R) (gm lm : UMesh2dh R) (elemdist : List Int)
    (pointLoc2Glob : List Int) (faces : List Int) (iel iconface icofa : Nat)
    (cf : Array2d Int) : Res (Array2d Int) := do
  let localConnFace ← vecGet faces iconface
  let cf ← cf.set icofa 0 iel
  let cf ← cf.set icofa 1 localConnFace
  let cf ← cf.set icofa 2 (-1)
  let cf ← cf.set icofa 3 (-1)
  let gei ← vecGet lm.globalElemIndex iel
  let gf ← gm.gelemface gei localConnFace
  let cf ← cf.set icofa 4 gf
  let locfacepoints ← forLoop 0 lm.nnofa (fun linofa (l : List Int) => do
    let p ← lm.inpoel.get iel (api.getNodeEIndex lm iel localConnFace linofa)
    vecSet l linofa p) (List.replicate lm.nnofa (-1))
  let glind ← vecGet lm.globalElemIndex iel
  let gnf ← vecGet gm.nfael glind
  let cf ← forLoopBrk 0 gnf.toNat (fun jgf (cf : Array2d Int) => do
    let matched ← faceMatched api gm lm pointLoc2Glob locfacepoints glind jgf
    if matched then
      let nbr ← gm.esuel.get glind jgf
      let r ← vecGet elemdist nbr
      let cf ← cf.set icofa 2 r
      let cf ← cf.set icofa 3 nbr
      pure (true, cf)
    else pure (false, cf)) cf
  let c2 ← cf.get icofa 2
  if c2 < 0 then throw (.logicError "Could not find connectivity face!")
  else pure cf

/-- Lines 88 to 151: `nconnface` and the array `connface`. -/
def buildConnface {R : Type} (api : MeshMethods R) (gm lm : UMesh2dh R) (elemdist : List Int)
    (pointLoc2Glob : List Int) (connElemLocalFace : List (List Int)) (junk : Int) :
    Res (UMesh2dh R) := do
  let nconnface ← forLoop 0 lm.nelem (fun i (n : Nat) => do
    let l ← vecGet connElemLocalFace i
    pure (n + l.length)) 0
  let connface :=
    if nconnface > 0 then lm.connface.resize nconnface 5 junk else lm.connface
  let r ← forLoop 0 lm.nelem (fun iel (s : Nat × Array2d Int) => do
    let faces ← vecGet connElemLocalFace iel
    forLoop 0 faces.length (fun iconface (s : Nat × Array2d Int) => do
      let cf ← connFaceRow api gm lm elemdist pointLoc2Glob faces iel iconface s.1 s.2
      pure (s.1 + 1, cf)) s) (0, connface)
  pure { lm with nconnface := nconnface, connface := r.2 }

/-- Lines 25 to 50 of `restrictMeshToPartitions`: the local element set. -/
def restrictElems {R : Type} (gm : UMesh2dh R) (elemdist : List Int) (rank : Int)
    (junk : Int) : Res (UMesh2dh R) := do
  let lm : UMesh2dh R := UMesh2dh.new
  let nelem ← countLocalElems gm elemdist rank
  let lm := { lm with
    nelem := nelem, maxnnode := gm.maxnnode, maxnfael := gm.maxnfael, nnofa := gm.nnofa,
    nelemglobal := gm.nelem, npoinglobal := gm.npoin }
  let lm := { lm with
    inpoel := lm.inpoel.resize lm.nelem gm.maxnnode junk,
    nfael := vecResize lm.nfael lm.nelem,
    nnode := vecResize lm.nnode lm.nelem,
    nbtag := gm.nbtag, ndtag := gm.ndtag,
    vol_regions := lm.vol_regions.resize lm.nelem gm.vol_regions.cols junk }
  let r ← extractInpoel gm elemdist rank lm
  pure { r.2 with globalElemIndex := r.1 }

/-- Lines 25 to 66 of `restrictMeshToPartitions`: the local mesh after step 3
together with `pointLoc2Glob` and `pointGlob2Loc`. -/
def restrictPoints {R : Type} (gm : UMesh2dh R) (elemdist : List Int) (rank : Int)
    (junk : Int) (junkR : R) : Res (UMesh2dh R × List Int × StdMap) := do
  let lm ← restrictElems gm elemdist rank junk
  let r ← extractPointCoords gm lm [] junkR
  let pointGlob2Loc := r.1
  let pointLoc2Glob := r.2.1
  let lm := r.2.2
  let inpoel ← convertInpoel lm pointGlob2Loc
  pure ({ lm with inpoel := inpoel }, pointLoc2Glob, pointGlob2Loc)

/-- Method `restrictMeshToPartitions()`; `rank` is
`get_mpi_rank(MPI_COMM_WORLD)`. -/
def restrictMeshToPartitions {R : Type} (api : MeshMethods R) (gm : UMesh2dh R)
    (elemdist : List Int) (rank : Int) (junk : Int) (junkR : R) : Res (UMesh2dh R) := do
  let r ← restrictPoints gm elemdist rank junk junkR
  let pointLoc2Glob := r.2.1
  let pointGlob2Loc := r.2.2
  let lm ← extractbfaces api gm elemdist rank pointGlob2Loc r.1 junk
  let lm := { lm with esuel := api.esuelOf lm }
  let isPhyBounPoint ← markLocalPhysicalBoundaryPoints lm
  let connElemLocalFace ← getConnectivityFaceEIndices api lm isPhyBounPoint
  buildConnface api gm lm elemdist pointLoc2Glob connElemLocalFace junk

end ReplicatedGlobalMeshPartitioner

/-! ## Vocabulary of the statements -/

namespace ReplicatedGlobalMeshPartitioner

/-- The global elements below `n` to which `elemdist` gives `rank`, in
increasing order. -/
def selected (elemdist : List Int) (rank : Int) (n : Nat) : List Nat :=
  (List.range n).filter (fun i => elemdist[i]? = some rank)

/-- Is the left element of the global boundary face `b` assigned to `irank`?
The left element is read from `intfac` at `b + gPhyBFaceStart()`. -/
def keptBFace {R : Type} (api : MeshMethods R) (gm : UMesh2dh R) (elemdist : List Int)
    (irank : Int) (b : Nat) : Bool :=
  decide ((gm.gintfac ((b : Int) + api.gPhyBFaceStart gm) 0 >>= vecGet elemdist) = .ok irank)

/-- Face `f` of the local element `e` has no local neighbour
(`lm.esuel(e, f) == -1`) and at least one of its `nnofa` points is not flagged
in `isPhyBounPoint`. -/
def NeighbourlessNotAllBoundary {R : Type} (api : MeshMethods R) (lm : UMesh2dh R)
    (isPhyBounPoint : List Bool) (e f : Nat) : Prop :=
  lm.esuel.get e f = .ok (-1) ∧ ∃ k : Nat, k < lm.nnofa ∧ ∃ p,
    lm.inpoel.get e (api.getNodeEIndex lm e f k) = .ok p ∧
    vecGet isPhyBounPoint p = .ok false

/-- Every read that `getConnectivityFaceEIndices` can reach is inside its
container: `nfael` has an entry per element, `esuel(e, f)` is readable for
every face of every element, and so are the face points in `inpoel` and their
flags in `isPhyBounPoint`. -/
def ConnReadsInRange {R : Type} (api : MeshMethods R) (lm : UMesh2dh R)
    (isPhyBounPoint : List Bool) : Prop :=
  lm.nfael.length = lm.nelem ∧
  ∀ e : Nat, e < lm.nelem → ∀ f : Nat, f < (lm.nfael.getD e 0).toNat →
    (lm.esuel.get e f).toBool = true ∧
    ∀ k : Nat, k < lm.nnofa →
      (lm.inpoel.get e (api.getNodeEIndex lm e f k) >>= vecGet isPhyBounPoint).toBool = true

instance {R : Type} (api : MeshMethods R) (lm : UMesh2dh R) (isPhyBounPoint : List Bool) :
    Decidable (ConnReadsInRange api lm isPhyBounPoint) := by
  unfold ConnReadsInRange
  infer_instance

/-- The rows of `lm` that hold element data are sized for `nloc` elements
and the rows of the local elements `0 .. sel.length - 1` are those of the
global elements `sel` in `gm` (node lists still in global point indices). -/
def ElemRows {R : Type} (gm : UMesh2dh R) (sel : List Nat) (nloc : Nat) (lm : UMesh2dh R) :
    Prop :=
  lm.inpoel.nrows = nloc ∧ lm.inpoel.ncols = gm.maxnnode ∧
  lm.inpoel.elems.length = nloc * gm.maxnnode ∧
  lm.vol_regions.ncols = gm.vol_regions.ncols ∧
  lm.vol_regions.elems.length = nloc * gm.vol_regions.ncols ∧
  lm.nnode.length = nloc ∧ lm.nfael.length = nloc ∧
  ∀ i g, sel[i]? = some g →
    (∀ j, j < gm.maxnnode →
      lm.inpoel.elems[i * gm.maxnnode + j]? = gm.inpoel.elems[g * gm.maxnnode + j]?) ∧
    lm.nnode[i]? = gm.nnode[g]? ∧ lm.nfael[i]? = gm.nfael[g]?

end ReplicatedGlobalMeshPartitioner

/-- The storage of the element data of a mesh matches its counts. -/
def UMesh2dh.ElemsSized {R : Type} (gm : UMesh2dh R) : Prop :=
  gm.nnode.length = gm.nelem ∧ gm.nfael.length = gm.nelem ∧
  gm.inpoel.ncols = gm.maxnnode ∧ gm.inpoel.elems.length = gm.nelem * gm.maxnnode ∧
  gm.vol_regions.elems.length = gm.nelem * gm.vol_regions.ncols

instance {R : Type} (gm : UMesh2dh R) : Decidable gm.ElemsSized := by
  unfold UMesh2dh.ElemsSized
  infer_instance

/-- The storage of the coordinates of a mesh matches its point count. -/
def UMesh2dh.CoordsSized {R : Type} (gm : UMesh2dh R) : Prop :=
  gm.coords.ncols = NDIM ∧ gm.coords.elems.length = gm.npoin * NDIM

instance {R : Type} (gm : UMesh2dh R) : Decidable gm.CoordsSized := by
  unfold UMesh2dh.CoordsSized
  infer_instance

/-- No element has more nodes than `maxnnode`. -/
def UMesh2dh.NodesBounded {R : Type} (gm : UMesh2dh R) : Prop :=
  ∀ n ∈ gm.nnode, n ≤ (gm.maxnnode : Int)

instance {R : Type} (gm : UMesh2dh R) : Decidable gm.NodesBounded := by
  unfold UMesh2dh.NodesBounded
  infer_instance

/-! ## Concrete inputs used by the witnesses -/

/-- A ten-cell mesh without any other data. -/
def tenCells : UMesh2dh Unit := { (UMesh2dh.new : UMesh2dh Unit) with nelem := 10 }

/-- A three-cell mesh without any other data. -/
def threeCells : UMesh2dh Unit := { (UMesh2dh.new : UMesh2dh Unit) with nelem := 3 }

/-- Row-major storage of a list of rows of width `nc`. -/
def Array2d.ofRows {α : Type} (nc : Nat) (rows : List (List α)) : Array2d α :=
  ⟨rows.length, nc, rows.length * nc, rows.flatten⟩

/-- The mesh of `n` quadrilaterals in a single row, with integer coordinates.
Points `0 .. n` are the bottom row and `n+1 .. 2n+1` the top row; element `i`
has the nodes `i, i+1, i+n+2, i+n+1`. The `2n+2` boundary faces (bottom,
right end, top, left end) come first in `intfac`, in the order of `bface`. -/
def quadRow (n : Nat) : UMesh2dh Int :=
  { npoin := 2 * (n + 1), nelem := n, nnode := List.replicate n 4, maxnnode := 4,
    nfael := List.replicate n 4, maxnfael := 4, nnofa := 2,
    naface := (2 * n + 2) + (n - 1), nbface := 2 * n + 2, nbtag := 1, ndtag := 1,
    coords := Array2d.ofRows 2 ((List.range (2 * (n + 1))).map (fun k =>
      if k ≤ n then [(k : Int), 0] else [((k - (n + 1) : Nat) : Int), 1])),
    inpoel := Array2d.ofRows 4 ((List.range n).map (fun i =>
      [(i : Int), i + 1, i + n + 2, i + n + 1])),
    bface := Array2d.ofRows 3 (
      (List.range n).map (fun i => [(i : Int), i + 1, 1]) ++ [[(n : Int), 2 * n + 1, 2]] ++
      (List.range n).map (fun i => [(i : Int) + n + 2, i + n + 1, 3]) ++
      [[(n : Int) + 1, 0, 4]]),
    vol_regions := Array2d.ofRows 1 (List.replicate n [0]),
    esuel := Array2d.ofRows 4 ((List.range n).map (fun i =>
      [(n : Int) + i, if i + 1 < n then i + 1 else n + n, (n : Int) + (n + 1 + i),
       if 0 < i then i - 1 else n + (2 * n + 1)])),
    intfac := Array2d.ofRows 4 (
      (List.range n).map (fun i => [(i : Int), n + i, i, i + 1]) ++
      [[(n : Int) - 1, n + n, n, 2 * n + 1]] ++
      (List.range n).map (fun i => [(i : Int), n + (n + 1 + i), i + n + 2, i + n + 1]) ++
      [[0, (n : Int) + (2 * n + 1), n + 1, 0]] ++
      (List.range (n - 1)).map (fun i => [(i : Int), i + 1, i + 1, i + n + 2])),
    elemface := Array2d.ofRows 4 ((List.range n).map (fun i =>
      [(i : Int), if i + 1 < n then (2 * n + 2 : Int) + i else n, (n : Int) + 1 + i,
       if 0 < i then (2 * n + 2 : Int) + i - 1 else 2 * n + 1])),
    nelemglobal := n, npoinglobal := 2 * (n + 1),
    globalElemIndex := (List.range n).map (fun i => (i : Int)),
    nconnface := 0, connface := Array2d.empty }

/-- Modelled from the spec: `getNodeEIndex`, which the sources do not contain.
By the comment on `gesuel`, local face `j` lies between the local nodes `j`
and `(j+1) % nfael`; so node `inode` of face `iface` is local node
`(iface + inode) % nnode[ielem]`. -/
def getNodeEIndex2d (m : UMesh2dh Int) (ielem iface inode : Int) : Int :=
  (iface + inode) % (m.nnode.getD ielem.toNat 0)

/-- Modelled from the spec: the array `esuel` left by
`compute_elementsSurroundingElements`, which the sources do not contain. The
neighbour of element `e` across its face `f` is another element that has a
face holding all the points of that face, or the sentinel `-1`. -/
def esuelBrute (m : UMesh2dh Int) : Array2d Int :=
  Array2d.ofRows m.maxnfael ((List.range m.nelem).map (fun (e : Nat) =>
    (List.range m.maxnfael).map (fun (f : Nat) =>
      let pts := (List.range m.nnofa).map (fun (k : Nat) =>
        (m.inpoel.get e (getNodeEIndex2d m e f k)).toOption)
      match (List.range m.nelem).find? (fun (e' : Nat) => e' ≠ e ∧
          (List.range (m.nfael.getD e' 0).toNat).any (fun (f' : Nat) =>
            let pts' := (List.range m.nnofa).map (fun (k : Nat) =>
              (m.inpoel.get e' (getNodeEIndex2d m e' f' k)).toOption)
            pts.all (fun p => pts'.contains p))) with
      | some e' => (e' : Int)
      | none => -1)))

/-- The missing mesh methods for two-dimensional meshes whose physical
boundary faces come first in `intfac`. -/
def api2d : MeshMethods Int :=
  { getNodeEIndex := getNodeEIndex2d,
    gPhyBFaceStart := fun _ => 0,
    esuelOf := esuelBrute }

/-- The local mesh of rank 1 after step 3, with `pointLoc2Glob` and
`pointGlob2Loc`, for the row of four quadrilaterals split as `[0, 0, 1, 1]`. -/
def rowLocal3 : UMesh2dh Int × List Int × StdMap :=
  match ReplicatedGlobalMeshPartitioner.restrictPoints (quadRow 4) [0, 0, 1, 1] 1 77 88 with
  | .ok r => r
  | .error _ => (UMesh2dh.new, [], [])

/-- The local mesh of rank 1 after `extractbfaces`, for the same input. -/
def rowLocal4 : UMesh2dh Int :=
  match ReplicatedGlobalMeshPartitioner.extractbfaces api2d (quadRow 4) [0, 0, 1, 1] 1
      rowLocal3.2.2 rowLocal3.1 77 with
  | .ok lm => lm
  | .error _ => UMesh2dh.new

/-- The local mesh of rank 1 with its local `esuel`, for the same input. -/
def rowLocal5 : UMesh2dh Int := { rowLocal4 with esuel := api2d.esuelOf rowLocal4 }

/-! ## The consistency check (meshpartitioning.cpp) -/

namespace ReplicatedGlobalMeshPartitioner

/-- Method `checkConnFaces(lm)`. The accessors `gConnBFaceStart()` and
`gConnBFaceEnd()` of the local mesh are not part of the sources; their values
are the arguments `connBFaceStart` and `connBFaceEnd`. `gglobalElemIndex(i)`
reads `globalElemIndex[i]` and `gconnface(i, j)` reads `connface(i, j)`. -/
def checkConnFaces {R : Type} (gm lm : UMesh2dh R) (connBFaceStart connBFaceEnd : Nat) :
    Res Bool :=
  forLoopBrk connBFaceStart connBFaceEnd (fun iface (isMatch : Bool) => do
    let le ← lm.gintfac iface 0
    let leftelem ← vecGet lm.globalElemIndex le
    let globface ← lm.connface.get ((iface : Int) - (connBFaceStart : Int)) 4
    let gl ← gm.gintfac globface 0
    if leftelem ≠ gl then pure (true, false) else pure (false, isMatch)) true

end ReplicatedGlobalMeshPartitioner

/-! ## Further concrete inputs -/

/-- The mesh of four quadrilaterals in a two-by-two block, with integer
coordinates. Point `3 * j + i` is at `(i, j)`; the elements are numbered row
by row from the bottom left. The eight boundary faces come first in `intfac`,
in the order of `bface`, followed by the four interior faces, whose left
element is the one with the smaller index. -/
def quadBlock : UMesh2dh Int :=
  { npoin := 9, nelem := 4, nnode := [4, 4, 4, 4], maxnnode := 4,
    nfael := [4, 4, 4, 4], maxnfael := 4, nnofa := 2,
    naface := 12, nbface := 8, nbtag := 1, ndtag := 1,
    coords := Array2d.ofRows 2
      [[0, 0], [1, 0], [2, 0], [0, 1], [1, 1], [2, 1], [0, 2], [1, 2], [2, 2]],
    inpoel := Array2d.ofRows 4 [[0, 1, 4, 3], [1, 2, 5, 4], [3, 4, 7, 6], [4, 5, 8, 7]],
    bface := Array2d.ofRows 3
      [[0, 1, 1], [1, 2, 1], [2, 5, 2], [5, 8, 2], [8, 7, 3], [7, 6, 3], [6, 3, 4], [3, 0, 4]],
    vol_regions := Array2d.ofRows 1 [[0], [0], [0], [0]],
    esuel := Array2d.ofRows 4 [[4, 1, 2, 11], [5, 6, 3, 0], [0, 3, 9, 10], [1, 7, 8, 2]],
    intfac := Array2d.ofRows 4
      [[0, 4, 0, 1], [1, 5, 1, 2], [1, 6, 2, 5], [3, 7, 5, 8], [3, 8, 8, 7], [2, 9, 7, 6],
       [2, 10, 6, 3], [0, 11, 3, 0],
       [0, 1, 1, 4], [0, 2, 4, 3], [1, 3, 5, 4], [2, 3, 4, 7]],
    elemface := Array2d.ofRows 4 [[0, 8, 9, 7], [1, 2, 10, 8], [9, 11, 5, 6], [10, 3, 4, 11]],
    nelemglobal := 4, npoinglobal := 9,
    globalElemIndex := [0, 1, 2, 3],
    nconnface := 0, connface := Array2d.empty }

/-- The mesh of four triangles that fill a strip of two unit squares, each
square cut along the diagonal from its lower right to its upper left corner.
Points `0, 1, 2` are the bottom row and `3, 4, 5` the top row; the triangles
are numbered from left to right. The six boundary faces come first in
`intfac`, in the order of `bface`, followed by the three interior faces. -/
def triStrip : UMesh2dh Int :=
  { npoin := 6, nelem := 4, nnode := [3, 3, 3, 3], maxnnode := 3,
    nfael := [3, 3, 3, 3], maxnfael := 3, nnofa := 2,
    naface := 9, nbface := 6, nbtag := 1, ndtag := 1,
    coords := Array2d.ofRows 2 [[0, 0], [1, 0], [2, 0], [0, 1], [1, 1], [2, 1]],
    inpoel := Array2d.ofRows 3 [[0, 1, 3], [1, 4, 3], [1, 2, 4], [2, 5, 4]],
    bface := Array2d.ofRows 3
      [[0, 1, 1], [1, 2, 1], [2, 5, 2], [5, 4, 3], [4, 3, 3], [3, 0, 4]],
    vol_regions := Array2d.ofRows 1 [[0], [0], [0], [0]],
    esuel := Array2d.ofRows 3 [[4, 1, 9], [2, 8, 0], [5, 3, 1], [6, 7, 2]],
    intfac := Array2d.ofRows 4
      [[0, 4, 0, 1], [2, 5, 1, 2], [3, 6, 2, 5], [3, 7, 5, 4], [1, 8, 4, 3], [0, 9, 3, 0],
       [0, 1, 1, 3], [1, 2, 1, 4], [2, 3, 2, 4]],
    elemface := Array2d.ofRows 3 [[0, 6, 5], [7, 4, 6], [1, 8, 7], [2, 3, 8]],
    nelemglobal := 4, npoinglobal := 6,
    globalElemIndex := [0, 1, 2, 3],
    nconnface := 0, connface := Array2d.empty }

/-! ## Further vocabulary of the statements -/

/-- The computation does not end in a `std::logic_error`. -/
structure Res.NoLogic {α : Type} (x : Res α) : Prop where
  out : ∀ m : String, x ≠ .error (.logicError m)

namespace ReplicatedGlobalMeshPartitioner

/-- Row of `connface` that holds the `i`-th connectivity face of the local
element `e`: the number of connectivity faces of the elements before `e`,
plus `i`. -/
def connRowIndex (conn : List (List Int)) (e i : Nat) : Nat :=
  ((conn.take e).map List.length).sum + i

/-- Every point of face `jgf` of the global element `g` occurs among the
global indices (through `pointLoc2Glob`) of the points of face `f` of the
local element `e`. -/
def GlobalFaceAmong {R : Type} (api : MeshMethods R) (gm lm : UMesh2dh R)
    (pointLoc2Glob : List Int) (e : Nat) (f g : Int) (jgf : Nat) : Prop :=
  ∀ jn : Nat, jn < gm.nnofa →
    (gm.inpoel.get g (api.getNodeEIndex gm g jgf jn)).toBool = true ∧
    ∃ k : Nat, k < lm.nnofa ∧
      (lm.inpoel.get e (api.getNodeEIndex lm e f k) >>= vecGet pointLoc2Glob) =
        gm.inpoel.get g (api.getNodeEIndex gm g jgf jn)

instance {R : Type} (api : MeshMethods R) (gm lm : UMesh2dh R) (pointLoc2Glob : List Int)
    (e : Nat) (f g : Int) (jgf : Nat) :
    Decidable (GlobalFaceAmong api gm lm pointLoc2Glob e f g jgf) := by
  unfold GlobalFaceAmong
  infer_instance

/-- Row `r` of the array `cf` is the record of face `f` of the local element
`e` as lines 99 to 149 write it: columns 0 and 1 hold `e` and `f`, column 4
holds `gm.elemface(g, f)` for the global element `g = globalElemIndex[e]`,
column 3 holds `gm.esuel(g, jgf)` for the first face `jgf` of `g` all of whose
points occur among the global indices of the points of face `f`, and column 2
holds the entry of `elemdist` for column 3, which is not negative. -/
def ConnRowRecord {R : Type} (api : MeshMethods R) (gm lm : UMesh2dh R) (elemdist : List Int)
    (pointLoc2Glob : List Int) (cf : Array2d Int) (r e : Nat) (f : Int) : Prop :=
  ∃ (g gf nbr rk gnf : Int) (jgf : Nat),
    vecGet lm.globalElemIndex e = .ok g ∧ gm.gelemface g f = .ok gf ∧
    vecGet gm.nfael g = .ok gnf ∧ jgf < gnf.toNat ∧
    GlobalFaceAmong api gm lm pointLoc2Glob e f g jgf ∧
    (∀ j : Nat, j < jgf → ¬ GlobalFaceAmong api gm lm pointLoc2Glob e f g j) ∧
    gm.esuel.get g jgf = .ok nbr ∧ vecGet elemdist nbr = .ok rk ∧ 0 ≤ rk ∧
    cf.get r 0 = .ok (e : Int) ∧ cf.get r 1 = .ok f ∧ cf.get r 2 = .ok rk ∧
    cf.get r 3 = .ok nbr ∧ cf.get r 4 = .ok gf

/-- The run of `restrictMeshToPartitions` that returns `lm`, with its
intermediate values: `lm5` is the local mesh after step 5 (boundary faces
extracted, local `esuel` computed), `pointLoc2Glob` and `pointGlob2Loc` are
the point maps of step 2, `isPhyBounPoint` is the result of
`markLocalPhysicalBoundaryPoints(lm5)` and `connElemLocalFace` the result of
`getConnectivityFaceEIndices(lm5, isPhyBounPoint)`. -/
def RestrictStages {R : Type} (api : MeshMethods R) (gm : UMesh2dh R) (elemdist : List Int)
    (rank junk : Int) (junkR : R) (lm5 : UMesh2dh R) (pointLoc2Glob : List Int)
    (pointGlob2Loc : StdMap) (isPhyBounPoint : List Bool)
    (connElemLocalFace : List (List Int)) (lm : UMesh2dh R) : Prop :=
  ∃ lm3 lm4 : UMesh2dh R,
    restrictPoints gm elemdist rank junk junkR = .ok (lm3, pointLoc2Glob, pointGlob2Loc) ∧
    extractbfaces api gm elemdist rank pointGlob2Loc lm3 junk = .ok lm4 ∧
    lm5 = { lm4 with esuel := api.esuelOf lm4 } ∧
    markLocalPhysicalBoundaryPoints lm5 = .ok isPhyBounPoint ∧
    getConnectivityFaceEIndices api lm5 isPhyBounPoint = .ok connElemLocalFace ∧
    buildConnface api gm lm5 elemdist pointLoc2Glob connElemLocalFace junk = .ok lm

end ReplicatedGlobalMeshPartitioner

/-! ## Evaluated restrictions used by the witnesses -/

namespace ReplicatedGlobalMeshPartitioner

/-- The result of steps 1 to 3 of the restriction of an integer mesh, with
`77` for indeterminate integers and `88` for indeterminate coordinates; an
empty mesh if the steps fail. -/
def evalPoints (gm : UMesh2dh Int) (elemdist : List Int) (rank : Int) :
    UMesh2dh Int × List Int × StdMap :=
  match restrictPoints gm elemdist rank 77 88 with
  | .ok r => r
  | .error _ => (UMesh2dh.new, [], [])

/-- The local mesh after step 4 of the restriction of an integer mesh, with
the mesh methods `api2d`; an empty mesh if `extractbfaces` fails. -/
def evalLocal4 (gm : UMesh2dh Int) (elemdist : List Int) (rank : Int) : UMesh2dh Int :=
  match extractbfaces api2d gm elemdist rank (evalPoints gm elemdist rank).2.2
      (evalPoints gm elemdist rank).1 77 with
  | .ok lm => lm
  | .error _ => UMesh2dh.new

/-- The local mesh after step 5: `evalLocal4` with its local `esuel`. -/
def evalLocal5 (gm : UMesh2dh Int) (elemdist : List Int) (rank : Int) : UMesh2dh Int :=
  { evalLocal4 gm elemdist rank with esuel := api2d.esuelOf (evalLocal4 gm elemdist rank) }

/-- The flags of the physical boundary points of `evalLocal5`. -/
def evalFlags (gm : UMesh2dh Int) (elemdist : List Int) (rank : Int) : List Bool :=
  match markLocalPhysicalBoundaryPoints (evalLocal5 gm elemdist rank) with
  | .ok b => b
  | .error _ => []

/-- The lists of connectivity faces of `evalLocal5`. -/
def evalConn (gm : UMesh2dh Int) (elemdist : List Int) (rank : Int) : List (List Int) :=
  match getConnectivityFaceEIndices api2d (evalLocal5 gm elemdist rank)
      (evalFlags gm elemdist rank) with
  | .ok t => t
  | .error _ => []

/-- The local mesh that the restriction of an integer mesh returns, with the
mesh methods `api2d`; an empty mesh if the restriction fails. -/
def evalLocal (gm : UMesh2dh Int) (elemdist : List Int) (rank : Int) : UMesh2dh Int :=
  match restrictMeshToPartitions api2d gm elemdist rank 77 88 with
  | .ok lm => lm
  | .error _ => UMesh2dh.new

/-- The four reads that `checkConnFaces` makes for the face `iface` succeed:
the left element `le` of the face in the local face list, its global index
`li`, the recorded global face `G` and the left element `gl` of `G` in the
global face list. -/
def ConnFaceReads {R : Type} (gm lm : UMesh2dh R) (connBFaceStart iface : Nat)
    (le li G gl : Int) : Prop :=
  lm.gintfac iface 0 = .ok le ∧ vecGet lm.globalElemIndex le = .ok li ∧
  lm.connface.get ((iface : Int) - (connBFaceStart : Int)) 4 = .ok G ∧
  gm.gintfac G 0 = .ok gl

/-- A face list for the local mesh of rank 1 of the two-by-two block split as
`[0, 0, 1, 1]`: its four physical boundary faces, then its two connectivity
faces, whose left elements are column 0 of the rows of `connface`, then its
interior face. -/
def blockRank1Faces : Array2d Int :=
  Array2d.ofRows 4 [[1, 2, 2, 5], [1, 3, 5, 4], [0, 4, 4, 3], [0, 5, 3, 0],
    [0, 6, 0, 1], [1, 7, 1, 2], [0, 1, 1, 4]]

/-- The run of `restrictMeshToPartitions` up to the call of
`getConnectivityFaceEIndices` (steps 1 to 6 before `nconnface` is counted),
with its values as in `RestrictStages`. -/
def PreConnStages {R : Type} (api : MeshMethods R) (gm : UMesh2dh R) (elemdist : List Int)
    (rank junk : Int) (junkR : R) (lm5 : UMesh2dh R) (pointLoc2Glob : List Int)
    (pointGlob2Loc : StdMap) (isPhyBounPoint : List Bool)
    (connElemLocalFace : List (List Int)) : Prop :=
  ∃ lm3 lm4 : UMesh2dh R,
    restrictPoints gm elemdist rank junk junkR = .ok (lm3, pointLoc2Glob, pointGlob2Loc) ∧
    extractbfaces api gm elemdist rank pointGlob2Loc lm3 junk = .ok lm4 ∧
    lm5 = { lm4 with esuel := api.esuelOf lm4 } ∧
    markLocalPhysicalBoundaryPoints lm5 = .ok isPhyBounPoint ∧
    getConnectivityFaceEIndices api lm5 isPhyBounPoint = .ok connElemLocalFace

/-- No face of the global element of the local element `e` has all of its
points among the global indices of the points of face `f` of `e`. -/
def NoGlobalFaceAmong {R : Type} (api : MeshMethods R) (gm lm : UMesh2dh R)
    (pointLoc2Glob : List Int) (e : Nat) (f : Int) : Prop :=
  ∃ g gnf : Int, vecGet lm.globalElemIndex e = .ok g ∧ vecGet gm.nfael g = .ok gnf ∧
    ∀ jgf : Nat, jgf < gnf.toNat → ¬ GlobalFaceAmong api gm lm pointLoc2Glob e f g jgf

/-- Every read that the record of face `f` of the local element `e` can reach
outside `connface` is inside its container: the global index `g` of `e`, the
entries of `gm.nfael` and `gm.elemface` for it, the points of the face and
their global indices, the points of every face of `g`, and, for a face of `g`
that matches, its entry of `gm.esuel` and the entry of `elemdist` for it. -/
def ConnRowReads {R : Type} (api : MeshMethods R) (gm lm : UMesh2dh R) (elemdist : List Int)
    (pointLoc2Glob : List Int) (e : Nat) (f : Int) : Prop :=
  ∃ g gnf : Int, vecGet lm.globalElemIndex e = .ok g ∧ vecGet gm.nfael g = .ok gnf ∧
    (gm.gelemface g f).toBool = true ∧
    (∀ k : Nat, k < lm.nnofa →
      (lm.inpoel.get e (api.getNodeEIndex lm e f k) >>= vecGet pointLoc2Glob).toBool = true) ∧
    ∀ jgf : Nat, jgf < gnf.toNat →
      (∀ jn : Nat, jn < gm.nnofa →
        (gm.inpoel.get g (api.getNodeEIndex gm g jgf jn)).toBool = true) ∧
      (GlobalFaceAmong api gm lm pointLoc2Glob e f g jgf →
        (gm.esuel.get g jgf >>= vecGet elemdist).toBool = true)

/-- Mesh methods that number the points of a face differently on a local mesh
(`nelem` differs from `nelemglobal`) than on the global mesh: point `k` of face
`f` of a local element is its node `(f + 2k) mod nnode`. With them a local
face of a quadrilateral is a diagonal, which is no face of the global
element. -/
def apiSkew : MeshMethods Int :=
  { getNodeEIndex := fun m ielem iface inode =>
      if m.nelem = m.nelemglobal then getNodeEIndex2d m ielem iface inode
      else (iface + 2 * inode) % (m.nnode.getD ielem.toNat 0),
    gPhyBFaceStart := fun _ => 0,
    esuelOf := esuelBrute }

end ReplicatedGlobalMeshPartitioner

/-- Point `k` of face `f` of an element is its node `(f + k) mod nnode`: the
numbering that the comment on `gesuel` describes, stated of the parameter
`getNodeEIndex` for every mesh. -/
def StandardNumbering {R : Type} (api : MeshMethods R) : Prop :=
  ∀ (m : UMesh2dh R) (e f k : Int),
    api.getNodeEIndex m e f k = (f + k) % (m.nnode.getD e.toNat 0)

/-- Faces have two points and every element is a polygon with at least three
sides: it has as many faces as nodes and its nodes are pairwise distinct. -/
def UMesh2dh.ValidPolygons {R : Type} (gm : UMesh2dh R) : Prop :=
  gm.nnofa = 2 ∧ ∀ g : Nat, g < gm.nelem →
    3 ≤ gm.nnode.getD g 0 ∧ gm.nfael[g]? = gm.nnode[g]? ∧
    ∀ i : Nat, i < (gm.nnode.getD g 0).toNat → ∀ j : Nat, j < (gm.nnode.getD g 0).toNat →
      gm.inpoel.get g i = gm.inpoel.get g j → i = j

instance {R : Type} (gm : UMesh2dh R) : Decidable gm.ValidPolygons := by
  unfold UMesh2dh.ValidPolygons
  infer_instance

/-- The adjacency `esuel` of the global mesh is symmetric and agrees with
`elemface`: when the neighbour of element `a` across its face `f` is the real
element `b`, some face `f'` of `b` has the neighbour `a` and the same index in
the face list. -/
def UMesh2dh.SymmetricAdjacency {R : Type} (gm : UMesh2dh R) : Prop :=
  ∀ a : Nat, a < gm.nelem → ∀ f : Nat, f < (gm.nfael.getD a 0).toNat →
    ∀ b : Nat, b < gm.nelem → gm.esuel.get a f = .ok (b : Int) →
      ∃ f' : Nat, f' < (gm.nfael.getD b 0).toNat ∧ gm.esuel.get b f' = .ok (a : Int) ∧
        (gm.gelemface a f).toBool = true ∧ gm.gelemface b f' = gm.gelemface a f

set_option synthInstance.maxSize 512 in
set_option synthInstance.maxHeartbeats 200000 in
instance {R : Type} (gm : UMesh2dh R) : Decidable gm.SymmetricAdjacency := by
  unfold UMesh2dh.SymmetricAdjacency
  infer_instance

namespace ReplicatedGlobalMeshPartitioner

/-- The local adjacency is computed correctly as far as the classification
needs it: a face of a local element for which `lm.esuel` holds `-1` (no local
neighbour) does not have, across it in the global mesh, an element assigned to
this rank. -/
def LocalAdjacencyCorrect {R : Type} (gm : UMesh2dh R) (elemdist : List Int) (rank : Int)
    (lm : UMesh2dh R) : Prop :=
  ∀ e : Nat, e < lm.nelem → ∀ f : Nat, f < (lm.nfael.getD e 0).toNat →
    lm.esuel.get e f = .ok (-1) →
    (vecGet lm.globalElemIndex e >>= fun g => gm.esuel.get g f >>= vecGet elemdist) ≠ .ok rank

instance {R : Type} (gm : UMesh2dh R) (elemdist : List Int) (rank : Int) (lm : UMesh2dh R) :
    Decidable (LocalAdjacencyCorrect gm elemdist rank lm) := by
  unfold LocalAdjacencyCorrect
  infer_instance

/-- The local mesh `lm` has a connectivity row whose owning element has the
global index `a`, with neighbour global element `b`, neighbour rank `s` and
global face index `G`. -/
def HasConnRow {R : Type} (lm : UMesh2dh R) (a b s G : Int) : Prop :=
  ∃ r : Nat, r < lm.nconnface ∧
    (lm.connface.get r 0 >>= vecGet lm.globalElemIndex) = .ok a ∧
    lm.connface.get r 2 = .ok s ∧ lm.connface.get r 3 = .ok b ∧
    lm.connface.get r 4 = .ok G

instance {R : Type} (lm : UMesh2dh R) (a b s G : Int) : Decidable (HasConnRow lm a b s G) := by
  unfold HasConnRow
  infer_instance

end ReplicatedGlobalMeshPartitioner

/-! ## The topology builder -/

/-- The points of face `f` of element `e`, as `esuelBrute` reads them: the
entry is `none` where the read of `inpoel` is out of range. -/
def facePoints (m : UMesh2dh Int) (e f : Nat) : List (Option Int) :=
  (List.range m.nnofa).map (fun (k : Nat) =>
    (m.inpoel.get e (getNodeEIndex2d m e f k)).toOption)

/-- The test of `esuelBrute` for a neighbour: `e'` is another element than
`e` and has a face that holds all the points of face `f` of `e`. -/
def sharesFace (m : UMesh2dh Int) (e f e' : Nat) : Bool :=
  decide (e' ≠ e ∧
    (List.range (m.nfael.getD e' 0).toNat).any (fun (f' : Nat) =>
      (facePoints m e f).all (fun p => (facePoints m e' f').contains p)))

/-- No element has more faces than `maxnfael`. -/
def UMesh2dh.FacesBounded {R : Type} (gm : UMesh2dh R) : Prop :=
  ∀ n ∈ gm.nfael, n ≤ (gm.maxnfael : Int)

instance {R : Type} (gm : UMesh2dh R) : Decidable gm.FacesBounded := by
  unfold UMesh2dh.FacesBounded
  infer_instance

/-- The faces of the mesh are those of a manifold: a face of an element is
shared with at most one other element, and two elements have at most one
face in common. -/
def UMesh2dh.ManifoldFaces (m : UMesh2dh Int) : Prop :=
  (∀ e : Nat, e < m.nelem → ∀ f : Nat, f < (m.nfael.getD e 0).toNat →
    ∀ e1 : Nat, e1 < m.nelem → ∀ e2 : Nat, e2 < m.nelem →
      sharesFace m e f e1 = true → sharesFace m e f e2 = true → e1 = e2) ∧
  (∀ e : Nat, e < m.nelem → ∀ e' : Nat, e' < m.nelem →
    ∀ f1 : Nat, f1 < (m.nfael.getD e 0).toNat → ∀ f2 : Nat, f2 < (m.nfael.getD e 0).toNat →
      sharesFace m e f1 e' = true → sharesFace m e f2 e' = true → f1 = f2)

set_option synthInstance.maxSize 512 in
set_option synthInstance.maxHeartbeats 200000 in
instance (m : UMesh2dh Int) : Decidable m.ManifoldFaces := by
  unfold UMesh2dh.ManifoldFaces
  infer_instance

/-- The pairs (element, face) of a mesh in the order of a pass over the
elements and, within an element, over its faces. -/
def elementFaces {R : Type} (m : UMesh2dh R) : List (Nat × Nat) :=
  ((List.range m.nelem).map (fun (e : Nat) =>
    (List.range (m.nfael.getD e 0).toNat).map (fun (f : Nat) => (e, f)))).flatten

/-- One step of `unifiedFaceList`: the state is the list of faces emitted so
far, each with its left element, its right element or sentinel and its
points, together with the number of boundary faces among them. -/
def faceConnectivityStep (m : UMesh2dh Int)
    (st : List (Int × Int × List (Option Int)) × Nat) (ef : Nat × Nat) :
    List (Int × Int × List (Option Int)) × Nat :=
  match (esuelBrute m).get ef.1 ef.2 with
  | .ok nb =>
    if nb = -1 then
      (st.1 ++ [((ef.1 : Int), (m.nelem : Int) + (st.2 : Int), facePoints m ef.1 ef.2)],
        st.2 + 1)
    else if (ef.1 : Int) < nb then
      (st.1 ++ [((ef.1 : Int), nb, facePoints m ef.1 ef.2)], st.2)
    else st
  | .error _ => st

/-- Modelled from the spec: the unified face list that
`compute_faceConnectivity` builds, a method the sources only declare. By the
description of the topology builder, a single pass over the elements emits
each face once, owned by the element with the smaller index, which is its
left element; the right element of a face without neighbour is the sentinel
`nelem` plus the index of the face among the boundary faces. The adjacency
read is the one of `esuelBrute`. -/
def unifiedFaceList (m : UMesh2dh Int) : List (Int × Int × List (Option Int)) :=
  ((elementFaces m).foldl (faceConnectivityStep m) ([], 0)).1

namespace ReplicatedGlobalMeshPartitioner

/-- Every read that the first loop of `extractbfaces` makes in the global
mesh and in `elemdist` is inside its container, and a row of `tbfaces` has
room for the nodes and tags of a face: the left element of every global
boundary face and its entry of `elemdist` are readable, and for a face whose
left element is on this rank so are the `nnofa + nbtag` cells of its row of
`gm.bface`. -/
def BFaceReadsInRange {R : Type} (api : MeshMethods R) (gm : UMesh2dh R) (elemdist : List Int)
    (irank : Int) : Prop :=
  gm.nnofa + gm.nbtag ≤ 6 ∧
  ∀ b : Nat, b < gm.nbface →
    (gm.gintfac ((b : Int) + api.gPhyBFaceStart gm) 0 >>= vecGet elemdist).toBool = true ∧
    (keptBFace api gm elemdist irank b = true →
      ∀ j : Nat, j < gm.nnofa + gm.nbtag → (gm.bface.get b j).toBool = true)

instance {R : Type} (api : MeshMethods R) (gm : UMesh2dh R) (elemdist : List Int)
    (irank : Int) : Decidable (BFaceReadsInRange api gm elemdist irank) := by
  unfold BFaceReadsInRange
  infer_instance

/-- Every point index referenced by an element assigned to `rank`, that is,
each of the first `nnode` entries of its row of `gm.inpoel`, is a point of
the global mesh. -/
def SelectedPointsInRange {R : Type} (gm : UMesh2dh R) (elemdist : List Int) (rank : Int) :
    Prop :=
  ∀ g : Nat, g < gm.nelem → elemdist[g]? = some rank →
    ∀ j : Nat, j < (gm.nnode.getD g 0).toNat →
      ∃ p : Nat, p < gm.npoin ∧ gm.inpoel.get g j = .ok (p : Int)

instance {R : Type} (gm : UMesh2dh R) (elemdist : List Int) (rank : Int) :
    Decidable (SelectedPointsInRange gm elemdist rank) := by
  unfold SelectedPointsInRange
  infer_instance

end ReplicatedGlobalMeshPartitioner

/-! ## The CFL ramp of the steady-state solver (aodesolver.cpp) -/

/-- Modelled from the spec: the type `a_real` of `aconstants.hpp`, which is
not part of the sources. It is the floating-point type of the solver: a value
is NaN or a number. The numbers are rationals and their arithmetic is exact;
rounding and overflow to an infinity are not modelled. -/
inductive AReal
  | nan
  | num (q : ℚ)
deriving DecidableEq

namespace AReal

/-- The comparison `a < b`, which is false when an operand is NaN. -/
def lt : AReal → AReal → Bool
  | num a, num b => decide (a < b)
  | _, _ => false

/-- The comparison `a > b`, which is false when an operand is NaN. -/
def gt (a b : AReal) : Bool := lt b a

/-- The comparison `a <= b`, which is false when an operand is NaN. -/
def le : AReal → AReal → Bool
  | num a, num b => decide (a ≤ b)
  | _, _ => false

/-- The product `a * b`, which is NaN when an operand is NaN. -/
def mul : AReal → AReal → AReal
  | num a, num b => num (a * b)
  | _, _ => nan

end AReal

namespace SteadyBackwardEulerSolver

/-- The value `newcfl` of `expResidualRamp` before clamping. The function
`std::pow` of the C++ library is the argument `pow`. -/
def expResidualRampRaw (pow : AReal → AReal → AReal)
    (prevcfl resratio paramup paramdown : AReal) : AReal :=
  if resratio.gt (.num 1) then prevcfl.mul (pow resratio paramup)
  else prevcfl.mul (pow resratio paramdown)

/-- Method `expResidualRamp(cflmin, cflmax, prevcfl, resratio, paramup,
paramdown)`. -/
def expResidualRamp (pow : AReal → AReal → AReal)
    (cflmin cflmax prevcfl resratio paramup paramdown : AReal) : AReal :=
  let newcfl := expResidualRampRaw pow prevcfl resratio paramup paramdown
  if newcfl.lt cflmin then cflmin
  else if newcfl.gt cflmax then cflmax
  else newcfl

end SteadyBackwardEulerSolver

/-- The adjacency of the global mesh is consistent with its boundary faces:
every entry `esuel(g, f)` of a face of an element is an element or a sentinel
`nelem + face index`, and when it is a sentinel the face is a physical
boundary face, that is, some global boundary face `b` has the left element
`g` in the face list (at `b + gPhyBFaceStart()`) and holds every point of the
face among its nodes. -/
def UMesh2dh.BoundaryFacesConsistent {R : Type} (api : MeshMethods R) (gm : UMesh2dh R) :
    Prop :=
  ∀ g : Nat, g < gm.nelem → ∀ f : Nat, f < (gm.nfael.getD g 0).toNat →
    ∃ nb : Nat, nb < gm.nelem + gm.naface ∧ gm.esuel.get g f = .ok (nb : Int) ∧
      (gm.nelem ≤ nb → ∃ b : Nat, b < gm.nbface ∧
        gm.gintfac ((b : Int) + api.gPhyBFaceStart gm) 0 = .ok (g : Int) ∧
        ∀ k : Nat, k < gm.nnofa → ∃ j : Nat, j < gm.nnofa ∧
          gm.bface.get b j = gm.inpoel.get g (api.getNodeEIndex gm g f k))

set_option synthInstance.maxSize 512 in
set_option synthInstance.maxHeartbeats 200000 in
instance {R : Type} (api : MeshMethods R) (gm : UMesh2dh R) :
    Decidable (gm.BoundaryFacesConsistent api) := by
  unfold UMesh2dh.BoundaryFacesConsistent
  infer_instance

/-- Every node of every element is a point of the mesh, and every point of
the mesh is a node of some element. -/
def UMesh2dh.PointsReferenced {R : Type} (gm : UMesh2dh R) : Prop :=
  (∀ g : Nat, g < gm.nelem → ∀ j : Nat, j < (gm.nnode.getD g 0).toNat →
    ∃ p : Nat, p < gm.npoin ∧ gm.inpoel.get g j = .ok (p : Int)) ∧
  (∀ p : Nat, p < gm.npoin → ∃ g : Nat, g < gm.nelem ∧
    ∃ j : Nat, j < (gm.nnode.getD g 0).toNat ∧ gm.inpoel.get g j = .ok (p : Int))

instance {R : Type} (gm : UMesh2dh R) : Decidable gm.PointsReferenced := by
  unfold UMesh2dh.PointsReferenced
  infer_instance

/-- The boundary faces of the mesh are consistent with its elements and
points: a row of `tbfaces` has room for the nodes and tags of a face, the
left element of every boundary face (read from the face list at
`b + gPhyBFaceStart()`) is an element, its nodes are points of the mesh and
its tags are stored. -/
def UMesh2dh.BFacesInRange {R : Type} (api : MeshMethods R) (gm : UMesh2dh R) : Prop :=
  gm.nnofa + gm.nbtag ≤ 6 ∧
  ∀ b : Nat, b < gm.nbface →
    (∃ g : Nat, g < gm.nelem ∧
      gm.gintfac ((b : Int) + api.gPhyBFaceStart gm) 0 = .ok (g : Int)) ∧
    (∀ j : Nat, j < gm.nnofa → ∃ p : Nat, p < gm.npoin ∧ gm.bface.get b j = .ok (p : Int)) ∧
    (∀ j : Nat, j < gm.nbtag → (gm.bface.get b ((gm.nnofa + j : Nat) : Int)).toBool = true)

instance {R : Type} (api : MeshMethods R) (gm : UMesh2dh R) :
    Decidable (gm.BFacesInRange api) := by
  unfold UMesh2dh.BFacesInRange
  infer_instance

/-- The mesh `m` has the element and boundary data of `gm`: the counts, the
node and face counts of the elements, the nodes of every element and the
nodes of every boundary face. -/
def UMesh2dh.SameElementData {R : Type} (gm m : UMesh2dh R) : Prop :=
  m.nelem = gm.nelem ∧ m.npoin = gm.npoin ∧ m.nnofa = gm.nnofa ∧ m.nbface = gm.nbface ∧
  m.maxnnode = gm.maxnnode ∧ m.maxnfael = gm.maxnfael ∧
  m.nnode = gm.nnode ∧ m.nfael = gm.nfael ∧
  (∀ e : Nat, e < gm.nelem → ∀ j : Nat, j < (gm.nnode.getD e 0).toNat →
    m.inpoel.get e j = gm.inpoel.get e j) ∧
  (∀ b : Nat, b < gm.nbface → ∀ j : Nat, j < gm.nnofa → m.bface.get b j = gm.bface.get b j)

instance {R : Type} (gm m : UMesh2dh R) : Decidable (gm.SameElementData m) := by
  unfold UMesh2dh.SameElementData
  infer_instance

/-- The adjacency that `esuelOf` computes is consistent with the boundary
faces of `gm`: in every mesh that has the element and boundary data of `gm`,
every face of every element has an entry, and where the entry is `-1` (no
neighbour) every point of the face is a node of a boundary face of `gm`. -/
def UMesh2dh.NeighbourlessFacesOnBoundary {R : Type} (api : MeshMethods R)
    (gm : UMesh2dh R) : Prop :=
  ∀ m : UMesh2dh R, gm.SameElementData m →
    ∀ e : Nat, e < gm.nelem → ∀ f : Nat, f < (gm.nfael.getD e 0).toNat →
      ((api.esuelOf m).get e f).toBool = true ∧
      ((api.esuelOf m).get e f = .ok (-1) →
        ∀ k : Nat, k < gm.nnofa → ∃ b : Nat, b < gm.nbface ∧ ∃ j : Nat, j < gm.nnofa ∧
          gm.bface.get b j = gm.inpoel.get e (api.getNodeEIndex gm e f k))

/-- Modelled from the spec: the centroid of face `f` of the unified face list,
which `compute_periodic_map` (declared in `amesh2dh.hpp`, its body is not in
the sources) compares. A face has two defining points, columns 2 and 3 of its
row of `intfac`; coordinate `d` of the centroid is `mid` of coordinate `d` of
the two points, where `mid` stands for the arithmetic of `a_real`. -/
def UMesh2dh.faceCentroid {R : Type} (m : UMesh2dh R) (mid : R → R → R) (f : Int) :
    Res (List R) := do
  let p0 ← m.gintfac f 2
  let p1 ← m.gintfac f 3
  forLoop 0 NDIM (fun d (c : List R) => do
    let x0 ← m.coords.get p0 d
    let x1 ← m.coords.get p1 d
    pure (c ++ [mid x0 x1])) []

/-- Modelled from the spec: the geometric match of `compute_periodic_map`,
whose body is not in the sources. Two centroids match when, after the
component `axis` is removed, every remaining component of one is `near` the
same component of the other; `near` stands for the comparison with a
tolerance in `a_real`. -/
def centroidsMatch {R : Type} (near : R → R → Bool) (axis : Int) (cf cg : List R) : Bool :=
  (List.range NDIM).all (fun (d : Nat) =>
    decide ((d : Int) = axis) ||
      (match cf[d]?, cg[d]? with
      | some x, some y => near x y
      | _, _ => false))

/-- Modelled from the spec: the search of `compute_periodic_map`, whose body is
not in the sources, for the faces paired with face `f`: the other faces of the
unified face list that carry the periodic marker `bcm` in column 0 of
`intfacbtags` and whose centroid matches the centroid of `f` after the
component `axis` is removed. -/
def UMesh2dh.periodicPartners {R : Type} (m : UMesh2dh R) (intfacbtags : Array2d Int)
    (mid : R → R → R) (near : R → R → Bool) (bcm axis : Int) (f : Nat) : Res (List Nat) := do
  let cf ← m.faceCentroid mid f
  forLoop 0 m.naface (fun g (found : List Nat) => do
    let t ← intfacbtags.get g 0
    if t = bcm ∧ g ≠ f then
      let cg ← m.faceCentroid mid g
      pure (if centroidsMatch near axis cf cg then found ++ [g] else found)
    else pure found) []

/-- Modelled from the spec: the method `compute_periodic_map(bcm, axis)`, which
`amesh2dh.hpp` declares and whose body is not in the sources. By the contract
of the periodic boundary matcher and the comments on the declaration and on
`periodicmap`, the map has one entry per face of `intfac`; a face that does
not carry the marker `bcm` keeps `-1`, and a face that carries it is mapped to
the unique other marked face whose centroid matches after the component
`axis` is removed. Zero or several matches are the `TopologyError` of the
spec, here a `runtimeError`. The array `intfacbtags`, which is not in the
mesh of this development, is passed to the method, and the result is the new
value of `periodicmap`. -/
def UMesh2dh.compute_periodic_map {R : Type} (m : UMesh2dh R) (intfacbtags : Array2d Int)
    (mid : R → R → R) (near : R → R → Bool) (bcm axis : Int) : Res (List Int) :=
  forLoop 0 m.naface (fun f (periodicmap : List Int) => do
    let t ← intfacbtags.get f 0
    if t = bcm then
      let partners ← m.periodicPartners intfacbtags mid near bcm axis f
      match partners with
      | [g] => vecSet periodicmap f (g : Int)
      | _ => throw (.runtimeError "TopologyError")
    else pure periodicmap) (List.replicate m.naface (-1))

/-- Modelled from the spec: the centre coordinate of a face in exact
arithmetic, the mean of the coordinates of its two points. -/
def midRat (a b : ℚ) : ℚ := (a + b) / 2

/-- Modelled from the spec: the tolerance-based comparison of two centre
coordinates in exact arithmetic. -/
def nearRat (tol : ℚ) (a b : ℚ) : Bool := decide (|a - b| ≤ tol)

/-- The faces and points of the two-by-two block of unit squares with
rational coordinates; only the data that `compute_periodic_map` reads. Faces
0 to 7 are the boundary faces, counter-clockwise from the bottom left corner,
faces 8 to 11 are interior. -/
def periodicSquare : UMesh2dh ℚ :=
  { (UMesh2dh.new : UMesh2dh ℚ) with
    npoin := 9, nelem := 4, naface := 12, nbface := 8,
    coords := Array2d.ofRows 2
      [[0, 0], [1, 0], [2, 0], [0, 1], [1, 1], [2, 1], [0, 2], [1, 2], [2, 2]],
    intfac := Array2d.ofRows 4
      [[0, 4, 0, 1], [1, 5, 1, 2], [1, 6, 2, 5], [3, 7, 5, 8], [3, 8, 8, 7], [2, 9, 7, 6],
       [2, 10, 6, 3], [0, 11, 3, 0],
       [0, 1, 1, 4], [0, 2, 4, 3], [1, 3, 5, 4], [2, 3, 4, 7]] }

/-- Boundary markers of the faces of `periodicSquare`: marker 5 on the right
and the left side, which are identified by a translation along `x`, marker 1
on the bottom, 3 on the top, and 0 on the interior faces. -/
def periodicSquareTags : Array2d Int :=
  Array2d.ofRows 1 [[1], [1], [5], [5], [3], [3], [5], [5], [0], [0], [0], [0]]

/-- Face `g` is a partner of face `f` for the periodic marker `bcm`: `g` is
another face of the unified face list, it carries the marker, and the
centroids of `f` and `g` can be read and match after the component `axis` is
removed. -/
def UMesh2dh.IsPeriodicPartner {R : Type} (m : UMesh2dh R) (intfacbtags : Array2d Int)
    (mid : R → R → R) (near : R → R → Bool) (bcm axis : Int) (f g : Nat) : Prop :=
  g < m.naface ∧ g ≠ f ∧ intfacbtags.get g 0 = .ok bcm ∧
  (do
    let cf ← m.faceCentroid mid f
    let cg ← m.faceCentroid mid g
    pure (centroidsMatch near axis cf cg) : Res Bool) = .ok true

instance {R : Type} (m : UMesh2dh R) (intfacbtags : Array2d Int) (mid : R → R → R)
    (near : R → R → Bool) (bcm axis : Int) (f g : Nat) :
    Decidable (m.IsPeriodicPartner intfacbtags mid near bcm axis f g) := by
  unfold UMesh2dh.IsPeriodicPartner
  infer_instance

/-- The assumption of `compute_periodic_map`: the marker of every face of the
unified face list can be read, and every face that carries the periodic
marker has a readable centroid and precisely one partner. -/
def UMesh2dh.PeriodicFacesMatched {R : Type} (m : UMesh2dh R) (intfacbtags : Array2d Int)
    (mid : R → R → R) (near : R → R → Bool) (bcm axis : Int) : Prop :=
  ∀ f : Nat, f < m.naface → (intfacbtags.get f 0).toBool = true ∧
    (intfacbtags.get f 0 = .ok bcm → (m.faceCentroid mid f).toBool = true ∧
      ∃ g : Nat, g < m.naface ∧ m.IsPeriodicPartner intfacbtags mid near bcm axis f g ∧
        ∀ g' : Nat, g' < m.naface →
          m.IsPeriodicPartner intfacbtags mid near bcm axis f g' → g' = g)

instance {R : Type} (m : UMesh2dh R) (intfacbtags : Array2d Int) (mid : R → R → R)
    (near : R → R → Bool) (bcm axis : Int) :
    Decidable (m.PeriodicFacesMatched intfacbtags mid near bcm axis) := by
  unfold UMesh2dh.PeriodicFacesMatched
  infer_instance

/-! ## Loop rules -/

theorem forLoopAux_total {σ : Type} (body : Nat → σ → Res σ) (P : Nat → σ → Prop) :
    ∀ (n i : Nat) (s : σ), P i s →
      (∀ k t, i ≤ k → k < i + n → P k t → ∃ t', body k t = .ok t' ∧ P (k + 1) t') →
      ∃ s', forLoopAux body n i s = .ok s' ∧ P (i + n) s' := by
  intro n
  induction n with
  | zero => intro i s h0 _; exact ⟨s, rfl, h0⟩
  | succ n ih =>
    intro i s h0 hstep
    obtain ⟨t, ht, hPt⟩ := hstep i s (Nat.le_refl i) (by omega) h0
    obtain ⟨s', hs', hP'⟩ := ih (i + 1) t hPt
      (fun k u hk1 hk2 hu => hstep k u (by omega) (by omega) hu)
    refine ⟨s', ?_, ?_⟩
    · simp only [forLoopAux, ht]; exact hs'
    · have : i + (n + 1) = i + 1 + n := by omega
      rw [this]; exact hP'

theorem forLoop_total {σ : Type} (body : Nat → σ → Res σ) (P : Nat → σ → Prop)
    (lo hi : Nat) (s : σ) (hle : lo ≤ hi) (h0 : P lo s)
    (hstep : ∀ k t, lo ≤ k → k < hi → P k t → ∃ t', body k t = .ok t' ∧ P (k + 1) t') :
    ∃ s', forLoop lo hi body s = .ok s' ∧ P hi s' := by
  have h := forLoopAux_total body P (hi - lo) lo s h0
    (fun k t hk1 hk2 hP => hstep k t hk1 (by omega) hP)
  have e : lo + (hi - lo) = hi := by omega
  rw [e] at h
  exact h

theorem forLoopAux_partial {σ : Type} (body : Nat → σ → Res σ) (P : Nat → σ → Prop) :
    ∀ (n i : Nat) (s s' : σ), forLoopAux body n i s = .ok s' → P i s →
      (∀ k t t', i ≤ k → k < i + n → P k t → body k t = .ok t' → P (k + 1) t') →
      P (i + n) s' := by
  intro n
  induction n with
  | zero =>
    intro i s s' h h0 _
    simp only [forLoopAux, Except.ok.injEq] at h
    subst h; exact h0
  | succ n ih =>
    intro i s s' h h0 hstep
    simp only [forLoopAux] at h
    cases hb : body i s with
    | error e => rw [hb] at h; cases h
    | ok t =>
      rw [hb] at h
      have hPt := hstep i s t (Nat.le_refl i) (by omega) h0 hb
      have := ih (i + 1) t s' h hPt (fun k u u' hk1 hk2 hu hb' => hstep k u u' (by omega) (by omega) hu hb')
      have e : i + (n + 1) = i + 1 + n := by omega
      rw [e]; exact this

theorem forLoop_partial {σ : Type} (body : Nat → σ → Res σ) (P : Nat → σ → Prop)
    (lo hi : Nat) (s s' : σ) (hle : lo ≤ hi) (h : forLoop lo hi body s = .ok s') (h0 : P lo s)
    (hstep : ∀ k t t', lo ≤ k → k < hi → P k t → body k t = .ok t' → P (k + 1) t') :
    P hi s' := by
  have := forLoopAux_partial body P (hi - lo) lo s s' h h0
    (fun k t t' hk1 hk2 hP hb => hstep k t t' hk1 (by omega) hP hb)
  have e : lo + (hi - lo) = hi := by omega
  rw [e] at this
  exact this

/-! ## Vector rules -/

theorem vecSet_nat {α : Type} (v : List α) (k : Nat) (x : α) (h : k < v.length) :
    vecSet v (k : Int) x = .ok (v.set k x) := by
  simp [vecSet, h]

theorem vecGet_nat {α : Type} (v : List α) (k : Nat) (x : α) (h : v[k]? = some x) :
    vecGet v (k : Int) = .ok x := by
  simp [vecGet, h]

theorem vecGet_ok_iff {α : Type} (v : List α) (i : Int) (x : α) :
    vecGet v i = .ok x ↔ 0 ≤ i ∧ v[i.toNat]? = some x := by
  unfold vecGet
  by_cases h : 0 ≤ i
  · simp only [h, if_true, true_and]
    cases hv : v[i.toNat]? with
    | none => simp
    | some y => simp
  · simp [h]

theorem vecResize_length (v : List Int) (n : Nat) : (vecResize v n).length = n := by
  simp [vecResize]; omega

/-! ## Trivial partitioning -/

namespace TrivialReplicatedGlobalMeshPartitioner

theorem fillElemdist_spec (P N : Nat) (old : List Int) (hP : 1 ≤ P) (hN : P ≤ N) :
    ∃ ed, fillElemdist P N old = .ok ed ∧ ed.length = N ∧
      ∀ i, i < N → ed[i]? = some
        (if i < P * (N / P) then ((i / (N / P) : Nat) : Int) else (P : Int) - 1) := by
  have hq : 1 ≤ N / P := (Nat.one_le_div_iff (by omega)).2 hN
  have hPq : P * (N / P) ≤ N := Nat.mul_div_le N P
  -- first loop nest
  obtain ⟨ed1, h1, hlen1, hval1⟩ := forLoop_total
    (fun irank ed => forLoop (irank * (N / P)) ((irank + 1) * (N / P))
        (fun iel ed => vecSet ed iel (irank : Int)) ed)
    (fun r (ed : List Int) => ed.length = N ∧ ∀ i, i < r * (N / P) → ed[i]? = some ((i / (N / P) : Nat) : Int))
    0 P (vecResize old N) (Nat.zero_le _) ⟨vecResize_length _ _, by intro i hi; simp at hi⟩
    (by
      intro r ed _ hr ⟨hlen, hval⟩
      have hr1 : (r + 1) * (N / P) ≤ P * (N / P) := Nat.mul_le_mul_right _ (by omega)
      have hrr : r * (N / P) ≤ (r + 1) * (N / P) := Nat.mul_le_mul_right _ (by omega)
      obtain ⟨ed', h', hlen', hlo', hhi'⟩ := forLoop_total
        (fun iel ed => vecSet ed iel (r : Int))
        (fun k (ed : List Int) => ed.length = N ∧
          (∀ i, i < r * (N / P) → ed[i]? = some ((i / (N / P) : Nat) : Int)) ∧
          (∀ i, r * (N / P) ≤ i → i < k → ed[i]? = some (r : Int)))
        (r * (N / P)) ((r + 1) * (N / P)) ed hrr
        ⟨hlen, hval, by intro i h1 h2; omega⟩
        (by
          intro k t hk1 hk2 ⟨tl, tlo, thi⟩
          refine ⟨t.set k r, vecSet_nat t k r (by omega), by simpa using tl, ?_, ?_⟩
          · intro i hi
            rw [List.getElem?_set_ne (by omega)]
            exact tlo i hi
          · intro i hi1 hi2
            by_cases hik : i = k
            · subst hik
              rw [List.getElem?_set_self (by omega)]
            · rw [List.getElem?_set_ne (by omega)]
              exact thi i hi1 (by omega))
      refine ⟨ed', h', hlen', ?_⟩
      intro i hi
      by_cases hlt : i < r * (N / P)
      · exact hlo' i hlt
      · rw [hhi' i (by omega) hi]
        congr 2
        symm
        apply Nat.div_eq_of_lt_le
        · rw [Nat.mul_comm] at *; omega
        · rw [Nat.mul_comm] at *; omega)
  -- remainder loop
  obtain ⟨ed2, h2, hlen2, hlo2, hhi2⟩ := forLoop_total
    (fun iel ed => vecSet ed iel ((P : Int) - 1))
    (fun k (ed : List Int) => ed.length = N ∧
      (∀ i, i < P * (N / P) → ed[i]? = some ((i / (N / P) : Nat) : Int)) ∧
      (∀ i, P * (N / P) ≤ i → i < k → ed[i]? = some ((P : Int) - 1)))
    (P * (N / P)) N ed1 hPq ⟨hlen1, hval1, by intro i h1 h2; omega⟩
    (by
      intro k t hk1 hk2 ⟨tl, tlo, thi⟩
      have e : vecSet t (k : Int) ((P : Int) - 1) = .ok (t.set k ((P : Int) - 1)) :=
        vecSet_nat t k _ (by omega)
      refine ⟨_, e, by simpa using tl, ?_, ?_⟩
      · intro i hi
        rw [List.getElem?_set_ne (by omega)]
        exact tlo i hi
      · intro i hi1 hi2
        by_cases hik : i = k
        · subst hik
          rw [List.getElem?_set_self (by omega)]
        · rw [List.getElem?_set_ne (by omega)]
          exact thi i hi1 (by omega))
  refine ⟨ed2, ?_, hlen2, ?_⟩
  · simp only [fillElemdist, h1]; exact h2
  · intro i hi
    by_cases hlt : i < P * (N / P)
    · rw [if_pos hlt]; exact hlo2 i hlt
    · rw [if_neg hlt]; exact hhi2 i (by omega) hi

theorem compute_partition_spec {R : Type} (p : ReplicatedGlobalMeshPartitioner R) (P : Nat)
    (hP : 1 ≤ P) (hN : P ≤ p.gm.gnelem) :
    ∃ p', compute_partition P p = .ok p' ∧ p'.gm = p.gm ∧
      p'.elemdist.length = p.gm.gnelem ∧
      ∀ i, i < p.gm.gnelem → p'.elemdist[i]? = some
        (if i < P * (p.gm.gnelem / P) then ((i / (p.gm.gnelem / P) : Nat) : Int)
         else (P : Int) - 1) := by
  obtain ⟨ed, h, hl, hv⟩ := fillElemdist_spec P p.gm.gnelem p.elemdist hP hN
  exact ⟨{ p with elemdist := ed }, by simp only [compute_partition, h], rfl, hl, hv⟩

/-- C1: `compute_partition` is total for `N ≥ P ≥ 1`: whatever `elemdist` held
before, the call succeeds (no write outside `[0, N)`), leaves `elemdist` with
length exactly `N`, and every entry is a rank `r` with `0 ≤ r < P`. -/
theorem compute_partition_total {R : Type} (p : ReplicatedGlobalMeshPartitioner R)
    (P : Nat) (hP : 1 ≤ P) (hN : P ≤ p.gm.gnelem) :
    ∃ p', compute_partition P p = .ok p' ∧ p'.gm = p.gm ∧
      p'.elemdist.length = p.gm.gnelem ∧
      ∀ i, i < p.gm.gnelem → ∃ r : Int, p'.elemdist[i]? = some r ∧ 0 ≤ r ∧ r < P := by
  obtain ⟨p', h, hg, hl, hv⟩ := compute_partition_spec p P hP hN
  refine ⟨p', h, hg, hl, fun i hi => ⟨_, hv i hi, ?_⟩⟩
  have hq : 1 ≤ p.gm.gnelem / P := (Nat.one_le_div_iff (by omega)).2 hN
  split
  · rename_i hlt
    refine ⟨by positivity, ?_⟩
    have : i / (p.gm.gnelem / P) < P := by
      apply Nat.div_lt_of_lt_mul
      rw [Nat.mul_comm]; exact hlt
    exact_mod_cast this
  · omega

theorem compute_partition_total_witness :
    (1 ≤ 2 ∧ 2 ≤ tenCells.gnelem) ∧
    ∃ p', compute_partition 2 ⟨tenCells, [7, 7, 7]⟩ = .ok p' ∧ p'.gm = tenCells ∧
      p'.elemdist.length = tenCells.gnelem ∧
      ∀ i, i < tenCells.gnelem → ∃ r : Int, p'.elemdist[i]? = some r ∧ 0 ≤ r ∧ r < (2 : Nat) :=
  ⟨by decide, compute_partition_total ⟨tenCells, [7, 7, 7]⟩ 2 (by decide) (by decide)⟩

theorem div_eq_iff_block (i q r : Nat) (hq : 1 ≤ q) : i / q = r ↔ r * q ≤ i ∧ i < (r + 1) * q := by
  constructor
  · intro h
    subst h
    refine ⟨Nat.div_mul_le_self i q, ?_⟩
    have := Nat.lt_mul_div_succ i (show 0 < q by omega)
    rw [Nat.mul_comm] at this
    exact this
  · rintro ⟨h1, h2⟩
    exact Nat.div_eq_of_lt_le h1 h2

theorem blockRank_eq_iff (P q i r : Nat) (hq : 1 ≤ q) (hr : r + 1 < P) :
    (if i < P * q then ((i / q : Nat) : Int) else (P : Int) - 1) = (r : Int) ↔
      r * q ≤ i ∧ i < (r + 1) * q := by
  have hr1 : (r + 1) * q ≤ P * q := Nat.mul_le_mul_right _ (by omega)
  by_cases hlt : i < P * q
  · rw [if_pos hlt, ← div_eq_iff_block i q r hq]
    exact Nat.cast_inj
  · rw [if_neg hlt]
    constructor
    · intro h; omega
    · rintro ⟨_, h2⟩; omega

theorem blockRank_last_iff (P q i : Nat) (hP : 1 ≤ P) (hq : 1 ≤ q) :
    (if i < P * q then ((i / q : Nat) : Int) else (P : Int) - 1) = (P : Int) - 1 ↔
      (P - 1) * q ≤ i := by
  have hP1 : (P - 1 + 1) * q = P * q := by rw [Nat.sub_add_cancel hP]
  have hPle : (P - 1) * q ≤ P * q := Nat.mul_le_mul_right _ (by omega)
  have hcast : ((P - 1 : Nat) : Int) = (P : Int) - 1 := by omega
  by_cases hlt : i < P * q
  · rw [if_pos hlt, ← hcast]
    constructor
    · intro h
      have : i / q = P - 1 := by exact_mod_cast h
      exact ((div_eq_iff_block i q (P - 1) hq).1 this).1
    · intro h
      rw [(div_eq_iff_block i q (P - 1) hq).2 ⟨h, by omega⟩]
  · rw [if_neg hlt]
    constructor
    · intro _; omega
    · intro _; rfl

/-- C2: trivial partitioning is contiguous blocking. With `q = N / P` and
`N ≥ P ≥ 1`, the elements given rank `r < P - 1` are exactly those of
`[r*q, (r+1)*q)`, and the elements given the last rank `P - 1` are exactly
those of `[(P-1)*q, N)`. -/
theorem compute_partition_blocks {R : Type} (p : ReplicatedGlobalMeshPartitioner R)
    (P : Nat) (hP : 1 ≤ P) (hN : P ≤ p.gm.gnelem) :
    ∃ p', compute_partition P p = .ok p' ∧
      (∀ r i : Nat, r + 1 < P →
        ((i < p.gm.gnelem ∧ p'.elemdist[i]? = some (r : Int)) ↔
          (r * (p.gm.gnelem / P) ≤ i ∧ i < (r + 1) * (p.gm.gnelem / P)))) ∧
      (∀ i, (i < p.gm.gnelem ∧ p'.elemdist[i]? = some ((P : Int) - 1)) ↔
          ((P - 1) * (p.gm.gnelem / P) ≤ i ∧ i < p.gm.gnelem)) := by
  obtain ⟨p', h, _, _, hv⟩ := compute_partition_spec p P hP hN
  have hq : 1 ≤ p.gm.gnelem / P := (Nat.one_le_div_iff (by omega)).2 hN
  have hPq : P * (p.gm.gnelem / P) ≤ p.gm.gnelem := Nat.mul_div_le _ _
  generalize p.gm.gnelem / P = q at *
  generalize p.gm.gnelem = N at *
  refine ⟨p', h, ?_, ?_⟩
  · intro r i hr
    have hr1 : (r + 1) * q ≤ P * q := Nat.mul_le_mul_right _ (by omega)
    constructor
    · rintro ⟨hi, he⟩
      rw [hv i hi] at he
      exact (blockRank_eq_iff P q i r hq hr).1 (Option.some.inj he)
    · intro hb
      have hi : i < N := by omega
      exact ⟨hi, by rw [hv i hi, (blockRank_eq_iff P q i r hq hr).2 hb]⟩
  · intro i
    constructor
    · rintro ⟨hi, he⟩
      rw [hv i hi] at he
      exact ⟨(blockRank_last_iff P q i hP hq).1 (Option.some.inj he), hi⟩
    · rintro ⟨h1, hi⟩
      exact ⟨hi, by rw [hv i hi, (blockRank_last_iff P q i hP hq).2 h1]⟩

theorem compute_partition_blocks_witness :
    (1 ≤ 2 ∧ 2 ≤ tenCells.gnelem) ∧
    compute_partition 2 ⟨tenCells, []⟩ = .ok ⟨tenCells, [0, 0, 0, 0, 0, 1, 1, 1, 1, 1]⟩ ∧
    ∃ p', compute_partition 2 ⟨tenCells, []⟩ = .ok p' ∧
      (∀ r i : Nat, r + 1 < 2 →
        ((i < tenCells.gnelem ∧ p'.elemdist[i]? = some (r : Int)) ↔
          (r * (tenCells.gnelem / 2) ≤ i ∧ i < (r + 1) * (tenCells.gnelem / 2)))) ∧
      (∀ i, (i < tenCells.gnelem ∧ p'.elemdist[i]? = some (((2 : Nat) : Int) - 1)) ↔
          ((2 - 1) * (tenCells.gnelem / 2) ≤ i ∧ i < tenCells.gnelem)) :=
  ⟨by decide, by decide, compute_partition_blocks ⟨tenCells, []⟩ 2 (by decide) (by decide)⟩

theorem count_eq_card_of_getElem (ed : List Int) (N : Nat) (f : Nat → Int) (x : Int)
    (hl : ed.length = N) (hv : ∀ i, i < N → ed[i]? = some (f i)) :
    ed.count x = ((Finset.range N).filter (fun i => f i = x)).card := by
  have e : ed = (List.range N).map f := by
    apply List.ext_getElem?
    intro i
    by_cases hi : i < N
    · rw [hv i hi]; simp [hi]
    · rw [List.getElem?_eq_none (by omega), List.getElem?_eq_none (by simp; omega)]
  rw [e, ← Nat.count_eq_card_filter_range, Nat.count, List.count, List.countP_map]
  apply List.countP_congr
  intro i _
  simp

/-- C3: for `N ≥ P ≥ 1`, after `compute_partition` every rank other than the
last owns exactly `N / P` elements, the last rank owns `N / P + N % P`, and
so every rank's count differs from `N / P` by at most `P - 1`. -/
theorem compute_partition_counts {R : Type} (p : ReplicatedGlobalMeshPartitioner R)
    (P : Nat) (hP : 1 ≤ P) (hN : P ≤ p.gm.gnelem) :
    ∃ p', compute_partition P p = .ok p' ∧
      (∀ r : Nat, r + 1 < P → p'.elemdist.count (r : Int) = p.gm.gnelem / P) ∧
      p'.elemdist.count ((P : Int) - 1) = p.gm.gnelem / P + p.gm.gnelem % P ∧
      (∀ r : Nat, r < P → p.gm.gnelem / P ≤ p'.elemdist.count (r : Int) ∧
        p'.elemdist.count (r : Int) ≤ p.gm.gnelem / P + (P - 1)) := by
  obtain ⟨p', h, _, hl, hv⟩ := compute_partition_spec p P hP hN
  have hq : 1 ≤ p.gm.gnelem / P := (Nat.one_le_div_iff (by omega)).2 hN
  have hPq : P * (p.gm.gnelem / P) ≤ p.gm.gnelem := Nat.mul_div_le _ _
  have hmod := Nat.div_add_mod p.gm.gnelem P
  have hmodlt : p.gm.gnelem % P < P := Nat.mod_lt _ (by omega)
  generalize p.gm.gnelem % P = m at *
  generalize p.gm.gnelem / P = q at *
  generalize p.gm.gnelem = N at *
  have c1 : ∀ r : Nat, r + 1 < P → p'.elemdist.count (r : Int) = q := by
    intro r hr
    have hr1 : (r + 1) * q ≤ P * q := Nat.mul_le_mul_right _ (by omega)
    rw [count_eq_card_of_getElem p'.elemdist N _ (r : Int) hl hv]
    have : (Finset.range N).filter (fun i =>
        (if i < P * q then ((i / q : Nat) : Int) else (P : Int) - 1) = (r : Int))
        = Finset.Ico (r * q) ((r + 1) * q) := by
      ext i
      simp only [Finset.mem_filter, Finset.mem_range, Finset.mem_Ico]
      rw [blockRank_eq_iff P q i r hq hr]
      constructor
      · rintro ⟨_, hb⟩; exact hb
      · intro hb; exact ⟨by omega, hb⟩
    rw [this, Nat.card_Ico, Nat.add_mul]
    omega
  have c2 : p'.elemdist.count ((P : Int) - 1) = q + m := by
    rw [count_eq_card_of_getElem p'.elemdist N _ ((P : Int) - 1) hl hv]
    have : (Finset.range N).filter (fun i =>
        (if i < P * q then ((i / q : Nat) : Int) else (P : Int) - 1) = (P : Int) - 1)
        = Finset.Ico ((P - 1) * q) N := by
      ext i
      simp only [Finset.mem_filter, Finset.mem_range, Finset.mem_Ico]
      rw [blockRank_last_iff P q i hP hq]
      exact And.comm
    rw [this, Nat.card_Ico]
    have e : (P - 1) * q + q = P * q := by
      have : (P - 1 + 1) * q = P * q := by rw [Nat.sub_add_cancel hP]
      rw [Nat.add_mul] at this
      omega
    omega
  refine ⟨p', h, c1, c2, ?_⟩
  intro r hr
  by_cases hlast : r + 1 < P
  · rw [c1 r hlast]; omega
  · have e : (r : Int) = (P : Int) - 1 := by omega
    rw [e, c2]; omega

theorem compute_partition_counts_witness :
    (1 ≤ 3 ∧ 3 ≤ tenCells.gnelem) ∧
    compute_partition 3 ⟨tenCells, []⟩ = .ok ⟨tenCells, [0, 0, 0, 1, 1, 1, 2, 2, 2, 2]⟩ ∧
    ∃ p', compute_partition 3 ⟨tenCells, []⟩ = .ok p' ∧
      (∀ r : Nat, r + 1 < 3 → p'.elemdist.count (r : Int) = tenCells.gnelem / 3) ∧
      p'.elemdist.count (((3 : Nat) : Int) - 1) = tenCells.gnelem / 3 + tenCells.gnelem % 3 ∧
      (∀ r : Nat, r < 3 → tenCells.gnelem / 3 ≤ p'.elemdist.count (r : Int) ∧
        p'.elemdist.count (r : Int) ≤ tenCells.gnelem / 3 + (3 - 1)) :=
  ⟨by decide, by decide, compute_partition_counts ⟨tenCells, []⟩ 3 (by decide) (by decide)⟩

end TrivialReplicatedGlobalMeshPartitioner

/-! ## The constructor guard -/

/-- C4: constructing a `ReplicatedGlobalMeshPartitioner`, and hence a trivial
partitioner, fails if and only if the mesh has fewer cells than there are
processes. The failure is the constructor's: no partitioner object exists on
which `compute_partition` could run, so the sequence "construct, then
partition" stops with the same error; on success `elemdist` is still empty.
Three cells on five processes fail, and `N = P` succeeds. -/
theorem constructor_fails_iff {R : Type} (mpisize : Nat) (gm : UMesh2dh R) :
    ((∃ e, ReplicatedGlobalMeshPartitioner.new mpisize gm = .error e) ↔ gm.gnelem < mpisize) ∧
    ((∃ e, TrivialReplicatedGlobalMeshPartitioner.new mpisize gm = .error e) ↔
      gm.gnelem < mpisize) ∧
    (gm.gnelem < mpisize →
      TrivialReplicatedGlobalMeshPartitioner.new mpisize gm = .error (.runtimeError
        ("Not enough cells in this mesh for " ++ toString mpisize ++ " processes!")) ∧
      (TrivialReplicatedGlobalMeshPartitioner.new mpisize gm >>=
        TrivialReplicatedGlobalMeshPartitioner.compute_partition mpisize)
        = .error (.runtimeError
          ("Not enough cells in this mesh for " ++ toString mpisize ++ " processes!"))) ∧
    (¬ gm.gnelem < mpisize →
      TrivialReplicatedGlobalMeshPartitioner.new mpisize gm = .ok ⟨gm, []⟩) ∧
    (∃ e, TrivialReplicatedGlobalMeshPartitioner.new 5 threeCells = .error e) ∧
    (TrivialReplicatedGlobalMeshPartitioner.new gm.gnelem gm = .ok ⟨gm, []⟩) := by
  unfold TrivialReplicatedGlobalMeshPartitioner.new ReplicatedGlobalMeshPartitioner.new
  refine ⟨?_, ?_, ?_, ?_, ⟨_, rfl⟩, ?_⟩
  · by_cases h : gm.gnelem < mpisize <;> simp [h]
  · by_cases h : gm.gnelem < mpisize <;> simp [h]
  · intro h
    simp only [h, if_true, true_and]
    rfl
  · intro h
    simp [h]
  · simp

/-! ## Rules for `Res` -/

@[simp] theorem Res.ok_bind {α β : Type} (a : α) (f : α → Res β) :
    ((Except.ok a : Res α) >>= f) = f a := rfl

@[simp] theorem Res.error_bind {α β : Type} (e : Err) (f : α → Res β) :
    ((Except.error e : Res α) >>= f) = .error e := rfl

@[simp] theorem Res.pure_eq {α : Type} (a : α) : (pure a : Res α) = .ok a := rfl

theorem Res.bind_eq_ok {α β : Type} (x : Res α) (f : α → Res β) (b : β) :
    (x >>= f) = .ok b ↔ ∃ a, x = .ok a ∧ f a = .ok b := by
  cases x with
  | error e => simp
  | ok a => simp

/-! ## Counting the local elements -/

namespace ReplicatedGlobalMeshPartitioner

theorem selected_succ (elemdist : List Int) (rank : Int) (n : Nat) :
    selected elemdist rank (n + 1) =
      selected elemdist rank n ++ (if elemdist[n]? = some rank then [n] else []) := by
  unfold selected
  rw [List.range_succ, List.filter_append]
  by_cases h : elemdist[n]? = some rank <;> simp [h]

theorem countLocalElems_eq {R : Type} (gm : UMesh2dh R) (elemdist : List Int) (rank : Int)
    (hd : elemdist.length = gm.nelem) :
    countLocalElems gm elemdist rank = .ok (selected elemdist rank gm.nelem).length := by
  obtain ⟨n, h, hn⟩ := forLoop_total
    (fun iel n => do
      let d ← vecGet elemdist iel
      pure (if d = rank then n + 1 else n))
    (fun k (n : Nat) => n = (selected elemdist rank k).length)
    0 gm.nelem 0 (Nat.zero_le _) (by simp [selected])
    (by
      intro k t _ hk ht
      have hk' : k < elemdist.length := by omega
      have e : vecGet elemdist (k : Int) = .ok elemdist[k] :=
        vecGet_nat _ _ _ (List.getElem?_eq_getElem hk')
      refine ⟨if elemdist[k] = rank then t + 1 else t, ?_, ?_⟩
      · simp only [e, Res.ok_bind, Res.pure_eq]
      · show _ = (selected elemdist rank (k + 1)).length
        rw [selected_succ, List.getElem?_eq_getElem hk']
        by_cases hr : elemdist[k] = rank <;> simp [hr, ht])
  unfold countLocalElems
  rw [h, hn]

end ReplicatedGlobalMeshPartitioner

/-! ## Rules for `Array2d` -/

theorem flat_lt {i j nr nc : Nat} (hi : i < nr) (hj : j < nc) : i * nc + j < nr * nc := by
  have : (i + 1) * nc ≤ nr * nc := Nat.mul_le_mul_right _ hi
  rw [Nat.add_mul] at this
  omega

theorem flat_row_le {i nr nc : Nat} (hi : i < nr) : i * nc + nc ≤ nr * nc := by
  have : (i + 1) * nc ≤ nr * nc := Nat.mul_le_mul_right _ hi
  rw [Nat.add_mul] at this
  omega

theorem flat_inj {i j i' j' nc : Nat} (hj : j < nc) (hj' : j' < nc)
    (h : i * nc + j = i' * nc + j') : i = i' ∧ j = j' := by
  have hnc : 0 < nc := by omega
  have h1 : (i * nc + j) / nc = i := by
    rw [Nat.mul_comm, Nat.mul_add_div hnc, Nat.div_eq_of_lt hj]; rfl
  have h2 : (i' * nc + j') / nc = i' := by
    rw [Nat.mul_comm, Nat.mul_add_div hnc, Nat.div_eq_of_lt hj']; rfl
  have hi : i = i' := by rw [← h1, ← h2, h]
  subst hi
  exact ⟨rfl, by omega⟩

theorem vecGet_natCast {α : Type} (v : List α) (k : Nat) :
    vecGet v (k : Int) = match v[k]? with
      | some x => .ok x
      | none => .error .outOfBounds := by
  simp [vecGet]

theorem vecGet_nat_ok_iff {α : Type} (v : List α) (k : Nat) (x : α) :
    vecGet v (k : Int) = .ok x ↔ v[k]? = some x := by
  rw [vecGet_natCast]
  cases v[k]? <;> simp

theorem vecGet_of_lt {α : Type} (v : List α) (k : Nat) (h : k < v.length) :
    vecGet v (k : Int) = .ok v[k] :=
  (vecGet_nat_ok_iff v k _).2 (List.getElem?_eq_getElem h)

theorem vecSet_ok_iff {α : Type} (v v' : List α) (i : Int) (x : α) :
    vecSet v i x = .ok v' ↔ 0 ≤ i ∧ i.toNat < v.length ∧ v' = v.set i.toNat x := by
  unfold vecSet
  by_cases h : 0 ≤ i ∧ i.toNat < v.length
  · rw [if_pos h]
    constructor
    · intro e; cases e; exact ⟨h.1, h.2, rfl⟩
    · rintro ⟨_, _, rfl⟩; rfl
  · rw [if_neg h]
    constructor
    · intro e; cases e
    · rintro ⟨h1, h2, _⟩; exact absurd ⟨h1, h2⟩ h

namespace Array2d

theorem get_nat {α : Type} (a : Array2d α) (i j : Nat) :
    a.get (i : Int) (j : Int) = vecGet a.elems ((i * a.ncols + j : Nat) : Int) := by
  unfold get
  push_cast
  rfl

theorem get_nat_ok_iff {α : Type} (a : Array2d α) (i j : Nat) (x : α) :
    a.get (i : Int) (j : Int) = .ok x ↔ a.elems[i * a.ncols + j]? = some x := by
  rw [get_nat, vecGet_nat_ok_iff]

theorem set_nat {α : Type} (a : Array2d α) (i j : Nat) (x : α)
    (h : i * a.ncols + j < a.elems.length) :
    a.set (i : Int) (j : Int) x = .ok { a with elems := a.elems.set (i * a.ncols + j) x } := by
  unfold set
  have e : (i : Int) * (a.ncols : Int) + (j : Int) = ((i * a.ncols + j : Nat) : Int) := by
    push_cast; rfl
  rw [e, vecSet_nat _ _ _ h]

theorem set_ok_iff {α : Type} (a a' : Array2d α) (i j : Int) (x : α) :
    a.set i j x = .ok a' ↔ ∃ e, vecSet a.elems (i * a.ncols + j) x = .ok e ∧
      a' = { a with elems := e } := by
  unfold set
  cases h : vecSet a.elems (i * a.ncols + j) x with
  | error e => simp
  | ok e =>
    simp only [Except.ok.injEq, exists_eq_left']
    exact eq_comm

end Array2d

/-- Copying `n` cells of row `isrc` of `src` to row `idst` of `dst`. -/
theorem copyRow_spec {α : Type} (src dst : Array2d α) (n isrc idst : Nat)
    (hsrc : isrc * src.ncols + n ≤ src.elems.length)
    (hdst : idst * dst.ncols + n ≤ dst.elems.length) :
    ∃ dst', forLoop 0 n (fun j (a : Array2d α) => do
        let v ← src.get isrc j
        a.set idst j v) dst = .ok dst' ∧
      dst'.nrows = dst.nrows ∧ dst'.ncols = dst.ncols ∧ dst'.size = dst.size ∧
      dst'.elems.length = dst.elems.length ∧
      (∀ j, j < n → dst'.elems[idst * dst.ncols + j]? = src.elems[isrc * src.ncols + j]?) ∧
      (∀ p, (p < idst * dst.ncols ∨ idst * dst.ncols + n ≤ p) →
        dst'.elems[p]? = dst.elems[p]?) := by
  obtain ⟨a, h, h1, h2, h3, h4, h5, h6⟩ := forLoop_total
    (fun j (a : Array2d α) => do
        let v ← src.get isrc j
        a.set idst j v)
    (fun k (a : Array2d α) => a.nrows = dst.nrows ∧ a.ncols = dst.ncols ∧ a.size = dst.size ∧
      a.elems.length = dst.elems.length ∧
      (∀ j, j < k → a.elems[idst * dst.ncols + j]? = src.elems[isrc * src.ncols + j]?) ∧
      (∀ p, (p < idst * dst.ncols ∨ idst * dst.ncols + k ≤ p) → a.elems[p]? = dst.elems[p]?))
    0 n dst (Nat.zero_le _)
    ⟨rfl, rfl, rfl, rfl, by intro j hj; omega, by intro p _; rfl⟩
    (by
      intro k a _ hk ⟨a1, a2, a3, a4, a5, a6⟩
      have hks : isrc * src.ncols + k < src.elems.length := by omega
      have e1 : src.get (isrc : Int) (k : Int) = .ok src.elems[isrc * src.ncols + k] :=
        (Array2d.get_nat_ok_iff _ _ _ _).2 (List.getElem?_eq_getElem hks)
      have e2 := Array2d.set_nat a idst k src.elems[isrc * src.ncols + k] (by rw [a2, a4]; omega)
      refine ⟨{ a with elems := a.elems.set (idst * a.ncols + k) src.elems[isrc * src.ncols + k] },
        by simp only [e1, Res.ok_bind]; exact e2, a1, a2, a3, by simpa using a4, ?_, ?_⟩
      · intro j hj
        show (a.elems.set (idst * a.ncols + k) _)[idst * dst.ncols + j]? = _
        rw [a2]
        by_cases hjk : j = k
        · subst hjk
          rw [List.getElem?_set_self (by rw [a4]; omega), List.getElem?_eq_getElem hks]
        · rw [List.getElem?_set_ne (by omega)]
          exact a5 j (by omega)
      · intro p hp
        show (a.elems.set (idst * a.ncols + k) _)[p]? = _
        rw [a2, List.getElem?_set_ne (by omega)]
        exact a6 p (by omega))
  exact ⟨a, h, h1, h2, h3, h4, h5, h6⟩

namespace ReplicatedGlobalMeshPartitioner

theorem selected_mem (elemdist : List Int) (rank : Int) (n g : Nat) :
    g ∈ selected elemdist rank n ↔ g < n ∧ elemdist[g]? = some rank := by
  simp [selected]

theorem selected_length_lt (elemdist : List Int) (rank : Int) (k n : Nat) (hk : k < n)
    (h : elemdist[k]? = some rank) :
    (selected elemdist rank k).length < (selected elemdist rank n).length := by
  have hsub : (selected elemdist rank (k + 1)).Sublist (selected elemdist rank n) := by
    unfold selected
    apply List.Sublist.filter
    exact List.range_sublist.2 (by omega)
  have := hsub.length_le
  rw [selected_succ, if_pos h] at this
  simp at this
  omega

theorem selected_pairwise (elemdist : List Int) (rank : Int) (n : Nat) :
    (selected elemdist rank n).Pairwise (· < ·) := by
  unfold selected
  exact List.Pairwise.sublist (List.filter_sublist _) (List.pairwise_lt_range n)

/-- One iteration of the loop of `extractInpoel` keeps the invariant. -/
theorem extractInpoelStep_spec {R : Type} (gm lm : UMesh2dh R) (elemdist : List Int)
    (rank : Int) (hs : gm.ElemsSized) (hd : elemdist.length = gm.nelem)
    (k : Nat) (hk : k < gm.nelem) (s : Nat × List Int × UMesh2dh R)
    (h1 : s.1 = (selected elemdist rank k).length)
    (h2 : s.2.1.length = (selected elemdist rank gm.nelem).length)
    (h3 : ∀ (i g : Nat), (selected elemdist rank k)[i]? = some g → s.2.1[i]? = some (g : Int))
    (h4 : ElemRows gm (selected elemdist rank k) (selected elemdist rank gm.nelem).length s.2.2)
    (h5 : { s.2.2 with inpoel := lm.inpoel, vol_regions := lm.vol_regions,
                       nnode := lm.nnode, nfael := lm.nfael } = lm) :
    ∃ s' : Nat × List Int × UMesh2dh R, extractInpoelStep gm elemdist rank k s = .ok s' ∧
      s'.1 = (selected elemdist rank (k + 1)).length ∧
      s'.2.1.length = (selected elemdist rank gm.nelem).length ∧
      (∀ (i g : Nat), (selected elemdist rank (k + 1))[i]? = some g → s'.2.1[i]? = some (g : Int)) ∧
      ElemRows gm (selected elemdist rank (k + 1))
        (selected elemdist rank gm.nelem).length s'.2.2 ∧
      { s'.2.2 with inpoel := lm.inpoel, vol_regions := lm.vol_regions,
                    nnode := lm.nnode, nfael := lm.nfael } = lm := by
  obtain ⟨lociel, e, m⟩ := s
  simp only at h1 h2 h3 h4 h5
  obtain ⟨g1, g2, g3, g4, g5⟩ := hs
  obtain ⟨r1, r2, r3, r4, r5, r6, r7, r8⟩ := h4
  have hkd : k < elemdist.length := by omega
  have ed : vecGet elemdist (k : Int) = .ok elemdist[k] := vecGet_of_lt _ _ hkd
  unfold extractInpoelStep
  simp only [ed, Res.ok_bind]
  by_cases hr : elemdist[k] = rank
  · have hsel : elemdist[k]? = some rank := by rw [List.getElem?_eq_getElem hkd, hr]
    have hlt := selected_length_lt elemdist rank k gm.nelem hk hsel
    rw [← h1] at hlt
    generalize hN : (selected elemdist rank gm.nelem).length = nloc at *
    rw [if_pos hr]
    rw [vecSet_nat e lociel _ (by omega)]
    obtain ⟨a, ha, a1, a2, a3, a4, a5, a6⟩ := copyRow_spec gm.inpoel m.inpoel gm.maxnnode k lociel
      (by rw [g3, g4]; exact flat_row_le hk) (by rw [r2, r3]; exact flat_row_le hlt)
    obtain ⟨v, hv, v1, v2, v3, v4, v5, v6⟩ := copyRow_spec gm.vol_regions m.vol_regions
      gm.vol_regions.cols k lociel
      (by rw [g5]; exact flat_row_le hk) (by rw [r4, r5]; exact flat_row_le hlt)
    simp only [Res.ok_bind, ha, hv]
    rw [vecGet_of_lt gm.nnode k (by omega), vecGet_of_lt gm.nfael k (by omega)]
    simp only [Res.ok_bind]
    rw [vecSet_nat m.nnode lociel _ (by omega), vecSet_nat m.nfael lociel _ (by omega)]
    simp only [Res.ok_bind, Res.pure_eq]
    refine ⟨_, rfl, ?_, ?_, ?_, ?_, ?_⟩
    · simp only
      rw [selected_succ, if_pos hsel, List.length_append, h1]; rfl
    · simp only [List.length_set]; exact h2
    · intro i g hg
      simp only
      rw [selected_succ, if_pos hsel] at hg
      by_cases hi : i < lociel
      · rw [List.getElem?_append_left (by omega)] at hg
        rw [List.getElem?_set_ne (by omega)]
        exact h3 i g hg
      · rw [List.getElem?_append_right (by omega)] at hg
        have hi0 : i - (selected elemdist rank k).length = 0 := by
          by_contra hne
          rw [List.getElem?_eq_none (by simp; omega)] at hg
          cases hg
        rw [hi0] at hg
        simp at hg
        subst hg
        have : i = lociel := by omega
        subst this
        rw [List.getElem?_set_self (by omega)]
    · refine ⟨by simpa using a1.trans r1, by simpa using a2.trans r2,
        by simpa using a4.trans r3, by simpa using v2.trans r4, by simpa using v4.trans r5,
        by simpa using r6, by simpa using r7, ?_⟩
      intro i g hg
      simp only
      rw [selected_succ, if_pos hsel] at hg
      by_cases hi : i < lociel
      · rw [List.getElem?_append_left (by omega)] at hg
        obtain ⟨q1, q2, q3⟩ := r8 i g hg
        refine ⟨?_, ?_, ?_⟩
        · intro j hj
          rw [a6 _ (Or.inl (by rw [r2]; exact flat_lt hi hj))]
          exact q1 j hj
        · rw [List.getElem?_set_ne (by omega)]; exact q2
        · rw [List.getElem?_set_ne (by omega)]; exact q3
      · rw [List.getElem?_append_right (by omega)] at hg
        have hi0 : i - (selected elemdist rank k).length = 0 := by
          by_contra hne
          rw [List.getElem?_eq_none (by simp; omega)] at hg
          cases hg
        rw [hi0] at hg
        simp at hg
        subst hg
        have : i = lociel := by omega
        subst this
        refine ⟨?_, ?_, ?_⟩
        · intro j hj
          have := a5 j hj
          rw [r2, g3] at this
          exact this
        · rw [List.getElem?_set_self (by omega), List.getElem?_eq_getElem (by omega)]
        · rw [List.getElem?_set_self (by omega), List.getElem?_eq_getElem (by omega)]
    · exact h5
  · have hsel : ¬ elemdist[k]? = some rank := by
      rw [List.getElem?_eq_getElem hkd]; simpa using hr
    rw [if_neg hr]
    refine ⟨_, rfl, ?_, h2, ?_, ?_, h5⟩
    · rw [selected_succ, if_neg hsel, List.append_nil]; exact h1
    · rw [selected_succ, if_neg hsel, List.append_nil]; exact h3
    · rw [selected_succ, if_neg hsel, List.append_nil]
      exact ⟨r1, r2, r3, r4, r5, r6, r7, r8⟩

theorem list_eq_map_of_getElem {α β : Type} (l : List α) (e : List β) (f : α → β)
    (hlen : e.length = l.length)
    (h : ∀ (i : Nat) (g : α), l[i]? = some g → e[i]? = some (f g)) : e = l.map f := by
  apply List.ext_getElem?
  intro i
  rw [List.getElem?_map]
  by_cases hi : i < l.length
  · rw [h i l[i] (List.getElem?_eq_getElem hi), List.getElem?_eq_getElem hi]; rfl
  · rw [List.getElem?_eq_none (by omega), List.getElem?_eq_none (by omega)]; rfl

/-- Method `extractInpoel` on a local mesh with storage for the selected
elements: it succeeds, returns the selected global elements in increasing
order and fills their rows. -/
theorem extractInpoel_spec {R : Type} (gm lm : UMesh2dh R) (elemdist : List Int)
    (rank : Int) (hs : gm.ElemsSized) (hd : elemdist.length = gm.nelem)
    (hn : lm.nelem = (selected elemdist rank gm.nelem).length)
    (hrows : ElemRows gm [] lm.nelem lm) :
    ∃ lm', extractInpoel gm elemdist rank lm =
        .ok ((selected elemdist rank gm.nelem).map (fun (g : Nat) => (g : Int)), lm') ∧
      ElemRows gm (selected elemdist rank gm.nelem) lm.nelem lm' ∧
      { lm' with inpoel := lm.inpoel, vol_regions := lm.vol_regions,
                 nnode := lm.nnode, nfael := lm.nfael } = lm := by
  obtain ⟨s, h, h1, h2, h3, h4, h5⟩ := forLoop_total (extractInpoelStep gm elemdist rank)
    (fun k (s : Nat × List Int × UMesh2dh R) =>
      s.1 = (selected elemdist rank k).length ∧
      s.2.1.length = (selected elemdist rank gm.nelem).length ∧
      (∀ (i g : Nat), (selected elemdist rank k)[i]? = some g → s.2.1[i]? = some (g : Int)) ∧
      ElemRows gm (selected elemdist rank k) (selected elemdist rank gm.nelem).length s.2.2 ∧
      { s.2.2 with inpoel := lm.inpoel, vol_regions := lm.vol_regions,
                   nnode := lm.nnode, nfael := lm.nfael } = lm)
    0 gm.nelem (0, List.replicate lm.nelem 0, lm) (Nat.zero_le _)
    ⟨by simp [selected], by simp [hn], by intro i g hg; simp [selected] at hg,
      by rw [← hn]; simpa [selected] using hrows, rfl⟩
    (by
      intro k s _ hk ⟨h1, h2, h3, h4, h5⟩
      exact extractInpoelStep_spec gm lm elemdist rank hs hd k hk s h1 h2 h3 h4 h5)
  have he : s.2.1 = (selected elemdist rank gm.nelem).map (fun (g : Nat) => (g : Int)) :=
    list_eq_map_of_getElem _ _ _ h2 h3
  refine ⟨s.2.2, ?_, by rw [hn]; exact h4, h5⟩
  unfold extractInpoel
  simp only [h, Res.ok_bind, Res.pure_eq, he]

/-- Lines 25 to 50 of `restrictMeshToPartitions` succeed on a sized global
mesh and an assignment of its elements. -/
theorem restrictElems_spec {R : Type} (gm : UMesh2dh R) (elemdist : List Int) (rank : Int)
    (junk : Int) (hs : gm.ElemsSized) (hd : elemdist.length = gm.nelem) :
    ∃ lm, restrictElems gm elemdist rank junk = .ok lm ∧
      lm.nelem = (selected elemdist rank gm.nelem).length ∧
      lm.globalElemIndex = (selected elemdist rank gm.nelem).map (fun (g : Nat) => (g : Int)) ∧
      ElemRows gm (selected elemdist rank gm.nelem) lm.nelem lm ∧
      lm.nnofa = gm.nnofa ∧ lm.nbtag = gm.nbtag ∧ lm.maxnnode = gm.maxnnode ∧
      lm.maxnfael = gm.maxnfael ∧ lm.ndtag = gm.ndtag ∧
      lm.nelemglobal = gm.nelem ∧ lm.npoinglobal = gm.npoin := by
  have hc := countLocalElems_eq gm elemdist rank hd
  obtain ⟨lm', h, hr, hf⟩ := extractInpoel_spec gm
    { (UMesh2dh.new : UMesh2dh R) with
      nelem := (selected elemdist rank gm.nelem).length, maxnnode := gm.maxnnode,
      maxnfael := gm.maxnfael, nnofa := gm.nnofa, nelemglobal := gm.nelem,
      npoinglobal := gm.npoin,
      inpoel := (Array2d.empty : Array2d Int).resize
        (selected elemdist rank gm.nelem).length gm.maxnnode junk,
      nfael := vecResize [] (selected elemdist rank gm.nelem).length,
      nnode := vecResize [] (selected elemdist rank gm.nelem).length,
      nbtag := gm.nbtag, ndtag := gm.ndtag,
      vol_regions := (Array2d.empty : Array2d Int).resize
        (selected elemdist rank gm.nelem).length gm.vol_regions.cols junk }
    elemdist rank hs hd rfl
    ⟨rfl, rfl, by simp [Array2d.resize], rfl, by simp [Array2d.resize, Array2d.cols],
      vecResize_length _ _, vecResize_length _ _, by intro i g hg; simp at hg⟩
  have f1 : lm'.nelem = (selected elemdist rank gm.nelem).length := congrArg UMesh2dh.nelem hf
  have f2 : lm'.nnofa = gm.nnofa := by
    have := congrArg UMesh2dh.nnofa hf; exact this
  have f3 : lm'.nbtag = gm.nbtag := by
    have := congrArg UMesh2dh.nbtag hf; exact this
  have f4 : lm'.maxnnode = gm.maxnnode := by
    have := congrArg UMesh2dh.maxnnode hf; exact this
  have f5 : lm'.maxnfael = gm.maxnfael := by
    have := congrArg UMesh2dh.maxnfael hf; exact this
  have f6 : lm'.ndtag = gm.ndtag := by
    have := congrArg UMesh2dh.ndtag hf; exact this
  have f7 : lm'.nelemglobal = gm.nelem := by
    have := congrArg UMesh2dh.nelemglobal hf; exact this
  have f8 : lm'.npoinglobal = gm.npoin := by
    have := congrArg UMesh2dh.npoinglobal hf; exact this
  refine ⟨{ lm' with
      globalElemIndex := (selected elemdist rank gm.nelem).map (fun (g : Nat) => (g : Int)) },
    ?_, f1, rfl, ?_, f2, f3, f4, f5, f6, f7, f8⟩
  · unfold restrictElems
    simp only [hc, Res.ok_bind]
    exact (by simp only [UMesh2dh.new] at h ⊢; rw [h]; rfl)
  · show ElemRows gm _ lm'.nelem lm'
    rw [f1]
    exact hr

/-! ## What the later steps leave unchanged -/

theorem extractPointCoords_frame {R : Type} (gm lm lm' : UMesh2dh R) (lp0 lp : List Int)
    (junkR : R) (m : StdMap) (h : extractPointCoords gm lm lp0 junkR = .ok (m, lp, lm')) :
    lm' = { lm with npoin := lp.length, coords := lm'.coords } := by
  unfold extractPointCoords at h
  simp only [Res.bind_eq_ok, Res.pure_eq, Except.ok.injEq, Prod.mk.injEq] at h
  obtain ⟨_, _, _, _, _, _, _, rfl, rfl⟩ := h
  rfl

theorem extractbfaces_frame {R : Type} (api : MeshMethods R) (gm lm lm' : UMesh2dh R)
    (elemdist : List Int) (irank junk : Int) (m : StdMap)
    (h : extractbfaces api gm elemdist irank m lm junk = .ok lm') :
    lm' = { lm with nbface := lm'.nbface, bface := lm'.bface } := by
  unfold extractbfaces at h
  simp only [Res.bind_eq_ok, Res.pure_eq, Except.ok.injEq] at h
  obtain ⟨_, _, _, _, rfl⟩ := h
  rfl

theorem buildConnface_frame {R : Type} (api : MeshMethods R) (gm lm lm' : UMesh2dh R)
    (elemdist l2g : List Int) (conn : List (List Int)) (junk : Int)
    (h : buildConnface api gm lm elemdist l2g conn junk = .ok lm') :
    lm' = { lm with nconnface := lm'.nconnface, connface := lm'.connface } := by
  unfold buildConnface at h
  simp only [Res.bind_eq_ok, Res.pure_eq, Except.ok.injEq] at h
  obtain ⟨_, _, _, _, rfl⟩ := h
  rfl

/-- The mesh returned by `restrictMeshToPartitions` has the element data, the
point count and the coordinates that lines 25 to 66 produced. -/
theorem restrictMeshToPartitions_frame {R : Type} (api : MeshMethods R) (gm lm : UMesh2dh R)
    (elemdist : List Int) (rank junk : Int) (junkR : R)
    (h : restrictMeshToPartitions api gm elemdist rank junk junkR = .ok lm) :
    ∃ lm3 l2g g2l, restrictPoints gm elemdist rank junk junkR = .ok (lm3, l2g, g2l) ∧
      lm.nelem = lm3.nelem ∧ lm.globalElemIndex = lm3.globalElemIndex ∧
      lm.inpoel = lm3.inpoel ∧ lm.nnode = lm3.nnode ∧ lm.nfael = lm3.nfael ∧
      lm.npoin = lm3.npoin ∧ lm.coords = lm3.coords ∧ lm.nnofa = lm3.nnofa ∧
      lm.nbtag = lm3.nbtag := by
  unfold restrictMeshToPartitions at h
  simp only [Res.bind_eq_ok] at h
  obtain ⟨⟨lm3, l2g, g2l⟩, h3, lm4, h4, isB, _, conn, _, h6⟩ := h
  have f4 := extractbfaces_frame _ _ _ _ _ _ _ _ h4
  have f6 := buildConnface_frame _ _ _ _ _ _ _ _ h6
  refine ⟨lm3, l2g, g2l, h3, ?_⟩
  rw [f6, f4]
  exact ⟨rfl, rfl, rfl, rfl, rfl, rfl, rfl, rfl, rfl⟩

/-- The mesh after step 3 has the element data of lines 25 to 50 except for
the node lists, which step 3 rewrites. -/
theorem restrictPoints_frame {R : Type} (gm lm3 : UMesh2dh R)
    (elemdist l2g : List Int) (g2l : StdMap) (rank junk : Int) (junkR : R)
    (h : restrictPoints gm elemdist rank junk junkR = .ok (lm3, l2g, g2l)) :
    ∃ lm1 lm2, restrictElems gm elemdist rank junk = .ok lm1 ∧
      extractPointCoords gm lm1 [] junkR = .ok (g2l, l2g, lm2) ∧
      convertInpoel lm2 g2l = .ok lm3.inpoel ∧
      lm2 = { lm1 with npoin := l2g.length, coords := lm2.coords } ∧
      lm3 = { lm2 with inpoel := lm3.inpoel } := by
  unfold restrictPoints at h
  simp only [Res.bind_eq_ok, Res.pure_eq, Except.ok.injEq, Prod.mk.injEq] at h
  obtain ⟨lm1, h1, ⟨m, lp, lm2⟩, h2, a, h3, rfl, rfl, rfl⟩ := h
  exact ⟨lm1, lm2, h1, h2, h3, extractPointCoords_frame _ _ _ _ _ _ _ h2, rfl⟩

theorem selected_congr (l l' : List Int) (rank : Int) (n : Nat)
    (h : ∀ i, i < n → l[i]? = l'[i]?) : selected l rank n = selected l' rank n := by
  unfold selected
  apply List.filter_congr
  intro i hi
  rw [h i (List.mem_range.1 hi)]

theorem selected_length_eq_count (elemdist : List Int) (rank : Int) :
    (selected elemdist rank elemdist.length).length = elemdist.count rank := by
  induction elemdist using List.reverseRecOn with
  | nil => simp [selected]
  | append_singleton l a ih =>
    rw [List.length_append, List.length_singleton, selected_succ,
      selected_congr (l ++ [a]) l rank l.length
        (fun i hi => List.getElem?_append_left hi),
      List.length_append, ih, List.count_append]
    congr 1
    have : (l ++ [a])[l.length]? = some a := by simp
    rw [this]
    by_cases h : a = rank
    · subst h; simp
    · have h' : ¬ some a = some rank := by simpa using h
      rw [if_neg h']
      simp [List.count_singleton, h]

theorem selected_nodup (elemdist : List Int) (rank : Int) (n : Nat) :
    (selected elemdist rank n).Nodup :=
  (selected_pairwise elemdist rank n).imp (fun h => Nat.ne_of_lt h)

theorem count_cast_selected (elemdist : List Int) (rank : Int) (n i : Nat) :
    ((selected elemdist rank n).map (fun (g : Nat) => (g : Int))).count (i : Int) =
      if i < n ∧ elemdist[i]? = some rank then 1 else 0 := by
  rw [List.count_map_of_injective _ _ (fun a b h => by exact_mod_cast h)]
  by_cases h : i < n ∧ elemdist[i]? = some rank
  · rw [if_pos h]
    exact List.count_eq_one_of_mem (selected_nodup _ _ _) ((selected_mem _ _ _ _).2 h)
  · rw [if_neg h]
    exact List.count_eq_zero.2 (fun hm => h ((selected_mem _ _ _ _).1 hm))

theorem restrictMeshToPartitions_elems {R : Type} (api : MeshMethods R) (gm lm lm1 : UMesh2dh R)
    (elemdist : List Int) (rank junk : Int) (junkR : R)
    (hlm : restrictMeshToPartitions api gm elemdist rank junk junkR = .ok lm)
    (h : restrictElems gm elemdist rank junk = .ok lm1) :
    lm.nelem = lm1.nelem ∧ lm.globalElemIndex = lm1.globalElemIndex := by
  obtain ⟨lm3, l2g, g2l, h3, e1, e2, _⟩ := restrictMeshToPartitions_frame _ _ _ _ _ _ _ hlm
  obtain ⟨lm1', lm2, h1', _, _, f2, f3⟩ := restrictPoints_frame _ _ _ _ _ _ _ _ h3
  rw [h] at h1'
  cases h1'
  rw [e1, e2, f3, f2]
  exact ⟨rfl, rfl⟩

/-- C5: on a sized global mesh and an assignment of its elements, lines 25 to
50 of `restrictMeshToPartitions` (the count loop and `extractInpoel`) succeed;
`lm.nelem` is the number of global elements assigned to `rank`; the local to
global element map `globalElemIndex` has length `lm.nelem`, is strictly
increasing, and its values are exactly the global elements `i` with
`elemdist[i] == rank`. Whatever `restrictMeshToPartitions` returns has that
`nelem` and that `globalElemIndex`. -/
theorem restrict_globalElemIndex {R : Type} (gm : UMesh2dh R) (elemdist : List Int)
    (rank junk : Int) (hs : gm.ElemsSized) (hd : elemdist.length = gm.nelem) :
    ∃ lm1, restrictElems gm elemdist rank junk = .ok lm1 ∧
      lm1.nelem = elemdist.count rank ∧
      lm1.globalElemIndex.length = lm1.nelem ∧
      lm1.globalElemIndex.Pairwise (· < ·) ∧
      (∀ g : Int, g ∈ lm1.globalElemIndex ↔
        ∃ i : Nat, g = (i : Int) ∧ i < gm.nelem ∧ elemdist[i]? = some rank) ∧
      ∀ (api : MeshMethods R) (junkR : R) (lm : UMesh2dh R),
        restrictMeshToPartitions api gm elemdist rank junk junkR = .ok lm →
        lm.nelem = lm1.nelem ∧ lm.globalElemIndex = lm1.globalElemIndex := by
  obtain ⟨lm1, h, hn, hg, _⟩ := restrictElems_spec gm elemdist rank junk hs hd
  refine ⟨lm1, h, ?_, ?_, ?_, ?_, ?_⟩
  · rw [hn, ← hd, selected_length_eq_count]
  · rw [hg, hn, List.length_map]
  · rw [hg, List.pairwise_map]
    exact (selected_pairwise elemdist rank gm.nelem).imp (fun h => by exact_mod_cast h)
  · intro g
    rw [hg, List.mem_map]
    constructor
    · rintro ⟨i, hi, rfl⟩
      exact ⟨i, rfl, (selected_mem _ _ _ _).1 hi⟩
    · rintro ⟨i, rfl, hi⟩
      exact ⟨i, (selected_mem _ _ _ _).2 hi, rfl⟩
  · intro api junkR lm hlm
    exact restrictMeshToPartitions_elems api gm lm lm1 elemdist rank junk junkR hlm h

theorem sum_count_range (l : List Int) (P : Nat) (h : ∀ d ∈ l, 0 ≤ d ∧ d < (P : Int)) :
    (∑ r in Finset.range P, l.count (r : Int)) = l.length := by
  induction l with
  | nil => simp
  | cons d t ih =>
    have hd := h d (List.mem_cons_self _ _)
    have ht := ih (fun x hx => h x (List.mem_cons_of_mem _ hx))
    simp only [List.count_cons, Finset.sum_add_distrib, ht, List.length_cons]
    congr 1
    have e : ∀ r : Nat, ((d == (r : Int)) = true) ↔ d.toNat = r := by
      intro r
      rw [beq_iff_eq]
      omega
    simp only [e]
    rw [Finset.sum_ite_eq]
    rw [if_pos (Finset.mem_range.2 (by omega))]

theorem restrict_globalElemIndex_witness :
    ((quadRow 4).ElemsSized ∧ [0, 0, 1, 1].length = (quadRow 4).nelem ∧
      (restrictMeshToPartitions api2d (quadRow 4) [0, 0, 1, 1] 1 77 88).toOption.map
        (fun lm => (lm.nelem, lm.globalElemIndex)) = some (2, [2, 3])) ∧
    ∃ lm1, restrictElems (quadRow 4) [0, 0, 1, 1] 1 77 = .ok lm1 ∧
      lm1.nelem = ([0, 0, 1, 1] : List Int).count 1 ∧
      lm1.globalElemIndex.length = lm1.nelem ∧
      lm1.globalElemIndex.Pairwise (· < ·) ∧
      (∀ g : Int, g ∈ lm1.globalElemIndex ↔
        ∃ i : Nat, g = (i : Int) ∧ i < (quadRow 4).nelem ∧
          ([0, 0, 1, 1] : List Int)[i]? = some 1) ∧
      ∀ (api : MeshMethods Int) (junkR : Int) (lm : UMesh2dh Int),
        restrictMeshToPartitions api (quadRow 4) [0, 0, 1, 1] 1 77 junkR = .ok lm →
        lm.nelem = lm1.nelem ∧ lm.globalElemIndex = lm1.globalElemIndex :=
  ⟨⟨by decide, by decide, by decide⟩,
    restrict_globalElemIndex (quadRow 4) [0, 0, 1, 1] 1 77 (by decide) (by decide)⟩

/-- C6: for a sized global mesh and an assignment of length `N` with entries
in `[0, P)`, restriction succeeds on every rank; the local element counts of
the ranks `0 .. P-1` add up to `N`; and every global element index below `N`
occurs in the `globalElemIndex` of exactly one rank, exactly once there.
Whatever `restrictMeshToPartitions` returns on a rank has that rank's count
and map. -/
theorem restrict_elements_partition {R : Type} (gm : UMesh2dh R) (elemdist : List Int)
    (P : Nat) (junk : Int) (hs : gm.ElemsSized) (hd : elemdist.length = gm.nelem)
    (hr : ∀ d ∈ elemdist, 0 ≤ d ∧ d < (P : Int)) :
    ∃ lms : Nat → UMesh2dh R,
      (∀ r : Nat, r < P → restrictElems gm elemdist (r : Int) junk = .ok (lms r)) ∧
      (∑ r in Finset.range P, (lms r).nelem) = gm.nelem ∧
      (∀ i : Nat, i < gm.nelem → ∃ r : Nat, r < P ∧
        (lms r).globalElemIndex.count (i : Int) = 1 ∧
        ∀ r' : Nat, r' < P → r' ≠ r → (lms r').globalElemIndex.count (i : Int) = 0) ∧
      ∀ (r : Nat) (api : MeshMethods R) (junkR : R) (lm : UMesh2dh R),
        restrictMeshToPartitions api gm elemdist (r : Int) junk junkR = .ok lm →
        lm.nelem = (lms r).nelem ∧ lm.globalElemIndex = (lms r).globalElemIndex := by
  have hex : ∀ r : Nat, ∃ lm, restrictElems gm elemdist (r : Int) junk = .ok lm :=
    fun r => (restrictElems_spec gm elemdist r junk hs hd).imp (fun _ h => h.1)
  choose lms hlms using hex
  have hprop : ∀ r : Nat, (lms r).nelem = elemdist.count (r : Int) ∧
      (lms r).globalElemIndex =
        (selected elemdist r gm.nelem).map (fun (g : Nat) => (g : Int)) := by
    intro r
    obtain ⟨lm, h, hn, hg, _⟩ := restrictElems_spec gm elemdist r junk hs hd
    rw [hlms r] at h
    cases h
    exact ⟨by rw [hn, ← hd, selected_length_eq_count], hg⟩
  refine ⟨lms, fun r _ => hlms r, ?_, ?_, ?_⟩
  · simp only [(hprop _).1]
    rw [sum_count_range elemdist P hr, hd]
  · intro i hi
    have hi' : i < elemdist.length := by omega
    have hdi := hr elemdist[i] (List.getElem_mem _)
    refine ⟨elemdist[i].toNat, by omega, ?_, ?_⟩
    · rw [(hprop _).2, count_cast_selected, if_pos]
      refine ⟨hi, ?_⟩
      rw [List.getElem?_eq_getElem hi']
      congr 1
      omega
    · intro r' _ hne
      rw [(hprop _).2, count_cast_selected, if_neg]
      rintro ⟨_, h⟩
      rw [List.getElem?_eq_getElem hi'] at h
      have := Option.some.inj h
      omega
  · intro r api junkR lm hlm
    exact restrictMeshToPartitions_elems api gm lm (lms r) elemdist r junk junkR hlm (hlms r)

theorem restrict_elements_partition_witness :
    ((quadRow 4).ElemsSized ∧ [0, 1, 1, 0].length = (quadRow 4).nelem ∧
      ∀ d ∈ ([0, 1, 1, 0] : List Int), 0 ≤ d ∧ d < ((2 : Nat) : Int)) ∧
    ∃ lms : Nat → UMesh2dh Int,
      (∀ r : Nat, r < 2 → restrictElems (quadRow 4) [0, 1, 1, 0] (r : Int) 77 = .ok (lms r)) ∧
      (∑ r in Finset.range 2, (lms r).nelem) = (quadRow 4).nelem ∧
      (∀ i : Nat, i < (quadRow 4).nelem → ∃ r : Nat, r < 2 ∧
        (lms r).globalElemIndex.count (i : Int) = 1 ∧
        ∀ r' : Nat, r' < 2 → r' ≠ r → (lms r').globalElemIndex.count (i : Int) = 0) ∧
      ∀ (r : Nat) (api : MeshMethods Int) (junkR : Int) (lm : UMesh2dh Int),
        restrictMeshToPartitions api (quadRow 4) [0, 1, 1, 0] (r : Int) 77 junkR = .ok lm →
        lm.nelem = (lms r).nelem ∧ lm.globalElemIndex = (lms r).globalElemIndex :=
  ⟨⟨by decide, by decide, by decide⟩,
    restrict_elements_partition (quadRow 4) [0, 1, 1, 0] 2 77 (by decide) (by decide)
      (by decide)⟩

end ReplicatedGlobalMeshPartitioner

/-! ## `std::sort` and `std::unique` -/

theorem mem_stdSort (l : List Int) (p : Int) : p ∈ stdSort l ↔ p ∈ l :=
  (List.perm_insertionSort (· ≤ ·) l).mem_iff

theorem pairwise_stdSort (l : List Int) : (stdSort l).Pairwise (· ≤ ·) :=
  List.sorted_insertionSort (· ≤ ·) l

theorem mem_stdUnique : ∀ (l : List Int) (p : Int), p ∈ stdUnique l ↔ p ∈ l
  | [], _ => by simp [stdUnique]
  | [a], _ => by simp [stdUnique]
  | a :: b :: l, p => by
    have ih := mem_stdUnique (b :: l) p
    unfold stdUnique
    by_cases h : a = b
    · rw [if_pos h, ih]
      subst h
      simp
    · rw [if_neg h, List.mem_cons, ih, List.mem_cons (a := p) (b := a)]

theorem pairwise_stdUnique : ∀ (l : List Int), l.Pairwise (· ≤ ·) →
    (stdUnique l).Pairwise (· < ·)
  | [], _ => by simp [stdUnique]
  | [a], _ => by simp [stdUnique]
  | a :: b :: l, hp => by
    have hp' : (b :: l).Pairwise (· ≤ ·) := (List.pairwise_cons.1 hp).2
    have ih := pairwise_stdUnique (b :: l) hp'
    unfold stdUnique
    by_cases h : a = b
    · rw [if_pos h]; exact ih
    · rw [if_neg h]
      refine List.pairwise_cons.2 ⟨?_, ih⟩
      intro x hx
      have hx' := (mem_stdUnique (b :: l) x).1 hx
      have hab : a ≤ b := (List.pairwise_cons.1 hp).1 b (List.mem_cons_self _ _)
      have hbx : b ≤ x := by
        rcases List.mem_cons.1 hx' with e | hm
        · rw [e]
        · exact (List.pairwise_cons.1 hp').1 x hm
      omega

namespace ReplicatedGlobalMeshPartitioner

/-! ## Collecting the points of the local elements -/

/-- The loop nest of `collectPoints` succeeds on sized storage and appends
exactly the node entries of the rows. -/
theorem collectPoints_spec {R : Type} (lm : UMesh2dh R) (lp0 : List Int)
    (hsz : lm.inpoel.elems.length = lm.inpoel.nrows * lm.inpoel.ncols)
    (hnn : lm.nnode.length = lm.inpoel.nrows)
    (hle : ∀ n ∈ lm.nnode, n ≤ (lm.inpoel.ncols : Int)) :
    ∃ lp, collectPoints lm lp0 = .ok lp ∧
      ∀ p : Int, p ∈ lp ↔ p ∈ lp0 ∨ ∃ (i j : Nat) (n : Int),
        lm.nnode[i]? = some n ∧ (j : Int) < n ∧
        lm.inpoel.elems[i * lm.inpoel.ncols + j]? = some p := by
  obtain ⟨lp, h, hinv⟩ := forLoop_total
    (fun iel (lp : List Int) => do
      let nn ← vecGet lm.nnode iel
      forLoop 0 nn.toNat (fun inode (lp : List Int) => do
        let v ← lm.inpoel.get iel inode
        pure (lp ++ [v])) lp)
    (fun k (lp : List Int) => ∀ p : Int, p ∈ lp ↔ p ∈ lp0 ∨ ∃ (i j : Nat) (n : Int),
        i < k ∧ lm.nnode[i]? = some n ∧ (j : Int) < n ∧
        lm.inpoel.elems[i * lm.inpoel.ncols + j]? = some p)
    0 lm.inpoel.rows lp0 (Nat.zero_le _)
    (by intro p; constructor
        · intro h; exact Or.inl h
        · rintro (h | ⟨i, j, n, hi, _⟩)
          · exact h
          · omega)
    (by
      intro k lp _ hk hinv
      have hk' : k < lm.nnode.length := by rw [hnn]; exact hk
      have hnk := hle _ (List.getElem_mem hk')
      dsimp only
      rw [vecGet_of_lt lm.nnode k hk']
      simp only [Res.ok_bind]
      obtain ⟨lp', h', hinv'⟩ := forLoop_total
        (fun inode (lp : List Int) => do
          let v ← lm.inpoel.get (k : Int) (inode : Int)
          pure (lp ++ [v]))
        (fun j' (lp' : List Int) => ∀ p : Int, p ∈ lp' ↔ p ∈ lp ∨ ∃ j : Nat,
          j < j' ∧ lm.inpoel.elems[k * lm.inpoel.ncols + j]? = some p)
        0 (lm.nnode[k]).toNat lp (Nat.zero_le _)
        (by intro p; constructor
            · intro h; exact Or.inl h
            · rintro (h | ⟨j, hj, _⟩)
              · exact h
              · omega)
        (by
          intro j t _ hj ht
          have hjc : j < lm.inpoel.ncols := by omega
          have hlt : k * lm.inpoel.ncols + j < lm.inpoel.elems.length := by
            rw [hsz]; exact flat_lt hk hjc
          have e : lm.inpoel.get (k : Int) (j : Int) = .ok lm.inpoel.elems[k * lm.inpoel.ncols + j] :=
            (Array2d.get_nat_ok_iff _ _ _ _).2 (List.getElem?_eq_getElem hlt)
          refine ⟨t ++ [lm.inpoel.elems[k * lm.inpoel.ncols + j]], by simp only [e, Res.ok_bind, Res.pure_eq], ?_⟩
          intro p
          rw [List.mem_append, ht p, List.mem_singleton]
          constructor
          · rintro ((h | ⟨j0, hj0, hp⟩) | rfl)
            · exact Or.inl h
            · exact Or.inr ⟨j0, by omega, hp⟩
            · exact Or.inr ⟨j, by omega, List.getElem?_eq_getElem hlt⟩
          · rintro (h | ⟨j0, hj0, hp⟩)
            · exact Or.inl (Or.inl h)
            · by_cases hjj : j0 = j
              · subst hjj
                rw [List.getElem?_eq_getElem hlt] at hp
                exact Or.inr (Option.some.inj hp).symm
              · exact Or.inl (Or.inr ⟨j0, by omega, hp⟩))
      refine ⟨lp', h', ?_⟩
      intro p
      rw [hinv' p, hinv p]
      constructor
      · rintro ((h | ⟨i, j, n, hi, hn, hj, hp⟩) | ⟨j, hj, hp⟩)
        · exact Or.inl h
        · exact Or.inr ⟨i, j, n, by omega, hn, hj, hp⟩
        · exact Or.inr ⟨k, j, lm.nnode[k], by omega, List.getElem?_eq_getElem hk', by omega, hp⟩
      · rintro (h | ⟨i, j, n, hi, hn, hj, hp⟩)
        · exact Or.inl (Or.inl h)
        · by_cases hik : i = k
          · subst hik
            rw [List.getElem?_eq_getElem hk'] at hn
            have := Option.some.inj hn
            exact Or.inr ⟨j, by omega, hp⟩
          · exact Or.inl (Or.inr ⟨i, j, n, by omega, hn, hj, hp⟩))
  refine ⟨lp, h, ?_⟩
  intro p
  rw [hinv p]
  constructor
  · rintro (h | ⟨i, j, n, _, hn, hj, hp⟩)
    · exact Or.inl h
    · exact Or.inr ⟨i, j, n, hn, hj, hp⟩
  · rintro (h | ⟨i, j, n, hn, hj, hp⟩)
    · exact Or.inl h
    · refine Or.inr ⟨i, j, n, ?_, hn, hj, hp⟩
      have : i < lm.nnode.length := by
        by_contra hc
        rw [List.getElem?_eq_none (by omega)] at hn
        cases hn
      show i < lm.inpoel.nrows
      omega

/-! ## The global-to-local point map -/

theorem atKey_ok_iff (m : StdMap) (k v : Int) : m.atKey k = .ok v ↔ m.lookup k = some v := by
  unfold StdMap.atKey
  cases m.lookup k <;> simp

/-- The map built from a strictly increasing list sends every entry to its
position and has no other key. -/
theorem buildGlbToLoc_spec (lp : List Int) (hp : lp.Pairwise (· < ·)) :
    ∃ m, buildGlbToLoc lp lp.length = .ok m ∧
      (∀ (i : Nat) (p : Int), lp[i]? = some p → m.lookup p = some (i : Int)) ∧
      (∀ p : Int, p ∉ lp → m.lookup p = none) := by
  obtain ⟨m, h, h1, h2⟩ := forLoop_total
    (fun i (m : StdMap) => do
      let k ← vecGet lp i
      pure (m.assign k i))
    (fun k (m : StdMap) =>
      (∀ (i : Nat) (p : Int), i < k → lp[i]? = some p → m.lookup p = some (i : Int)) ∧
      (∀ p : Int, (∀ i : Nat, i < k → lp[i]? ≠ some p) → m.lookup p = none))
    0 lp.length [] (Nat.zero_le _)
    ⟨by intro i p hi; omega, by intro p _; rfl⟩
    (by
      intro k m _ hk ⟨h1, h2⟩
      dsimp only
      rw [vecGet_of_lt lp k hk]
      refine ⟨(lp[k], (k : Int)) :: m, rfl, ?_, ?_⟩
      · intro i p hi hp'
        rw [List.lookup_cons]
        by_cases hik : i = k
        · subst hik
          rw [List.getElem?_eq_getElem hk] at hp'
          cases hp'
          simp
        · have hik' : i < k := by omega
          have hi' : i < lp.length := by omega
          rw [List.getElem?_eq_getElem hi'] at hp'
          cases hp'
          have hlt : lp[i] < lp[k] := (List.pairwise_iff_getElem.1 hp) i k hi' hk hik'
          have hne : (lp[i] == lp[k]) = false := by
            rw [beq_eq_false_iff_ne]; omega
          rw [hne]
          exact h1 i lp[i] hik' (List.getElem?_eq_getElem hi')
      · intro p hnone
        rw [List.lookup_cons]
        have hne : (p == lp[k]) = false := by
          rw [beq_eq_false_iff_ne]
          intro e
          exact hnone k (by omega) (by rw [List.getElem?_eq_getElem hk, e])
        rw [hne]
        exact h2 p (fun i hi => hnone i (by omega)))
  refine ⟨m, h, fun i p hp' => h1 i p ?_ hp', fun p hp' => h2 p ?_⟩
  · by_contra hc
    rw [List.getElem?_eq_none (by omega)] at hp'
    cases hp'
  · intro i _ hi
    exact hp' (List.getElem?_mem hi)

/-! ## The coordinate copy -/

/-- The `while` loop of `extractPointCoords` never leaves the storage. -/
theorem copyCoords_ok {R : Type} (gm : UMesh2dh R) (lp : List Int) (n : Nat)
    (hc : gm.CoordsSized) (hl : lp.length = n) :
    ∀ (fuel g l : Nat) (c : Array2d R), c.ncols = NDIM → c.elems.length = n * NDIM →
      ∃ c', copyCoords gm lp n fuel g l c = .ok c' ∧ c'.nrows = c.nrows ∧
        c'.ncols = NDIM ∧ c'.size = c.size ∧ c'.elems.length = n * NDIM := by
  intro fuel
  induction fuel with
  | zero => intro g l c h1 h2; exact ⟨c, rfl, rfl, h1, rfl, h2⟩
  | succ fuel ih =>
    intro g l c h1 h2
    unfold copyCoords
    by_cases hg : g < gm.npoin ∧ l < n
    · rw [if_pos hg]
      have hll : l < lp.length := by omega
      rw [vecGet_of_lt lp l hll]
      simp only [Res.ok_bind]
      by_cases he : (g : Int) = lp[l]
      · rw [if_pos he]
        obtain ⟨c1, hc1, a1, a2, a3, a4, _, _⟩ := copyRow_spec gm.coords c NDIM g l
          (by rw [hc.1, hc.2]; exact flat_row_le hg.1)
          (by rw [h1, h2]; exact flat_row_le hg.2)
        simp only [hc1, Res.ok_bind]
        obtain ⟨c', hc', b1, b2, b3, b4⟩ := ih (g + 1) (l + 1) c1 (a2.trans h1) (a4.trans h2)
        exact ⟨c', hc', b1.trans a1, b2, b3.trans a3, b4⟩
      · rw [if_neg he]
        exact ih (g + 1) l c h1 h2
    · rw [if_neg hg]
      exact ⟨c, rfl, rfl, h1, rfl, h2⟩

/-- Method `extractPointCoords` on a local mesh with sized node lists and an
empty `locpoints`: it succeeds; `locpoints` becomes the strictly increasing
list of the node entries; the map sends each of them to its position. -/
theorem extractPointCoords_spec {R : Type} (gm lm : UMesh2dh R) (junkR : R)
    (hc : gm.CoordsSized)
    (hsz : lm.inpoel.elems.length = lm.inpoel.nrows * lm.inpoel.ncols)
    (hnn : lm.nnode.length = lm.inpoel.nrows)
    (hle : ∀ n ∈ lm.nnode, n ≤ (lm.inpoel.ncols : Int)) :
    ∃ m lp lm', extractPointCoords gm lm [] junkR = .ok (m, lp, lm') ∧
      lp.Pairwise (· < ·) ∧
      (∀ p : Int, p ∈ lp ↔ ∃ (i j : Nat) (n : Int),
        lm.nnode[i]? = some n ∧ (j : Int) < n ∧
        lm.inpoel.elems[i * lm.inpoel.ncols + j]? = some p) ∧
      (∀ (i : Nat) (p : Int), lp[i]? = some p → m.lookup p = some (i : Int)) ∧
      (∀ p : Int, p ∉ lp → m.lookup p = none) ∧
      lm' = { lm with npoin := lp.length, coords := lm'.coords } ∧
      lm'.coords.ncols = NDIM ∧ lm'.coords.elems.length = lp.length * NDIM := by
  obtain ⟨pushed, h1, hmem⟩ := collectPoints_spec lm [] hsz hnn hle
  have hpw : (stdUnique (stdSort pushed)).Pairwise (· < ·) :=
    pairwise_stdUnique _ (pairwise_stdSort _)
  obtain ⟨m, h2, hm1, hm2⟩ := buildGlbToLoc_spec _ hpw
  obtain ⟨c, h3, c1, c2, c3, c4⟩ := copyCoords_ok gm (stdUnique (stdSort pushed))
    (stdUnique (stdSort pushed)).length hc rfl gm.npoin 0 0
    (lm.coords.resize (stdUnique (stdSort pushed)).length NDIM junkR) rfl
    (by simp [Array2d.resize])
  refine ⟨m, stdUnique (stdSort pushed),
    { lm with npoin := (stdUnique (stdSort pushed)).length, coords := c }, ?_, hpw, ?_, hm1, hm2,
    rfl, c2, c4⟩
  · unfold extractPointCoords
    simp only [h1, h2, h3, Res.ok_bind, Res.pure_eq]
  · intro p
    rw [mem_stdUnique, mem_stdSort, hmem p]
    simp

/-- Lines 25 to 56 of `restrictMeshToPartitions` on a well-formed global mesh:
the local element rows, the sorted point list and the point map. -/
theorem localPoints_spec {R : Type} (gm : UMesh2dh R) (elemdist : List Int)
    (rank junk : Int) (junkR : R) (hs : gm.ElemsSized) (hc : gm.CoordsSized)
    (hb : gm.NodesBounded) (hd : elemdist.length = gm.nelem) :
    ∃ lm1 g2l l2g lm2, restrictElems gm elemdist rank junk = .ok lm1 ∧
      extractPointCoords gm lm1 [] junkR = .ok (g2l, l2g, lm2) ∧
      lm1.nelem = (selected elemdist rank gm.nelem).length ∧
      lm1.globalElemIndex = (selected elemdist rank gm.nelem).map (fun (g : Nat) => (g : Int)) ∧
      ElemRows gm (selected elemdist rank gm.nelem) lm1.nelem lm1 ∧
      l2g.Pairwise (· < ·) ∧
      (∀ p : Int, p ∈ l2g ↔ ∃ (g j : Nat) (n : Int), g < gm.nelem ∧
        elemdist[g]? = some rank ∧ gm.nnode[g]? = some n ∧ (j : Int) < n ∧
        gm.inpoel.get g j = .ok p) ∧
      (∀ (i : Nat) (p : Int), l2g[i]? = some p → g2l.lookup p = some (i : Int)) ∧
      (∀ p : Int, p ∉ l2g → g2l.lookup p = none) ∧
      lm2 = { lm1 with npoin := l2g.length, coords := lm2.coords } ∧
      lm2.coords.ncols = NDIM ∧ lm2.coords.elems.length = l2g.length * NDIM := by
  obtain ⟨lm1, h1, hn, hg, hrows, _⟩ := restrictElems_spec gm elemdist rank junk hs hd
  obtain ⟨r1, r2, r3, r4, r5, r6, r7, r8⟩ := hrows
  obtain ⟨g1, g2, g3, g4, g5⟩ := hs
  have hsel : ∀ i : Nat, i < lm1.nelem → ∃ g : Nat,
      (selected elemdist rank gm.nelem)[i]? = some g ∧ g < gm.nelem ∧
      elemdist[g]? = some rank := by
    intro i hi
    rw [hn] at hi
    refine ⟨_, List.getElem?_eq_getElem hi, ?_⟩
    exact (selected_mem _ _ _ _).1 (List.getElem_mem hi)
  have hle : ∀ n ∈ lm1.nnode, n ≤ (lm1.inpoel.ncols : Int) := by
    intro n hn'
    obtain ⟨i, hi⟩ := List.mem_iff_getElem?.1 hn'
    have hil : i < lm1.nelem := by
      by_contra hcn
      rw [List.getElem?_eq_none (by omega)] at hi
      cases hi
    obtain ⟨g, hg1, hg2, _⟩ := hsel i hil
    rw [(r8 i g hg1).2.1] at hi
    rw [r2]
    exact hb n (List.getElem?_mem hi)
  obtain ⟨m, lp, lm2, h2, hpw, hmem, hm1, hm2, hf, hc1, hc2⟩ :=
    extractPointCoords_spec gm lm1 junkR hc (by rw [r1, r2, r3]) (by rw [r1, r6]) hle
  refine ⟨lm1, m, lp, lm2, h1, h2, hn, hg, ⟨r1, r2, r3, r4, r5, r6, r7, r8⟩, hpw, ?_, hm1, hm2,
    hf, hc1, hc2⟩
  intro p
  rw [hmem p]
  constructor
  · rintro ⟨i, j, n, hni, hj, hp⟩
    have hil : i < lm1.nelem := by
      by_contra hcn
      rw [List.getElem?_eq_none (by omega)] at hni
      cases hni
    obtain ⟨g, hg1, hg2, hg3⟩ := hsel i hil
    obtain ⟨q1, q2, _⟩ := r8 i g hg1
    rw [q2] at hni
    have hnb := hb n (List.getElem?_mem hni)
    refine ⟨g, j, n, hg2, hg3, hni, hj, ?_⟩
    rw [Array2d.get_nat_ok_iff, g3, ← q1 j (by omega), ← r2]
    exact hp
  · rintro ⟨g, j, n, hg2, hg3, hng, hj, hp⟩
    obtain ⟨i, hi⟩ := List.mem_iff_getElem?.1 ((selected_mem _ _ _ _).2 ⟨hg2, hg3⟩)
    obtain ⟨q1, q2, _⟩ := r8 i g hi
    have hnb := hb n (List.getElem?_mem hng)
    refine ⟨i, j, n, by rw [q2]; exact hng, hj, ?_⟩
    rw [Array2d.get_nat_ok_iff, g3] at hp
    rw [r2, q1 j (by omega)]
    exact hp

theorem restrictMeshToPartitions_points {R : Type} (api : MeshMethods R)
    (gm lm lm1 lm2 : UMesh2dh R) (elemdist l2g : List Int) (g2l : StdMap) (rank junk : Int)
    (junkR : R)
    (hlm : restrictMeshToPartitions api gm elemdist rank junk junkR = .ok lm)
    (h1 : restrictElems gm elemdist rank junk = .ok lm1)
    (h2 : extractPointCoords gm lm1 [] junkR = .ok (g2l, l2g, lm2)) :
    ∃ inpoel, convertInpoel lm2 g2l = .ok inpoel ∧ lm.inpoel = inpoel ∧
      lm.npoin = lm2.npoin ∧ lm.coords = lm2.coords ∧ lm.nelem = lm2.nelem ∧
      lm.nnode = lm2.nnode ∧ lm.nfael = lm2.nfael ∧
      lm.globalElemIndex = lm2.globalElemIndex := by
  obtain ⟨lm3, l2g', g2l', h3, e1, e2, e3, e4, e5, e6, e7, _⟩ :=
    restrictMeshToPartitions_frame _ _ _ _ _ _ _ hlm
  obtain ⟨lm1', lm2', h1', h2', h3', f2, f3⟩ := restrictPoints_frame _ _ _ _ _ _ _ _ h3
  rw [h1] at h1'
  cases h1'
  rw [h2] at h2'
  cases h2'
  refine ⟨lm3.inpoel, h3', e3, ?_⟩
  rw [e1, e2, e4, e5, e6, e7, f3]
  exact ⟨rfl, rfl, rfl, rfl, rfl, rfl⟩

/-- C7: on a well-formed global mesh, `extractPointCoords` (run after
`extractInpoel`, as in `restrictMeshToPartitions`) succeeds and builds a
bijection between local and global point indices: `pointLoc2Glob` is strictly
increasing, its values are exactly the global point indices `gm.inpoel(g, j)`
with `g` an element of this rank and `j < nnode[g]`, `lm.npoin` is its length,
the domain of `pointGlob2Loc` is exactly that set of values,
`pointGlob2Loc[pointLoc2Glob[i]] == i` for every `i < lm.npoin` and
`pointLoc2Glob[pointGlob2Loc[p]] == p` for every `p` of the domain. The mesh
returned by `restrictMeshToPartitions` has that `npoin`. -/
theorem extractPointCoords_bijection {R : Type} (gm : UMesh2dh R) (elemdist : List Int)
    (rank junk : Int) (junkR : R) (hs : gm.ElemsSized) (hc : gm.CoordsSized)
    (hb : gm.NodesBounded) (hd : elemdist.length = gm.nelem) :
    ∃ lm1 pointGlob2Loc pointLoc2Glob lm2,
      restrictElems gm elemdist rank junk = .ok lm1 ∧
      extractPointCoords gm lm1 [] junkR = .ok (pointGlob2Loc, pointLoc2Glob, lm2) ∧
      pointLoc2Glob.Pairwise (· < ·) ∧
      (∀ p : Int, p ∈ pointLoc2Glob ↔ ∃ (g j : Nat) (n : Int), g < gm.nelem ∧
        elemdist[g]? = some rank ∧ gm.nnode[g]? = some n ∧ (j : Int) < n ∧
        gm.inpoel.get g j = .ok p) ∧
      lm2.npoin = pointLoc2Glob.length ∧
      (∀ p : Int, (∃ v, pointGlob2Loc.atKey p = .ok v) ↔ p ∈ pointLoc2Glob) ∧
      (∀ i : Nat, i < lm2.npoin →
        ∃ p, vecGet pointLoc2Glob i = .ok p ∧ pointGlob2Loc.atKey p = .ok (i : Int)) ∧
      (∀ p : Int, p ∈ pointLoc2Glob → ∃ i : Nat, i < lm2.npoin ∧
        pointGlob2Loc.atKey p = .ok (i : Int) ∧ vecGet pointLoc2Glob i = .ok p) ∧
      ∀ (api : MeshMethods R) (lm : UMesh2dh R),
        restrictMeshToPartitions api gm elemdist rank junk junkR = .ok lm →
        lm.npoin = lm2.npoin := by
  obtain ⟨lm1, g2l, l2g, lm2, h1, h2, _, _, _, hpw, hmem, hm1, hm2, hf, _⟩ :=
    localPoints_spec gm elemdist rank junk junkR hs hc hb hd
  have hnp : lm2.npoin = l2g.length := by rw [hf]
  refine ⟨lm1, g2l, l2g, lm2, h1, h2, hpw, hmem, hnp, ?_, ?_, ?_, ?_⟩
  · intro p
    constructor
    · rintro ⟨v, hv⟩
      by_contra hne
      rw [atKey_ok_iff, hm2 p hne] at hv
      cases hv
    · intro hp
      obtain ⟨i, hi⟩ := List.mem_iff_getElem?.1 hp
      exact ⟨i, (atKey_ok_iff _ _ _).2 (hm1 i p hi)⟩
  · intro i hi
    rw [hnp] at hi
    exact ⟨l2g[i], vecGet_of_lt l2g i hi,
      (atKey_ok_iff _ _ _).2 (hm1 i _ (List.getElem?_eq_getElem hi))⟩
  · intro p hp
    obtain ⟨i, hi⟩ := List.mem_iff_getElem?.1 hp
    have hil : i < l2g.length := by
      by_contra hcn
      rw [List.getElem?_eq_none (by omega)] at hi
      cases hi
    exact ⟨i, by omega, (atKey_ok_iff _ _ _).2 (hm1 i p hi), (vecGet_nat_ok_iff _ _ _).2 hi⟩
  · intro api lm hlm
    obtain ⟨_, _, _, e, _⟩ := restrictMeshToPartitions_points api gm lm lm1 lm2 elemdist l2g
      g2l rank junk junkR hlm h1 h2
    exact e

theorem extractPointCoords_bijection_witness :
    ((quadRow 4).ElemsSized ∧ (quadRow 4).CoordsSized ∧ (quadRow 4).NodesBounded ∧
      [0, 0, 1, 1].length = (quadRow 4).nelem ∧
      (restrictPoints (quadRow 4) [0, 0, 1, 1] 1 77 88).toOption.map (fun r => r.2) =
        some ([2, 3, 4, 7, 8, 9], [(9, 5), (8, 4), (7, 3), (4, 2), (3, 1), (2, 0)])) ∧
    ∃ lm1 pointGlob2Loc pointLoc2Glob lm2,
      restrictElems (quadRow 4) [0, 0, 1, 1] 1 77 = .ok lm1 ∧
      extractPointCoords (quadRow 4) lm1 [] 88 = .ok (pointGlob2Loc, pointLoc2Glob, lm2) ∧
      pointLoc2Glob.Pairwise (· < ·) ∧
      (∀ p : Int, p ∈ pointLoc2Glob ↔ ∃ (g j : Nat) (n : Int), g < (quadRow 4).nelem ∧
        ([0, 0, 1, 1] : List Int)[g]? = some 1 ∧ (quadRow 4).nnode[g]? = some n ∧
        (j : Int) < n ∧ (quadRow 4).inpoel.get g j = .ok p) ∧
      lm2.npoin = pointLoc2Glob.length ∧
      (∀ p : Int, (∃ v, pointGlob2Loc.atKey p = .ok v) ↔ p ∈ pointLoc2Glob) ∧
      (∀ i : Nat, i < lm2.npoin →
        ∃ p, vecGet pointLoc2Glob i = .ok p ∧ pointGlob2Loc.atKey p = .ok (i : Int)) ∧
      (∀ p : Int, p ∈ pointLoc2Glob → ∃ i : Nat, i < lm2.npoin ∧
        pointGlob2Loc.atKey p = .ok (i : Int) ∧ vecGet pointLoc2Glob i = .ok p) ∧
      ∀ (api : MeshMethods Int) (lm : UMesh2dh Int),
        restrictMeshToPartitions api (quadRow 4) [0, 0, 1, 1] 1 77 88 = .ok lm →
        lm.npoin = lm2.npoin :=
  ⟨⟨by decide, by decide, by decide, by decide, by decide⟩,
    extractPointCoords_bijection (quadRow 4) [0, 0, 1, 1] 1 77 88 (by decide) (by decide)
      (by decide) (by decide)⟩

/-! ## Step 3: node lists in local point indices -/

/-- Step 3 succeeds when every node entry is a key of the map; it replaces
each node entry by its image and leaves the other cells alone. -/
theorem convertInpoel_spec {R : Type} (lm : UMesh2dh R) (g2l : StdMap)
    (hsz : lm.inpoel.elems.length = lm.nelem * lm.inpoel.ncols)
    (hnn : lm.nnode.length = lm.nelem)
    (hle : ∀ n ∈ lm.nnode, n ≤ (lm.inpoel.ncols : Int))
    (hkey : ∀ (i j : Nat) (n : Int), lm.nnode[i]? = some n → (j : Int) < n →
      ∃ p v, lm.inpoel.elems[i * lm.inpoel.ncols + j]? = some p ∧ g2l.lookup p = some v) :
    ∃ a, convertInpoel lm g2l = .ok a ∧ a.nrows = lm.inpoel.nrows ∧
      a.ncols = lm.inpoel.ncols ∧ a.size = lm.inpoel.size ∧
      a.elems.length = lm.inpoel.elems.length ∧
      (∀ (i j : Nat) (n : Int), lm.nnode[i]? = some n → (j : Int) < n →
        a.elems[i * lm.inpoel.ncols + j]? =
          (lm.inpoel.elems[i * lm.inpoel.ncols + j]?).bind (fun p => g2l.lookup p)) := by
  obtain ⟨a, h, a1, a2, a3, a4, a5, _⟩ := forLoop_total
    (fun iel (a : Array2d Int) => do
      let nn ← vecGet lm.nnode iel
      forLoop 0 nn.toNat (fun j (a : Array2d Int) => do
        let g ← a.get iel j
        let l ← g2l.atKey g
        a.set iel j l) a)
    (fun k (a : Array2d Int) => a.nrows = lm.inpoel.nrows ∧ a.ncols = lm.inpoel.ncols ∧
      a.size = lm.inpoel.size ∧ a.elems.length = lm.inpoel.elems.length ∧
      (∀ (i j : Nat) (n : Int), i < k → lm.nnode[i]? = some n → (j : Int) < n →
        a.elems[i * lm.inpoel.ncols + j]? =
          (lm.inpoel.elems[i * lm.inpoel.ncols + j]?).bind (fun p => g2l.lookup p)) ∧
      (∀ (i j : Nat), k ≤ i → j < lm.inpoel.ncols →
        a.elems[i * lm.inpoel.ncols + j]? = lm.inpoel.elems[i * lm.inpoel.ncols + j]?))
    0 lm.nelem lm.inpoel (Nat.zero_le _)
    ⟨rfl, rfl, rfl, rfl, by intro i j n hi; omega, by intro i j _ _; rfl⟩
    (by
      intro k a _ hk ⟨a1, a2, a3, a4, a5, a6⟩
      have hk' : k < lm.nnode.length := by rw [hnn]; exact hk
      have hnk := hle _ (List.getElem_mem hk')
      dsimp only
      rw [vecGet_of_lt lm.nnode k hk']
      simp only [Res.ok_bind]
      obtain ⟨b, hb, b1, b2, b3, b4, b5, b6⟩ := forLoop_total
        (fun j (a : Array2d Int) => do
          let g ← a.get (k : Int) (j : Int)
          let l ← g2l.atKey g
          a.set (k : Int) (j : Int) l)
        (fun j' (b : Array2d Int) => b.nrows = lm.inpoel.nrows ∧ b.ncols = lm.inpoel.ncols ∧
          b.size = lm.inpoel.size ∧ b.elems.length = lm.inpoel.elems.length ∧
          (∀ j : Nat, j < j' → b.elems[k * lm.inpoel.ncols + j]? =
            (lm.inpoel.elems[k * lm.inpoel.ncols + j]?).bind (fun p => g2l.lookup p)) ∧
          (∀ (i j : Nat), j < lm.inpoel.ncols → (i ≠ k ∨ j' ≤ j) →
            b.elems[i * lm.inpoel.ncols + j]? = a.elems[i * lm.inpoel.ncols + j]?))
        0 (lm.nnode[k]).toNat a (Nat.zero_le _)
        ⟨a1, a2, a3, a4, by intro j hj; omega, by intro i j _ _; rfl⟩
        (by
          intro j b _ hj ⟨b1, b2, b3, b4, b5, b6⟩
          have hjc : j < lm.inpoel.ncols := by omega
          have hlt : k * lm.inpoel.ncols + j < lm.inpoel.elems.length := by
            rw [hsz]; exact flat_lt hk hjc
          obtain ⟨p, v, hp, hv⟩ := hkey k j lm.nnode[k] (List.getElem?_eq_getElem hk') (by omega)
          have hcell : b.elems[k * lm.inpoel.ncols + j]? = some p := by
            rw [b6 k j hjc (Or.inr (Nat.le_refl _)), a6 k j (Nat.le_refl _) hjc, hp]
          have e1 : b.get (k : Int) (j : Int) = .ok p := by
            rw [Array2d.get_nat_ok_iff, b2]; exact hcell
          have e2 : g2l.atKey p = .ok v := (atKey_ok_iff _ _ _).2 hv
          have e3 := Array2d.set_nat b k j v (by rw [b2, b4]; exact hlt)
          refine ⟨{ b with elems := b.elems.set (k * b.ncols + j) v },
            by simp only [e1, e2, Res.ok_bind]; exact e3, b1, b2, b3, by simpa using b4, ?_, ?_⟩
          · intro j0 hj0
            show (b.elems.set (k * b.ncols + j) v)[k * lm.inpoel.ncols + j0]? = _
            rw [b2]
            by_cases hjj : j0 = j
            · subst hjj
              rw [List.getElem?_set_self (by rw [b4]; exact hlt), hp]
              exact hv.symm
            · rw [List.getElem?_set_ne (by omega)]
              exact b5 j0 (by omega)
          · intro i j0 hj0 hor
            show (b.elems.set (k * b.ncols + j) v)[i * lm.inpoel.ncols + j0]? = _
            rw [b2, List.getElem?_set_ne]
            · exact b6 i j0 hj0 (by omega)
            · intro e
              have := flat_inj hjc hj0 e
              omega)
      refine ⟨b, hb, b1, b2, b3, b4, ?_, ?_⟩
      · intro i j n hi hn hj
        by_cases hik : i = k
        · subst hik
          rw [List.getElem?_eq_getElem hk'] at hn
          cases hn
          exact b5 j (by omega)
        · have hnb := hle n (List.getElem?_mem hn)
          rw [b6 i j (by omega) (Or.inl hik)]
          exact a5 i j n (by omega) hn hj
      · intro i j hi hj
        rw [b6 i j hj (Or.inl (by omega))]
        exact a6 i j (by omega) hj)
  refine ⟨a, h, a1, a2, a3, a4, ?_⟩
  intro i j n hn hj
  refine a5 i j n ?_ hn hj
  by_contra hc
  rw [List.getElem?_eq_none (by omega)] at hn
  cases hn

/-- C8: node-list round trip of restriction. On a well-formed global mesh,
lines 25 to 66 of `restrictMeshToPartitions` succeed, so the global-to-local
lookup of step 3 never fails; and for every local element `l < lm.nelem` and
node position `j < lm.nnode[l]` the entry `lm.inpoel(l, j)` lies in
`[0, lm.npoin)` and `pointLoc2Glob[lm.inpoel(l, j)]` equals
`gm.inpoel(globalElemIndex[l], j)`. The mesh that `restrictMeshToPartitions`
returns has these node lists, counts and `globalElemIndex`. -/
theorem restrict_nodes_roundtrip {R : Type} (gm : UMesh2dh R) (elemdist : List Int)
    (rank junk : Int) (junkR : R) (hs : gm.ElemsSized) (hc : gm.CoordsSized)
    (hb : gm.NodesBounded) (hd : elemdist.length = gm.nelem) :
    ∃ lm3 pointLoc2Glob pointGlob2Loc,
      restrictPoints gm elemdist rank junk junkR = .ok (lm3, pointLoc2Glob, pointGlob2Loc) ∧
      (∀ (l j : Nat) (n : Int), l < lm3.nelem → lm3.nnode[l]? = some n → (j : Int) < n →
        ∃ v gl p : Int, lm3.inpoel.get l j = .ok v ∧ 0 ≤ v ∧ v < (lm3.npoin : Int) ∧
          vecGet lm3.globalElemIndex l = .ok gl ∧ gm.inpoel.get gl j = .ok p ∧
          vecGet pointLoc2Glob v = .ok p) ∧
      ∀ (api : MeshMethods R) (lm : UMesh2dh R),
        restrictMeshToPartitions api gm elemdist rank junk junkR = .ok lm →
        lm.nelem = lm3.nelem ∧ lm.nnode = lm3.nnode ∧ lm.inpoel = lm3.inpoel ∧
        lm.npoin = lm3.npoin ∧ lm.globalElemIndex = lm3.globalElemIndex := by
  obtain ⟨lm1, g2l, l2g, lm2, h1, h2, hn, hg, hrows, hpw, hmem, hm1, hm2, hf, _⟩ :=
    localPoints_spec gm elemdist rank junk junkR hs hc hb hd
  obtain ⟨r1, r2, r3, r4, r5, r6, r7, r8⟩ := hrows
  obtain ⟨g1, g2, g3, g4, g5⟩ := hs
  have fi : lm2.inpoel = lm1.inpoel := by rw [hf]
  have fn : lm2.nnode = lm1.nnode := by rw [hf]
  have fe : lm2.nelem = lm1.nelem := by rw [hf]
  have fg : lm2.globalElemIndex = lm1.globalElemIndex := by rw [hf]
  have fp : lm2.npoin = l2g.length := by rw [hf]
  -- every node entry of a local element is a global node of its global element
  have hcell : ∀ (i j : Nat) (n : Int), lm1.nnode[i]? = some n → (j : Int) < n →
      ∃ (g : Nat) (p : Int), (selected elemdist rank gm.nelem)[i]? = some g ∧
        lm1.inpoel.elems[i * lm1.inpoel.ncols + j]? = some p ∧
        gm.inpoel.get g j = .ok p ∧ p ∈ l2g := by
    intro i j n hni hj
    have hil : i < (selected elemdist rank gm.nelem).length := by
      by_contra hcn
      rw [List.getElem?_eq_none (by omega)] at hni
      cases hni
    have hgi := List.getElem?_eq_getElem hil
    have hsel := (selected_mem _ _ _ _).1 (List.getElem_mem hil)
    generalize (selected elemdist rank gm.nelem)[i] = g at hgi hsel
    obtain ⟨q1, q2, _⟩ := r8 i g hgi
    have hng : gm.nnode[g]? = some n := by rw [← q2]; exact hni
    have hnb := hb n (List.getElem?_mem hng)
    have hjm : j < gm.maxnnode := by omega
    have hlt : g * gm.maxnnode + j < gm.inpoel.elems.length := by
      rw [g4]; exact flat_lt hsel.1 hjm
    have hget : gm.inpoel.get (g : Int) (j : Int) = .ok gm.inpoel.elems[g * gm.maxnnode + j] := by
      rw [Array2d.get_nat_ok_iff, g3]; exact List.getElem?_eq_getElem hlt
    refine ⟨g, gm.inpoel.elems[g * gm.maxnnode + j], hgi, ?_, hget, ?_⟩
    · rw [r2, q1 j hjm]; exact List.getElem?_eq_getElem hlt
    · exact (hmem _).2 ⟨g, j, n, hsel.1, hsel.2, hng, hj, hget⟩
  obtain ⟨a, h3, a1, a2, a3, a4, a5⟩ := convertInpoel_spec lm2 g2l
    (by rw [fi, fe, r2, r3]) (by rw [fn, fe, r6])
    (by
      intro n hn'
      rw [fn] at hn'
      obtain ⟨i, hi⟩ := List.mem_iff_getElem?.1 hn'
      rw [fi, r2]
      by_cases hz : 0 ≤ n - 1
      · obtain ⟨g, p, hgi, _, _, _⟩ := hcell i 0 n hi (by omega)
        rw [(r8 i g hgi).2.1] at hi
        exact hb n (List.getElem?_mem hi)
      · omega)
    (by
      intro i j n hni hj
      rw [fn] at hni
      rw [fi]
      obtain ⟨g, p, _, hp, _, hpm⟩ := hcell i j n hni hj
      obtain ⟨idx, hidx⟩ := List.mem_iff_getElem?.1 hpm
      exact ⟨p, idx, hp, hm1 idx p hidx⟩)
  refine ⟨{ lm2 with inpoel := a }, l2g, g2l, ?_, ?_, ?_⟩
  · unfold restrictPoints
    simp only [h1, h2, h3, Res.ok_bind, Res.pure_eq]
  · intro l j n hl hnl hj
    change lm2.nnode[l]? = some n at hnl
    have hnl1 : lm1.nnode[l]? = some n := by rw [← fn]; exact hnl
    obtain ⟨g, p, hgi, hp, hget, hpm⟩ := hcell l j n hnl1 hj
    obtain ⟨idx, hidx⟩ := List.mem_iff_getElem?.1 hpm
    have hil : idx < l2g.length := by
      by_contra hcn
      rw [List.getElem?_eq_none (by omega)] at hidx
      cases hidx
    refine ⟨(idx : Int), (g : Int), p, ?_, by omega, ?_, ?_, hget, ?_⟩
    · show a.get (l : Int) (j : Int) = .ok (idx : Int)
      rw [Array2d.get_nat_ok_iff, a2, a5 l j n hnl hj, fi, hp]
      exact hm1 idx p hidx
    · show (idx : Int) < (lm2.npoin : Int)
      rw [fp]; exact_mod_cast hil
    · show vecGet lm2.globalElemIndex (l : Int) = .ok (g : Int)
      rw [fg, hg, vecGet_nat_ok_iff, List.getElem?_map, hgi]
      rfl
    · exact (vecGet_nat_ok_iff _ _ _).2 hidx
  · intro api lm hlm
    obtain ⟨inp, hi, e1, e2, _, e4, e5, _, e7⟩ := restrictMeshToPartitions_points api gm lm
      lm1 lm2 elemdist l2g g2l rank junk junkR hlm h1 h2
    rw [h3] at hi
    cases hi
    exact ⟨e4, e5, e1, e2, e7⟩

theorem restrict_nodes_roundtrip_witness :
    ((quadRow 4).ElemsSized ∧ (quadRow 4).CoordsSized ∧ (quadRow 4).NodesBounded ∧
      [0, 1, 0, 1].length = (quadRow 4).nelem ∧
      (restrictMeshToPartitions api2d (quadRow 4) [0, 1, 0, 1] 1 77 88).toOption.map
        (fun lm => (lm.inpoel.elems, lm.globalElemIndex)) =
        some ([0, 1, 5, 4, 2, 3, 7, 6], [1, 3])) ∧
    ∃ lm3 pointLoc2Glob pointGlob2Loc,
      restrictPoints (quadRow 4) [0, 1, 0, 1] 1 77 88 =
        .ok (lm3, pointLoc2Glob, pointGlob2Loc) ∧
      (∀ (l j : Nat) (n : Int), l < lm3.nelem → lm3.nnode[l]? = some n → (j : Int) < n →
        ∃ v gl p : Int, lm3.inpoel.get l j = .ok v ∧ 0 ≤ v ∧ v < (lm3.npoin : Int) ∧
          vecGet lm3.globalElemIndex l = .ok gl ∧ (quadRow 4).inpoel.get gl j = .ok p ∧
          vecGet pointLoc2Glob v = .ok p) ∧
      ∀ (api : MeshMethods Int) (lm : UMesh2dh Int),
        restrictMeshToPartitions api (quadRow 4) [0, 1, 0, 1] 1 77 88 = .ok lm →
        lm.nelem = lm3.nelem ∧ lm.nnode = lm3.nnode ∧ lm.inpoel = lm3.inpoel ∧
        lm.npoin = lm3.npoin ∧ lm.globalElemIndex = lm3.globalElemIndex :=
  ⟨⟨by decide, by decide, by decide, by decide, by decide⟩,
    restrict_nodes_roundtrip (quadRow 4) [0, 1, 0, 1] 1 77 88 (by decide) (by decide)
      (by decide) (by decide)⟩

end ReplicatedGlobalMeshPartitioner

theorem Array2d.set_nat_ok {α : Type} (a a' : Array2d α) (i j : Nat) (x : α)
    (h : a.set (i : Int) (j : Int) x = .ok a') :
    i * a.ncols + j < a.elems.length ∧
      a' = { a with elems := a.elems.set (i * a.ncols + j) x } := by
  obtain ⟨e, he, rfl⟩ := (Array2d.set_ok_iff _ _ _ _ _).1 h
  have hc : (i : Int) * (a.ncols : Int) + (j : Int) = ((i * a.ncols + j : Nat) : Int) := by
    push_cast; rfl
  rw [hc] at he
  obtain ⟨_, h2, rfl⟩ := (vecSet_ok_iff _ _ _ _).1 he
  simp only [Int.toNat_ofNat] at h2
  exact ⟨h2, by simp only [Int.toNat_ofNat]⟩

theorem vecSet_nat_ok {α : Type} (v v' : List α) (k : Nat) (x : α)
    (h : vecSet v (k : Int) x = .ok v') : k < v.length ∧ v' = v.set k x := by
  obtain ⟨_, h2, rfl⟩ := (vecSet_ok_iff _ _ _ _).1 h
  simp only [Int.toNat_ofNat] at h2
  exact ⟨h2, by simp only [Int.toNat_ofNat]⟩

namespace ReplicatedGlobalMeshPartitioner

/-! ## Boundary faces -/

/-- When the copy of `tbfaces` into `bface` succeeds, every cell of the first
`nbface` rows holds the entry of `tbfaces` it was copied from. -/
theorem fillBface_partial (tb : List (List Int)) (nb w : Nat) (a0 a : Array2d Int)
    (hw : a0.ncols = w) (h : fillBface tb nb w a0 = .ok a) :
    a.ncols = w ∧ a.nrows = a0.nrows ∧ a.size = a0.size ∧
      a.elems.length = a0.elems.length ∧
      ∀ (i j : Nat), i < nb → j < w →
        ∃ row v, tb[i]? = some row ∧ row[j]? = some v ∧ a.elems[i * w + j]? = some v := by
  unfold fillBface at h
  refine forLoop_partial _
    (fun k (a : Array2d Int) => a.ncols = w ∧ a.nrows = a0.nrows ∧ a.size = a0.size ∧
      a.elems.length = a0.elems.length ∧
      ∀ (i j : Nat), i < k → j < w →
        ∃ row v, tb[i]? = some row ∧ row[j]? = some v ∧ a.elems[i * w + j]? = some v)
    0 nb a0 a (Nat.zero_le _) h ⟨hw, rfl, rfl, rfl, by intro i j hi; omega⟩ ?_
  intro k b b' _ hk ⟨b1, b2, b3, b4, b5⟩ hb
  obtain ⟨c1, c2, c3, c4, c5, c6⟩ := forLoop_partial _
    (fun j' (c : Array2d Int) => c.ncols = w ∧ c.nrows = a0.nrows ∧ c.size = a0.size ∧
      c.elems.length = a0.elems.length ∧
      (∀ (i j : Nat), i < k → j < w →
        ∃ row v, tb[i]? = some row ∧ row[j]? = some v ∧ c.elems[i * w + j]? = some v) ∧
      (∀ j : Nat, j < j' →
        ∃ row v, tb[k]? = some row ∧ row[j]? = some v ∧ c.elems[k * w + j]? = some v))
    0 w b b' (Nat.zero_le _) hb ⟨b1, b2, b3, b4, b5, by intro j hj; omega⟩
    (by
      intro j c c' _ hj ⟨c1, c2, c3, c4, c5, c6⟩ hc
      simp only [Res.bind_eq_ok] at hc
      obtain ⟨row, hrow, v, hv, hset⟩ := hc
      obtain ⟨hlt, rfl⟩ := Array2d.set_nat_ok _ _ _ _ _ hset
      rw [c1] at hlt
      rw [vecGet_nat_ok_iff] at hrow hv
      refine ⟨c1, c2, c3, by simpa using c4, ?_, ?_⟩
      · intro i j0 hi hj0
        obtain ⟨row0, v0, e1, e2, e3⟩ := c5 i j0 hi hj0
        refine ⟨row0, v0, e1, e2, ?_⟩
        show (c.elems.set (k * c.ncols + j) v)[i * w + j0]? = some v0
        rw [c1, List.getElem?_set_ne]
        · exact e3
        · intro e
          have := flat_inj hj hj0 e
          omega
      · intro j0 hj0
        show ∃ row v', tb[k]? = some row ∧ row[j0]? = some v' ∧
          (c.elems.set (k * c.ncols + j) v)[k * w + j0]? = some v'
        rw [c1]
        by_cases hjj : j0 = j
        · subst hjj
          exact ⟨row, v, hrow, hv, List.getElem?_set_self hlt⟩
        · obtain ⟨row0, v0, e1, e2, e3⟩ := c6 j0 (by omega)
          refine ⟨row0, v0, e1, e2, ?_⟩
          rw [List.getElem?_set_ne (by omega)]
          exact e3)
  refine ⟨c1, c2, c3, c4, ?_⟩
  intro i j hi hj
  by_cases hik : i = k
  · subst hik; exact c6 j hj
  · exact c5 i j (by omega) hj

theorem filter_range_succ (f : Nat → Bool) (n : Nat) :
    (List.range (n + 1)).filter f = (List.range n).filter f ++ (if f n then [n] else []) := by
  rw [List.range_succ, List.filter_append]
  by_cases h : f n <;> simp [h]

/-- One iteration of the first loop of `extractbfaces`, when it succeeds,
appends the translated row of a face whose left element is on this rank and
skips any other face. -/
theorem extractbfacesStep_partial {R : Type} (api : MeshMethods R) (gm : UMesh2dh R)
    (elemdist : List Int) (irank junk : Int) (g2l : StdMap) (k : Nat)
    (s s' : List (List Int) × Nat)
    (h : extractbfacesStep api gm elemdist irank g2l junk k s = .ok s') :
    (keptBFace api gm elemdist irank k = false ∧ s' = s) ∨
    (keptBFace api gm elemdist irank k = true ∧ ∃ row : List Int,
      s' = (s.1 ++ [row], s.2 + 1) ∧
      (∀ j : Nat, j < gm.nnofa → ∃ g v, gm.bface.get k j = .ok g ∧ g2l.atKey g = .ok v ∧
        row[j]? = some v) ∧
      (∀ j : Nat, j < gm.nbtag → ∃ t, gm.bface.get k ((gm.nnofa + j : Nat) : Int) = .ok t ∧
        row[gm.nnofa + j]? = some t)) := by
  unfold extractbfacesStep at h
  simp only [Res.bind_eq_ok] at h
  obtain ⟨globelem, hge, d, hd, hrest⟩ := h
  have hkeep : keptBFace api gm elemdist irank k = decide (d = irank) := by
    unfold keptBFace
    rw [hge, Res.ok_bind, hd]
    simp
  by_cases hr : d = irank
  · rw [if_pos hr] at hrest
    simp only [Res.bind_eq_ok, Res.pure_eq, Except.ok.injEq] at hrest
    obtain ⟨l1, hl1, l2, hl2, rfl⟩ := hrest
    right
    refine ⟨by rw [hkeep]; simp [hr], l2, rfl, ?_⟩
    obtain ⟨p1, p2⟩ := forLoop_partial _
      (fun j' (l : List Int) => l.length = 6 ∧ ∀ j : Nat, j < j' →
        ∃ g v, gm.bface.get k j = .ok g ∧ g2l.atKey g = .ok v ∧ l[j]? = some v)
      0 gm.nnofa _ l1 (Nat.zero_le _) hl1 ⟨by simp, by intro j hj; omega⟩
      (by
        intro j l l' _ hj ⟨q1, q2⟩ hb
        simp only [Res.bind_eq_ok] at hb
        obtain ⟨g, hg, v, hv, hset⟩ := hb
        obtain ⟨hlt, rfl⟩ := vecSet_nat_ok _ _ _ _ hset
        refine ⟨by simpa using q1, ?_⟩
        intro j0 hj0
        by_cases hjj : j0 = j
        · subst hjj
          exact ⟨g, v, hg, hv, List.getElem?_set_self hlt⟩
        · obtain ⟨g0, v0, e1, e2, e3⟩ := q2 j0 (by omega)
          exact ⟨g0, v0, e1, e2, by rw [List.getElem?_set_ne (by omega)]; exact e3⟩)
    obtain ⟨t1, t2, t3⟩ := forLoop_partial _
      (fun j' (l : List Int) => l.length = 6 ∧ (∀ j : Nat, j < gm.nnofa → l[j]? = l1[j]?) ∧
        ∀ j : Nat, j < j' →
        ∃ t, gm.bface.get k ((gm.nnofa + j : Nat) : Int) = .ok t ∧
          l[gm.nnofa + j]? = some t)
      0 gm.nbtag l1 l2 (Nat.zero_le _) hl2 ⟨p1, by intro j _; rfl, by intro j hj; omega⟩
      (by
        intro j l l' _ hj ⟨q1, q2, q3⟩ hb
        simp only [Res.bind_eq_ok] at hb
        obtain ⟨t, ht, hset⟩ := hb
        have hc : (gm.nnofa : Int) + (j : Int) = ((gm.nnofa + j : Nat) : Int) := by push_cast; rfl
        rw [hc] at ht hset
        obtain ⟨hlt, rfl⟩ := vecSet_nat_ok _ _ _ _ hset
        refine ⟨by simpa using q1, ?_, ?_⟩
        · intro j0 hj0
          rw [List.getElem?_set_ne (by omega)]
          exact q2 j0 hj0
        · intro j0 hj0
          by_cases hjj : j0 = j
          · subst hjj
            exact ⟨t, ht, List.getElem?_set_self hlt⟩
          · obtain ⟨t0, e1, e2⟩ := q3 j0 (by omega)
            exact ⟨t0, e1, by rw [List.getElem?_set_ne (by omega)]; exact e2⟩)
    refine ⟨?_, t3⟩
    intro j hj
    obtain ⟨g, v, e1, e2, e3⟩ := p2 j hj
    exact ⟨g, v, e1, e2, by rw [t2 j hj]; exact e3⟩
  · rw [if_neg hr] at hrest
    left
    refine ⟨by rw [hkeep]; simp [hr], ?_⟩
    simp only [Res.pure_eq, Except.ok.injEq] at hrest
    exact hrest.symm

/-- C9: `extractbfaces` retains a global boundary face iff its left element is
on this rank. When it succeeds (on a local mesh with the `nnofa` and `nbtag`
of the global mesh, as in `restrictMeshToPartitions`), the rows of `lm.bface`
are, in increasing global boundary-face order, exactly the global boundary
faces `b` with `elemdist[gm.intfac(b + gPhyBFaceStart, 0)] == rank`;
`lm.nbface` is their count; the node columns of a retained row are
`pointGlob2Loc` applied to `gm.bface(b, j)`, `j < nnofa`, and the `nbtag` tag
columns are copied unchanged. No other member of `lm` changes. -/
theorem extractbfaces_retains {R : Type} (api : MeshMethods R) (gm lm lm' : UMesh2dh R)
    (elemdist : List Int) (irank junk : Int) (pointGlob2Loc : StdMap)
    (hnf : lm.nnofa = gm.nnofa) (hnt : lm.nbtag = gm.nbtag)
    (h : extractbfaces api gm elemdist irank pointGlob2Loc lm junk = .ok lm') :
    ((List.range gm.nbface).filter (keptBFace api gm elemdist irank)).Pairwise (· < ·) ∧
    (∀ b : Nat, b ∈ (List.range gm.nbface).filter (keptBFace api gm elemdist irank) ↔
      b < gm.nbface ∧
      (gm.gintfac ((b : Int) + api.gPhyBFaceStart gm) 0 >>= vecGet elemdist) = .ok irank) ∧
    lm'.nbface = ((List.range gm.nbface).filter (keptBFace api gm elemdist irank)).length ∧
    lm'.bface.nrows = lm'.nbface ∧ lm'.bface.ncols = gm.nnofa + gm.nbtag ∧
    (∀ (k b : Nat),
      ((List.range gm.nbface).filter (keptBFace api gm elemdist irank))[k]? = some b →
      (∀ j : Nat, j < gm.nnofa → ∃ g v, gm.bface.get b j = .ok g ∧
        pointGlob2Loc.atKey g = .ok v ∧ lm'.bface.get k j = .ok v) ∧
      (∀ j : Nat, j < gm.nbtag → ∃ t,
        gm.bface.get b ((gm.nnofa + j : Nat) : Int) = .ok t ∧
        lm'.bface.get k ((gm.nnofa + j : Nat) : Int) = .ok t)) ∧
    lm' = { lm with nbface := lm'.nbface, bface := lm'.bface } := by
  unfold extractbfaces at h
  simp only [Res.bind_eq_ok, Res.pure_eq, Except.ok.injEq] at h
  obtain ⟨⟨tb, nb⟩, h1, a, h2, rfl⟩ := h
  simp only at h2
  obtain ⟨i1, i2, i3⟩ := forLoop_partial _
    (fun k (s : List (List Int) × Nat) =>
      s.2 = ((List.range k).filter (keptBFace api gm elemdist irank)).length ∧
      s.1.length = ((List.range k).filter (keptBFace api gm elemdist irank)).length ∧
      ∀ (i b : Nat), ((List.range k).filter (keptBFace api gm elemdist irank))[i]? = some b →
        ∃ row : List Int, s.1[i]? = some row ∧
          (∀ j : Nat, j < gm.nnofa → ∃ g v, gm.bface.get b j = .ok g ∧
            pointGlob2Loc.atKey g = .ok v ∧ row[j]? = some v) ∧
          (∀ j : Nat, j < gm.nbtag → ∃ t,
            gm.bface.get b ((gm.nnofa + j : Nat) : Int) = .ok t ∧
            row[gm.nnofa + j]? = some t))
    0 gm.nbface ([], 0) (tb, nb) (Nat.zero_le _) h1
    ⟨by simp, by simp, by intro i b hb; simp at hb⟩
    (by
      intro k s s' _ hk ⟨q1, q2, q3⟩ hs
      rcases extractbfacesStep_partial api gm elemdist irank junk pointGlob2Loc k s s' hs with
        ⟨hkeep, rfl⟩ | ⟨hkeep, row, rfl, hr1, hr2⟩
      · rw [filter_range_succ, hkeep]
        simp only [Bool.false_eq_true, if_false, List.append_nil]
        exact ⟨q1, q2, q3⟩
      · rw [filter_range_succ, hkeep]
        simp only [if_true, List.length_append, List.length_singleton]
        refine ⟨by rw [q1], by rw [q2], ?_⟩
        intro i b hb
        by_cases hi : i < ((List.range k).filter (keptBFace api gm elemdist irank)).length
        · rw [List.getElem?_append_left hi] at hb
          obtain ⟨row0, e1, e2, e3⟩ := q3 i b hb
          exact ⟨row0, by rw [List.getElem?_append_left (by omega)]; exact e1, e2, e3⟩
        · rw [List.getElem?_append_right (by omega)] at hb
          have hi0 : i - ((List.range k).filter (keptBFace api gm elemdist irank)).length = 0 := by
            by_contra hne
            rw [List.getElem?_eq_none (by simp; omega)] at hb
            cases hb
          rw [hi0] at hb
          simp at hb
          subst hb
          refine ⟨row, ?_, hr1, hr2⟩
          have : i = s.1.length := by omega
          subst this
          simp)
  simp only at i1 i2 i3
  obtain ⟨f1, f2, _, _, f5⟩ := fillBface_partial tb nb (lm.nnofa + lm.nbtag) _ a rfl h2
  rw [hnf, hnt] at f1 f5
  refine ⟨List.Pairwise.sublist (List.filter_sublist _) (List.pairwise_lt_range _),
    by intro b; simp [keptBFace], i1, ?_, f1, ?_, rfl⟩
  · rw [f2]; rfl
  · intro k b hb
    obtain ⟨row, e1, e2, e3⟩ := i3 k b hb
    have hk : k < nb := by
      rw [i1]
      by_contra hcn
      rw [List.getElem?_eq_none (by omega)] at hb
      cases hb
    refine ⟨?_, ?_⟩
    · intro j hj
      obtain ⟨g, v, c1, c2, c3⟩ := e2 j hj
      obtain ⟨row', v', d1, d2, d3⟩ := f5 k j hk (by omega)
      rw [e1] at d1
      cases d1
      rw [c3] at d2
      cases d2
      exact ⟨g, v, c1, c2, by rw [Array2d.get_nat_ok_iff, f1]; exact d3⟩
    · intro j hj
      obtain ⟨t, c1, c2⟩ := e3 j hj
      obtain ⟨row', v', d1, d2, d3⟩ := f5 k (gm.nnofa + j) hk (by omega)
      rw [e1] at d1
      cases d1
      rw [c2] at d2
      cases d2
      exact ⟨t, c1, by rw [Array2d.get_nat_ok_iff, f1]; exact d3⟩

theorem extractbfaces_retains_witness :
    (rowLocal3.1.nnofa = (quadRow 4).nnofa ∧ rowLocal3.1.nbtag = (quadRow 4).nbtag ∧
      extractbfaces api2d (quadRow 4) [0, 0, 1, 1] 1 rowLocal3.2.2 rowLocal3.1 77 =
        .ok rowLocal4 ∧
      (List.range (quadRow 4).nbface).filter (keptBFace api2d (quadRow 4) [0, 0, 1, 1] 1) =
        [2, 3, 4, 7, 8] ∧
      rowLocal4.bface.elems = [0, 1, 1, 1, 2, 1, 2, 5, 2, 4, 3, 3, 5, 4, 3]) ∧
    (((List.range (quadRow 4).nbface).filter
        (keptBFace api2d (quadRow 4) [0, 0, 1, 1] 1)).Pairwise (· < ·) ∧
    (∀ b : Nat, b ∈ (List.range (quadRow 4).nbface).filter
        (keptBFace api2d (quadRow 4) [0, 0, 1, 1] 1) ↔
      b < (quadRow 4).nbface ∧
      ((quadRow 4).gintfac ((b : Int) + api2d.gPhyBFaceStart (quadRow 4)) 0 >>=
        vecGet ([0, 0, 1, 1] : List Int)) = .ok 1) ∧
    rowLocal4.nbface = ((List.range (quadRow 4).nbface).filter
      (keptBFace api2d (quadRow 4) [0, 0, 1, 1] 1)).length ∧
    rowLocal4.bface.nrows = rowLocal4.nbface ∧
    rowLocal4.bface.ncols = (quadRow 4).nnofa + (quadRow 4).nbtag ∧
    (∀ (k b : Nat),
      ((List.range (quadRow 4).nbface).filter
        (keptBFace api2d (quadRow 4) [0, 0, 1, 1] 1))[k]? = some b →
      (∀ j : Nat, j < (quadRow 4).nnofa → ∃ g v, (quadRow 4).bface.get b j = .ok g ∧
        rowLocal3.2.2.atKey g = .ok v ∧ rowLocal4.bface.get k j = .ok v) ∧
      (∀ j : Nat, j < (quadRow 4).nbtag → ∃ t,
        (quadRow 4).bface.get b (((quadRow 4).nnofa + j : Nat) : Int) = .ok t ∧
        rowLocal4.bface.get k (((quadRow 4).nnofa + j : Nat) : Int) = .ok t)) ∧
    rowLocal4 = { rowLocal3.1 with nbface := rowLocal4.nbface, bface := rowLocal4.bface }) :=
  ⟨⟨by decide, by decide, by decide, by decide, by decide⟩,
    extractbfaces_retains api2d (quadRow 4) rowLocal3.1 rowLocal4 [0, 0, 1, 1] 1 77
      rowLocal3.2.2 (by decide) (by decide) (by decide)⟩

end ReplicatedGlobalMeshPartitioner

/-! ## Rule for loops with `break` -/

theorem forLoopBrkAux_partial {σ : Type} (body : Nat → σ → Res (Bool × σ))
    (P : Nat → σ → Prop) (Q : σ → Prop) :
    ∀ (n i : Nat) (s s' : σ), forLoopBrkAux body n i s = .ok s' → P i s →
      (∀ k t t', i ≤ k → k < i + n → P k t → body k t = .ok (false, t') → P (k + 1) t') →
      (∀ k t t', i ≤ k → k < i + n → P k t → body k t = .ok (true, t') → Q t') →
      P (i + n) s' ∨ Q s' := by
  intro n
  induction n with
  | zero =>
    intro i s s' h h0 _ _
    simp only [forLoopBrkAux, Except.ok.injEq] at h
    subst h
    exact Or.inl h0
  | succ n ih =>
    intro i s s' h h0 hcont hbrk
    simp only [forLoopBrkAux] at h
    cases hb : body i s with
    | error e => rw [hb] at h; cases h
    | ok r =>
      obtain ⟨b, t⟩ := r
      rw [hb] at h
      cases b with
      | true =>
        simp only [Except.ok.injEq] at h
        subst h
        exact Or.inr (hbrk i s t (Nat.le_refl i) (by omega) h0 hb)
      | false =>
        simp only at h
        have hPt := hcont i s t (Nat.le_refl i) (by omega) h0 hb
        have := ih (i + 1) t s' h hPt
          (fun k u u' hk1 hk2 hu hb' => hcont k u u' (by omega) (by omega) hu hb')
          (fun k u u' hk1 hk2 hu hb' => hbrk k u u' (by omega) (by omega) hu hb')
        have e : i + (n + 1) = i + 1 + n := by omega
        rw [e]
        exact this

theorem forLoopBrk_partial {σ : Type} (body : Nat → σ → Res (Bool × σ))
    (P : Nat → σ → Prop) (Q : σ → Prop) (hi : Nat) (s s' : σ)
    (h : forLoopBrk 0 hi body s = .ok s') (h0 : P 0 s)
    (hcont : ∀ k t t', k < hi → P k t → body k t = .ok (false, t') → P (k + 1) t')
    (hbrk : ∀ k t t', k < hi → P k t → body k t = .ok (true, t') → Q t') :
    P hi s' ∨ Q s' := by
  have := forLoopBrkAux_partial body P Q (hi - 0) 0 s s' h h0
    (fun k t t' _ hk hP hb => hcont k t t' (by omega) hP hb)
    (fun k t t' _ hk hP hb => hbrk k t t' (by omega) hP hb)
  simpa using this

namespace ReplicatedGlobalMeshPartitioner

/-! ## Connectivity faces -/

/-- The flag computed by the innermost loop of `getConnectivityFaceEIndices`
is set exactly when some point of the face is not flagged as a physical
boundary point. -/
theorem isConnFace_partial {R : Type} (api : MeshMethods R) (lm : UMesh2dh R)
    (isB : List Bool) (e f : Nat) (b : Bool) (h : isConnFace api lm isB e f = .ok b) :
    b = true ↔ ∃ k : Nat, k < lm.nnofa ∧ ∃ p,
      lm.inpoel.get e (api.getNodeEIndex lm e f k) = .ok p ∧ vecGet isB p = .ok false := by
  unfold isConnFace at h
  have key := forLoopBrk_partial _
    (fun k (s : Bool) => s = false ∧ ∀ j : Nat, j < k → ∃ p,
      lm.inpoel.get e (api.getNodeEIndex lm e f j) = .ok p ∧ vecGet isB p = .ok true)
    (fun (s : Bool) => s = true ∧ ∃ k : Nat, k < lm.nnofa ∧ ∃ p,
      lm.inpoel.get e (api.getNodeEIndex lm e f k) = .ok p ∧ vecGet isB p = .ok false)
    lm.nnofa false b h ⟨rfl, by intro j hj; omega⟩
    (by
      intro k t t' hk ⟨ht, hall⟩ hb
      simp only [Res.bind_eq_ok] at hb
      obtain ⟨p, hp, fl, hfl, hres⟩ := hb
      cases fl with
      | false => simp at hres
      | true =>
        simp only [Bool.not_true, Bool.false_eq_true, if_false, Res.pure_eq, Except.ok.injEq,
          Prod.mk.injEq, true_and] at hres
        subst hres
        refine ⟨ht, ?_⟩
        intro j hj
        by_cases hjk : j = k
        · subst hjk; exact ⟨p, hp, hfl⟩
        · exact hall j (by omega))
    (by
      intro k t t' hk _ hb
      simp only [Res.bind_eq_ok] at hb
      obtain ⟨p, hp, fl, hfl, hres⟩ := hb
      cases fl with
      | true => simp at hres
      | false =>
        simp only [Bool.not_false, if_true, Res.pure_eq, Except.ok.injEq, Prod.mk.injEq,
          true_and] at hres
        subst hres
        exact ⟨rfl, k, hk, p, hp, hfl⟩)
  constructor
  · intro hb
    rcases key with ⟨hf, _⟩ | ⟨_, hex⟩
    · rw [hf] at hb; cases hb
    · exact hex
  · rintro ⟨k, hk, p, hp, hfl⟩
    rcases key with ⟨_, hall⟩ | ⟨ht, _⟩
    · obtain ⟨p', hp', hfl'⟩ := hall k hk
      rw [hp] at hp'
      cases hp'
      rw [hfl] at hfl'
      cases hfl'
    · exact ht

/-- The loop over the faces of one element, when it succeeds, leaves the
lists of the other elements alone and appends to the list of element `e`
exactly the faces that are neighbour-less and not all-boundary-point. -/
theorem connFacesOfElem_partial {R : Type} (api : MeshMethods R) (lm : UMesh2dh R)
    (isB : List Bool) (e n : Nat) (cn0 cn : List (List Int))
    (h0 : cn0[e]? = some [])
    (h : forLoop 0 n (fun iface (conn : List (List Int)) => do
      let nb ← lm.esuel.get e iface
      if nb = -1 then
        let isconnface ← isConnFace api lm isB e iface
        if isconnface then
          let l ← vecGet conn e
          vecSet conn e (l ++ [(iface : Int)])
        else pure conn
      else pure conn) cn0 = .ok cn) :
    cn.length = cn0.length ∧ (∀ e' : Nat, e' ≠ e → cn[e']? = cn0[e']?) ∧
    ∃ l : List Int, cn[e]? = some l ∧ l.Pairwise (· < ·) ∧
      (∀ x ∈ l, ∃ f : Nat, x = (f : Int) ∧ f < n) ∧
      ∀ f : Nat, f < n → ((f : Int) ∈ l ↔ NeighbourlessNotAllBoundary api lm isB e f) := by
  refine forLoop_partial _
    (fun n' (t : List (List Int)) =>
      t.length = cn0.length ∧ (∀ e' : Nat, e' ≠ e → t[e']? = cn0[e']?) ∧
      ∃ l : List Int, t[e]? = some l ∧ l.Pairwise (· < ·) ∧
        (∀ x ∈ l, ∃ f : Nat, x = (f : Int) ∧ f < n') ∧
        ∀ f : Nat, f < n' → ((f : Int) ∈ l ↔ NeighbourlessNotAllBoundary api lm isB e f))
    0 n cn0 cn (Nat.zero_le _) h
    ⟨rfl, fun _ _ => rfl, [], h0, List.Pairwise.nil, (by intro x hx; cases hx),
      (by intro f hf; omega)⟩ ?_
  intro f t t' _ hf ⟨i1, i2, l, i3, i4, i5, i6⟩ hs
  simp only [Res.bind_eq_ok] at hs
  obtain ⟨nb, hnb, hrest⟩ := hs
  -- the list is unchanged and face `f` does not qualify
  have keep : ¬ NeighbourlessNotAllBoundary api lm isB e f → t' = t →
      t'.length = cn0.length ∧ (∀ e' : Nat, e' ≠ e → t'[e']? = cn0[e']?) ∧
      ∃ l : List Int, t'[e]? = some l ∧ l.Pairwise (· < ·) ∧
        (∀ x ∈ l, ∃ f' : Nat, x = (f' : Int) ∧ f' < f + 1) ∧
        ∀ f' : Nat, f' < f + 1 →
          ((f' : Int) ∈ l ↔ NeighbourlessNotAllBoundary api lm isB e f') := by
    intro hno ht
    subst ht
    refine ⟨i1, i2, l, i3, i4, ?_, ?_⟩
    · intro x hx
      obtain ⟨f0, e0, h0'⟩ := i5 x hx
      exact ⟨f0, e0, by omega⟩
    · intro f' hf'
      by_cases hff : f' = f
      · subst hff
        constructor
        · intro hm
          obtain ⟨f0, e0, h0'⟩ := i5 _ hm
          omega
        · intro hc; exact absurd hc hno
      · exact i6 f' (by omega)
  by_cases hneg : nb = -1
  · rw [if_pos hneg] at hrest
    simp only [Res.bind_eq_ok] at hrest
    obtain ⟨b, hb, hrest⟩ := hrest
    have hchar := isConnFace_partial api lm isB e f b hb
    cases b with
    | false =>
      simp only [Bool.false_eq_true, if_false, Res.pure_eq, Except.ok.injEq] at hrest
      refine keep ?_ hrest.symm
      rintro ⟨_, hex⟩
      have := hchar.2 hex
      cases this
    | true =>
      simp only [if_true, Res.bind_eq_ok] at hrest
      obtain ⟨l', hl', hset⟩ := hrest
      rw [vecGet_nat_ok_iff, i3] at hl'
      cases hl'
      obtain ⟨hlt, rfl⟩ := vecSet_nat_ok _ _ _ _ hset
      have hall : ∀ x ∈ l, x < (f : Int) := by
        intro x hx
        obtain ⟨f0, e0, h0'⟩ := i5 x hx
        omega
      refine ⟨by simpa using i1, ?_, l ++ [(f : Int)], List.getElem?_set_self hlt, ?_, ?_, ?_⟩
      · intro e' he'
        rw [List.getElem?_set_ne (by omega)]
        exact i2 e' he'
      · rw [List.pairwise_append]
        refine ⟨i4, List.pairwise_singleton _ _, ?_⟩
        intro x hx y hy
        rw [List.mem_singleton] at hy
        subst hy
        exact hall x hx
      · intro x hx
        rcases List.mem_append.1 hx with hx | hx
        · obtain ⟨f0, e0, h0'⟩ := i5 x hx
          exact ⟨f0, e0, by omega⟩
        · rw [List.mem_singleton] at hx
          exact ⟨f, hx, by omega⟩
      · intro f' hf'
        by_cases hff : f' = f
        · subst hff
          constructor
          · intro _
            exact ⟨by rw [hnb, hneg], hchar.1 rfl⟩
          · intro _
            exact List.mem_append.2 (Or.inr (List.mem_singleton.2 rfl))
        · rw [List.mem_append, List.mem_singleton]
          constructor
          · rintro (hm | he)
            · exact (i6 f' (by omega)).1 hm
            · exact absurd (by exact_mod_cast he) hff
          · intro hc
            exact Or.inl ((i6 f' (by omega)).2 hc)
  · rw [if_neg hneg] at hrest
    simp only [Res.pure_eq, Except.ok.injEq] at hrest
    refine keep ?_ hrest.symm
    rintro ⟨hes, _⟩
    rw [hnb] at hes
    exact hneg (Except.ok.inj hes)

theorem toBool_eq_true_iff {α : Type} (x : Res α) : x.toBool = true ↔ ∃ a, x = .ok a := by
  cases x with
  | error e => simp [Except.toBool]
  | ok a => simp [Except.toBool]

theorem forLoopBrkAux_total {σ : Type} (body : Nat → σ → Res (Bool × σ)) :
    ∀ (n i : Nat) (s : σ),
      (∀ k t, i ≤ k → k < i + n → ∃ r, body k t = .ok r) →
      ∃ s', forLoopBrkAux body n i s = .ok s' := by
  intro n
  induction n with
  | zero => intro i s _; exact ⟨s, rfl⟩
  | succ n ih =>
    intro i s hstep
    obtain ⟨⟨b, t⟩, hb⟩ := hstep i s (Nat.le_refl i) (by omega)
    cases b with
    | true => exact ⟨t, by simp only [forLoopBrkAux, hb]⟩
    | false =>
      obtain ⟨s', hs'⟩ := ih (i + 1) t (fun k u hk1 hk2 => hstep k u (by omega) (by omega))
      exact ⟨s', by simp only [forLoopBrkAux, hb]; exact hs'⟩

/-- With all reads in range, `getConnectivityFaceEIndices` returns. -/
theorem getConnectivityFaceEIndices_total {R : Type} (api : MeshMethods R)
    (lm : UMesh2dh R) (isB : List Bool) (hr : ConnReadsInRange api lm isB) :
    ∃ conn, getConnectivityFaceEIndices api lm isB = .ok conn := by
  obtain ⟨hlen, hreads⟩ := hr
  unfold getConnectivityFaceEIndices
  obtain ⟨conn, h, _⟩ := forLoop_total
    (fun iel (conn : List (List Int)) => do
      let nf ← vecGet lm.nfael iel
      forLoop 0 nf.toNat (fun iface (conn : List (List Int)) => do
        let nb ← lm.esuel.get iel iface
        if nb = -1 then
          let isconnface ← isConnFace api lm isB iel iface
          if isconnface then
            let l ← vecGet conn iel
            vecSet conn iel (l ++ [(iface : Int)])
          else pure conn
        else pure conn) conn)
    (fun _ (t : List (List Int)) => t.length = lm.nelem)
    0 lm.nelem (List.replicate lm.nelem []) (Nat.zero_le _) (by simp)
    (by
      intro e t _ he ht
      have he' : e < lm.nfael.length := by omega
      dsimp only
      rw [vecGet_of_lt lm.nfael e he']
      simp only [Res.ok_bind]
      have hnf : lm.nfael.getD e 0 = lm.nfael[e] := by
        rw [List.getD_eq_getElem?_getD, List.getElem?_eq_getElem he']; rfl
      apply forLoop_total _ (fun _ (u : List (List Int)) => u.length = lm.nelem)
        0 (lm.nfael[e]).toNat t (Nat.zero_le _) ht
      intro f u _ hf hu
      obtain ⟨hes, hpts⟩ := hreads e he f (by rw [hnf]; exact hf)
      obtain ⟨nb, hnb⟩ := (toBool_eq_true_iff _).1 hes
      rw [hnb]
      simp only [Res.ok_bind]
      by_cases hneg : nb = -1
      · rw [if_pos hneg]
        obtain ⟨b, hb⟩ : ∃ b, isConnFace api lm isB e f = .ok b := by
          unfold isConnFace forLoopBrk
          apply forLoopBrkAux_total
          intro k s _ hk
          obtain ⟨fl, hfl⟩ := (toBool_eq_true_iff _).1 (hpts k (by omega))
          obtain ⟨p, hp, hfl'⟩ := (Res.bind_eq_ok _ _ _).1 hfl
          rw [hp]
          simp only [Res.ok_bind, hfl']
          cases fl with
          | true => exact ⟨_, rfl⟩
          | false => exact ⟨_, rfl⟩
        rw [hb]
        simp only [Res.ok_bind]
        cases b with
        | false => exact ⟨u, rfl, hu⟩
        | true =>
          have hel : e < u.length := by omega
          simp only [if_true]
          rw [vecGet_of_lt u e hel]
          simp only [Res.ok_bind]
          rw [vecSet_nat u e _ hel]
          exact ⟨_, rfl, by simpa using hu⟩
      · rw [if_neg hneg]
        exact ⟨u, rfl, hu⟩)
  exact ⟨conn, h⟩

/-- The classification that `getConnectivityFaceEIndices` returns. -/
theorem getConnectivityFaceEIndices_partial {R : Type} (api : MeshMethods R)
    (lm : UMesh2dh R) (isPhyBounPoint : List Bool) (conn : List (List Int))
    (h : getConnectivityFaceEIndices api lm isPhyBounPoint = .ok conn) :
    conn.length = lm.nelem ∧
    ∀ e : Nat, e < lm.nelem → ∃ (l : List Int) (nf : Int),
      conn[e]? = some l ∧ lm.nfael[e]? = some nf ∧ l.Pairwise (· < ·) ∧
      (∀ x ∈ l, ∃ f : Nat, x = (f : Int) ∧ (f : Int) < nf) ∧
      (∀ f : Nat, (f : Int) < nf →
        ((f : Int) ∈ l ↔ NeighbourlessNotAllBoundary api lm isPhyBounPoint e f)) := by
  unfold getConnectivityFaceEIndices at h
  obtain ⟨i1, _, i3⟩ := forLoop_partial _
    (fun k (t : List (List Int)) => t.length = lm.nelem ∧
      (∀ e : Nat, k ≤ e → e < lm.nelem → t[e]? = some []) ∧
      ∀ e : Nat, e < k → ∃ (l : List Int) (nf : Int),
        t[e]? = some l ∧ lm.nfael[e]? = some nf ∧ l.Pairwise (· < ·) ∧
        (∀ x ∈ l, ∃ f : Nat, x = (f : Int) ∧ (f : Int) < nf) ∧
        (∀ f : Nat, (f : Int) < nf →
          ((f : Int) ∈ l ↔ NeighbourlessNotAllBoundary api lm isPhyBounPoint e f)))
    0 lm.nelem _ conn (Nat.zero_le _) h
    ⟨(by simp), (by intro e _ he; simp [he]), (by intro e he; omega)⟩
    (by
      intro k t t' _ hk ⟨j1, j2, j3⟩ hs
      simp only [Res.bind_eq_ok] at hs
      obtain ⟨nf, hnf, hin⟩ := hs
      rw [vecGet_nat_ok_iff] at hnf
      obtain ⟨q1, q2, l, q3, q4, q5, q6⟩ := connFacesOfElem_partial api lm isPhyBounPoint k
        nf.toNat t t' (j2 k (Nat.le_refl _) hk) hin
      refine ⟨q1.trans j1, ?_, ?_⟩
      · intro e hke he
        rw [q2 e (by omega)]
        exact j2 e (by omega) he
      · intro e he
        by_cases hek : e = k
        · subst hek
          refine ⟨l, nf, q3, hnf, q4, ?_, ?_⟩
          · intro x hx
            obtain ⟨f, e0, h0'⟩ := q5 x hx
            exact ⟨f, e0, by omega⟩
          · intro f hf
            exact q6 f (by omega)
        · rw [q2 e hek]
          exact j3 e (by omega))
  exact ⟨i1, i3⟩

/-- C10: `getConnectivityFaceEIndices` classifies exactly the neighbour-less
faces that are not all-boundary-point. It returns whenever all its reads are
in range; and whenever it returns, there is one list per local element; for
every local element `e` and local face `f < nfael[e]`, `f` is in the list of
`e` if and only if `lm.esuel(e, f) == -1` and at least one of the `nnofa`
points of face `f` of `e` is not flagged in `isPhyBounPoint`; each list is
strictly increasing and holds face indices below `nfael[e]` only; a face with
a local neighbour is never listed. -/
theorem getConnectivityFaceEIndices_classifies {R : Type} (api : MeshMethods R)
    (lm : UMesh2dh R) (isPhyBounPoint : List Bool) :
    (ConnReadsInRange api lm isPhyBounPoint →
      ∃ conn, getConnectivityFaceEIndices api lm isPhyBounPoint = .ok conn) ∧
    ∀ conn, getConnectivityFaceEIndices api lm isPhyBounPoint = .ok conn →
      conn.length = lm.nelem ∧
      ∀ e : Nat, e < lm.nelem → ∃ (l : List Int) (nf : Int),
        conn[e]? = some l ∧ lm.nfael[e]? = some nf ∧ l.Pairwise (· < ·) ∧
        (∀ x ∈ l, ∃ f : Nat, x = (f : Int) ∧ (f : Int) < nf) ∧
        (∀ f : Nat, (f : Int) < nf →
          ((f : Int) ∈ l ↔ NeighbourlessNotAllBoundary api lm isPhyBounPoint e f)) ∧
        (∀ (f : Nat) (nb : Int), (f : Int) < nf → lm.esuel.get e f = .ok nb → nb ≠ -1 →
          (f : Int) ∉ l) := by
  refine ⟨getConnectivityFaceEIndices_total api lm isPhyBounPoint, ?_⟩
  intro conn h
  obtain ⟨i1, i3⟩ := getConnectivityFaceEIndices_partial api lm isPhyBounPoint conn h
  refine ⟨i1, ?_⟩
  intro e he
  obtain ⟨l, nf, a1, a2, a3, a4, a5⟩ := i3 e he
  refine ⟨l, nf, a1, a2, a3, a4, a5, ?_⟩
  intro f nb hf hnb hne hm
  obtain ⟨hes, _⟩ := (a5 f hf).1 hm
  rw [hnb] at hes
  exact hne (Except.ok.inj hes)

theorem getConnectivityFaceEIndices_classifies_witness :
    (ConnReadsInRange api2d rowLocal5 [true, false, true, true, true, false] ∧
      getConnectivityFaceEIndices api2d rowLocal5 [true, false, true, true, true, false]
        = .ok [[0], [0, 1, 2]] ∧
      rowLocal5.esuel.elems = [-1, 1, -1, -1, -1, -1, -1, 0] ∧
      rowLocal5.inpoel.elems = [0, 1, 4, 3, 1, 2, 5, 4]) ∧
    (∃ conn, getConnectivityFaceEIndices api2d rowLocal5
        [true, false, true, true, true, false] = .ok conn) ∧
    ([[0], [0, 1, 2]] : List (List Int)).length = rowLocal5.nelem ∧
    ∀ e : Nat, e < rowLocal5.nelem → ∃ (l : List Int) (nf : Int),
      ([[0], [0, 1, 2]] : List (List Int))[e]? = some l ∧ rowLocal5.nfael[e]? = some nf ∧
      l.Pairwise (· < ·) ∧
      (∀ x ∈ l, ∃ f : Nat, x = (f : Int) ∧ (f : Int) < nf) ∧
      (∀ f : Nat, (f : Int) < nf →
        ((f : Int) ∈ l ↔ NeighbourlessNotAllBoundary api2d rowLocal5
          [true, false, true, true, true, false] e f)) ∧
      (∀ (f : Nat) (nb : Int), (f : Int) < nf → rowLocal5.esuel.get e f = .ok nb → nb ≠ -1 →
        (f : Int) ∉ l) :=
  ⟨⟨by decide, by decide, by decide, by decide⟩,
    (getConnectivityFaceEIndices_classifies api2d rowLocal5
      [true, false, true, true, true, false]).1 (by decide),
    (getConnectivityFaceEIndices_classifies api2d rowLocal5
      [true, false, true, true, true, false]).2 [[0], [0, 1, 2]] (by decide)⟩

/-! ## The stages of the restriction -/

/-- A successful run of `restrictMeshToPartitions` is a successful run of each
of its stages, the later ones on the mesh that holds the local `esuel`. -/
theorem restrictMeshToPartitions_stages {R : Type} (api : MeshMethods R) (gm lm : UMesh2dh R)
    (elemdist : List Int) (rank junk : Int) (junkR : R)
    (h : restrictMeshToPartitions api gm elemdist rank junk junkR = .ok lm) :
    ∃ lm3 l2g g2l lm4 isB conn,
      restrictPoints gm elemdist rank junk junkR = .ok (lm3, l2g, g2l) ∧
      extractbfaces api gm elemdist rank g2l lm3 junk = .ok lm4 ∧
      markLocalPhysicalBoundaryPoints { lm4 with esuel := api.esuelOf lm4 } = .ok isB ∧
      getConnectivityFaceEIndices api { lm4 with esuel := api.esuelOf lm4 } isB = .ok conn ∧
      buildConnface api gm { lm4 with esuel := api.esuelOf lm4 } elemdist l2g conn junk
        = .ok lm := by
  unfold restrictMeshToPartitions at h
  simp only [Res.bind_eq_ok] at h
  obtain ⟨⟨lm3, l2g, g2l⟩, h3, lm4, h4, isB, h5, conn, h6, h7⟩ := h
  exact ⟨lm3, l2g, g2l, lm4, isB, conn, h3, h4, h5, h6, h7⟩

/-- Conversely, the stages compose to the restriction. -/
theorem restrictMeshToPartitions_of_stages {R : Type} (api : MeshMethods R)
    (gm lm3 lm4 : UMesh2dh R) (elemdist l2g : List Int) (g2l : StdMap) (isB : List Bool)
    (conn : List (List Int)) (rank junk : Int) (junkR : R)
    (h3 : restrictPoints gm elemdist rank junk junkR = .ok (lm3, l2g, g2l))
    (h4 : extractbfaces api gm elemdist rank g2l lm3 junk = .ok lm4)
    (h5 : markLocalPhysicalBoundaryPoints { lm4 with esuel := api.esuelOf lm4 } = .ok isB)
    (h6 : getConnectivityFaceEIndices api { lm4 with esuel := api.esuelOf lm4 } isB
      = .ok conn) :
    restrictMeshToPartitions api gm elemdist rank junk junkR =
      buildConnface api gm { lm4 with esuel := api.esuelOf lm4 } elemdist l2g conn junk := by
  unfold restrictMeshToPartitions
  rw [h3]
  simp only [Res.ok_bind]
  rw [h4]
  simp only [Res.ok_bind]
  rw [h5]
  simp only [Res.ok_bind]
  rw [h6]
  simp only [Res.ok_bind]

/-! ## Flags of the physical boundary points -/

/-- The loop over the nodes of boundary face `b`: the flags of the points read
are set, and no other flag changes. -/
theorem markRow_partial {R : Type} (lm : UMesh2dh R) (b : Nat) (isB0 isB : List Bool)
    (h : forLoop 0 lm.nnofa (fun inode (isBounPoin : List Bool) => do
      let p ← lm.bface.get b inode
      vecSet isBounPoin p true) isB0 = .ok isB) :
    isB.length = isB0.length ∧
    (∀ j : Nat, j < lm.nnofa → ∃ p : Int, lm.bface.get b j = .ok p ∧ vecGet isB p = .ok true) ∧
    (∀ p : Int, vecGet isB0 p = .ok true → vecGet isB p = .ok true) ∧
    (∀ q : Nat, isB[q]? = some true → isB0[q]? = some true ∨
      ∃ j : Nat, j < lm.nnofa ∧ lm.bface.get b j = .ok (q : Int)) := by
  have key := forLoop_partial _
    (fun k (t : List Bool) => t.length = isB0.length ∧
      (∀ j : Nat, j < k → ∃ p : Int, lm.bface.get b j = .ok p ∧ vecGet t p = .ok true) ∧
      (∀ p : Int, vecGet isB0 p = .ok true → vecGet t p = .ok true) ∧
      (∀ q : Nat, t[q]? = some true → isB0[q]? = some true ∨
        ∃ j : Nat, j < k ∧ lm.bface.get b j = .ok (q : Int)))
    0 lm.nnofa isB0 isB (Nat.zero_le _) h
    ⟨rfl, by intro j hj; omega, fun _ hp => hp, fun q hq => Or.inl hq⟩
    (by
      intro k t t' _ hk ⟨hlen, hset, hmono, hconv⟩ hb
      simp only [Res.bind_eq_ok] at hb
      obtain ⟨p, hp, hv⟩ := hb
      rw [vecSet_ok_iff] at hv
      obtain ⟨hp0, hpl, rfl⟩ := hv
      have keep : ∀ p' : Int, vecGet t p' = .ok true →
          vecGet (t.set p.toNat true) p' = .ok true := by
        intro p' hp'
        rw [vecGet_ok_iff] at hp' ⊢
        refine ⟨hp'.1, ?_⟩
        by_cases he : p.toNat = p'.toNat
        · rw [he, List.getElem?_set_self (by rw [← he]; exact hpl)]
        · rw [List.getElem?_set_ne he]; exact hp'.2
      refine ⟨by simp [hlen], ?_, fun p' hp' => keep p' (hmono p' hp'), ?_⟩
      · intro j hj
        by_cases hjk : j = k
        · subst hjk
          refine ⟨p, hp, ?_⟩
          rw [vecGet_ok_iff]
          exact ⟨hp0, List.getElem?_set_self hpl⟩
        · obtain ⟨p', hp', hfl⟩ := hset j (by omega)
          exact ⟨p', hp', keep p' hfl⟩
      · intro q hq
        by_cases he : p.toNat = q
        · right
          refine ⟨k, by omega, ?_⟩
          rw [hp, ← he, Int.toNat_of_nonneg hp0]
        · rw [List.getElem?_set_ne he] at hq
          rcases hconv q hq with h1 | ⟨j, hj, hg⟩
          · exact Or.inl h1
          · exact Or.inr ⟨j, by omega, hg⟩)
  exact key

/-- When `markLocalPhysicalBoundaryPoints` succeeds there is one flag per
local point, and the flagged points are exactly the nodes of the rows of
`lm.bface`. -/
theorem markLocalPhysicalBoundaryPoints_partial {R : Type} (lm : UMesh2dh R)
    (isB : List Bool) (h : markLocalPhysicalBoundaryPoints lm = .ok isB) :
    isB.length = lm.npoin ∧
    (∀ b j : Nat, b < lm.nbface → j < lm.nnofa →
      ∃ p : Int, lm.bface.get b j = .ok p ∧ vecGet isB p = .ok true) ∧
    (∀ q : Nat, isB[q]? = some true →
      ∃ b j : Nat, b < lm.nbface ∧ j < lm.nnofa ∧ lm.bface.get b j = .ok (q : Int)) := by
  unfold markLocalPhysicalBoundaryPoints at h
  have key := forLoop_partial _
    (fun k (t : List Bool) => t.length = lm.npoin ∧
      (∀ b j : Nat, b < k → j < lm.nnofa →
        ∃ p : Int, lm.bface.get b j = .ok p ∧ vecGet t p = .ok true) ∧
      (∀ q : Nat, t[q]? = some true →
        ∃ b j : Nat, b < k ∧ j < lm.nnofa ∧ lm.bface.get b j = .ok (q : Int)))
    0 lm.nbface _ isB (Nat.zero_le _) h
    ⟨by simp, by intro b j hb; omega, by
      intro q hq
      rw [List.getElem?_replicate] at hq
      split at hq <;> simp at hq⟩
    (by
      intro k t t' _ hk ⟨hlen, hset, hconv⟩ hb
      obtain ⟨h1, h2, h3, h4⟩ := markRow_partial lm k t t' hb
      refine ⟨by rw [h1, hlen], ?_, ?_⟩
      · intro b j hbk hj
        by_cases hbe : b = k
        · subst hbe; exact h2 j hj
        · obtain ⟨p, hp, hfl⟩ := hset b j (by omega) hj
          exact ⟨p, hp, h3 p hfl⟩
      · intro q hq
        rcases h4 q hq with h5 | ⟨j, hj, hg⟩
        · obtain ⟨b, j, hb', hj, hg⟩ := hconv q h5
          exact ⟨b, j, by omega, hj, hg⟩
        · exact ⟨k, j, by omega, hj, hg⟩)
  exact key

end ReplicatedGlobalMeshPartitioner

/-! ## Failures of loops and of container accesses -/

theorem Res.bind_eq_error {α β : Type} (x : Res α) (f : α → Res β) (e : Err) :
    (x >>= f) = .error e ↔ x = .error e ∨ ∃ a, x = .ok a ∧ f a = .error e := by
  cases x with
  | error e' => simp
  | ok a => simp

theorem Res.NoLogic.ok {α : Type} (a : α) : Res.NoLogic (Except.ok a : Res α) :=
  ⟨fun m h => by cases h⟩

theorem Res.NoLogic.pure {α : Type} (a : α) : Res.NoLogic (pure a : Res α) :=
  ⟨fun m h => by cases h⟩

theorem Res.NoLogic.outOfBounds {α : Type} :
    Res.NoLogic (Except.error .outOfBounds : Res α) :=
  ⟨fun m h => by cases h⟩

theorem Res.NoLogic.bind {α β : Type} {x : Res α} {f : α → Res β} (hx : Res.NoLogic x)
    (hf : ∀ a, Res.NoLogic (f a)) : Res.NoLogic (x >>= f) := by
  refine ⟨fun m h => ?_⟩
  rw [Res.bind_eq_error] at h
  rcases h with h | ⟨a, _, h⟩
  · exact hx.out m h
  · exact (hf a).out m h

theorem Res.NoLogic.vecGet {α : Type} (v : List α) (i : Int) : Res.NoLogic (vecGet v i) := by
  refine ⟨fun m h => ?_⟩
  unfold fvens.vecGet at h
  split at h
  · split at h <;> cases h
  · cases h

theorem Res.NoLogic.vecSet {α : Type} (v : List α) (i : Int) (x : α) :
    Res.NoLogic (vecSet v i x) := by
  refine ⟨fun m h => ?_⟩
  unfold fvens.vecSet at h
  split at h <;> cases h

theorem Res.NoLogic.get {α : Type} (a : Array2d α) (i j : Int) : Res.NoLogic (a.get i j) :=
  Res.NoLogic.vecGet _ _

theorem Res.NoLogic.set {α : Type} (a : Array2d α) (i j : Int) (x : α) :
    Res.NoLogic (a.set i j x) := by
  refine ⟨fun m h => ?_⟩
  unfold Array2d.set at h
  split at h
  · cases h
  · rename_i e he
    cases h
    exact (Res.NoLogic.vecSet _ _ _).out m he

theorem Res.NoLogic.atKey (mp : StdMap) (k : Int) : Res.NoLogic (mp.atKey k) := by
  refine ⟨fun m h => ?_⟩
  unfold StdMap.atKey at h
  split at h <;> cases h

theorem Res.NoLogic.forLoopAux {σ : Type} (body : Nat → σ → Res σ)
    (hb : ∀ i s, Res.NoLogic (body i s)) :
    ∀ (n i : Nat) (s : σ), Res.NoLogic (fvens.forLoopAux body n i s) := by
  intro n
  induction n with
  | zero => intro i s; exact Res.NoLogic.ok s
  | succ n ih =>
    intro i s
    refine ⟨fun m h => ?_⟩
    unfold fvens.forLoopAux at h
    split at h
    · rename_i e he
      cases h
      exact (hb i s).out m he
    · exact (ih _ _).out m h

theorem Res.NoLogic.forLoop {σ : Type} {lo hi : Nat} {body : Nat → σ → Res σ} {s : σ}
    (hb : ∀ i s, Res.NoLogic (body i s)) : Res.NoLogic (fvens.forLoop lo hi body s) :=
  Res.NoLogic.forLoopAux body hb _ _ _

theorem Res.NoLogic.forLoopBrkAux {σ : Type} (body : Nat → σ → Res (Bool × σ))
    (hb : ∀ i s, Res.NoLogic (body i s)) :
    ∀ (n i : Nat) (s : σ), Res.NoLogic (fvens.forLoopBrkAux body n i s) := by
  intro n
  induction n with
  | zero => intro i s; exact Res.NoLogic.ok s
  | succ n ih =>
    intro i s
    refine ⟨fun m h => ?_⟩
    unfold fvens.forLoopBrkAux at h
    split at h
    · rename_i e he
      cases h
      exact (hb i s).out m he
    · cases h
    · exact (ih _ _).out m h

theorem Res.NoLogic.forLoopBrk {σ : Type} {lo hi : Nat} {body : Nat → σ → Res (Bool × σ)}
    {s : σ} (hb : ∀ i s, Res.NoLogic (body i s)) :
    Res.NoLogic (fvens.forLoopBrk lo hi body s) :=
  Res.NoLogic.forLoopBrkAux body hb _ _ _

theorem Res.NoLogic.ite {α : Type} {c : Prop} [Decidable c] {x y : Res α}
    (hx : Res.NoLogic x) (hy : Res.NoLogic y) : Res.NoLogic (if c then x else y) := by
  split
  · exact hx
  · exact hy

/-- A loop that fails has a failing iteration, reached through successful
ones that maintain the invariant. -/
theorem forLoopAux_error {σ : Type} (body : Nat → σ → Res σ) (P : Nat → σ → Prop) (E : Err) :
    ∀ (n i : Nat) (s : σ), forLoopAux body n i s = .error E → P i s →
      (∀ k t t', i ≤ k → k < i + n → P k t → body k t = .ok t' → P (k + 1) t') →
      ∃ k t, i ≤ k ∧ k < i + n ∧ P k t ∧ body k t = .error E := by
  intro n
  induction n with
  | zero => intro i s h; cases h
  | succ n ih =>
    intro i s h h0 hstep
    unfold forLoopAux at h
    split at h
    · rename_i e he
      cases h
      exact ⟨i, s, Nat.le_refl _, by omega, h0, he⟩
    · rename_i s1 h1
      obtain ⟨k, t, hk1, hk2, hP, hb⟩ := ih (i + 1) s1 h (hstep i s s1 (Nat.le_refl _) (by omega) h0 h1)
        (fun k t t' hk hk' hP hb => hstep k t t' (by omega) (by omega) hP hb)
      exact ⟨k, t, by omega, by omega, hP, hb⟩

theorem forLoop_error {σ : Type} (body : Nat → σ → Res σ) (P : Nat → σ → Prop) (E : Err)
    (lo hi : Nat) (s : σ) (h : forLoop lo hi body s = .error E) (h0 : P lo s)
    (hstep : ∀ k t t', lo ≤ k → k < hi → P k t → body k t = .ok t' → P (k + 1) t') :
    ∃ k t, lo ≤ k ∧ k < hi ∧ P k t ∧ body k t = .error E := by
  obtain ⟨k, t, h1, h2, h3, h4⟩ := forLoopAux_error body P E (hi - lo) lo s h h0
    (fun k t t' hk hk' hP hb => hstep k t t' hk (by omega) hP hb)
  exact ⟨k, t, h1, by omega, h3, h4⟩

/-- A loop each of whose iterations either succeeds, keeping the invariant, or
fails with the error `E`, either succeeds or fails with `E`. -/
theorem forLoopAux_okOrErr {σ : Type} (body : Nat → σ → Res σ) (P : Nat → σ → Prop) (E : Err) :
    ∀ (n i : Nat) (s : σ), P i s →
      (∀ k t, i ≤ k → k < i + n → P k t →
        (∃ t', body k t = .ok t' ∧ P (k + 1) t') ∨ body k t = .error E) →
      (∃ s', forLoopAux body n i s = .ok s' ∧ P (i + n) s') ∨
        forLoopAux body n i s = .error E := by
  intro n
  induction n with
  | zero => intro i s h0 _; exact Or.inl ⟨s, rfl, h0⟩
  | succ n ih =>
    intro i s h0 hstep
    unfold forLoopAux
    rcases hstep i s (Nat.le_refl _) (by omega) h0 with ⟨t', hb, hP⟩ | hb
    · rw [hb]
      rcases ih (i + 1) t' hP (fun k t hk hk' hP => hstep k t (by omega) (by omega) hP) with
        ⟨s', h1, h2⟩ | h1
      · left
        refine ⟨s', h1, ?_⟩
        have : i + 1 + n = i + (n + 1) := by omega
        rw [← this]; exact h2
      · exact Or.inr h1
    · rw [hb]
      exact Or.inr rfl

theorem forLoop_okOrErr {σ : Type} (body : Nat → σ → Res σ) (P : Nat → σ → Prop) (E : Err)
    (lo hi : Nat) (s : σ) (hle : lo ≤ hi) (h0 : P lo s)
    (hstep : ∀ k t, lo ≤ k → k < hi → P k t →
      (∃ t', body k t = .ok t' ∧ P (k + 1) t') ∨ body k t = .error E) :
    (∃ s', forLoop lo hi body s = .ok s' ∧ P hi s') ∨ forLoop lo hi body s = .error E := by
  have := forLoopAux_okOrErr body P E (hi - lo) lo s h0
    (fun k t hk hk' hP => hstep k t hk (by omega) hP)
  have he : lo + (hi - lo) = hi := by omega
  rw [he] at this
  exact this

/-- The rule for a loop with `break` that starts at any lower bound. -/
theorem forLoopBrk_partial_from {σ : Type} (body : Nat → σ → Res (Bool × σ))
    (P : Nat → σ → Prop) (Q : σ → Prop) (lo hi : Nat) (s s' : σ) (hle : lo ≤ hi)
    (h : forLoopBrk lo hi body s = .ok s') (h0 : P lo s)
    (hcont : ∀ k t t', lo ≤ k → k < hi → P k t → body k t = .ok (false, t') → P (k + 1) t')
    (hbrk : ∀ k t t', lo ≤ k → k < hi → P k t → body k t = .ok (true, t') → Q t') :
    P hi s' ∨ Q s' := by
  have := forLoopBrkAux_partial body P Q (hi - lo) lo s s' h h0
    (fun k t t' hk hk' hP hb => hcont k t t' hk (by omega) hP hb)
    (fun k t t' hk hk' hP hb => hbrk k t t' hk (by omega) hP hb)
  have he : lo + (hi - lo) = hi := by omega
  rw [he] at this
  exact this

namespace ReplicatedGlobalMeshPartitioner

/-! ## Matching a connectivity face against the faces of its global element -/

/-- The loop that fills `locfacepoints`: entry `k` is point `k` of the face. -/
theorem locFacePoints_partial {R : Type} (api : MeshMethods R) (lm : UMesh2dh R) (e : Nat)
    (f : Int) (lfp : List Int)
    (h : forLoop 0 lm.nnofa (fun linofa (l : List Int) => do
      let p ← lm.inpoel.get e (api.getNodeEIndex lm e f linofa)
      vecSet l linofa p) (List.replicate lm.nnofa (-1)) = .ok lfp) :
    lfp.length = lm.nnofa ∧ ∀ k : Nat, k < lm.nnofa → ∃ p : Int,
      lm.inpoel.get e (api.getNodeEIndex lm e f k) = .ok p ∧ lfp[k]? = some p := by
  have key := forLoop_partial _
    (fun k (l : List Int) => l.length = lm.nnofa ∧ ∀ j : Nat, j < k → ∃ p : Int,
      lm.inpoel.get e (api.getNodeEIndex lm e f j) = .ok p ∧ l[j]? = some p)
    0 lm.nnofa _ lfp (Nat.zero_le _) h ⟨by simp, by intro j hj; omega⟩
    (by
      intro k t t' _ hk ⟨hlen, hall⟩ hb
      simp only [Res.bind_eq_ok] at hb
      obtain ⟨p, hp, hv⟩ := hb
      obtain ⟨hkl, rfl⟩ := vecSet_nat_ok _ _ _ _ hv
      refine ⟨by simp [hlen], ?_⟩
      intro j hj
      by_cases hjk : j = k
      · subst hjk
        exact ⟨p, hp, List.getElem?_set_self hkl⟩
      · obtain ⟨p', hp', hl⟩ := hall j (by omega)
        refine ⟨p', hp', ?_⟩
        rw [List.getElem?_set_ne (fun h => hjk h.symm)]
        exact hl)
  exact key

/-- The loop that fills `locfacepoints` succeeds when the points of the face
can be read. -/
theorem locFacePoints_total {R : Type} (api : MeshMethods R) (lm : UMesh2dh R) (e : Nat)
    (f : Int)
    (hr : ∀ k : Nat, k < lm.nnofa →
      ∃ p : Int, lm.inpoel.get e (api.getNodeEIndex lm e f k) = .ok p) :
    ∃ lfp, forLoop 0 lm.nnofa (fun linofa (l : List Int) => do
      let p ← lm.inpoel.get e (api.getNodeEIndex lm e f linofa)
      vecSet l linofa p) (List.replicate lm.nnofa (-1)) = .ok lfp := by
  obtain ⟨lfp, h, _⟩ := forLoop_total (fun linofa (l : List Int) => do
      let p ← lm.inpoel.get e (api.getNodeEIndex lm e f linofa)
      vecSet l linofa p) (fun _ (l : List Int) => l.length = lm.nnofa)
    0 lm.nnofa (List.replicate lm.nnofa (-1)) (Nat.zero_le _) (by simp)
    (by
      intro k t _ hk hlen
      obtain ⟨p, hp⟩ := hr k hk
      refine ⟨t.set k p, ?_, by simp [hlen]⟩
      dsimp only
      rw [hp]
      exact vecSet_nat _ _ _ (by omega))
  exact ⟨lfp, h⟩

/-- The innermost loop of the face matching: the flag `pointmatched` is set
exactly when the global index of some point of the local face is
`globpoint`. -/
theorem pointMatched_partial (l2g lfp : List Int) (n : Nat) (globpoint : Int) (b : Bool)
    (h : forLoopBrk 0 n (fun linofa (pm : Bool) => do
      let lp ← vecGet lfp linofa
      let gp ← vecGet l2g lp
      if gp = globpoint then pure (true, true) else pure (false, pm)) false = .ok b) :
    b = true ↔ ∃ k : Nat, k < n ∧ (vecGet lfp k >>= vecGet l2g) = .ok globpoint := by
  have key := forLoopBrk_partial _
    (fun k (s : Bool) => s = false ∧ ∀ j : Nat, j < k →
      ∃ v : Int, (vecGet lfp j >>= vecGet l2g) = .ok v ∧ v ≠ globpoint)
    (fun (s : Bool) => s = true ∧ ∃ k : Nat, k < n ∧
      (vecGet lfp k >>= vecGet l2g) = .ok globpoint)
    n false b h ⟨rfl, by intro j hj; omega⟩
    (by
      intro k t t' hk ⟨ht, hall⟩ hb
      simp only [Res.bind_eq_ok] at hb
      obtain ⟨lp, hlp, gp, hgp, hres⟩ := hb
      by_cases hg : gp = globpoint
      · rw [if_pos hg] at hres; simp at hres
      · rw [if_neg hg] at hres
        simp only [Res.pure_eq, Except.ok.injEq, Prod.mk.injEq, true_and] at hres
        subst hres
        refine ⟨ht, ?_⟩
        intro j hj
        by_cases hjk : j = k
        · subst hjk
          exact ⟨gp, by rw [hlp]; exact hgp, hg⟩
        · exact hall j (by omega))
    (by
      intro k t t' hk _ hb
      simp only [Res.bind_eq_ok] at hb
      obtain ⟨lp, hlp, gp, hgp, hres⟩ := hb
      by_cases hg : gp = globpoint
      · rw [if_pos hg] at hres
        simp only [Res.pure_eq, Except.ok.injEq, Prod.mk.injEq, true_and] at hres
        subst hres
        subst hg
        exact ⟨rfl, k, hk, by rw [hlp]; exact hgp⟩
      · rw [if_neg hg] at hres; simp at hres)
  constructor
  · intro hb
    rcases key with ⟨hf, _⟩ | ⟨_, hex⟩
    · rw [hf] at hb; cases hb
    · exact hex
  · rintro ⟨k, hk, hm⟩
    rcases key with ⟨_, hall⟩ | ⟨ht, _⟩
    · obtain ⟨v, hv, hne⟩ := hall k hk
      rw [hm] at hv
      cases hv
      exact absurd rfl hne
    · exact ht

/-- The flag `matched` of `faceMatched` is set exactly when every point of
face `jgf` of the global element is the global index of some entry of
`locfacepoints`. -/
theorem faceMatched_partial {R : Type} (api : MeshMethods R) (gm lm : UMesh2dh R)
    (l2g lfp : List Int) (g : Int) (jgf : Nat) (b : Bool)
    (h : faceMatched api gm lm l2g lfp g jgf = .ok b) :
    b = true ↔ ∀ jn : Nat, jn < gm.nnofa → ∃ gp : Int,
      gm.inpoel.get g (api.getNodeEIndex gm g jgf jn) = .ok gp ∧
      ∃ k : Nat, k < lm.nnofa ∧ (vecGet lfp k >>= vecGet l2g) = .ok gp := by
  unfold faceMatched at h
  have key := forLoopBrk_partial _
    (fun k (s : Bool) => s = true ∧ ∀ j : Nat, j < k → ∃ gp : Int,
      gm.inpoel.get g (api.getNodeEIndex gm g jgf j) = .ok gp ∧
      ∃ k : Nat, k < lm.nnofa ∧ (vecGet lfp k >>= vecGet l2g) = .ok gp)
    (fun (s : Bool) => s = false ∧ ∃ jn : Nat, jn < gm.nnofa ∧ ∃ gp : Int,
      gm.inpoel.get g (api.getNodeEIndex gm g jgf jn) = .ok gp ∧
      ¬ ∃ k : Nat, k < lm.nnofa ∧ (vecGet lfp k >>= vecGet l2g) = .ok gp)
    gm.nnofa true b h ⟨rfl, by intro j hj; omega⟩
    (by
      intro k t t' hk ⟨ht, hall⟩ hb
      simp only [Res.bind_eq_ok] at hb
      obtain ⟨gp, hgp, pm, hpm, hres⟩ := hb
      have hchar := pointMatched_partial l2g lfp lm.nnofa gp pm hpm
      cases pm with
      | false => simp at hres
      | true =>
        simp only [Bool.not_true, Bool.false_eq_true, if_false, Res.pure_eq, Except.ok.injEq,
          Prod.mk.injEq, true_and] at hres
        subst hres
        refine ⟨ht, ?_⟩
        intro j hj
        by_cases hjk : j = k
        · subst hjk
          exact ⟨gp, hgp, hchar.1 rfl⟩
        · exact hall j (by omega))
    (by
      intro k t t' hk _ hb
      simp only [Res.bind_eq_ok] at hb
      obtain ⟨gp, hgp, pm, hpm, hres⟩ := hb
      have hchar := pointMatched_partial l2g lfp lm.nnofa gp pm hpm
      cases pm with
      | true => simp at hres
      | false =>
        simp only [Bool.not_false, if_true, Res.pure_eq, Except.ok.injEq, Prod.mk.injEq,
          true_and] at hres
        subst hres
        refine ⟨rfl, k, hk, gp, hgp, ?_⟩
        intro hex
        have := hchar.2 hex
        cases this)
  constructor
  · intro hb
    rcases key with ⟨_, hall⟩ | ⟨hf, _⟩
    · exact hall
    · rw [hf] at hb; cases hb
  · intro hall
    rcases key with ⟨ht, _⟩ | ⟨_, jn, hjn, gp, hgp, hno⟩
    · exact ht
    · obtain ⟨gp', hgp', hex⟩ := hall jn hjn
      rw [hgp] at hgp'
      cases hgp'
      exact absurd hex hno

/-- The face matching returns when the points of the global face and the
global indices of the entries of `locfacepoints` can be read. -/
theorem faceMatched_total {R : Type} (api : MeshMethods R) (gm lm : UMesh2dh R)
    (l2g lfp : List Int) (g : Int) (jgf : Nat)
    (hg : ∀ jn : Nat, jn < gm.nnofa →
      ∃ gp : Int, gm.inpoel.get g (api.getNodeEIndex gm g jgf jn) = .ok gp)
    (hl : ∀ k : Nat, k < lm.nnofa → ∃ v : Int, (vecGet lfp k >>= vecGet l2g) = .ok v) :
    ∃ b, faceMatched api gm lm l2g lfp g jgf = .ok b := by
  unfold faceMatched
  apply forLoopBrkAux_total
  intro k t _ hk
  obtain ⟨gp, hgp⟩ := hg k (by omega)
  have hin : ∃ pm, forLoopBrk 0 lm.nnofa (fun linofa (pm : Bool) => do
      let lp ← vecGet lfp linofa
      let gp' ← vecGet l2g lp
      if gp' = gp then pure (true, true) else pure (false, pm)) false = .ok pm := by
    apply forLoopBrkAux_total
    intro j s _ hj
    obtain ⟨v, hv⟩ := hl j (by omega)
    rw [Res.bind_eq_ok] at hv
    obtain ⟨lp, hlp, hv⟩ := hv
    simp only [hlp, hv, Res.ok_bind]
    by_cases hc : v = gp
    · rw [if_pos hc]; exact ⟨_, rfl⟩
    · rw [if_neg hc]; exact ⟨_, rfl⟩
  obtain ⟨pm, hpm⟩ := hin
  simp only [hgp, Res.ok_bind, hpm]
  cases pm
  · exact ⟨_, rfl⟩
  · exact ⟨_, rfl⟩

/-- With `locfacepoints` filled from face `f` of the local element `e`, the
test of `faceMatched` is `GlobalFaceAmong`. -/
theorem faceMatched_iff_among {R : Type} (api : MeshMethods R) (gm lm : UMesh2dh R)
    (l2g lfp : List Int) (e : Nat) (f g : Int) (jgf : Nat) (b : Bool)
    (hlfp : ∀ k : Nat, k < lm.nnofa → ∃ p : Int,
      lm.inpoel.get e (api.getNodeEIndex lm e f k) = .ok p ∧ lfp[k]? = some p)
    (h : faceMatched api gm lm l2g lfp g jgf = .ok b) :
    b = true ↔ GlobalFaceAmong api gm lm l2g e f g jgf := by
  have hk : ∀ k : Nat, k < lm.nnofa → (vecGet lfp k >>= vecGet l2g) =
      (lm.inpoel.get e (api.getNodeEIndex lm e f k) >>= vecGet l2g) := by
    intro k hk
    obtain ⟨p, hp, hl⟩ := hlfp k hk
    rw [hp, vecGet_nat _ _ _ hl]
  rw [ faceMatched_partial api gm lm l2g lfp g jgf b h]
  unfold GlobalFaceAmong
  constructor
  · intro hall jn hjn
    obtain ⟨gp, hgp, k, hk', hm⟩ := hall jn hjn
    refine ⟨by rw [hgp]; rfl, k, hk', ?_⟩
    rw [← hk k hk', hm, hgp]
  · intro hall jn hjn
    obtain ⟨hread, k, hk', hm⟩ := hall jn hjn
    rw [toBool_eq_true_iff] at hread
    obtain ⟨gp, hgp⟩ := hread
    exact ⟨gp, hgp, k, hk', by rw [hk k hk', hm, hgp]⟩

/-! ## Row numbers of the connectivity faces -/

theorem connRowIndex_add (conn : List (List Int)) (e i : Nat) :
    connRowIndex conn e i = connRowIndex conn e 0 + i := by
  unfold connRowIndex; omega

theorem connRowIndex_succ (conn : List (List Int)) (e : Nat) (l : List Int)
    (h : conn[e]? = some l) :
    connRowIndex conn (e + 1) 0 = connRowIndex conn e 0 + l.length := by
  unfold connRowIndex
  rw [List.take_succ, h]
  simp

theorem connRowIndex_mono (conn : List (List Int)) (e e' : Nat) (h : e ≤ e') :
    connRowIndex conn e 0 ≤ connRowIndex conn e' 0 := by
  induction e' with
  | zero =>
    have : e = 0 := by omega
    subst this; exact Nat.le_refl _
  | succ n ih =>
    by_cases he : e = n + 1
    · subst he; exact Nat.le_refl _
    · have h1 := ih (by omega)
      cases hc : conn[n]? with
      | none =>
        have h2 : connRowIndex conn (n + 1) 0 = connRowIndex conn n 0 := by
          unfold connRowIndex
          rw [List.take_succ, hc]
          simp
        omega
      | some l =>
        rw [connRowIndex_succ conn n l hc]
        omega

theorem connRowIndex_length (conn : List (List Int)) (n : Nat) (h : conn.length ≤ n) :
    connRowIndex conn n 0 = (conn.map List.length).sum := by
  unfold connRowIndex
  rw [List.take_of_length_le h]
  simp

/-- A listed face has a row number below the number of listed faces. -/
theorem connRowIndex_lt (conn : List (List Int)) (e i : Nat) (l : List Int)
    (h : conn[e]? = some l) (hi : i < l.length) :
    connRowIndex conn e i < (conn.map List.length).sum := by
  have h1 := connRowIndex_succ conn e l h
  have h2 := connRowIndex_mono conn (e + 1) conn.length (by
    have := (List.getElem?_eq_some_iff.1 h).1
    omega)
  rw [connRowIndex_length conn conn.length (Nat.le_refl _)] at h2
  rw [connRowIndex_add]
  omega

/-- The row numbers follow the order of the elements and, within an element,
the order of its list. -/
theorem connRowIndex_lt_iff (conn : List (List Int)) (e i e' i' : Nat) (l l' : List Int)
    (h : conn[e]? = some l) (hi : i < l.length) (h' : conn[e']? = some l')
    (hi' : i' < l'.length) :
    connRowIndex conn e i < connRowIndex conn e' i' ↔ e < e' ∨ (e = e' ∧ i < i') := by
  rw [connRowIndex_add conn e i, connRowIndex_add conn e' i']
  have s1 := connRowIndex_succ conn e l h
  have s2 := connRowIndex_succ conn e' l' h'
  rcases Nat.lt_trichotomy e e' with hlt | heq | hgt
  · have := connRowIndex_mono conn (e + 1) e' hlt
    constructor
    · intro _; exact Or.inl hlt
    · intro _; omega
  · subst heq
    constructor
    · intro hh; exact Or.inr ⟨rfl, by omega⟩
    · rintro (hh | ⟨_, hh⟩)
      · omega
      · omega
  · have := connRowIndex_mono conn (e' + 1) e hgt
    constructor
    · intro hh; omega
    · rintro (hh | ⟨hh, _⟩)
      · omega
      · omega

/-- Every row number below the number of listed faces is the row of a listed
face. -/
theorem connRowIndex_surj (conn : List (List Int)) :
    ∀ r : Nat, r < (conn.map List.length).sum →
      ∃ (e i : Nat) (l : List Int), conn[e]? = some l ∧ i < l.length ∧
        r = connRowIndex conn e i := by
  induction conn using List.reverseRecOn with
  | nil => intro r hr; simp at hr
  | append_singleton t l ih =>
    intro r hr
    simp only [List.map_append, List.map_cons, List.map_nil, List.sum_append, List.sum_cons,
      List.sum_nil, Nat.add_zero] at hr
    by_cases hlt : r < (t.map List.length).sum
    · obtain ⟨e, i, l', h1, h2, h3⟩ := ih r hlt
      have he : e < t.length := (List.getElem?_eq_some_iff.1 h1).1
      refine ⟨e, i, l', ?_, h2, ?_⟩
      · rw [List.getElem?_append_left he]; exact h1
      · rw [h3]
        unfold connRowIndex
        rw [List.take_append_of_le_length (by omega)]
    · refine ⟨t.length, r - (t.map List.length).sum, l, by simp, by omega, ?_⟩
      unfold connRowIndex
      rw [List.take_append_of_le_length (Nat.le_refl _), List.take_length]
      omega

/-! ## Cells of an array with five columns -/

/-- A successful write to column `c` of row `i` of an array with five
columns changes that cell only. -/
theorem setRow5 (a a' : Array2d Int) (i c : Nat) (j x : Int) (hj : j = (c : Int))
    (ha : a.ncols = 5) (h : a.set (i : Int) j x = .ok a') :
    a'.nrows = a.nrows ∧ a'.ncols = 5 ∧ a'.size = a.size ∧
    a'.elems.length = a.elems.length ∧ i * 5 + c < a.elems.length ∧
    a'.elems[i * 5 + c]? = some x ∧
    ∀ p : Nat, p ≠ i * 5 + c → a'.elems[p]? = a.elems[p]? := by
  subst hj
  obtain ⟨hb, rfl⟩ := Array2d.set_nat_ok _ _ _ _ _ h
  rw [ha] at hb
  refine ⟨rfl, ha, rfl, by simp, hb, ?_, ?_⟩
  · simp only [ha]
    exact List.getElem?_set_self hb
  · intro p hp
    simp only [ha]
    exact List.getElem?_set_ne (fun h => hp h.symm)

/-- A write to a cell inside an array with five columns succeeds. -/
theorem setRow5_ok (a : Array2d Int) (i c : Nat) (j x : Int) (hj : j = (c : Int))
    (ha : a.ncols = 5) (hb : i * 5 + c < a.elems.length) :
    ∃ a', a.set (i : Int) j x = .ok a' := by
  subst hj
  exact ⟨_, Array2d.set_nat a i c x (by rw [ha]; exact hb)⟩

theorem getRow5 (a : Array2d Int) (i c : Nat) (j x : Int) (hj : j = (c : Int))
    (ha : a.ncols = 5) : a.get (i : Int) j = .ok x ↔ a.elems[i * 5 + c]? = some x := by
  subst hj
  rw [Array2d.get_nat_ok_iff, ha]

/-! ## The record of one connectivity face -/

/-- The scan of the faces of the global element: either no face matches and
the array is unchanged, or the first matching face `jgf` supplies columns 2
and 3 of the row. -/
theorem scanFaces_partial {R : Type} (api : MeshMethods R) (gm lm : UMesh2dh R)
    (elemdist l2g lfp : List Int) (g : Int) (icofa n : Nat) (cf5 cf6 : Array2d Int)
    (h : forLoopBrk 0 n (fun jgf (cf : Array2d Int) => do
      let matched ← faceMatched api gm lm l2g lfp g jgf
      if matched then
        let nbr ← gm.esuel.get g jgf
        let r ← vecGet elemdist nbr
        let cf ← cf.set icofa 2 r
        let cf ← cf.set icofa 3 nbr
        pure (true, cf)
      else pure (false, cf)) cf5 = .ok cf6) :
    ((∀ j : Nat, j < n → faceMatched api gm lm l2g lfp g j = .ok false) ∧ cf6 = cf5) ∨
    ∃ jgf : Nat, jgf < n ∧ faceMatched api gm lm l2g lfp g jgf = .ok true ∧
      (∀ j : Nat, j < jgf → faceMatched api gm lm l2g lfp g j = .ok false) ∧
      ∃ (nbr r : Int) (cfa : Array2d Int), gm.esuel.get g jgf = .ok nbr ∧
        vecGet elemdist nbr = .ok r ∧ cf5.set icofa 2 r = .ok cfa ∧
        cfa.set icofa 3 nbr = .ok cf6 := by
  have key := forLoopBrk_partial _
    (fun k (s : Array2d Int) => s = cf5 ∧
      ∀ j : Nat, j < k → faceMatched api gm lm l2g lfp g j = .ok false)
    (fun (s : Array2d Int) => ∃ jgf : Nat, jgf < n ∧
      faceMatched api gm lm l2g lfp g jgf = .ok true ∧
      (∀ j : Nat, j < jgf → faceMatched api gm lm l2g lfp g j = .ok false) ∧
      ∃ (nbr r : Int) (cfa : Array2d Int), gm.esuel.get g jgf = .ok nbr ∧
        vecGet elemdist nbr = .ok r ∧ cf5.set icofa 2 r = .ok cfa ∧
        cfa.set icofa 3 nbr = .ok s)
    n cf5 cf6 h ⟨rfl, by intro j hj; omega⟩
    (by
      intro k t t' hk ⟨ht, hall⟩ hb
      simp only [Res.bind_eq_ok] at hb
      obtain ⟨m, hm, hres⟩ := hb
      cases m with
      | true =>
        simp only [if_true, Res.bind_eq_ok, Res.pure_eq, Except.ok.injEq, Prod.mk.injEq] at hres
        obtain ⟨_, _, _, _, _, _, _, _, hc, _⟩ := hres
        cases hc
      | false =>
        simp only [Bool.false_eq_true, if_false, Res.pure_eq, Except.ok.injEq, Prod.mk.injEq,
          true_and] at hres
        subst hres
        refine ⟨ht, ?_⟩
        intro j hj
        by_cases hjk : j = k
        · subst hjk; exact hm
        · exact hall j (by omega))
    (by
      intro k t t' hk ⟨ht, hall⟩ hb
      simp only [Res.bind_eq_ok] at hb
      obtain ⟨m, hm, hres⟩ := hb
      cases m with
      | false => simp at hres
      | true =>
        simp only [if_true, Res.bind_eq_ok, Res.pure_eq, Except.ok.injEq, Prod.mk.injEq,
          true_and] at hres
        obtain ⟨nbr, hnbr, r, hr, cfa, hcfa, cfb, hcfb, rfl⟩ := hres
        subst ht
        exact ⟨k, hk, hm, hall, nbr, r, cfa, hnbr, hr, hcfa, hcfb⟩)
  rcases key with ⟨h1, h2⟩ | h1
  · exact Or.inl ⟨h2, h1⟩
  · exact Or.inr h1

/-- When `connFaceRow` succeeds on an array with five columns, row `icofa`
holds the record of the face and no other row changes. -/
theorem connFaceRow_partial {R : Type} (api : MeshMethods R) (gm lm : UMesh2dh R)
    (elemdist l2g faces : List Int) (e iconface icofa : Nat) (cf cf' : Array2d Int)
    (hc : cf.ncols = 5)
    (h : connFaceRow api gm lm elemdist l2g faces e iconface icofa cf = .ok cf') :
    cf'.nrows = cf.nrows ∧ cf'.ncols = 5 ∧ cf'.size = cf.size ∧
    cf'.elems.length = cf.elems.length ∧ icofa * 5 + 4 < cf.elems.length ∧
    (∀ p : Nat, (p < icofa * 5 ∨ icofa * 5 + 5 ≤ p) → cf'.elems[p]? = cf.elems[p]?) ∧
    ∃ f : Int, faces[iconface]? = some f ∧
      ConnRowRecord api gm lm elemdist l2g cf' icofa e f := by
  unfold connFaceRow at h
  simp only [Res.bind_eq_ok] at h
  obtain ⟨f, hf, cf1, h1, cf2, h2, cf3, h3, cf4, h4, g, hg, gf, hgf, cf5, h5, lfp, hlfp,
    g', hg', gnf, hgnf, cf6, hscan, c2, hc2, hres⟩ := h
  rw [hg] at hg'
  cases hg'
  obtain ⟨a1, b1, c1, d1, e1, v1, f1⟩ := setRow5 cf cf1 icofa 0 0 _ rfl hc h1
  obtain ⟨a2, b2, c2', d2, e2, v2, f2⟩ := setRow5 cf1 cf2 icofa 1 1 _ rfl b1 h2
  obtain ⟨a3, b3, c3, d3, e3, v3, f3⟩ := setRow5 cf2 cf3 icofa 2 2 _ rfl b2 h3
  obtain ⟨a4, b4, c4, d4, e4, v4, f4⟩ := setRow5 cf3 cf4 icofa 3 3 _ rfl b3 h4
  obtain ⟨a5, b5, c5, d5, e5, v5, f5⟩ := setRow5 cf4 cf5 icofa 4 4 _ rfl b4 h5
  obtain ⟨hlen, hpts⟩ := locFacePoints_partial api lm e f lfp hlfp
  rcases scanFaces_partial api gm lm elemdist l2g lfp g icofa gnf.toNat cf5 cf6 hscan with
    ⟨_, hcf⟩ | ⟨jgf, hj, hm, hbefore, nbr, r, cfa, hnbr, hr, h6, h7⟩
  · -- no face matched: column 2 still holds -1 and the function throws
    subst hcf
    rw [getRow5 cf6 icofa 2 2 c2 rfl b5, f5 _ (by omega), f4 _ (by omega), v3] at hc2
    cases hc2
    simp at hres
  · obtain ⟨a6, b6, c6, d6, e6, v6, f6⟩ := setRow5 cf5 cfa icofa 2 2 _ rfl b5 h6
    obtain ⟨a7, b7, c7, d7, e7, v7, f7⟩ := setRow5 cfa cf6 icofa 3 3 _ rfl b6 h7
    rw [getRow5 cf6 icofa 2 2 c2 rfl b7, f7 _ (by omega), v6] at hc2
    have hcr : r = c2 := Option.some.inj hc2
    subst hcr
    have hr0 : ¬ r < 0 := by
      intro hneg
      rw [if_pos hneg] at hres
      cases hres
    rw [if_neg hr0] at hres
    cases hres
    refine ⟨by rw [a7, a6, a5, a4, a3, a2, a1], b7, by rw [c7, c6, c5, c4, c3, c2', c1],
      by rw [d7, d6, d5, d4, d3, d2, d1], by rw [← d1, ← d2, ← d3, ← d4]; exact e5, ?_,
      f, (vecGet_nat_ok_iff _ _ _).1 hf, ?_⟩
    · intro p hp
      rw [f7 p (by omega), f6 p (by omega), f5 p (by omega), f4 p (by omega),
        f3 p (by omega), f2 p (by omega), f1 p (by omega)]
    · refine ⟨g, gf, nbr, r, gnf, jgf, hg, hgf, hgnf, hj,
        (faceMatched_iff_among api gm lm l2g lfp e f g jgf true hpts hm).1 rfl, ?_,
        hnbr, hr, by omega, ?_, ?_, ?_, ?_, ?_⟩
      · intro j hjj hamong
        have := (faceMatched_iff_among api gm lm l2g lfp e f g j false hpts
          (hbefore j hjj)).2 hamong
        cases this
      · rw [getRow5 cf' icofa 0 0 _ rfl b7, f7 _ (by omega), f6 _ (by omega),
          f5 _ (by omega), f4 _ (by omega), f3 _ (by omega), f2 _ (by omega)]
        exact v1
      · rw [getRow5 cf' icofa 1 1 _ rfl b7, f7 _ (by omega), f6 _ (by omega),
          f5 _ (by omega), f4 _ (by omega), f3 _ (by omega)]
        exact v2
      · rw [getRow5 cf' icofa 2 2 _ rfl b7, f7 _ (by omega)]
        exact v6
      · rw [getRow5 cf' icofa 3 3 _ rfl b7]
        exact v7
      · rw [getRow5 cf' icofa 4 4 _ rfl b7, f7 _ (by omega), f6 _ (by omega)]
        exact v5

/-- A record stays a record when the cells of its row are not changed. -/
theorem ConnRowRecord.unchanged {R : Type} (api : MeshMethods R) (gm lm : UMesh2dh R)
    (elemdist l2g : List Int) (cf cf' : Array2d Int) (r e : Nat) (f : Int)
    (hc : cf.ncols = 5) (hc' : cf'.ncols = 5)
    (hfr : ∀ p : Nat, p < r * 5 + 5 → cf'.elems[p]? = cf.elems[p]?)
    (h : ConnRowRecord api gm lm elemdist l2g cf r e f) :
    ConnRowRecord api gm lm elemdist l2g cf' r e f := by
  obtain ⟨g, gf, nbr, rk, gnf, jgf, h1, h2, h3, h4, h5, h6, h7, h8, h9, k0, k1, k2, k3, k4⟩ := h
  refine ⟨g, gf, nbr, rk, gnf, jgf, h1, h2, h3, h4, h5, h6, h7, h8, h9, ?_, ?_, ?_, ?_, ?_⟩
  · rw [getRow5 cf' r 0 0 _ rfl hc', hfr _ (by omega), ← getRow5 cf r 0 0 _ rfl hc]
    exact k0
  · rw [getRow5 cf' r 1 1 _ rfl hc', hfr _ (by omega), ← getRow5 cf r 1 1 _ rfl hc]
    exact k1
  · rw [getRow5 cf' r 2 2 _ rfl hc', hfr _ (by omega), ← getRow5 cf r 2 2 _ rfl hc]
    exact k2
  · rw [getRow5 cf' r 3 3 _ rfl hc', hfr _ (by omega), ← getRow5 cf r 3 3 _ rfl hc]
    exact k3
  · rw [getRow5 cf' r 4 4 _ rfl hc', hfr _ (by omega), ← getRow5 cf r 4 4 _ rfl hc]
    exact k4

/-! ## The array of connectivity-face records -/

/-- The count of lines 88 to 90 is the number of listed faces. -/
theorem countConnFaces_partial (conn : List (List Int)) (nelem n : Nat)
    (hlen : conn.length = nelem)
    (h : forLoop 0 nelem (fun i (n : Nat) => do
      let l ← vecGet conn i
      pure (n + l.length)) 0 = .ok n) :
    n = (conn.map List.length).sum := by
  have key := forLoop_partial _ (fun k (t : Nat) => t = connRowIndex conn k 0)
    0 nelem 0 n (Nat.zero_le _) h (by simp [connRowIndex])
    (by
      intro k t t' _ hk ht hb
      simp only [Res.bind_eq_ok, Res.pure_eq, Except.ok.injEq] at hb
      obtain ⟨l, hl, rfl⟩ := hb
      rw [connRowIndex_succ conn k l ((vecGet_nat_ok_iff _ _ _).1 hl), ht])
  rw [key]
  exact connRowIndex_length conn nelem (by omega)

/-- The count of lines 88 to 90 succeeds when there is a list per element. -/
theorem countConnFaces_total (conn : List (List Int)) (nelem : Nat)
    (hlen : conn.length = nelem) :
    forLoop 0 nelem (fun i (n : Nat) => do
      let l ← vecGet conn i
      pure (n + l.length)) 0 = .ok (conn.map List.length).sum := by
  obtain ⟨n, h, _⟩ := forLoop_total (fun i (n : Nat) => do
      let l ← vecGet conn i
      pure (n + l.length)) (fun _ _ => True) 0 nelem 0 (Nat.zero_le _) trivial
    (by
      intro k t _ hk _
      have hk' : k < conn.length := by omega
      exact ⟨t + conn[k].length, by
        dsimp only
        rw [vecGet_of_lt conn k hk']
        rfl, trivial⟩)
  rw [h, countConnFaces_partial conn nelem n hlen h]

/-- When `buildConnface` succeeds, `nconnface` is the number of listed faces
and the row of the `i`-th listed face of element `e` is its record. -/
theorem buildConnface_partial {R : Type} (api : MeshMethods R) (gm lm lm' : UMesh2dh R)
    (elemdist l2g : List Int) (conn : List (List Int)) (junk : Int)
    (hlen : conn.length = lm.nelem)
    (h : buildConnface api gm lm elemdist l2g conn junk = .ok lm') :
    lm'.nconnface = (conn.map List.length).sum ∧
    (0 < lm'.nconnface → lm'.connface.nrows = lm'.nconnface ∧ lm'.connface.ncols = 5 ∧
      lm'.connface.elems.length = lm'.nconnface * 5) ∧
    (lm'.nconnface = 0 → lm'.connface = lm.connface) ∧
    ∀ (e i : Nat) (l : List Int) (f : Int), conn[e]? = some l → l[i]? = some f →
      ConnRowRecord api gm lm elemdist l2g lm'.connface (connRowIndex conn e i) e f := by
  unfold buildConnface at h
  simp only [Res.bind_eq_ok, Res.pure_eq, Except.ok.injEq] at h
  obtain ⟨n, hn, r, hr, rfl⟩ := h
  have hntot := countConnFaces_partial conn lm.nelem n hlen hn
  have key := forLoop_partial _
    (fun k (s : Nat × Array2d Int) => s.1 = connRowIndex conn k 0 ∧
      (0 < n → s.2.nrows = n ∧ s.2.ncols = 5 ∧ s.2.elems.length = n * 5) ∧
      (n = 0 → s.2 = lm.connface) ∧
      ∀ (e i : Nat) (l : List Int) (f : Int), conn[e]? = some l → l[i]? = some f → e < k →
        ConnRowRecord api gm lm elemdist l2g s.2 (connRowIndex conn e i) e f)
    0 lm.nelem _ r (Nat.zero_le _) hr
    ⟨by simp [connRowIndex], by
      intro hpos
      rw [if_pos hpos]
      exact ⟨rfl, rfl, by simp [Array2d.resize]⟩, by
      intro h0
      rw [if_neg (by omega)], by
      intro e i l f _ _ he; omega⟩
    (by
      intro k t t' _ hk ⟨ht1, hshape, hzero, hdone⟩ hb
      simp only [Res.bind_eq_ok] at hb
      obtain ⟨faces, hfaces, hin⟩ := hb
      have hfaces' : conn[k]? = some faces := (vecGet_nat_ok_iff _ _ _).1 hfaces
      have inner := forLoop_partial _
        (fun i (s : Nat × Array2d Int) => s.1 = connRowIndex conn k i ∧
          (0 < n → s.2.nrows = n ∧ s.2.ncols = 5 ∧ s.2.elems.length = n * 5) ∧
          (n = 0 → s.2 = lm.connface) ∧
          ∀ (e i' : Nat) (l : List Int) (f : Int), conn[e]? = some l → l[i']? = some f →
            (e < k ∨ (e = k ∧ i' < i)) →
            ConnRowRecord api gm lm elemdist l2g s.2 (connRowIndex conn e i') e f)
        0 faces.length t t' (Nat.zero_le _) hin
        ⟨ht1, hshape, hzero, by
          intro e i' l f hl hf hcase
          rcases hcase with he | ⟨_, hi⟩
          · exact hdone e i' l f hl hf he
          · omega⟩
        (by
          intro i s s' _ hi ⟨hs1, hsh, hz, hd⟩ hstep
          simp only [Res.bind_eq_ok, Res.pure_eq, Except.ok.injEq] at hstep
          obtain ⟨cf, hcf, rfl⟩ := hstep
          have hlt := connRowIndex_lt conn k i faces hfaces' hi
          have hpos : 0 < n := by omega
          obtain ⟨hnr, hnc, hne⟩ := hsh hpos
          obtain ⟨p1, p2, p3, p4, p5, p6, f0, hf0, hrec⟩ :=
            connFaceRow_partial api gm lm elemdist l2g faces k i s.1 s.2 cf hnc hcf
          refine ⟨?_, fun _ => ⟨by rw [p1, hnr], p2, by rw [p4, hne]⟩, fun h0 => by omega, ?_⟩
          · show s.1 + 1 = connRowIndex conn k (i + 1)
            rw [hs1, connRowIndex_add conn k i, connRowIndex_add conn k (i + 1)]
            omega
          · intro e i' l f hl hf hcase
            show ConnRowRecord api gm lm elemdist l2g cf (connRowIndex conn e i') e f
            have hi' : i' < l.length := (List.getElem?_eq_some_iff.1 hf).1
            by_cases hnew : e = k ∧ i' = i
            · obtain ⟨rfl, rfl⟩ := hnew
              rw [hfaces'] at hl
              cases hl
              rw [hf0] at hf
              cases hf
              rw [← hs1]
              exact hrec
            · have hold : e < k ∨ (e = k ∧ i' < i) := by
                rcases hcase with he | ⟨he, hii⟩
                · exact Or.inl he
                · exact Or.inr ⟨he, by omega⟩
              have hrow : connRowIndex conn e i' < connRowIndex conn k i :=
                (connRowIndex_lt_iff conn e i' k i l faces hl hi' hfaces' hi).2 hold
              refine ConnRowRecord.unchanged api gm lm elemdist l2g s.2 cf _ e f hnc p2 ?_
                (hd e i' l f hl hf hold)
              intro p hp
              exact p6 p (Or.inl (by rw [hs1]; omega)))
      obtain ⟨i1, i2, i3, i4⟩ := inner
      refine ⟨?_, i2, i3, ?_⟩
      · rw [i1, connRowIndex_add, connRowIndex_succ conn k faces hfaces']
      · intro e i l f hl hf he
        have hi' : i < l.length := (List.getElem?_eq_some_iff.1 hf).1
        refine i4 e i l f hl hf ?_
        by_cases hek : e = k
        · subst hek
          rw [hfaces'] at hl
          cases hl
          exact Or.inr ⟨rfl, hi'⟩
        · exact Or.inl (by omega))
  obtain ⟨_, k2, k3, k4⟩ := key
  refine ⟨hntot, k2, k3, ?_⟩
  intro e i l f hl hf
  have he : e < conn.length := (List.getElem?_eq_some_iff.1 hl).1
  exact k4 e i l f hl hf (by omega)

/-! ## The restriction in terms of its stages -/

/-- The stages determine the result of the restriction. -/
theorem RestrictStages.result {R : Type} {api : MeshMethods R} {gm : UMesh2dh R}
    {elemdist : List Int} {rank junk : Int} {junkR : R} {lm5 : UMesh2dh R} {l2g : List Int}
    {g2l : StdMap} {isB : List Bool} {conn : List (List Int)} {lm : UMesh2dh R}
    (hst : RestrictStages api gm elemdist rank junk junkR lm5 l2g g2l isB conn lm) :
    restrictMeshToPartitions api gm elemdist rank junk junkR = .ok lm := by
  obtain ⟨lm3, lm4, h3, h4, rfl, h5, h6, h7⟩ := hst
  rw [restrictMeshToPartitions_of_stages api gm lm3 lm4 elemdist l2g g2l isB conn rank junk
    junkR h3 h4 h5 h6]
  exact h7

/-- Every successful restriction has its stages. -/
theorem RestrictStages.of_ok {R : Type} (api : MeshMethods R) (gm lm : UMesh2dh R)
    (elemdist : List Int) (rank junk : Int) (junkR : R)
    (h : restrictMeshToPartitions api gm elemdist rank junk junkR = .ok lm) :
    ∃ lm5 l2g g2l isB conn,
      RestrictStages api gm elemdist rank junk junkR lm5 l2g g2l isB conn lm := by
  obtain ⟨lm3, l2g, g2l, lm4, isB, conn, h3, h4, h5, h6, h7⟩ :=
    restrictMeshToPartitions_stages api gm lm elemdist rank junk junkR h
  exact ⟨_, l2g, g2l, isB, conn, lm3, lm4, h3, h4, rfl, h5, h6, h7⟩

/-- The returned mesh is the mesh of step 5 with `nconnface` and `connface`
filled in. -/
theorem RestrictStages.mesh_frame {R : Type} {api : MeshMethods R} {gm : UMesh2dh R}
    {elemdist : List Int} {rank junk : Int} {junkR : R} {lm5 : UMesh2dh R} {l2g : List Int}
    {g2l : StdMap} {isB : List Bool} {conn : List (List Int)} {lm : UMesh2dh R}
    (hst : RestrictStages api gm elemdist rank junk junkR lm5 l2g g2l isB conn lm) :
    lm = { lm5 with nconnface := lm.nconnface, connface := lm.connface } := by
  obtain ⟨lm3, lm4, h3, h4, rfl, h5, h6, h7⟩ := hst
  exact buildConnface_frame _ _ _ _ _ _ _ _ h7

/-- The facts about `nconnface` and `connface` that the stages give. -/
theorem RestrictStages.records {R : Type} {api : MeshMethods R} {gm : UMesh2dh R}
    {elemdist : List Int} {rank junk : Int} {junkR : R} {lm5 : UMesh2dh R} {l2g : List Int}
    {g2l : StdMap} {isB : List Bool} {conn : List (List Int)} {lm : UMesh2dh R}
    (hst : RestrictStages api gm elemdist rank junk junkR lm5 l2g g2l isB conn lm) :
    conn.length = lm5.nelem ∧
    lm.nconnface = (conn.map List.length).sum ∧
    (0 < lm.nconnface → lm.connface.nrows = lm.nconnface ∧ lm.connface.ncols = 5 ∧
      lm.connface.elems.length = lm.nconnface * 5) ∧
    (lm.nconnface = 0 → lm.connface = lm5.connface) ∧
    ∀ (e i : Nat) (l : List Int) (f : Int), conn[e]? = some l → l[i]? = some f →
      ConnRowRecord api gm lm5 elemdist l2g lm.connface (connRowIndex conn e i) e f := by
  obtain ⟨lm3, lm4, h3, h4, rfl, h5, h6, h7⟩ := hst
  have hlen := ( getConnectivityFaceEIndices_partial api _ isB conn h6).1
  exact ⟨hlen, buildConnface_partial api gm _ lm elemdist l2g conn junk hlen h7⟩

/-- The classification that `getConnectivityFaceEIndices` made in the run. -/
theorem RestrictStages.lists {R : Type} {api : MeshMethods R} {gm : UMesh2dh R}
    {elemdist : List Int} {rank junk : Int} {junkR : R} {lm5 : UMesh2dh R} {l2g : List Int}
    {g2l : StdMap} {isB : List Bool} {conn : List (List Int)} {lm : UMesh2dh R}
    (hst : RestrictStages api gm elemdist rank junk junkR lm5 l2g g2l isB conn lm) :
    conn.length = lm5.nelem ∧
    ∀ e : Nat, e < lm5.nelem → ∃ (l : List Int) (nf : Int),
      conn[e]? = some l ∧ lm5.nfael[e]? = some nf ∧ l.Pairwise (· < ·) ∧
      (∀ x ∈ l, ∃ f : Nat, x = (f : Int) ∧ (f : Int) < nf) ∧
      (∀ f : Nat, (f : Int) < nf →
        ((f : Int) ∈ l ↔ NeighbourlessNotAllBoundary api lm5 isB e f)) := by
  obtain ⟨lm3, lm4, h3, h4, rfl, h5, h6, h7⟩ := hst
  exact getConnectivityFaceEIndices_partial api _ isB conn h6

/-- The flags that `markLocalPhysicalBoundaryPoints` computed in the run. -/
theorem RestrictStages.flags {R : Type} {api : MeshMethods R} {gm : UMesh2dh R}
    {elemdist : List Int} {rank junk : Int} {junkR : R} {lm5 : UMesh2dh R} {l2g : List Int}
    {g2l : StdMap} {isB : List Bool} {conn : List (List Int)} {lm : UMesh2dh R}
    (hst : RestrictStages api gm elemdist rank junk junkR lm5 l2g g2l isB conn lm) :
    isB.length = lm5.npoin ∧
    (∀ b j : Nat, b < lm5.nbface → j < lm5.nnofa →
      ∃ p : Int, lm5.bface.get b j = .ok p ∧ vecGet isB p = .ok true) ∧
    (∀ q : Nat, isB[q]? = some true →
      ∃ b j : Nat, b < lm5.nbface ∧ j < lm5.nnofa ∧ lm5.bface.get b j = .ok (q : Int)) := by
  obtain ⟨lm3, lm4, h3, h4, rfl, h5, h6, h7⟩ := hst
  exact markLocalPhysicalBoundaryPoints_partial _ isB h5

/-- The rows of `connface` are those of the listed faces: a row whose first
two columns are `e` and `f` exists exactly when `f` is in the list of `e`. -/
theorem RestrictStages.row_iff {R : Type} {api : MeshMethods R} {gm : UMesh2dh R}
    {elemdist : List Int} {rank junk : Int} {junkR : R} {lm5 : UMesh2dh R} {l2g : List Int}
    {g2l : StdMap} {isB : List Bool} {conn : List (List Int)} {lm : UMesh2dh R}
    (hst : RestrictStages api gm elemdist rank junk junkR lm5 l2g g2l isB conn lm)
    (e : Nat) (f : Int) :
    (∃ r : Nat, r < lm.nconnface ∧ lm.connface.get r 0 = .ok (e : Int) ∧
      lm.connface.get r 1 = .ok f) ↔ ∃ l : List Int, conn[e]? = some l ∧ f ∈ l := by
  obtain ⟨_, hn, _, _, hrec⟩ := hst.records
  constructor
  · rintro ⟨r, hr, h0, h1⟩
    rw [hn] at hr
    obtain ⟨e', i, l, hl, hi, rfl⟩ := connRowIndex_surj conn r hr
    obtain ⟨g, gf, nbr, rk, gnf, jgf, _, _, _, _, _, _, _, _, _, k0, k1, _⟩ :=
      hrec e' i l l[i] hl (List.getElem?_eq_getElem hi)
    rw [k0] at h0
    rw [k1] at h1
    have he : e' = e := by
      have := Except.ok.inj h0
      exact_mod_cast this
    subst he
    have hf : l[i] = f := Except.ok.inj h1
    exact ⟨l, hl, by rw [← hf]; exact List.getElem_mem hi⟩
  · rintro ⟨l, hl, hf⟩
    obtain ⟨i, hi, hfi⟩ := List.getElem_of_mem hf
    have hfi' : l[i]? = some f := by rw [List.getElem?_eq_getElem hi, hfi]
    obtain ⟨g, gf, nbr, rk, gnf, jgf, _, _, _, _, _, _, _, _, _, k0, k1, _⟩ :=
      hrec e i l f hl hfi'
    exact ⟨connRowIndex conn e i, by rw [hn]; exact connRowIndex_lt conn e i l hl hi, k0, k1⟩

/-! ## Evaluated runs -/

set_option maxRecDepth 100000 in
/-- The run of the restriction of the two-by-two block on rank 0. -/
theorem quadBlock_stages_rank0 : RestrictStages api2d quadBlock [0, 0, 1, 1] 0 77 88
    (evalLocal5 quadBlock [0, 0, 1, 1] 0) (evalPoints quadBlock [0, 0, 1, 1] 0).2.1
    (evalPoints quadBlock [0, 0, 1, 1] 0).2.2 (evalFlags quadBlock [0, 0, 1, 1] 0)
    (evalConn quadBlock [0, 0, 1, 1] 0) (evalLocal quadBlock [0, 0, 1, 1] 0) :=
  ⟨(evalPoints quadBlock [0, 0, 1, 1] 0).1,
    evalLocal4 quadBlock [0, 0, 1, 1] 0,
    by decide!, by decide!, rfl, by decide!, by decide!, by decide!⟩

set_option maxRecDepth 100000 in
/-- The run of the restriction of the two-by-two block on rank 1. -/
theorem quadBlock_stages_rank1 : RestrictStages api2d quadBlock [0, 0, 1, 1] 1 77 88
    (evalLocal5 quadBlock [0, 0, 1, 1] 1) (evalPoints quadBlock [0, 0, 1, 1] 1).2.1
    (evalPoints quadBlock [0, 0, 1, 1] 1).2.2 (evalFlags quadBlock [0, 0, 1, 1] 1)
    (evalConn quadBlock [0, 0, 1, 1] 1) (evalLocal quadBlock [0, 0, 1, 1] 1) :=
  ⟨(evalPoints quadBlock [0, 0, 1, 1] 1).1,
    evalLocal4 quadBlock [0, 0, 1, 1] 1,
    by decide!, by decide!, rfl, by decide!, by decide!, by decide!⟩

/-! ## Contents of the connectivity-face records -/

/-- C13: after `restrictMeshToPartitions` succeeds, `lm.nconnface` is the
total number of faces in the lists returned by `getConnectivityFaceEIndices`;
the rows of `lm.connface` are strictly increasing in the pair (owning local
element, local face index); every row is the row of a listed face; and the
row of the `i`-th listed face `f` of the local element `e` holds the
documented record: column 0 is `e`, column 1 is `f`, column 4 is
`gm.elemface(g, f)` with `g = globalElemIndex[e]`, column 3 is
`gm.esuel(g, jgf)` for the first face `jgf` of `g` whose points all occur
among the global indices of the points of local face `f`, and column 2 is
`elemdist[column 3]`. -/
theorem restrict_connface_records {R : Type} (api : MeshMethods R) (gm : UMesh2dh R)
    (elemdist : List Int) (rank junk : Int) (junkR : R) (lm5 : UMesh2dh R) (l2g : List Int)
    (g2l : StdMap) (isB : List Bool) (conn : List (List Int)) (lm : UMesh2dh R)
    (hst : RestrictStages api gm elemdist rank junk junkR lm5 l2g g2l isB conn lm) :
    restrictMeshToPartitions api gm elemdist rank junk junkR = .ok lm ∧
    lm.nconnface = (conn.map List.length).sum ∧
    (∀ r1 r2 : Nat, r1 < r2 → r2 < lm.nconnface → ∃ e1 f1 e2 f2 : Int,
      lm.connface.get r1 0 = .ok e1 ∧ lm.connface.get r1 1 = .ok f1 ∧
      lm.connface.get r2 0 = .ok e2 ∧ lm.connface.get r2 1 = .ok f2 ∧
      (e1 < e2 ∨ (e1 = e2 ∧ f1 < f2))) ∧
    (∀ r : Nat, r < lm.nconnface → ∃ (e i : Nat) (l : List Int),
      conn[e]? = some l ∧ i < l.length ∧ r = connRowIndex conn e i) ∧
    ∀ (e i : Nat) (l : List Int) (f : Int), conn[e]? = some l → l[i]? = some f →
      connRowIndex conn e i < lm.nconnface ∧
      ∃ (g gf nbr rk gnf : Int) (jgf : Nat),
        vecGet lm5.globalElemIndex e = .ok g ∧ gm.gelemface g f = .ok gf ∧
        vecGet gm.nfael g = .ok gnf ∧ jgf < gnf.toNat ∧
        GlobalFaceAmong api gm lm5 l2g e f g jgf ∧
        (∀ j : Nat, j < jgf → ¬ GlobalFaceAmong api gm lm5 l2g e f g j) ∧
        gm.esuel.get g jgf = .ok nbr ∧ vecGet elemdist nbr = .ok rk ∧
        lm.connface.get (connRowIndex conn e i) 0 = .ok (e : Int) ∧
        lm.connface.get (connRowIndex conn e i) 1 = .ok f ∧
        lm.connface.get (connRowIndex conn e i) 2 = .ok rk ∧
        lm.connface.get (connRowIndex conn e i) 3 = .ok nbr ∧
        lm.connface.get (connRowIndex conn e i) 4 = .ok gf := by
  obtain ⟨hlen, hn, _, _, hrec⟩ := hst.records
  obtain ⟨_, hlists⟩ := hst.lists
  refine ⟨hst.result, hn, ?_, ?_, ?_⟩
  · intro r1 r2 h12 h2
    rw [hn] at h2
    obtain ⟨e, i, l, hl, hi, rfl⟩ := connRowIndex_surj conn r1 (by omega)
    obtain ⟨e', i', l', hl', hi', rfl⟩ := connRowIndex_surj conn r2 h2
    obtain ⟨g, gf, nbr, rk, gnf, jgf, _, _, _, _, _, _, _, _, _, k0, k1, _⟩ :=
      hrec e i l l[i] hl (List.getElem?_eq_getElem hi)
    obtain ⟨g', gf', nbr', rk', gnf', jgf', _, _, _, _, _, _, _, _, _, k0', k1', _⟩ :=
      hrec e' i' l' l'[i'] hl' (List.getElem?_eq_getElem hi')
    refine ⟨e, l[i], e', l'[i'], k0, k1, k0', k1', ?_⟩
    rcases (connRowIndex_lt_iff conn e i e' i' l l' hl hi hl' hi').1 h12 with he | ⟨he, hii⟩
    · left; exact_mod_cast he
    · right
      subst he
      rw [hl] at hl'
      cases hl'
      refine ⟨rfl, ?_⟩
      have hel : e < lm5.nelem := by
        have := (List.getElem?_eq_some_iff.1 hl).1
        omega
      obtain ⟨l0, nf, hl0, _, hpw, _⟩ := hlists e hel
      rw [hl] at hl0
      cases hl0
      exact List.pairwise_iff_getElem.1 hpw i i' hi hi' hii
  · intro r hr
    rw [hn] at hr
    exact connRowIndex_surj conn r hr
  · intro e i l f hl hf
    have hi : i < l.length := (List.getElem?_eq_some_iff.1 hf).1
    refine ⟨by rw [hn]; exact connRowIndex_lt conn e i l hl hi, ?_⟩
    obtain ⟨g, gf, nbr, rk, gnf, jgf, h1, h2, h3, h4, h5, h6, h7, h8, _, k0, k1, k2, k3, k4⟩ :=
      hrec e i l f hl hf
    exact ⟨g, gf, nbr, rk, gnf, jgf, h1, h2, h3, h4, h5, h6, h7, h8, k0, k1, k2, k3, k4⟩

set_option maxRecDepth 100000 in
theorem restrict_connface_records_witness :
    (RestrictStages api2d quadBlock [0, 0, 1, 1] 0 77 88
        (evalLocal5 quadBlock [0, 0, 1, 1] 0) (evalPoints quadBlock [0, 0, 1, 1] 0).2.1
        (evalPoints quadBlock [0, 0, 1, 1] 0).2.2 (evalFlags quadBlock [0, 0, 1, 1] 0)
        (evalConn quadBlock [0, 0, 1, 1] 0) (evalLocal quadBlock [0, 0, 1, 1] 0) ∧
      evalConn quadBlock [0, 0, 1, 1] 0 = [[2], [2]] ∧
      (evalLocal quadBlock [0, 0, 1, 1] 0).connface.elems = [0, 2, 1, 2, 9, 1, 2, 1, 3, 10]) ∧
    (evalLocal quadBlock [0, 0, 1, 1] 0).nconnface =
      ((evalConn quadBlock [0, 0, 1, 1] 0).map List.length).sum ∧
    ∀ (e i : Nat) (l : List Int) (f : Int),
      (evalConn quadBlock [0, 0, 1, 1] 0)[e]? = some l → l[i]? = some f →
      connRowIndex (evalConn quadBlock [0, 0, 1, 1] 0) e i <
        (evalLocal quadBlock [0, 0, 1, 1] 0).nconnface ∧
      ∃ (g gf nbr rk gnf : Int) (jgf : Nat),
        vecGet (evalLocal5 quadBlock [0, 0, 1, 1] 0).globalElemIndex e = .ok g ∧
        quadBlock.gelemface g f = .ok gf ∧
        vecGet quadBlock.nfael g = .ok gnf ∧ jgf < gnf.toNat ∧
        GlobalFaceAmong api2d quadBlock (evalLocal5 quadBlock [0, 0, 1, 1] 0)
          (evalPoints quadBlock [0, 0, 1, 1] 0).2.1 e f g jgf ∧
        (∀ j : Nat, j < jgf → ¬ GlobalFaceAmong api2d quadBlock
          (evalLocal5 quadBlock [0, 0, 1, 1] 0) (evalPoints quadBlock [0, 0, 1, 1] 0).2.1
          e f g j) ∧
        quadBlock.esuel.get g jgf = .ok nbr ∧ vecGet ([0, 0, 1, 1] : List Int) nbr = .ok rk ∧
        (evalLocal quadBlock [0, 0, 1, 1] 0).connface.get
          (connRowIndex (evalConn quadBlock [0, 0, 1, 1] 0) e i) 0 = .ok (e : Int) ∧
        (evalLocal quadBlock [0, 0, 1, 1] 0).connface.get
          (connRowIndex (evalConn quadBlock [0, 0, 1, 1] 0) e i) 1 = .ok f ∧
        (evalLocal quadBlock [0, 0, 1, 1] 0).connface.get
          (connRowIndex (evalConn quadBlock [0, 0, 1, 1] 0) e i) 2 = .ok rk ∧
        (evalLocal quadBlock [0, 0, 1, 1] 0).connface.get
          (connRowIndex (evalConn quadBlock [0, 0, 1, 1] 0) e i) 3 = .ok nbr ∧
        (evalLocal quadBlock [0, 0, 1, 1] 0).connface.get
          (connRowIndex (evalConn quadBlock [0, 0, 1, 1] 0) e i) 4 = .ok gf :=
  ⟨⟨quadBlock_stages_rank0, by decide!, by decide!⟩,
    (restrict_connface_records api2d quadBlock [0, 0, 1, 1] 0 77 88 _ _ _ _ _ _
      quadBlock_stages_rank0).2.1,
    (restrict_connface_records api2d quadBlock [0, 0, 1, 1] 0 77 88 _ _ _ _ _ _
      quadBlock_stages_rank0).2.2.2.2⟩

/-! ## Physical boundary faces and connectivity faces -/

/-- C11: in the local mesh `lm` that a restriction returns, a face `f` of a
local element `e` each of whose points is a node of one retained boundary
face `b` of `lm.bface` is not in the list that `getConnectivityFaceEIndices`
returned for `e`, and no row of `lm.connface` has `e` and `f` in its first two
columns. The points of the face are read the way the code reads them, through
`getNodeEIndex` of the mesh `lm5` of step 5, which has the `inpoel`, `bface`,
`nbface` and `nnofa` of `lm`. -/
theorem restrict_boundary_face_not_connectivity {R : Type} (api : MeshMethods R)
    (gm : UMesh2dh R) (elemdist : List Int) (rank junk : Int) (junkR : R) (lm5 : UMesh2dh R)
    (l2g : List Int) (g2l : StdMap) (isB : List Bool) (conn : List (List Int))
    (lm : UMesh2dh R)
    (hst : RestrictStages api gm elemdist rank junk junkR lm5 l2g g2l isB conn lm)
    (e f b : Nat) (hb : b < lm.nbface)
    (hface : ∀ k : Nat, k < lm.nnofa → ∃ j : Nat, j < lm.nnofa ∧
      (lm.inpoel.get e (api.getNodeEIndex lm5 e f k)).toBool = true ∧
      lm.inpoel.get e (api.getNodeEIndex lm5 e f k) = lm.bface.get b j) :
    restrictMeshToPartitions api gm elemdist rank junk junkR = .ok lm ∧
    (lm.inpoel = lm5.inpoel ∧ lm.bface = lm5.bface ∧ lm.nbface = lm5.nbface ∧
      lm.nnofa = lm5.nnofa) ∧
    (∀ l : List Int, conn[e]? = some l → (f : Int) ∉ l) ∧
    ∀ r : Nat, r < lm.nconnface →
      ¬ (lm.connface.get r 0 = .ok (e : Int) ∧ lm.connface.get r 1 = .ok (f : Int)) := by
  have hfr := hst.mesh_frame
  have e1 : lm.inpoel = lm5.inpoel := by rw [hfr]
  have e2 : lm.bface = lm5.bface := by rw [hfr]
  have e3 : lm.nbface = lm5.nbface := by rw [hfr]
  have e4 : lm.nnofa = lm5.nnofa := by rw [hfr]
  obtain ⟨hlen, hlists⟩ := hst.lists
  obtain ⟨_, hflag, _⟩ := hst.flags
  have hnot : ∀ l : List Int, conn[e]? = some l → (f : Int) ∉ l := by
    intro l hl hmem
    have he : e < lm5.nelem := by
      have := (List.getElem?_eq_some_iff.1 hl).1
      omega
    obtain ⟨l0, nf, hl0, _, _, hrange, hiff⟩ := hlists e he
    rw [hl] at hl0
    cases hl0
    obtain ⟨f', hf', hlt⟩ := hrange _ hmem
    have hff : f = f' := by exact_mod_cast hf'
    subst hff
    obtain ⟨_, k, hk, p, hp, hfalse⟩ := (hiff f hlt).1 hmem
    obtain ⟨j, hj, _, heq⟩ := hface k (by rw [e4]; exact hk)
    rw [e1, e2, hp] at heq
    obtain ⟨p', hp', htrue⟩ := hflag b j (by rw [← e3]; exact hb) (by rw [← e4]; exact hj)
    rw [← heq] at hp'
    cases hp'
    rw [hfalse] at htrue
    cases htrue
  refine ⟨hst.result, ⟨e1, e2, e3, e4⟩, hnot, ?_⟩
  intro r hr ⟨h0, h1⟩
  obtain ⟨l, hl, hmem⟩ := (hst.row_iff e f).1 ⟨r, hr, h0, h1⟩
  exact hnot l hl hmem

set_option maxRecDepth 100000 in
theorem restrict_boundary_face_not_connectivity_witness :
    (RestrictStages api2d quadBlock [0, 0, 1, 1] 0 77 88
        (evalLocal5 quadBlock [0, 0, 1, 1] 0) (evalPoints quadBlock [0, 0, 1, 1] 0).2.1
        (evalPoints quadBlock [0, 0, 1, 1] 0).2.2 (evalFlags quadBlock [0, 0, 1, 1] 0)
        (evalConn quadBlock [0, 0, 1, 1] 0) (evalLocal quadBlock [0, 0, 1, 1] 0) ∧
      (evalLocal quadBlock [0, 0, 1, 1] 0).inpoel.elems = [0, 1, 4, 3, 1, 2, 5, 4] ∧
      (evalLocal quadBlock [0, 0, 1, 1] 0).bface.elems = [0, 1, 1, 1, 2, 1, 2, 5, 2, 3, 0, 4] ∧
      0 < (evalLocal quadBlock [0, 0, 1, 1] 0).nbface ∧
      ∀ k : Nat, k < (evalLocal quadBlock [0, 0, 1, 1] 0).nnofa →
        ∃ j : Nat, j < (evalLocal quadBlock [0, 0, 1, 1] 0).nnofa ∧
        ((evalLocal quadBlock [0, 0, 1, 1] 0).inpoel.get (0 : Nat)
          (api2d.getNodeEIndex (evalLocal5 quadBlock [0, 0, 1, 1] 0) (0 : Nat) (0 : Nat) k)
          ).toBool = true ∧
        (evalLocal quadBlock [0, 0, 1, 1] 0).inpoel.get (0 : Nat)
          (api2d.getNodeEIndex (evalLocal5 quadBlock [0, 0, 1, 1] 0) (0 : Nat) (0 : Nat) k) =
          (evalLocal quadBlock [0, 0, 1, 1] 0).bface.get (0 : Nat) j) ∧
    (∀ l : List Int, (evalConn quadBlock [0, 0, 1, 1] 0)[0]? = some l → ((0 : Nat) : Int) ∉ l) ∧
    ∀ r : Nat, r < (evalLocal quadBlock [0, 0, 1, 1] 0).nconnface →
      ¬ ((evalLocal quadBlock [0, 0, 1, 1] 0).connface.get r 0 = .ok ((0 : Nat) : Int) ∧
        (evalLocal quadBlock [0, 0, 1, 1] 0).connface.get r 1 = .ok ((0 : Nat) : Int)) :=
  ⟨⟨quadBlock_stages_rank0, by decide!, by decide!, by decide!, by decide!⟩,
    (restrict_boundary_face_not_connectivity api2d quadBlock [0, 0, 1, 1] 0 77 88 _ _ _ _ _ _
      quadBlock_stages_rank0 0 0 0 (by decide!) (by decide!)).2.2⟩

set_option maxRecDepth 100000 in
/-- C12: the code diverges from the claim. In the row of four quadrilaterals
split as `[0, 0, 1, 1]`, face 1 of the local element 1 of rank 0 (global
element 1) has the global neighbour 2, a real element of rank 1, and no local
neighbour, so the claim requires that it is recorded as a connectivity face;
yet the restriction returns, the list that `getConnectivityFaceEIndices`
returned for that element is empty, and the returned mesh has no connectivity
face at all. -/
theorem restrict_omits_offrank_face :
    RestrictStages api2d (quadRow 4) [0, 0, 1, 1] 0 77 88
      (evalLocal5 (quadRow 4) [0, 0, 1, 1] 0) (evalPoints (quadRow 4) [0, 0, 1, 1] 0).2.1
      (evalPoints (quadRow 4) [0, 0, 1, 1] 0).2.2 (evalFlags (quadRow 4) [0, 0, 1, 1] 0)
      (evalConn (quadRow 4) [0, 0, 1, 1] 0) (evalLocal (quadRow 4) [0, 0, 1, 1] 0) ∧
    vecGet (evalLocal (quadRow 4) [0, 0, 1, 1] 0).globalElemIndex 1 = .ok 1 ∧
    (quadRow 4).esuel.get 1 1 = .ok 2 ∧ (2 : Int) < (quadRow 4).nelem ∧
    vecGet ([0, 0, 1, 1] : List Int) 2 = .ok 1 ∧
    (evalLocal (quadRow 4) [0, 0, 1, 1] 0).esuel.get 1 1 = .ok (-1) ∧
    (evalConn (quadRow 4) [0, 0, 1, 1] 0)[1]? = some [] ∧
    (evalLocal (quadRow 4) [0, 0, 1, 1] 0).nconnface = 0 :=
  ⟨⟨(evalPoints (quadRow 4) [0, 0, 1, 1] 0).1,
      evalLocal4 (quadRow 4) [0, 0, 1, 1] 0,
      by decide!, by decide!, rfl, by decide!, by decide!, by decide!⟩,
    by decide!, by decide!, by decide!, by decide!, by decide!, by decide!, by decide!⟩

/-- The neighbour-less faces that the restriction does record: in the local
mesh `lm` that a restriction returns, a face
`f` of a local element `e` that has no local neighbour (`lm.esuel(e, f)` is
`-1`) and has a point that is not a node of any retained boundary face of
`lm.bface` is in the list that `getConnectivityFaceEIndices` returned for `e`
and has a row in `lm.connface`. -/
theorem restrict_offrank_face_recorded {R : Type} (api : MeshMethods R)
    (gm : UMesh2dh R) (elemdist : List Int) (rank junk : Int) (junkR : R) (lm5 : UMesh2dh R)
    (l2g : List Int) (g2l : StdMap) (isB : List Bool) (conn : List (List Int))
    (lm : UMesh2dh R)
    (hst : RestrictStages api gm elemdist rank junk junkR lm5 l2g g2l isB conn lm)
    (e f : Nat) (nf : Int) (he : e < lm.nelem) (hnf : lm.nfael[e]? = some nf)
    (hf : (f : Int) < nf) (hadj : lm.esuel.get e f = .ok (-1))
    (hpt : ∃ k : Nat, k < lm.nnofa ∧ ∃ q : Nat, q < lm.npoin ∧
      lm.inpoel.get e (api.getNodeEIndex lm5 e f k) = .ok (q : Int) ∧
      ∀ b : Nat, b < lm.nbface → ∀ j : Nat, j < lm.nnofa →
        lm.bface.get b j ≠ .ok (q : Int)) :
    restrictMeshToPartitions api gm elemdist rank junk junkR = .ok lm ∧
    (∃ l : List Int, conn[e]? = some l ∧ (f : Int) ∈ l) ∧
    ∃ r : Nat, r < lm.nconnface ∧ lm.connface.get r 0 = .ok (e : Int) ∧
      lm.connface.get r 1 = .ok (f : Int) := by
  have hfr := hst.mesh_frame
  have e1 : lm.inpoel = lm5.inpoel := by rw [hfr]
  have e2 : lm.bface = lm5.bface := by rw [hfr]
  have e3 : lm.nbface = lm5.nbface := by rw [hfr]
  have e4 : lm.nnofa = lm5.nnofa := by rw [hfr]
  have e5 : lm.nelem = lm5.nelem := by rw [hfr]
  have e6 : lm.nfael = lm5.nfael := by rw [hfr]
  have e7 : lm.esuel = lm5.esuel := by rw [hfr]
  have e8 : lm.npoin = lm5.npoin := by rw [hfr]
  obtain ⟨hlen, hlists⟩ := hst.lists
  obtain ⟨hblen, _, hconv⟩ := hst.flags
  obtain ⟨l, nf', hl, hnf', _, _, hiff⟩ := hlists e (by rw [← e5]; exact he)
  rw [e6, hnf'] at hnf
  cases hnf
  obtain ⟨k, hk, q, hq, hp, hnone⟩ := hpt
  have hfalse : vecGet isB (q : Int) = .ok false := by
    have hql : q < isB.length := by rw [hblen, ← e8]; exact hq
    rw [vecGet_of_lt isB q hql]
    cases hv : isB[q] with
    | false => rfl
    | true =>
      exfalso
      obtain ⟨b, j, hb, hj, hg⟩ := hconv q (by rw [List.getElem?_eq_getElem hql, hv])
      exact hnone b (by rw [e3]; exact hb) j (by rw [e4]; exact hj) (by rw [e2]; exact hg)
  have hmem : (f : Int) ∈ l := (hiff f hf).2
    ⟨by rw [← e7]; exact hadj, k, by rw [← e4]; exact hk, (q : Int), by rw [← e1]; exact hp,
      hfalse⟩
  exact ⟨hst.result, ⟨l, hl, hmem⟩, (hst.row_iff e f).2 ⟨l, hl, hmem⟩⟩

set_option maxRecDepth 100000 in
theorem restrict_offrank_face_recorded_witness :
    (RestrictStages api2d quadBlock [0, 0, 1, 1] 0 77 88
        (evalLocal5 quadBlock [0, 0, 1, 1] 0) (evalPoints quadBlock [0, 0, 1, 1] 0).2.1
        (evalPoints quadBlock [0, 0, 1, 1] 0).2.2 (evalFlags quadBlock [0, 0, 1, 1] 0)
        (evalConn quadBlock [0, 0, 1, 1] 0) (evalLocal quadBlock [0, 0, 1, 1] 0) ∧
      0 < (evalLocal quadBlock [0, 0, 1, 1] 0).nelem ∧
      (evalLocal quadBlock [0, 0, 1, 1] 0).nfael[0]? = some 4 ∧ ((2 : Nat) : Int) < 4 ∧
      (evalLocal quadBlock [0, 0, 1, 1] 0).esuel.get (0 : Nat) (2 : Nat) = .ok (-1) ∧
      (evalLocal quadBlock [0, 0, 1, 1] 0).inpoel.get (0 : Nat)
        (api2d.getNodeEIndex (evalLocal5 quadBlock [0, 0, 1, 1] 0) (0 : Nat) (2 : Nat)
          (0 : Nat)) = .ok ((4 : Nat) : Int) ∧
      (evalLocal quadBlock [0, 0, 1, 1] 0).bface.elems =
        [0, 1, 1, 1, 2, 1, 2, 5, 2, 3, 0, 4]) ∧
    (∃ l : List Int, (evalConn quadBlock [0, 0, 1, 1] 0)[0]? = some l ∧ ((2 : Nat) : Int) ∈ l) ∧
    ∃ r : Nat, r < (evalLocal quadBlock [0, 0, 1, 1] 0).nconnface ∧
      (evalLocal quadBlock [0, 0, 1, 1] 0).connface.get r 0 = .ok ((0 : Nat) : Int) ∧
      (evalLocal quadBlock [0, 0, 1, 1] 0).connface.get r 1 = .ok ((2 : Nat) : Int) :=
  ⟨⟨quadBlock_stages_rank0, by decide!, by decide!, by decide!, by decide!, by decide!, by decide!⟩,
    (restrict_offrank_face_recorded api2d quadBlock [0, 0, 1, 1] 0 77 88 _ _ _ _ _ _
      quadBlock_stages_rank0 0 2 4 (by decide!) (by decide!) (by decide!) (by decide!)
      ⟨0, by decide!, 4, by decide!, by decide!, by decide!⟩).2⟩

end ReplicatedGlobalMeshPartitioner

/-- A loop with `break` whose iterations before `k` continue and whose
iteration `k` breaks returns the state of the break. -/
theorem forLoopBrkAux_break {σ : Type} (body : Nat → σ → Res (Bool × σ)) (P : Nat → σ → Prop)
    (s' : σ) :
    ∀ (n i k : Nat) (s : σ), i ≤ k → k < i + n → P i s →
      (∀ j t, i ≤ j → j < k → P j t → ∃ t', body j t = .ok (false, t') ∧ P (j + 1) t') →
      (∀ t, P k t → body k t = .ok (true, s')) →
      forLoopBrkAux body n i s = .ok s' := by
  intro n
  induction n with
  | zero => intro i k s h1 h2; omega
  | succ n ih =>
    intro i k s h1 h2 h0 hcont hbrk
    unfold forLoopBrkAux
    by_cases hik : i = k
    · subst hik
      rw [hbrk s h0]
    · obtain ⟨t', hb, hP⟩ := hcont i s (Nat.le_refl _) (by omega) h0
      rw [hb]
      exact ih (i + 1) k t' (by omega) (by omega) hP
        (fun j t hj hjk hPj => hcont j t (by omega) hjk hPj) hbrk

namespace ReplicatedGlobalMeshPartitioner

/-! ## The consistency check -/

/-- One iteration of `checkConnFaces` whose reads succeed continues when the
two left elements agree and breaks with `false` when they differ. -/
theorem checkConnFaces_step {R : Type} (gm lm : UMesh2dh R) (s iface : Nat) (le li G gl : Int)
    (hr : ConnFaceReads gm lm s iface le li G gl) (t : Bool) :
    (do
      let le ← lm.gintfac iface 0
      let leftelem ← vecGet lm.globalElemIndex le
      let globface ← lm.connface.get ((iface : Int) - (s : Int)) 4
      let gl ← gm.gintfac globface 0
      if leftelem ≠ gl then pure (true, false) else pure (false, t) : Res (Bool × Bool)) =
      if li = gl then .ok (false, t) else .ok (true, false) := by
  obtain ⟨h1, h2, h3, h4⟩ := hr
  rw [h1, Res.ok_bind, h2, Res.ok_bind, h3, Res.ok_bind, h4, Res.ok_bind]
  by_cases h : li = gl
  · simp [h]
  · simp [h]

/-- C16: `checkConnFaces` returns `true` when there is no connectivity face
(`gConnBFaceStart() >= gConnBFaceEnd()`); it returns a value when the reads
for every connectivity face succeed; a value it returns is `true` exactly
when for every `iface` from `gConnBFaceStart()` up to `gConnBFaceEnd()` the
reads succeed and `lm.globalElemIndex[lm.intfac(iface, 0)]` equals
`gm.intfac(G, 0)` for `G = lm.connface(iface - start, 4)`; and it returns
`false` at the first face whose left elements differ, without reading the
faces after it. -/
theorem checkConnFaces_iff {R : Type} (gm lm : UMesh2dh R) (s t : Nat) :
    (t ≤ s → checkConnFaces gm lm s t = .ok true) ∧
    ((∀ iface : Nat, s ≤ iface → iface < t →
        ∃ le li G gl : Int, ConnFaceReads gm lm s iface le li G gl) →
      ∃ b, checkConnFaces gm lm s t = .ok b) ∧
    (∀ b : Bool, checkConnFaces gm lm s t = .ok b →
      (b = true ↔ ∀ iface : Nat, s ≤ iface → iface < t →
        ∃ le li G gl : Int, ConnFaceReads gm lm s iface le li G gl ∧ li = gl)) ∧
    (∀ iface : Nat, s ≤ iface → iface < t →
      (∀ j : Nat, s ≤ j → j < iface →
        ∃ le li G gl : Int, ConnFaceReads gm lm s j le li G gl ∧ li = gl) →
      (∃ le li G gl : Int, ConnFaceReads gm lm s iface le li G gl ∧ li ≠ gl) →
      checkConnFaces gm lm s t = .ok false) := by
  refine ⟨?_, ?_, ?_, ?_⟩
  · intro hts
    unfold checkConnFaces forLoopBrk
    have : t - s = 0 := by omega
    rw [this]
    rfl
  · intro hreads
    unfold checkConnFaces
    apply forLoopBrkAux_total
    intro k st hk1 hk2
    obtain ⟨le, li, G, gl, hr⟩ := hreads k hk1 (by omega)
    rw [checkConnFaces_step gm lm s k le li G gl hr st]
    by_cases h : li = gl
    · rw [if_pos h]; exact ⟨_, rfl⟩
    · rw [if_neg h]; exact ⟨_, rfl⟩
  · intro b hb
    by_cases hle : s ≤ t
    · unfold checkConnFaces at hb
      have key := forLoopBrk_partial_from _
        (fun k (st : Bool) => st = true ∧ ∀ j : Nat, s ≤ j → j < k →
          ∃ le li G gl : Int, ConnFaceReads gm lm s j le li G gl ∧ li = gl)
        (fun (st : Bool) => st = false ∧ ∃ j : Nat, s ≤ j ∧ j < t ∧
          ∃ le li G gl : Int, ConnFaceReads gm lm s j le li G gl ∧ li ≠ gl)
        s t true b hle hb ⟨rfl, by intro j h1 h2; omega⟩
        (by
          intro k st st' hk1 hk2 ⟨hst, hall⟩ hbody
          simp only [Res.bind_eq_ok] at hbody
          obtain ⟨le, h1, li, h2, G, h3, gl, h4, hres⟩ := hbody
          by_cases h : li = gl
          · simp only [h, ne_eq, not_true_eq_false, if_false, Res.pure_eq, Except.ok.injEq,
              Prod.mk.injEq, true_and] at hres
            subst hres
            refine ⟨hst, ?_⟩
            intro j hj1 hj2
            by_cases hjk : j = k
            · subst hjk
              exact ⟨le, li, G, gl, ⟨h1, h2, h3, h4⟩, h⟩
            · exact hall j hj1 (by omega)
          · simp [h] at hres)
        (by
          intro k st st' hk1 hk2 _ hbody
          simp only [Res.bind_eq_ok] at hbody
          obtain ⟨le, h1, li, h2, G, h3, gl, h4, hres⟩ := hbody
          by_cases h : li = gl
          · simp [h] at hres
          · simp only [ne_eq, h, not_false_eq_true, if_true, Res.pure_eq, Except.ok.injEq,
              Prod.mk.injEq, true_and] at hres
            subst hres
            exact ⟨rfl, k, hk1, hk2, le, li, G, gl, ⟨h1, h2, h3, h4⟩, h⟩)
      constructor
      · intro hbt
        rcases key with ⟨_, hall⟩ | ⟨hf, _⟩
        · exact hall
        · rw [hf] at hbt; cases hbt
      · intro hall
        rcases key with ⟨ht, _⟩ | ⟨_, j, hj1, hj2, le, li, G, gl, ⟨r1, r2, r3, r4⟩, hne⟩
        · exact ht
        · obtain ⟨le', li', G', gl', ⟨q1, q2, q3, q4⟩, heq⟩ := hall j hj1 hj2
          rw [r1] at q1; cases q1
          rw [r2] at q2; cases q2
          rw [r3] at q3; cases q3
          rw [r4] at q4; cases q4
          exact absurd heq hne
    · have h0 : t - s = 0 := by omega
      unfold checkConnFaces forLoopBrk at hb
      rw [h0] at hb
      cases hb
      constructor
      · intro _ iface h1 h2; omega
      · intro _; rfl
  · intro iface h1 h2 hbefore ⟨le, li, G, gl, hr, hne⟩
    unfold checkConnFaces forLoopBrk
    refine forLoopBrkAux_break _ (fun _ (st : Bool) => True) false (t - s) s iface true h1
      (by omega) trivial ?_ ?_
    · intro j st hj1 hj2 _
      obtain ⟨le', li', G', gl', hr', heq⟩ := hbefore j hj1 hj2
      refine ⟨st, ?_, trivial⟩
      rw [checkConnFaces_step gm lm s j le' li' G' gl' hr' st, if_pos heq]
    · intro st _
      rw [checkConnFaces_step gm lm s iface le li G gl hr st, if_neg hne]

set_option maxRecDepth 100000 in
theorem checkConnFaces_iff_witness :
    checkConnFaces quadBlock
      { evalLocal quadBlock [0, 0, 1, 1] 1 with intfac := blockRank1Faces } 4 6 = .ok false ∧
    ((false = true) ↔ ∀ iface : Nat, 4 ≤ iface → iface < 6 →
      ∃ le li G gl : Int, ConnFaceReads quadBlock
        { evalLocal quadBlock [0, 0, 1, 1] 1 with intfac := blockRank1Faces } 4 iface
        le li G gl ∧ li = gl) :=
  ⟨by decide!, (checkConnFaces_iff quadBlock
    { evalLocal quadBlock [0, 0, 1, 1] 1 with intfac := blockRank1Faces } 4 6).2.2.1 false
    (by decide!)⟩

/-! ## Meshes all of whose points are boundary points -/

/-- The boundary faces that `extractbfaces` retains depend on the mesh
methods only through `gPhyBFaceStart()` of the global mesh. -/
theorem extractbfaces_congr {R : Type} (api api' : MeshMethods R) (gm lm : UMesh2dh R)
    (elemdist : List Int) (irank junk : Int) (g2l : StdMap)
    (h : api.gPhyBFaceStart gm = api'.gPhyBFaceStart gm) :
    extractbfaces api gm elemdist irank g2l lm junk =
      extractbfaces api' gm elemdist irank g2l lm junk := by
  have hstep : extractbfacesStep api gm elemdist irank g2l junk =
      extractbfacesStep api' gm elemdist irank g2l junk := by
    funext iface s
    unfold extractbfacesStep
    rw [h]
  unfold extractbfaces
  rw [hstep]

/-- The flags of the boundary points do not depend on `esuel`. -/
theorem markLocalPhysicalBoundaryPoints_esuel {R : Type} (lm : UMesh2dh R) (a : Array2d Int) :
    markLocalPhysicalBoundaryPoints { lm with esuel := a } =
      markLocalPhysicalBoundaryPoints lm := rfl

/-- When every local point is flagged as a physical boundary point, no face
is listed as a connectivity face and the restriction records none. -/
theorem RestrictStages.none_of_all_flagged {R : Type} {api : MeshMethods R} {gm : UMesh2dh R}
    {elemdist : List Int} {rank junk : Int} {junkR : R} {lm5 : UMesh2dh R} {l2g : List Int}
    {g2l : StdMap} {isB : List Bool} {conn : List (List Int)} {lm : UMesh2dh R}
    (hst : RestrictStages api gm elemdist rank junk junkR lm5 l2g g2l isB conn lm)
    (hall : ∀ b ∈ isB, b = true) :
    (∀ l ∈ conn, l = []) ∧ lm.nconnface = 0 ∧ lm.connface = lm5.connface := by
  obtain ⟨hlen, hlists⟩ := hst.lists
  obtain ⟨_, hn, _, hzero, _⟩ := hst.records
  have hempty : ∀ l ∈ conn, l = [] := by
    intro l hl
    obtain ⟨e, he, hle⟩ := List.getElem_of_mem hl
    obtain ⟨l0, nf, hl0, _, _, hrange, hiff⟩ := hlists e (by omega)
    rw [List.getElem?_eq_getElem he, hle] at hl0
    cases hl0
    apply List.eq_nil_iff_forall_not_mem.2
    intro x hx
    obtain ⟨f, rfl, hf⟩ := hrange x hx
    obtain ⟨_, k, _, p, _, hfalse⟩ := (hiff f hf).1 hx
    rw [vecGet_ok_iff] at hfalse
    have := hall false (List.getElem?_mem hfalse.2)
    cases this
  have hsum : (conn.map List.length).sum = 0 := by
    apply List.sum_eq_zero
    intro n hn'
    obtain ⟨l, hl, rfl⟩ := List.mem_map.1 hn'
    rw [hempty l hl]
    rfl
  exact ⟨hempty, by rw [hn, hsum], hzero (by rw [hn, hsum])⟩

/-- When the flags computed for the local mesh of step 4 are all set, a
successful restriction records no connectivity face, whatever `getNodeEIndex`
and the local `esuel` are. -/
theorem restrict_none_of_all_flagged {R : Type} (api api' : MeshMethods R) (gm : UMesh2dh R)
    (elemdist : List Int) (rank junk : Int) (junkR : R)
    (hstart : api.gPhyBFaceStart gm = api'.gPhyBFaceStart gm)
    (pts : UMesh2dh R × List Int × StdMap) (lm4' : UMesh2dh R) (flags : List Bool)
    (e3 : restrictPoints gm elemdist rank junk junkR = .ok pts)
    (e4 : extractbfaces api' gm elemdist rank pts.2.2 pts.1 junk = .ok lm4')
    (e5 : markLocalPhysicalBoundaryPoints lm4' = .ok flags)
    (hall : ∀ b ∈ flags, b = true) (lm : UMesh2dh R)
    (h : restrictMeshToPartitions api gm elemdist rank junk junkR = .ok lm) :
    lm.nconnface = 0 ∧ lm.connface = lm4'.connface := by
  obtain ⟨lm5, l2g, g2l, isB, conn, hst⟩ := RestrictStages.of_ok api _ lm _ _ _ _ h
  have hst' := hst
  obtain ⟨lm3, lm4, h3, h4, h5eq, h5, h6, h7⟩ := hst'
  rw [e3] at h3
  cases h3
  rw [extractbfaces_congr api api' _ _ _ _ _ _ hstart, e4] at h4
  cases h4
  rw [h5eq, markLocalPhysicalBoundaryPoints_esuel, e5] at h5
  cases h5
  obtain ⟨_, hn, hc⟩ := hst.none_of_all_flagged hall
  refine ⟨hn, ?_⟩
  rw [hc, h5eq]

/-! ## The row of ten quadrilaterals on two processes -/

set_option maxRecDepth 100000 in
/-- Evaluation of the restriction of the row of ten quadrilaterals on rank 0:
steps 1 to 4, the flags of the boundary points, and the returned mesh. -/
theorem quadRow10_eval_rank0 :
    restrictPoints (quadRow 10) [0, 0, 0, 0, 0, 1, 1, 1, 1, 1] 0 77 88 =
      .ok (evalPoints (quadRow 10) [0, 0, 0, 0, 0, 1, 1, 1, 1, 1] 0) ∧
    extractbfaces api2d (quadRow 10) [0, 0, 0, 0, 0, 1, 1, 1, 1, 1] 0
      (evalPoints (quadRow 10) [0, 0, 0, 0, 0, 1, 1, 1, 1, 1] 0).2.2
      (evalPoints (quadRow 10) [0, 0, 0, 0, 0, 1, 1, 1, 1, 1] 0).1 77 =
      .ok (evalLocal4 (quadRow 10) [0, 0, 0, 0, 0, 1, 1, 1, 1, 1] 0) ∧
    markLocalPhysicalBoundaryPoints (evalLocal4 (quadRow 10) [0, 0, 0, 0, 0, 1, 1, 1, 1, 1] 0) =
      .ok (List.replicate 12 true) ∧
    (evalLocal4 (quadRow 10) [0, 0, 0, 0, 0, 1, 1, 1, 1, 1] 0).connface = Array2d.empty ∧
    restrictMeshToPartitions api2d (quadRow 10) [0, 0, 0, 0, 0, 1, 1, 1, 1, 1] 0 77 88 =
      .ok (evalLocal (quadRow 10) [0, 0, 0, 0, 0, 1, 1, 1, 1, 1] 0) :=
  ⟨by decide!, by decide!, by decide!, by decide!, by decide!⟩

set_option maxRecDepth 100000 in
/-- Evaluation of the restriction of the row of ten quadrilaterals on rank 1:
steps 1 to 4, the flags of the boundary points, and the returned mesh. -/
theorem quadRow10_eval_rank1 :
    restrictPoints (quadRow 10) [0, 0, 0, 0, 0, 1, 1, 1, 1, 1] 1 77 88 =
      .ok (evalPoints (quadRow 10) [0, 0, 0, 0, 0, 1, 1, 1, 1, 1] 1) ∧
    extractbfaces api2d (quadRow 10) [0, 0, 0, 0, 0, 1, 1, 1, 1, 1] 1
      (evalPoints (quadRow 10) [0, 0, 0, 0, 0, 1, 1, 1, 1, 1] 1).2.2
      (evalPoints (quadRow 10) [0, 0, 0, 0, 0, 1, 1, 1, 1, 1] 1).1 77 =
      .ok (evalLocal4 (quadRow 10) [0, 0, 0, 0, 0, 1, 1, 1, 1, 1] 1) ∧
    markLocalPhysicalBoundaryPoints (evalLocal4 (quadRow 10) [0, 0, 0, 0, 0, 1, 1, 1, 1, 1] 1) =
      .ok (List.replicate 12 true) ∧
    (evalLocal4 (quadRow 10) [0, 0, 0, 0, 0, 1, 1, 1, 1, 1] 1).connface = Array2d.empty ∧
    restrictMeshToPartitions api2d (quadRow 10) [0, 0, 0, 0, 0, 1, 1, 1, 1, 1] 1 77 88 =
      .ok (evalLocal (quadRow 10) [0, 0, 0, 0, 0, 1, 1, 1, 1, 1] 1) :=
  ⟨by decide!, by decide!, by decide!, by decide!, by decide!⟩

set_option maxRecDepth 100000 in
/-- C19: on the scenario of the claim the code loses the connectivity face.
For the row of ten quadrilaterals, Trivial partitioning over two processes
gives `[0,0,0,0,0,1,1,1,1,1]`; face 1 of element 4 has the neighbour 5, a real
element of rank 1; the restriction returns on both ranks, and on both it
returns `nconnface == 0`, where the claim requires one connectivity face on
each rank: every local point, the two points of the face between the elements
4 and 5 included, is a node of a retained physical boundary face and is
flagged by `markLocalPhysicalBoundaryPoints`. -/
theorem single_row_connface_lost :
    TrivialReplicatedGlobalMeshPartitioner.compute_partition 2 ⟨quadRow 10, []⟩ =
      .ok ⟨quadRow 10, [0, 0, 0, 0, 0, 1, 1, 1, 1, 1]⟩ ∧
    (quadRow 10).esuel.get 4 1 = .ok 5 ∧ (quadRow 10).esuel.get 5 3 = .ok 4 ∧
    markLocalPhysicalBoundaryPoints (evalLocal4 (quadRow 10) [0, 0, 0, 0, 0, 1, 1, 1, 1, 1] 0) =
      .ok (List.replicate 12 true) ∧
    markLocalPhysicalBoundaryPoints (evalLocal4 (quadRow 10) [0, 0, 0, 0, 0, 1, 1, 1, 1, 1] 1) =
      .ok (List.replicate 12 true) ∧
    (∃ lm, restrictMeshToPartitions api2d (quadRow 10) [0, 0, 0, 0, 0, 1, 1, 1, 1, 1] 0 77 88
      = .ok lm ∧ lm.globalElemIndex = [0, 1, 2, 3, 4] ∧ lm.nconnface = 0) ∧
    (∃ lm, restrictMeshToPartitions api2d (quadRow 10) [0, 0, 0, 0, 0, 1, 1, 1, 1, 1] 1 77 88
      = .ok lm ∧ lm.globalElemIndex = [5, 6, 7, 8, 9] ∧ lm.nconnface = 0) :=
  ⟨by decide!, by decide!, by decide!, quadRow10_eval_rank0.2.2.1, quadRow10_eval_rank1.2.2.1,
    ⟨evalLocal (quadRow 10) [0, 0, 0, 0, 0, 1, 1, 1, 1, 1] 0, quadRow10_eval_rank0.2.2.2.2,
      by decide!,
      (restrict_none_of_all_flagged api2d api2d (quadRow 10) [0, 0, 0, 0, 0, 1, 1, 1, 1, 1] 0 77 88 rfl
        (evalPoints (quadRow 10) [0, 0, 0, 0, 0, 1, 1, 1, 1, 1] 0) (evalLocal4 (quadRow 10) [0, 0, 0, 0, 0, 1, 1, 1, 1, 1] 0)
        (List.replicate 12 true) quadRow10_eval_rank0.1 quadRow10_eval_rank0.2.1
        quadRow10_eval_rank0.2.2.1 (by decide) _ quadRow10_eval_rank0.2.2.2.2).1⟩,
    ⟨evalLocal (quadRow 10) [0, 0, 0, 0, 0, 1, 1, 1, 1, 1] 1, quadRow10_eval_rank1.2.2.2.2,
      by decide!,
      (restrict_none_of_all_flagged api2d api2d (quadRow 10) [0, 0, 0, 0, 0, 1, 1, 1, 1, 1] 1 77 88 rfl
        (evalPoints (quadRow 10) [0, 0, 0, 0, 0, 1, 1, 1, 1, 1] 1) (evalLocal4 (quadRow 10) [0, 0, 0, 0, 0, 1, 1, 1, 1, 1] 1)
        (List.replicate 12 true) quadRow10_eval_rank1.1 quadRow10_eval_rank1.2.1
        quadRow10_eval_rank1.2.2.1 (by decide) _ quadRow10_eval_rank1.2.2.2.2).1⟩⟩

/-- The loss of the face between the elements 4 and 5 of the row of ten
quadrilaterals does not depend on the methods that the sources do not
contain: for the partition `[0,0,0,0,0,1,1,1,1,1]` every local point of either
rank is a node of a retained physical boundary face; so, whatever
`getNodeEIndex` and the local `esuel` are, a successful restriction on rank 0
or rank 1 returns `nconnface == 0` and leaves `connface` without storage. -/
theorem single_row_no_connface (api : MeshMethods Int)
    (hstart : api.gPhyBFaceStart (quadRow 10) = 0) (rank : Int) (hrank : rank = 0 ∨ rank = 1)
    (lm : UMesh2dh Int)
    (h : restrictMeshToPartitions api (quadRow 10) [0, 0, 0, 0, 0, 1, 1, 1, 1, 1] rank 77 88
      = .ok lm) :
    lm.nconnface = 0 ∧ lm.connface = Array2d.empty := by
  have hs : api.gPhyBFaceStart (quadRow 10) = api2d.gPhyBFaceStart (quadRow 10) := hstart
  rcases hrank with rfl | rfl
  ·
    have ev := quadRow10_eval_rank0
    have key := restrict_none_of_all_flagged api api2d (quadRow 10) [0, 0, 0, 0, 0, 1, 1, 1, 1, 1] 0 77 88 hs
      (evalPoints (quadRow 10) [0, 0, 0, 0, 0, 1, 1, 1, 1, 1] 0) (evalLocal4 (quadRow 10) [0, 0, 0, 0, 0, 1, 1, 1, 1, 1] 0)
      (List.replicate 12 true) ev.1 ev.2.1 ev.2.2.1 (by decide) lm h
    exact ⟨key.1, key.2.trans ev.2.2.2.1⟩
  ·
    have ev := quadRow10_eval_rank1
    have key := restrict_none_of_all_flagged api api2d (quadRow 10) [0, 0, 0, 0, 0, 1, 1, 1, 1, 1] 1 77 88 hs
      (evalPoints (quadRow 10) [0, 0, 0, 0, 0, 1, 1, 1, 1, 1] 1) (evalLocal4 (quadRow 10) [0, 0, 0, 0, 0, 1, 1, 1, 1, 1] 1)
      (List.replicate 12 true) ev.1 ev.2.1 ev.2.2.1 (by decide) lm h
    exact ⟨key.1, key.2.trans ev.2.2.2.1⟩

set_option maxRecDepth 100000 in
theorem single_row_no_connface_witness :
    (api2d.gPhyBFaceStart (quadRow 10) = 0 ∧ ((1 : Int) = 0 ∨ (1 : Int) = 1) ∧
      restrictMeshToPartitions api2d (quadRow 10) [0, 0, 0, 0, 0, 1, 1, 1, 1, 1] 1 77 88 =
        .ok (evalLocal (quadRow 10) [0, 0, 0, 0, 0, 1, 1, 1, 1, 1] 1) ∧
      (evalLocal (quadRow 10) [0, 0, 0, 0, 0, 1, 1, 1, 1, 1] 1).globalElemIndex =
        [5, 6, 7, 8, 9]) ∧
    (evalLocal (quadRow 10) [0, 0, 0, 0, 0, 1, 1, 1, 1, 1] 1).nconnface = 0 ∧
    (evalLocal (quadRow 10) [0, 0, 0, 0, 0, 1, 1, 1, 1, 1] 1).connface = Array2d.empty :=
  ⟨⟨rfl, Or.inr rfl, quadRow10_eval_rank1.2.2.2.2, by decide!⟩,
    single_row_no_connface api2d rfl 1 (Or.inr rfl)
      (evalLocal (quadRow 10) [0, 0, 0, 0, 0, 1, 1, 1, 1, 1] 1) quadRow10_eval_rank1.2.2.2.2⟩

/-! ## The consistency check on a correct restriction -/

set_option maxRecDepth 100000 in
/-- C17: the check does not pass on every correct restriction. The
two-by-two block of quadrilaterals is a valid mesh in whose face list the left
element of every interior face has the smaller index; Trivial partitioning
over two processes gives `[0, 0, 1, 1]`; the restriction on rank 1 succeeds
and records the two connectivity faces of the global elements 2 and 3 with
the global faces 9 and 10; with a local face list whose connectivity faces
have the left elements of column 0 of `connface`, `checkConnFaces` returns
`false`, because the left element of the global face 9 is element 0, the
neighbour on rank 0, and not the owning element 2. -/
theorem checkConnFaces_rejects_correct_restriction :
    TrivialReplicatedGlobalMeshPartitioner.compute_partition 2 ⟨quadBlock, []⟩ =
      .ok ⟨quadBlock, [0, 0, 1, 1]⟩ ∧
    (∀ G : Nat, G < quadBlock.naface → quadBlock.nbface ≤ G →
      (quadBlock.gintfac G 0 >>= fun l => quadBlock.gintfac G 1 >>= fun r =>
        pure (decide (l < r))) = .ok true) ∧
    restrictMeshToPartitions api2d quadBlock [0, 0, 1, 1] 1 77 88 =
      .ok (evalLocal quadBlock [0, 0, 1, 1] 1) ∧
    (evalLocal quadBlock [0, 0, 1, 1] 1).globalElemIndex = [2, 3] ∧
    (evalLocal quadBlock [0, 0, 1, 1] 1).nbface = 4 ∧
    (evalLocal quadBlock [0, 0, 1, 1] 1).nconnface = 2 ∧
    (evalLocal quadBlock [0, 0, 1, 1] 1).connface.elems = [0, 0, 0, 0, 9, 1, 0, 0, 1, 10] ∧
    (∀ i : Nat, i < 2 → blockRank1Faces.get ((4 + i : Nat) : Int) 0 =
      (evalLocal quadBlock [0, 0, 1, 1] 1).connface.get i 0) ∧
    quadBlock.gintfac 9 0 = .ok 0 ∧
    checkConnFaces quadBlock
      { evalLocal quadBlock [0, 0, 1, 1] 1 with intfac := blockRank1Faces } 4 6 = .ok false :=
  ⟨by decide!, by decide!, by decide!, by decide!, by decide!, by decide!, by decide!,
    by decide!, by decide!, by decide!⟩

/-! ## The stages before the connectivity records do not throw -/

/-- None of the stages of the restriction before the connectivity records
throws a `std::logic_error`: their failures are accesses outside a container
or `std::map::at` on a missing key. -/
theorem countLocalElems_noLogic {R : Type} (gm : UMesh2dh R) (elemdist : List Int) (rank : Int) :
    Res.NoLogic (countLocalElems gm elemdist rank) := by
  unfold countLocalElems
  repeat' first
    | exact Res.NoLogic.ok _
    | exact Res.NoLogic.pure _
    | exact Res.NoLogic.vecGet _ _
    | exact Res.NoLogic.vecSet _ _ _
    | exact Res.NoLogic.get _ _ _
    | exact Res.NoLogic.set _ _ _ _
    | exact Res.NoLogic.atKey _ _
    | assumption
    | apply Res.NoLogic.bind
    | apply Res.NoLogic.forLoop
    | apply Res.NoLogic.forLoopBrk
    | apply Res.NoLogic.ite
    | intro _

theorem extractInpoelStep_noLogic {R : Type} (gm : UMesh2dh R) (elemdist : List Int) (rank : Int) (iel : Nat)
    (s : Nat × List Int × UMesh2dh R) :
    Res.NoLogic (extractInpoelStep gm elemdist rank iel s) := by
  unfold extractInpoelStep
  repeat' first
    | exact Res.NoLogic.ok _
    | exact Res.NoLogic.pure _
    | exact Res.NoLogic.vecGet _ _
    | exact Res.NoLogic.vecSet _ _ _
    | exact Res.NoLogic.get _ _ _
    | exact Res.NoLogic.set _ _ _ _
    | exact Res.NoLogic.atKey _ _
    | assumption
    | apply Res.NoLogic.bind
    | apply Res.NoLogic.forLoop
    | apply Res.NoLogic.forLoopBrk
    | apply Res.NoLogic.ite
    | intro _

theorem extractInpoel_noLogic {R : Type} (gm lm : UMesh2dh R) (elemdist : List Int) (rank : Int) :
    Res.NoLogic (extractInpoel gm elemdist rank lm) := by
  unfold extractInpoel
  repeat' first
    | exact Res.NoLogic.ok _
    | exact Res.NoLogic.pure _
    | exact Res.NoLogic.vecGet _ _
    | exact Res.NoLogic.vecSet _ _ _
    | exact Res.NoLogic.get _ _ _
    | exact Res.NoLogic.set _ _ _ _
    | exact Res.NoLogic.atKey _ _
    | exact extractInpoelStep_noLogic _ _ _ _ _
    | assumption
    | apply Res.NoLogic.bind
    | apply Res.NoLogic.forLoop
    | apply Res.NoLogic.forLoopBrk
    | apply Res.NoLogic.ite
    | intro _

theorem restrictElems_noLogic {R : Type} (gm : UMesh2dh R) (elemdist : List Int) (rank junk : Int) :
    Res.NoLogic (restrictElems gm elemdist rank junk) := by
  unfold restrictElems
  repeat' first
    | exact Res.NoLogic.ok _
    | exact Res.NoLogic.pure _
    | exact Res.NoLogic.vecGet _ _
    | exact Res.NoLogic.vecSet _ _ _
    | exact Res.NoLogic.get _ _ _
    | exact Res.NoLogic.set _ _ _ _
    | exact Res.NoLogic.atKey _ _
    | exact countLocalElems_noLogic _ _ _
    | exact extractInpoel_noLogic _ _ _ _
    | assumption
    | apply Res.NoLogic.bind
    | apply Res.NoLogic.forLoop
    | apply Res.NoLogic.forLoopBrk
    | apply Res.NoLogic.ite
    | intro _

theorem collectPoints_noLogic {R : Type} (lm : UMesh2dh R) (lp0 : List Int) :
    Res.NoLogic (collectPoints lm lp0) := by
  unfold collectPoints
  repeat' first
    | exact Res.NoLogic.ok _
    | exact Res.NoLogic.pure _
    | exact Res.NoLogic.vecGet _ _
    | exact Res.NoLogic.vecSet _ _ _
    | exact Res.NoLogic.get _ _ _
    | exact Res.NoLogic.set _ _ _ _
    | exact Res.NoLogic.atKey _ _
    | assumption
    | apply Res.NoLogic.bind
    | apply Res.NoLogic.forLoop
    | apply Res.NoLogic.forLoopBrk
    | apply Res.NoLogic.ite
    | intro _

theorem buildGlbToLoc_noLogic (lp : List Int) (n : Nat) :
    Res.NoLogic (buildGlbToLoc lp n) := by
  unfold buildGlbToLoc
  repeat' first
    | exact Res.NoLogic.ok _
    | exact Res.NoLogic.pure _
    | exact Res.NoLogic.vecGet _ _
    | exact Res.NoLogic.vecSet _ _ _
    | exact Res.NoLogic.get _ _ _
    | exact Res.NoLogic.set _ _ _ _
    | exact Res.NoLogic.atKey _ _
    | assumption
    | apply Res.NoLogic.bind
    | apply Res.NoLogic.forLoop
    | apply Res.NoLogic.forLoopBrk
    | apply Res.NoLogic.ite
    | intro _

theorem copyCoords_noLogic {R : Type} (gm : UMesh2dh R) (lp : List Int) (n : Nat) :
    ∀ (fuel g l : Nat) (c : Array2d R), Res.NoLogic (copyCoords gm lp n fuel g l c) := by
  intro fuel
  induction fuel with
  | zero => intro g l c; exact Res.NoLogic.ok c
  | succ k ih =>
    intro g l c
    unfold copyCoords
    repeat' first
      | exact Res.NoLogic.ok _
      | exact Res.NoLogic.pure _
      | exact Res.NoLogic.vecGet _ _
      | exact Res.NoLogic.vecSet _ _ _
      | exact Res.NoLogic.get _ _ _
      | exact Res.NoLogic.set _ _ _ _
      | exact Res.NoLogic.atKey _ _
      | exact ih _ _ _
      | assumption
      | apply Res.NoLogic.bind
      | apply Res.NoLogic.forLoop
      | apply Res.NoLogic.forLoopBrk
      | apply Res.NoLogic.ite
      | intro _

theorem extractPointCoords_noLogic {R : Type} (gm lm : UMesh2dh R) (lp0 : List Int) (junkR : R) :
    Res.NoLogic (extractPointCoords gm lm lp0 junkR) := by
  unfold extractPointCoords
  repeat' first
    | exact Res.NoLogic.ok _
    | exact Res.NoLogic.pure _
    | exact Res.NoLogic.vecGet _ _
    | exact Res.NoLogic.vecSet _ _ _
    | exact Res.NoLogic.get _ _ _
    | exact Res.NoLogic.set _ _ _ _
    | exact Res.NoLogic.atKey _ _
    | exact collectPoints_noLogic _ _
    | exact buildGlbToLoc_noLogic _ _
    | exact copyCoords_noLogic _ _ _ _ _ _ _
    | assumption
    | apply Res.NoLogic.bind
    | apply Res.NoLogic.forLoop
    | apply Res.NoLogic.forLoopBrk
    | apply Res.NoLogic.ite
    | intro _

theorem convertInpoel_noLogic {R : Type} (lm : UMesh2dh R) (g2l : StdMap) :
    Res.NoLogic (convertInpoel lm g2l) := by
  unfold convertInpoel
  repeat' first
    | exact Res.NoLogic.ok _
    | exact Res.NoLogic.pure _
    | exact Res.NoLogic.vecGet _ _
    | exact Res.NoLogic.vecSet _ _ _
    | exact Res.NoLogic.get _ _ _
    | exact Res.NoLogic.set _ _ _ _
    | exact Res.NoLogic.atKey _ _
    | assumption
    | apply Res.NoLogic.bind
    | apply Res.NoLogic.forLoop
    | apply Res.NoLogic.forLoopBrk
    | apply Res.NoLogic.ite
    | intro _

theorem restrictPoints_noLogic {R : Type} (gm : UMesh2dh R) (elemdist : List Int) (rank junk : Int) (junkR : R) :
    Res.NoLogic (restrictPoints gm elemdist rank junk junkR) := by
  unfold restrictPoints
  repeat' first
    | exact Res.NoLogic.ok _
    | exact Res.NoLogic.pure _
    | exact Res.NoLogic.vecGet _ _
    | exact Res.NoLogic.vecSet _ _ _
    | exact Res.NoLogic.get _ _ _
    | exact Res.NoLogic.set _ _ _ _
    | exact Res.NoLogic.atKey _ _
    | exact restrictElems_noLogic _ _ _ _
    | exact extractPointCoords_noLogic _ _ _ _
    | exact convertInpoel_noLogic _ _
    | assumption
    | apply Res.NoLogic.bind
    | apply Res.NoLogic.forLoop
    | apply Res.NoLogic.forLoopBrk
    | apply Res.NoLogic.ite
    | intro _

theorem extractbfacesStep_noLogic {R : Type} (api : MeshMethods R) (gm : UMesh2dh R) (elemdist : List Int)
    (irank junk : Int) (g2l : StdMap) (iface : Nat) (s : List (List Int) × Nat) :
    Res.NoLogic (extractbfacesStep api gm elemdist irank g2l junk iface s) := by
  unfold extractbfacesStep UMesh2dh.gintfac
  repeat' first
    | exact Res.NoLogic.ok _
    | exact Res.NoLogic.pure _
    | exact Res.NoLogic.vecGet _ _
    | exact Res.NoLogic.vecSet _ _ _
    | exact Res.NoLogic.get _ _ _
    | exact Res.NoLogic.set _ _ _ _
    | exact Res.NoLogic.atKey _ _
    | assumption
    | apply Res.NoLogic.bind
    | apply Res.NoLogic.forLoop
    | apply Res.NoLogic.forLoopBrk
    | apply Res.NoLogic.ite
    | intro _

theorem fillBface_noLogic (tb : List (List Int)) (nb w : Nat) (a : Array2d Int) :
    Res.NoLogic (fillBface tb nb w a) := by
  unfold fillBface
  repeat' first
    | exact Res.NoLogic.ok _
    | exact Res.NoLogic.pure _
    | exact Res.NoLogic.vecGet _ _
    | exact Res.NoLogic.vecSet _ _ _
    | exact Res.NoLogic.get _ _ _
    | exact Res.NoLogic.set _ _ _ _
    | exact Res.NoLogic.atKey _ _
    | assumption
    | apply Res.NoLogic.bind
    | apply Res.NoLogic.forLoop
    | apply Res.NoLogic.forLoopBrk
    | apply Res.NoLogic.ite
    | intro _

theorem extractbfaces_noLogic {R : Type} (api : MeshMethods R) (gm lm : UMesh2dh R) (elemdist : List Int)
    (irank junk : Int) (g2l : StdMap) :
    Res.NoLogic (extractbfaces api gm elemdist irank g2l lm junk) := by
  unfold extractbfaces
  repeat' first
    | exact Res.NoLogic.ok _
    | exact Res.NoLogic.pure _
    | exact Res.NoLogic.vecGet _ _
    | exact Res.NoLogic.vecSet _ _ _
    | exact Res.NoLogic.get _ _ _
    | exact Res.NoLogic.set _ _ _ _
    | exact Res.NoLogic.atKey _ _
    | exact extractbfacesStep_noLogic _ _ _ _ _ _ _ _
    | exact fillBface_noLogic _ _ _ _
    | assumption
    | apply Res.NoLogic.bind
    | apply Res.NoLogic.forLoop
    | apply Res.NoLogic.forLoopBrk
    | apply Res.NoLogic.ite
    | intro _

theorem markLocalPhysicalBoundaryPoints_noLogic {R : Type} (lm : UMesh2dh R) :
    Res.NoLogic (markLocalPhysicalBoundaryPoints lm) := by
  unfold markLocalPhysicalBoundaryPoints
  repeat' first
    | exact Res.NoLogic.ok _
    | exact Res.NoLogic.pure _
    | exact Res.NoLogic.vecGet _ _
    | exact Res.NoLogic.vecSet _ _ _
    | exact Res.NoLogic.get _ _ _
    | exact Res.NoLogic.set _ _ _ _
    | exact Res.NoLogic.atKey _ _
    | assumption
    | apply Res.NoLogic.bind
    | apply Res.NoLogic.forLoop
    | apply Res.NoLogic.forLoopBrk
    | apply Res.NoLogic.ite
    | intro _

theorem isConnFace_noLogic {R : Type} (api : MeshMethods R) (lm : UMesh2dh R) (isB : List Bool) (e f : Nat) :
    Res.NoLogic (isConnFace api lm isB e f) := by
  unfold isConnFace
  repeat' first
    | exact Res.NoLogic.ok _
    | exact Res.NoLogic.pure _
    | exact Res.NoLogic.vecGet _ _
    | exact Res.NoLogic.vecSet _ _ _
    | exact Res.NoLogic.get _ _ _
    | exact Res.NoLogic.set _ _ _ _
    | exact Res.NoLogic.atKey _ _
    | assumption
    | apply Res.NoLogic.bind
    | apply Res.NoLogic.forLoop
    | apply Res.NoLogic.forLoopBrk
    | apply Res.NoLogic.ite
    | intro _

theorem getConnectivityFaceEIndices_noLogic {R : Type} (api : MeshMethods R) (lm : UMesh2dh R)
    (isB : List Bool) :
    Res.NoLogic (getConnectivityFaceEIndices api lm isB) := by
  unfold getConnectivityFaceEIndices
  repeat' first
    | exact Res.NoLogic.ok _
    | exact Res.NoLogic.pure _
    | exact Res.NoLogic.vecGet _ _
    | exact Res.NoLogic.vecSet _ _ _
    | exact Res.NoLogic.get _ _ _
    | exact Res.NoLogic.set _ _ _ _
    | exact Res.NoLogic.atKey _ _
    | exact isConnFace_noLogic _ _ _ _ _
    | assumption
    | apply Res.NoLogic.bind
    | apply Res.NoLogic.forLoop
    | apply Res.NoLogic.forLoopBrk
    | apply Res.NoLogic.ite
    | intro _

theorem faceMatched_noLogic {R : Type} (api : MeshMethods R) (gm lm : UMesh2dh R) (l2g lfp : List Int)
    (g : Int) (jgf : Nat) :
    Res.NoLogic (faceMatched api gm lm l2g lfp g jgf) := by
  unfold faceMatched
  repeat' first
    | exact Res.NoLogic.ok _
    | exact Res.NoLogic.pure _
    | exact Res.NoLogic.vecGet _ _
    | exact Res.NoLogic.vecSet _ _ _
    | exact Res.NoLogic.get _ _ _
    | exact Res.NoLogic.set _ _ _ _
    | exact Res.NoLogic.atKey _ _
    | assumption
    | apply Res.NoLogic.bind
    | apply Res.NoLogic.forLoop
    | apply Res.NoLogic.forLoopBrk
    | apply Res.NoLogic.ite
    | intro _

end ReplicatedGlobalMeshPartitioner

theorem Res.bind_eq_logic {α β : Type} {x : Res α} {f : α → Res β} {m : String}
    (hx : Res.NoLogic x) (h : (x >>= f) = .error (.logicError m)) :
    ∃ a, x = .ok a ∧ f a = .error (.logicError m) := by
  rw [Res.bind_eq_error] at h
  rcases h with h | h
  · exact absurd h (hx.out m)
  · exact h

namespace ReplicatedGlobalMeshPartitioner

/-! ## The failure of the restriction -/

/-- If the record of a connectivity face throws a `std::logic_error`, the
message is that of line 147 and either no face of the global element matched
or the matching face led to a negative entry of `elemdist`. -/
theorem connFaceRow_error {R : Type} (api : MeshMethods R) (gm lm : UMesh2dh R)
    (elemdist l2g faces : List Int) (e iconface icofa : Nat) (cf : Array2d Int) (m : String)
    (h : connFaceRow api gm lm elemdist l2g faces e iconface icofa cf =
      .error (.logicError m)) :
    m = "Could not find connectivity face!" ∧ ∃ f : Int, faces[iconface]? = some f ∧
      (NoGlobalFaceAmong api gm lm l2g e f ∨
        ∃ nbr r : Int, vecGet elemdist nbr = .ok r ∧ r < 0) := by
  unfold connFaceRow at h
  obtain ⟨f, hf, h⟩ := Res.bind_eq_logic (Res.NoLogic.vecGet _ _) h
  obtain ⟨cf1, h1, h⟩ := Res.bind_eq_logic (Res.NoLogic.set _ _ _ _) h
  obtain ⟨cf2, h2, h⟩ := Res.bind_eq_logic (Res.NoLogic.set _ _ _ _) h
  obtain ⟨cf3, h3, h⟩ := Res.bind_eq_logic (Res.NoLogic.set _ _ _ _) h
  obtain ⟨cf4, h4, h⟩ := Res.bind_eq_logic (Res.NoLogic.set _ _ _ _) h
  obtain ⟨g, hg, h⟩ := Res.bind_eq_logic (Res.NoLogic.vecGet _ _) h
  obtain ⟨gf, hgf, h⟩ := Res.bind_eq_logic (Res.NoLogic.get _ _ _) h
  obtain ⟨cf5, h5, h⟩ := Res.bind_eq_logic (Res.NoLogic.set _ _ _ _) h
  obtain ⟨lfp, hlfp, h⟩ := Res.bind_eq_logic (by
    apply Res.NoLogic.forLoop
    intro i s
    exact Res.NoLogic.bind (Res.NoLogic.get _ _ _) (fun _ => Res.NoLogic.vecSet _ _ _)) h
  obtain ⟨g', hg', h⟩ := Res.bind_eq_logic (Res.NoLogic.vecGet _ _) h
  rw [hg] at hg'
  cases hg'
  obtain ⟨gnf, hgnf, h⟩ := Res.bind_eq_logic (Res.NoLogic.vecGet _ _) h
  obtain ⟨cf6, hscan, h⟩ := Res.bind_eq_logic (by
    apply Res.NoLogic.forLoopBrk
    intro i s
    apply Res.NoLogic.bind (faceMatched_noLogic _ _ _ _ _ _ _)
    intro b
    apply Res.NoLogic.ite
    · exact Res.NoLogic.bind (Res.NoLogic.get _ _ _) (fun _ =>
        Res.NoLogic.bind (Res.NoLogic.vecGet _ _) (fun _ =>
          Res.NoLogic.bind (Res.NoLogic.set _ _ _ _) (fun _ =>
            Res.NoLogic.bind (Res.NoLogic.set _ _ _ _) (fun _ => Res.NoLogic.pure _))))
    · exact Res.NoLogic.pure _) h
  obtain ⟨c2, hc2, h⟩ := Res.bind_eq_logic (Res.NoLogic.get _ _ _) h
  have hneg : c2 < 0 ∧ m = "Could not find connectivity face!" := by
    by_cases hc : c2 < 0
    · rw [if_pos hc] at h
      refine ⟨hc, ?_⟩
      have h' := Except.error.inj h
      injection h' with h''
      exact h''.symm
    · rw [if_neg hc] at h
      cases h
  obtain ⟨_, hpts⟩ := locFacePoints_partial api lm e f lfp hlfp
  refine ⟨hneg.2, f, (vecGet_nat_ok_iff _ _ _).1 hf, ?_⟩
  rcases scanFaces_partial api gm lm elemdist l2g lfp g icofa gnf.toNat cf5 cf6 hscan with
    ⟨hnone, _⟩ | ⟨jgf, hj, hm, _, nbr, r, cfa, hnbr, hr, h6, h7⟩
  · left
    refine ⟨g, gnf, hg, hgnf, ?_⟩
    intro j hj hamong
    have := (faceMatched_iff_among api gm lm l2g lfp e f g j false hpts (hnone j hj)).2 hamong
    cases this
  · right
    refine ⟨nbr, r, hr, ?_⟩
    obtain ⟨b6, rfl⟩ := Array2d.set_nat_ok cf5 cfa icofa 2 r h6
    obtain ⟨b7, rfl⟩ := Array2d.set_nat_ok _ cf6 icofa 3 nbr h7
    have hget := (Array2d.get_nat_ok_iff _ icofa 2 c2).1 hc2
    simp only at hget
    rw [List.getElem?_set_ne (by omega), List.getElem?_set_self b6] at hget
    cases hget
    exact hneg.1

/-- If `buildConnface` throws a `std::logic_error`, it does so for a listed
face. -/
theorem buildConnface_error {R : Type} (api : MeshMethods R) (gm lm : UMesh2dh R)
    (elemdist l2g : List Int) (conn : List (List Int)) (junk : Int) (m : String)
    (h : buildConnface api gm lm elemdist l2g conn junk = .error (.logicError m)) :
    m = "Could not find connectivity face!" ∧ ∃ (e : Nat) (l : List Int) (f : Int),
      conn[e]? = some l ∧ f ∈ l ∧
      (NoGlobalFaceAmong api gm lm l2g e f ∨
        ∃ nbr r : Int, vecGet elemdist nbr = .ok r ∧ r < 0) := by
  unfold buildConnface at h
  obtain ⟨n, _, h⟩ := Res.bind_eq_logic (by
    apply Res.NoLogic.forLoop
    intro i s
    exact Res.NoLogic.bind (Res.NoLogic.vecGet _ _) (fun _ => Res.NoLogic.pure _)) h
  rw [Res.bind_eq_error] at h
  rcases h with h | ⟨_, _, h⟩
  · obtain ⟨k, t, _, _, _, hb⟩ := forLoop_error _ (fun _ _ => True) _ 0 lm.nelem _ h trivial
      (fun _ _ _ _ _ _ _ => trivial)
    obtain ⟨faces, hfaces, hb⟩ := Res.bind_eq_logic (Res.NoLogic.vecGet _ _) hb
    obtain ⟨i, s, _, hi, _, hrow⟩ := forLoop_error _ (fun _ _ => True) _ 0 faces.length _ hb
      trivial (fun _ _ _ _ _ _ _ => trivial)
    rw [Res.bind_eq_error] at hrow
    rcases hrow with hrow | ⟨_, _, hrow⟩
    · obtain ⟨hm, f, hf, hcase⟩ :=
        connFaceRow_error api gm lm elemdist l2g faces k i s.1 s.2 m hrow
      exact ⟨hm, k, faces, f, (vecGet_nat_ok_iff _ _ _).1 hfaces, List.getElem?_mem hf, hcase⟩
    · cases hrow
  · cases h

/-- If `restrictMeshToPartitions` throws a `std::logic_error`, the stages up
to `getConnectivityFaceEIndices` succeeded and `buildConnface` threw it. -/
theorem restrictMeshToPartitions_error {R : Type} (api : MeshMethods R) (gm : UMesh2dh R)
    (elemdist : List Int) (rank junk : Int) (junkR : R) (m : String)
    (h : restrictMeshToPartitions api gm elemdist rank junk junkR = .error (.logicError m)) :
    ∃ lm5 l2g g2l isB conn,
      PreConnStages api gm elemdist rank junk junkR lm5 l2g g2l isB conn ∧
      buildConnface api gm lm5 elemdist l2g conn junk = .error (.logicError m) := by
  unfold restrictMeshToPartitions at h
  obtain ⟨⟨lm3, l2g, g2l⟩, h3, h⟩ := Res.bind_eq_logic (restrictPoints_noLogic _ _ _ _ _) h
  obtain ⟨lm4, h4, h⟩ := Res.bind_eq_logic (extractbfaces_noLogic _ _ _ _ _ _ _) h
  obtain ⟨isB, h5, h⟩ := Res.bind_eq_logic (markLocalPhysicalBoundaryPoints_noLogic _) h
  obtain ⟨conn, h6, h⟩ := Res.bind_eq_logic (getConnectivityFaceEIndices_noLogic _ _ _) h
  exact ⟨_, l2g, g2l, isB, conn, ⟨lm3, lm4, h3, h4, rfl, h5, h6⟩, h⟩

/-- The stages up to `getConnectivityFaceEIndices` reduce the restriction to
`buildConnface`. -/
theorem PreConnStages.restrict_eq {R : Type} {api : MeshMethods R} {gm : UMesh2dh R}
    {elemdist : List Int} {rank junk : Int} {junkR : R} {lm5 : UMesh2dh R} {l2g : List Int}
    {g2l : StdMap} {isB : List Bool} {conn : List (List Int)}
    (hpre : PreConnStages api gm elemdist rank junk junkR lm5 l2g g2l isB conn) :
    restrictMeshToPartitions api gm elemdist rank junk junkR =
      buildConnface api gm lm5 elemdist l2g conn junk := by
  obtain ⟨lm3, lm4, h3, h4, rfl, h5, h6⟩ := hpre
  exact restrictMeshToPartitions_of_stages api gm lm3 lm4 elemdist l2g g2l isB conn rank junk
    junkR h3 h4 h5 h6

end ReplicatedGlobalMeshPartitioner

/-- A loop with `break` returns when every iteration reached under the
invariant returns. -/
theorem forLoopBrkAux_total_inv {σ : Type} (body : Nat → σ → Res (Bool × σ))
    (P : Nat → σ → Prop) :
    ∀ (n i : Nat) (s : σ), P i s →
      (∀ k t, i ≤ k → k < i + n → P k t →
        ∃ b t', body k t = .ok (b, t') ∧ (b = false → P (k + 1) t')) →
      ∃ s', forLoopBrkAux body n i s = .ok s' := by
  intro n
  induction n with
  | zero => intro i s _ _; exact ⟨s, rfl⟩
  | succ n ih =>
    intro i s h0 hstep
    unfold forLoopBrkAux
    obtain ⟨b, t', hb, hP⟩ := hstep i s (Nat.le_refl _) (by omega) h0
    rw [hb]
    cases b with
    | true => exact ⟨t', rfl⟩
    | false =>
      exact ih (i + 1) t' (hP rfl) (fun k t hk hk' hPk => hstep k t (by omega) (by omega) hPk)

namespace ReplicatedGlobalMeshPartitioner

theorem ok_of_toBool {α : Type} {x : Res α} (h : x.toBool = true) : ∃ a, x = .ok a :=
  (toBool_eq_true_iff x).1 h

theorem ok_of_bind_toBool {α β : Type} {x : Res α} {f : α → Res β}
    (h : (x >>= f).toBool = true) : ∃ a b, x = .ok a ∧ f a = .ok b := by
  obtain ⟨b, hb⟩ := (toBool_eq_true_iff _).1 h
  obtain ⟨a, ha, hf⟩ := (Res.bind_eq_ok x f b).1 hb
  exact ⟨a, b, ha, hf⟩

/-! ## The record of a connectivity face whose reads are in range -/

/-- The scan of the faces of the global element returns when the face
matching returns for every face and the neighbour and its rank can be read
for a face that matches. -/
theorem scanFaces_total {R : Type} (api : MeshMethods R) (gm lm : UMesh2dh R)
    (elemdist l2g lfp : List Int) (g : Int) (icofa n : Nat) (cf5 : Array2d Int)
    (hc : cf5.ncols = 5) (hb : icofa * 5 + 4 < cf5.elems.length)
    (hm : ∀ j : Nat, j < n → ∃ b, faceMatched api gm lm l2g lfp g j = .ok b)
    (hr : ∀ j : Nat, j < n → faceMatched api gm lm l2g lfp g j = .ok true →
      ∃ nbr r : Int, gm.esuel.get g j = .ok nbr ∧ vecGet elemdist nbr = .ok r) :
    ∃ cf6, forLoopBrk 0 n (fun jgf (cf : Array2d Int) => do
      let matched ← faceMatched api gm lm l2g lfp g jgf
      if matched then
        let nbr ← gm.esuel.get g jgf
        let r ← vecGet elemdist nbr
        let cf ← cf.set icofa 2 r
        let cf ← cf.set icofa 3 nbr
        pure (true, cf)
      else pure (false, cf)) cf5 = .ok cf6 := by
  apply forLoopBrkAux_total_inv _ (fun _ (t : Array2d Int) => t = cf5) (n - 0) 0 cf5 rfl
  intro k t _ hk ht
  subst ht
  obtain ⟨b, hbm⟩ := hm k (by omega)
  rw [hbm, Res.ok_bind]
  cases b with
  | false => exact ⟨false, t, rfl, fun _ => rfl⟩
  | true =>
    obtain ⟨nbr, r, hnbr, hrk⟩ := hr k (by omega) hbm
    obtain ⟨cfa, h6⟩ := setRow5_ok t icofa 2 2 r rfl hc (by omega)
    obtain ⟨_, b6, _, d6, _⟩ := setRow5 t cfa icofa 2 2 r rfl hc h6
    obtain ⟨cfb, h7⟩ := setRow5_ok cfa icofa 3 3 nbr rfl b6 (by omega)
    refine ⟨true, cfb, ?_, fun h => by cases h⟩
    simp only [if_true, hnbr, Res.ok_bind, hrk, h6, h7, Res.pure_eq]

/-- With its reads in range, the record of a connectivity face is either
written or refused with the `std::logic_error` of line 147. -/
theorem connFaceRow_okOrLogic {R : Type} (api : MeshMethods R) (gm lm : UMesh2dh R)
    (elemdist l2g faces : List Int) (e iconface icofa : Nat) (cf : Array2d Int) (f : Int)
    (hc : cf.ncols = 5) (hb : icofa * 5 + 4 < cf.elems.length)
    (hf : faces[iconface]? = some f)
    (hreads : ConnRowReads api gm lm elemdist l2g e f) :
    (∃ cf', connFaceRow api gm lm elemdist l2g faces e iconface icofa cf = .ok cf') ∨
    connFaceRow api gm lm elemdist l2g faces e iconface icofa cf =
      .error (.logicError "Could not find connectivity face!") := by
  obtain ⟨g, gnf, hg, hgnf, hgf, hloc, hglob⟩ := hreads
  obtain ⟨gf, hgf⟩ := ok_of_toBool hgf
  obtain ⟨cf1, h1⟩ := setRow5_ok cf icofa 0 0 (e : Int) rfl hc (by omega)
  obtain ⟨_, b1, _, d1, _⟩ := setRow5 cf cf1 icofa 0 0 _ rfl hc h1
  obtain ⟨cf2, h2⟩ := setRow5_ok cf1 icofa 1 1 f rfl b1 (by omega)
  obtain ⟨_, b2, _, d2, _⟩ := setRow5 cf1 cf2 icofa 1 1 _ rfl b1 h2
  obtain ⟨cf3, h3⟩ := setRow5_ok cf2 icofa 2 2 (-1) rfl b2 (by omega)
  obtain ⟨_, b3, _, d3, _⟩ := setRow5 cf2 cf3 icofa 2 2 _ rfl b2 h3
  obtain ⟨cf4, h4⟩ := setRow5_ok cf3 icofa 3 3 (-1) rfl b3 (by omega)
  obtain ⟨_, b4, _, d4, _⟩ := setRow5 cf3 cf4 icofa 3 3 _ rfl b3 h4
  obtain ⟨cf5, h5⟩ := setRow5_ok cf4 icofa 4 4 gf rfl b4 (by omega)
  obtain ⟨_, b5, _, d5, _⟩ := setRow5 cf4 cf5 icofa 4 4 _ rfl b4 h5
  obtain ⟨lfp, hlfp⟩ := locFacePoints_total api lm e f (by
    intro k hk
    obtain ⟨p, _, hp, _⟩ := ok_of_bind_toBool (hloc k hk)
    exact ⟨p, hp⟩)
  obtain ⟨hlen, hpts⟩ := locFacePoints_partial api lm e f lfp hlfp
  have hmatch : ∀ j : Nat, j < gnf.toNat →
      ∃ b, faceMatched api gm lm l2g lfp g j = .ok b := by
    intro j hj
    apply faceMatched_total
    · intro jn hjn
      exact ok_of_toBool ((hglob j hj).1 jn hjn)
    · intro k hk
      obtain ⟨p, hp, hl⟩ := hpts k hk
      obtain ⟨p', v, hp', hv⟩ := ok_of_bind_toBool (hloc k hk)
      rw [hp] at hp'
      cases hp'
      exact ⟨v, by rw [vecGet_nat _ _ _ hl]; exact hv⟩
  obtain ⟨cf6, hscan⟩ := scanFaces_total api gm lm elemdist l2g lfp g icofa gnf.toNat cf5 b5
    (by omega) hmatch (by
      intro j hj hm
      have hamong := (faceMatched_iff_among api gm lm l2g lfp e f g j true hpts hm).1 rfl
      obtain ⟨nbr, r, hnbr, hr⟩ := ok_of_bind_toBool ((hglob j hj).2 hamong)
      exact ⟨nbr, r, hnbr, hr⟩)
  have hshape : cf6.ncols = 5 ∧ cf6.elems.length = cf5.elems.length := by
    rcases scanFaces_partial api gm lm elemdist l2g lfp g icofa gnf.toNat cf5 cf6 hscan with
      ⟨_, hcf⟩ | ⟨jgf, _, _, _, nbr, r, cfa, _, _, h6, h7⟩
    · rw [hcf]; exact ⟨b5, rfl⟩
    · obtain ⟨_, b6, _, d6, _⟩ := setRow5 cf5 cfa icofa 2 2 _ rfl b5 h6
      obtain ⟨_, b7, _, d7, _⟩ := setRow5 cfa cf6 icofa 3 3 _ rfl b6 h7
      exact ⟨b7, by rw [d7, d6]⟩
  have hcell : icofa * 5 + 2 < cf6.elems.length := by
    rw [hshape.2]; omega
  have hc2 : cf6.get (icofa : Int) 2 = .ok cf6.elems[icofa * 5 + 2] :=
    (getRow5 cf6 icofa 2 2 _ rfl hshape.1).2 (List.getElem?_eq_getElem hcell)
  unfold connFaceRow
  simp only [vecGet_nat faces iconface f hf, Res.ok_bind, h1, h2, h3, h4, hg, hgf, h5, hlfp,
    hgnf, hscan, hc2]
  by_cases hneg : cf6.elems[icofa * 5 + 2] < 0
  · right
    rw [if_pos hneg]
    rfl
  · left
    rw [if_neg hneg]
    exact ⟨cf6, rfl⟩

/-- With the reads of every listed face in range, `buildConnface` either
returns a mesh or throws the `std::logic_error` of line 147. -/
theorem buildConnface_okOrLogic {R : Type} (api : MeshMethods R) (gm lm : UMesh2dh R)
    (elemdist l2g : List Int) (conn : List (List Int)) (junk : Int)
    (hlen : conn.length = lm.nelem)
    (hreads : ∀ (e : Nat) (l : List Int) (f : Int), conn[e]? = some l → f ∈ l →
      ConnRowReads api gm lm elemdist l2g e f) :
    (∃ lm', buildConnface api gm lm elemdist l2g conn junk = .ok lm') ∨
    buildConnface api gm lm elemdist l2g conn junk =
      .error (.logicError "Could not find connectivity face!") := by
  unfold buildConnface
  rw [countConnFaces_total conn lm.nelem hlen, Res.ok_bind]
  have key := forLoop_okOrErr (fun iel (s : Nat × Array2d Int) => do
      let faces ← vecGet conn iel
      forLoop 0 faces.length (fun iconface (s : Nat × Array2d Int) => do
        let cf ← connFaceRow api gm lm elemdist l2g faces iel iconface s.1 s.2
        pure (s.1 + 1, cf)) s)
    (fun k (s : Nat × Array2d Int) => s.1 = connRowIndex conn k 0 ∧
      (0 < (conn.map List.length).sum → s.2.ncols = 5 ∧
        s.2.elems.length = (conn.map List.length).sum * 5))
    (.logicError "Could not find connectivity face!") 0 lm.nelem
    (0, if (conn.map List.length).sum > 0
      then lm.connface.resize (conn.map List.length).sum 5 junk else lm.connface)
    (Nat.zero_le _)
    ⟨by simp [connRowIndex], by
      intro hpos
      rw [if_pos hpos]
      exact ⟨rfl, by simp [Array2d.resize]⟩⟩
    (by
      intro k t _ hk ⟨ht1, hshape⟩
      have hkl : k < conn.length := by omega
      have hfaces : conn[k]? = some conn[k] := List.getElem?_eq_getElem hkl
      dsimp only
      rw [vecGet_of_lt conn k hkl, Res.ok_bind]
      have inner := forLoop_okOrErr (fun iconface (s : Nat × Array2d Int) => do
          let cf ← connFaceRow api gm lm elemdist l2g conn[k] k iconface s.1 s.2
          pure (s.1 + 1, cf))
        (fun i (s : Nat × Array2d Int) => s.1 = connRowIndex conn k i ∧
          (0 < (conn.map List.length).sum → s.2.ncols = 5 ∧
            s.2.elems.length = (conn.map List.length).sum * 5))
        (.logicError "Could not find connectivity face!") 0 conn[k].length t
        (Nat.zero_le _) ⟨ht1, hshape⟩
        (by
          intro i s _ hi ⟨hs1, hsh⟩
          have hlt := connRowIndex_lt conn k i conn[k] hfaces hi
          obtain ⟨hnc, hne⟩ := hsh (by omega)
          have hfi : conn[k][i]? = some conn[k][i] := List.getElem?_eq_getElem hi
          rcases connFaceRow_okOrLogic api gm lm elemdist l2g conn[k] k i s.1 s.2 conn[k][i]
            hnc (by rw [hne, hs1]; omega) hfi
            (hreads k conn[k] conn[k][i] hfaces (List.getElem_mem hi)) with ⟨cf', hcf⟩ | herr
          · left
            obtain ⟨_, p2, _, p4, _⟩ := connFaceRow_partial api gm lm elemdist l2g conn[k] k i
              s.1 s.2 cf' hnc hcf
            refine ⟨(s.1 + 1, cf'), by dsimp only; rw [hcf]; rfl, ?_, fun _ => ⟨p2, by
              rw [p4, hne]⟩⟩
            show s.1 + 1 = connRowIndex conn k (i + 1)
            rw [hs1, connRowIndex_add conn k i, connRowIndex_add conn k (i + 1)]
            omega
          · right
            dsimp only
            rw [herr]
            rfl)
      rcases inner with ⟨s', hs', hi1, hi2⟩ | herr
      · left
        refine ⟨s', hs', ?_, hi2⟩
        rw [hi1, connRowIndex_add, connRowIndex_succ conn k conn[k] hfaces]
      · right
        exact herr)
  dsimp only
  rcases key with ⟨r, hr, _⟩ | herr
  · left
    rw [hr]
    exact ⟨_, rfl⟩
  · right
    rw [herr]
    rfl

/-- C15: with all entries of `elemdist` non-negative,
`restrictMeshToPartitions` throws a `std::logic_error` only with the message
'Could not find connectivity face!' and only when the stages up to
`getConnectivityFaceEIndices` succeeded and some listed connectivity face `f`
of a local element `e` is such that no face `jgf` of the global element
`globalElemIndex[e]` has all of its points among the global indices of the
points of `f`; conversely, when there is such a face and the reads of the
records are inside their containers, the restriction throws that error; and
a restriction that fails returns no mesh. -/
theorem restrict_fails_iff_no_matching_face {R : Type} (api : MeshMethods R)
    (gm : UMesh2dh R) (elemdist : List Int) (rank junk : Int) (junkR : R)
    (hnn : ∀ d ∈ elemdist, 0 ≤ d) :
    (∀ m : String,
      restrictMeshToPartitions api gm elemdist rank junk junkR = .error (.logicError m) →
      m = "Could not find connectivity face!" ∧
      ∃ lm5 l2g g2l isB conn,
        PreConnStages api gm elemdist rank junk junkR lm5 l2g g2l isB conn ∧
        ∃ (e : Nat) (l : List Int) (f : Int), conn[e]? = some l ∧ f ∈ l ∧
          NoGlobalFaceAmong api gm lm5 l2g e f) ∧
    (∀ lm5 l2g g2l isB conn,
      PreConnStages api gm elemdist rank junk junkR lm5 l2g g2l isB conn →
      (∀ (e : Nat) (l : List Int) (f : Int), conn[e]? = some l → f ∈ l →
        ConnRowReads api gm lm5 elemdist l2g e f) →
      (∃ (e : Nat) (l : List Int) (f : Int), conn[e]? = some l ∧ f ∈ l ∧
        NoGlobalFaceAmong api gm lm5 l2g e f) →
      restrictMeshToPartitions api gm elemdist rank junk junkR =
        .error (.logicError "Could not find connectivity face!")) ∧
    (∀ err : Err, restrictMeshToPartitions api gm elemdist rank junk junkR = .error err →
      ∀ lm, restrictMeshToPartitions api gm elemdist rank junk junkR ≠ .ok lm) := by
  refine ⟨?_, ?_, ?_⟩
  · intro m h
    obtain ⟨lm5, l2g, g2l, isB, conn, hpre, hbuild⟩ :=
      restrictMeshToPartitions_error api gm elemdist rank junk junkR m h
    obtain ⟨hm, e, l, f, hl, hf, hcase⟩ :=
      buildConnface_error api gm lm5 elemdist l2g conn junk m hbuild
    refine ⟨hm, lm5, l2g, g2l, isB, conn, hpre, e, l, f, hl, hf, ?_⟩
    rcases hcase with hno | ⟨nbr, r, hr, hneg⟩
    · exact hno
    · exfalso
      rw [vecGet_ok_iff] at hr
      have := hnn r (List.getElem?_mem hr.2)
      omega
  · intro lm5 l2g g2l isB conn hpre hreads ⟨e, l, f, hl, hf, g, gnf, hg, hgnf, hno⟩
    rw [hpre.restrict_eq]
    have hlen : conn.length = lm5.nelem := by
      obtain ⟨_, _, _, _, _, _, h6⟩ := hpre
      exact ( getConnectivityFaceEIndices_partial api _ isB conn h6).1
    rcases buildConnface_okOrLogic api gm lm5 elemdist l2g conn junk hlen hreads with
      ⟨lm', hok⟩ | herr
    · exfalso
      obtain ⟨i, hi, hfi⟩ := List.getElem_of_mem hf
      obtain ⟨_, _, _, hrec⟩ := buildConnface_partial api gm lm5 lm' elemdist l2g conn junk
        hlen hok
      obtain ⟨g', _, _, _, gnf', jgf, hg', _, hgnf', hj, hamong, _⟩ :=
        hrec e i l f hl (by rw [List.getElem?_eq_getElem hi, hfi])
      rw [hg] at hg'
      cases hg'
      rw [hgnf] at hgnf'
      cases hgnf'
      exact hno jgf hj hamong
    · exact herr
  · intro err h lm h'
    rw [h] at h'
    cases h'

set_option maxRecDepth 100000 in
theorem restrict_fails_iff_no_matching_face_witness :
    ((∀ d ∈ ([0, 0, 1, 1] : List Int), 0 ≤ d) ∧
      restrictMeshToPartitions apiSkew quadBlock [0, 0, 1, 1] 0 77 88 =
        .error (.logicError "Could not find connectivity face!")) ∧
    ("Could not find connectivity face!" = "Could not find connectivity face!" ∧
      ∃ lm5 l2g g2l isB conn,
        PreConnStages apiSkew quadBlock [0, 0, 1, 1] 0 77 88 lm5 l2g g2l isB conn ∧
        ∃ (e : Nat) (l : List Int) (f : Int), conn[e]? = some l ∧ f ∈ l ∧
          NoGlobalFaceAmong apiSkew quadBlock lm5 l2g e f) :=
  ⟨⟨by decide, by decide!⟩,
    (restrict_fails_iff_no_matching_face apiSkew quadBlock [0, 0, 1, 1] 0 77 88
      (by decide)).1 _ (by decide!)⟩

/-! ## The local elements and their nodes, as helper facts -/

/-- What steps 1 to 3 leave in the local mesh, for a sized global mesh: the
local elements are the selected global elements in increasing order, with
their node and face counts, and every node entry of a local element is the
local index of the corresponding node of its global element, which
`pointLoc2Glob` and `pointGlob2Loc` map to one another. -/
theorem restrictPoints_facts {R : Type} (gm : UMesh2dh R) (elemdist : List Int)
    (rank junk : Int) (junkR : R) (hs : gm.ElemsSized) (hc : gm.CoordsSized)
    (hb : gm.NodesBounded) (hd : elemdist.length = gm.nelem)
    (lm3 : UMesh2dh R) (l2g : List Int) (g2l : StdMap)
    (h : restrictPoints gm elemdist rank junk junkR = .ok (lm3, l2g, g2l)) :
    lm3.nelem = (selected elemdist rank gm.nelem).length ∧
    lm3.globalElemIndex = (selected elemdist rank gm.nelem).map (fun (g : Nat) => (g : Int)) ∧
    lm3.nnofa = gm.nnofa ∧ lm3.npoin = l2g.length ∧
    ∀ (e g : Nat), (selected elemdist rank gm.nelem)[e]? = some g →
      lm3.nnode[e]? = gm.nnode[g]? ∧ lm3.nfael[e]? = gm.nfael[g]? ∧
      ∀ (j : Nat) (n : Int), gm.nnode[g]? = some n → (j : Int) < n →
        ∃ (v : Nat) (p : Int), lm3.inpoel.get e j = .ok (v : Int) ∧
          gm.inpoel.get g j = .ok p ∧ l2g[v]? = some p ∧ g2l.lookup p = some (v : Int) := by
  obtain ⟨lm1, g2l', l2g', lm2, h1, h2, hn, hg, hrows, hpw, hmem, hm1, hm2, hf, _⟩ :=
    localPoints_spec gm elemdist rank junk junkR hs hc hb hd
  obtain ⟨lm1', lm2', h1', h2', h3', _, hf3⟩ :=
    restrictPoints_frame gm lm3 elemdist l2g g2l rank junk junkR h
  rw [h1] at h1'
  cases h1'
  rw [h2] at h2'
  cases h2'
  obtain ⟨lmE, hE, _, _, _, hnnofa, _⟩ := restrictElems_spec gm elemdist rank junk hs hd
  rw [h1] at hE
  cases hE
  obtain ⟨r1, r2, r3, r4, r5, r6, r7, r8⟩ := hrows
  obtain ⟨g1, g2, g3, g4, g5⟩ := hs
  have fi : lm2.inpoel = lm1.inpoel := by rw [hf]
  have fn : lm2.nnode = lm1.nnode := by rw [hf]
  have fe : lm2.nelem = lm1.nelem := by rw [hf]
  have ff : lm2.nfael = lm1.nfael := by rw [hf]
  have fg : lm2.globalElemIndex = lm1.globalElemIndex := by rw [hf]
  have fp : lm2.npoin = l2g.length := by rw [hf]
  have fa : lm2.nnofa = lm1.nnofa := by rw [hf]
  have k1 : lm3.nelem = lm2.nelem := by rw [hf3]
  have k2 : lm3.globalElemIndex = lm2.globalElemIndex := by rw [hf3]
  have k3 : lm3.nnofa = lm2.nnofa := by rw [hf3]
  have k4 : lm3.npoin = lm2.npoin := by rw [hf3]
  have k5 : lm3.nnode = lm2.nnode := by rw [hf3]
  have k6 : lm3.nfael = lm2.nfael := by rw [hf3]
  have hcell : ∀ (i j : Nat) (n : Int), lm1.nnode[i]? = some n → (j : Int) < n →
      ∃ (g : Nat) (p : Int), (selected elemdist rank gm.nelem)[i]? = some g ∧
        lm1.inpoel.elems[i * lm1.inpoel.ncols + j]? = some p ∧
        gm.inpoel.get g j = .ok p ∧ p ∈ l2g := by
    intro i j n hni hj
    have hil : i < (selected elemdist rank gm.nelem).length := by
      by_contra hcn
      rw [List.getElem?_eq_none (by omega)] at hni
      cases hni
    have hgi := List.getElem?_eq_getElem hil
    have hsel := (selected_mem _ _ _ _).1 (List.getElem_mem hil)
    generalize (selected elemdist rank gm.nelem)[i] = g at hgi hsel
    obtain ⟨q1, q2, _⟩ := r8 i g hgi
    have hng : gm.nnode[g]? = some n := by rw [← q2]; exact hni
    have hnb := hb n (List.getElem?_mem hng)
    have hjm : j < gm.maxnnode := by omega
    have hlt : g * gm.maxnnode + j < gm.inpoel.elems.length := by
      rw [g4]; exact flat_lt hsel.1 hjm
    have hget : gm.inpoel.get (g : Int) (j : Int) = .ok gm.inpoel.elems[g * gm.maxnnode + j] := by
      rw [Array2d.get_nat_ok_iff, g3]; exact List.getElem?_eq_getElem hlt
    refine ⟨g, gm.inpoel.elems[g * gm.maxnnode + j], hgi, ?_, hget, ?_⟩
    · rw [r2, q1 j hjm]; exact List.getElem?_eq_getElem hlt
    · exact (hmem _).2 ⟨g, j, n, hsel.1, hsel.2, hng, hj, hget⟩
  obtain ⟨a, h3, a1, a2, a3, a4, a5⟩ := convertInpoel_spec lm2 g2l
    (by rw [fi, fe, r2, r3]) (by rw [fn, fe, r6])
    (by
      intro n hn'
      rw [fn] at hn'
      obtain ⟨i, hi⟩ := List.mem_iff_getElem?.1 hn'
      rw [fi, r2]
      by_cases hz : 0 ≤ n - 1
      · obtain ⟨g, p, hgi, _, _, _⟩ := hcell i 0 n hi (by omega)
        rw [(r8 i g hgi).2.1] at hi
        exact hb n (List.getElem?_mem hi)
      · omega)
    (by
      intro i j n hni hj
      rw [fn] at hni
      rw [fi]
      obtain ⟨g, p, _, hp, _, hpm⟩ := hcell i j n hni hj
      obtain ⟨idx, hidx⟩ := List.mem_iff_getElem?.1 hpm
      exact ⟨p, idx, hp, hm1 idx p hidx⟩)
  rw [h3] at h3'
  have hinp : lm3.inpoel = a := (Except.ok.inj h3').symm
  refine ⟨by rw [k1, fe, hn], by rw [k2, fg, hg], by rw [k3, fa, hnnofa], by rw [k4, fp], ?_⟩
  intro e g hsel
  obtain ⟨_, q2, q3⟩ := r8 e g hsel
  refine ⟨by rw [k5, fn]; exact q2, by rw [k6, ff]; exact q3, ?_⟩
  intro j n hng hj
  have hnl1 : lm1.nnode[e]? = some n := by rw [q2]; exact hng
  obtain ⟨g', p, hgi, hp, hget, hpm⟩ := hcell e j n hnl1 hj
  rw [hsel] at hgi
  cases hgi
  obtain ⟨idx, hidx⟩ := List.mem_iff_getElem?.1 hpm
  refine ⟨idx, p, ?_, hget, hidx, hm1 idx p hidx⟩
  rw [hinp, Array2d.get_nat_ok_iff, a2, a5 e j n (by rw [fn]; exact hnl1) hj, fi, hp]
  exact hm1 idx p hidx

/-- The facts of `restrictPoints_facts` for the mesh of step 5 of a run, with
the converse that every selected global element is a local element. -/
theorem RestrictStages.points_facts {R : Type} {api : MeshMethods R} {gm : UMesh2dh R}
    {elemdist : List Int} {rank junk : Int} {junkR : R} {lm5 : UMesh2dh R} {l2g : List Int}
    {g2l : StdMap} {isB : List Bool} {conn : List (List Int)} {lm : UMesh2dh R}
    (hst : RestrictStages api gm elemdist rank junk junkR lm5 l2g g2l isB conn lm)
    (hs : gm.ElemsSized) (hc : gm.CoordsSized) (hb : gm.NodesBounded)
    (hd : elemdist.length = gm.nelem) :
    lm5.nnofa = gm.nnofa ∧
    (∀ e : Nat, e < lm5.nelem → ∃ g : Nat, g < gm.nelem ∧ elemdist[g]? = some rank ∧
      lm5.globalElemIndex[e]? = some (g : Int) ∧
      lm5.nnode[e]? = gm.nnode[g]? ∧ lm5.nfael[e]? = gm.nfael[g]? ∧
      ∀ (j : Nat) (n : Int), gm.nnode[g]? = some n → (j : Int) < n →
        (lm5.inpoel.get e j >>= vecGet l2g) = gm.inpoel.get g j ∧
        (gm.inpoel.get g j).toBool = true) ∧
    (∀ g : Nat, g < gm.nelem → elemdist[g]? = some rank →
      ∃ e : Nat, e < lm5.nelem ∧ lm5.globalElemIndex[e]? = some (g : Int)) ∧
    (∀ x : Int, x ∈ lm5.globalElemIndex → ∃ g : Nat, x = (g : Int) ∧ g < gm.nelem ∧
      elemdist[g]? = some rank) := by
  obtain ⟨lm3, lm4, h3, h4, rfl, h5, h6, h7⟩ := hst
  obtain ⟨p1, p2, p3, p4, p5⟩ :=
    restrictPoints_facts gm elemdist rank junk junkR hs hc hb hd lm3 l2g g2l h3
  have f4 := extractbfaces_frame _ _ _ _ _ _ _ _ h4
  have e1 : lm4.nelem = lm3.nelem := by rw [f4]
  have e2 : lm4.globalElemIndex = lm3.globalElemIndex := by rw [f4]
  have e3 : lm4.nnofa = lm3.nnofa := by rw [f4]
  have e4 : lm4.nnode = lm3.nnode := by rw [f4]
  have e5 : lm4.nfael = lm3.nfael := by rw [f4]
  have e6 : lm4.inpoel = lm3.inpoel := by rw [f4]
  refine ⟨by show lm4.nnofa = gm.nnofa; rw [e3, p3], ?_, ?_, ?_⟩
  · intro e he
    change e < lm4.nelem at he
    rw [e1, p1] at he
    have hsel := List.getElem?_eq_getElem he
    have hmem := (selected_mem _ _ _ _).1 (List.getElem_mem he)
    generalize (selected elemdist rank gm.nelem)[e] = g at hsel hmem
    obtain ⟨q1, q2, q3⟩ := p5 e g hsel
    refine ⟨g, hmem.1, hmem.2, ?_, ?_, ?_, ?_⟩
    · show lm4.globalElemIndex[e]? = some (g : Int)
      rw [e2, p2, List.getElem?_map, hsel]
      rfl
    · show lm4.nnode[e]? = gm.nnode[g]?
      rw [e4]; exact q1
    · show lm4.nfael[e]? = gm.nfael[g]?
      rw [e5]; exact q2
    · intro j n hn hj
      obtain ⟨v, p, hv, hp, hl, _⟩ := q3 j n hn hj
      show (lm4.inpoel.get e j >>= vecGet l2g) = gm.inpoel.get g j ∧ _
      rw [e6, hv, hp, Res.ok_bind, vecGet_nat _ _ _ hl]
      exact ⟨rfl, rfl⟩
  · intro g hg hr
    have hmem : g ∈ selected elemdist rank gm.nelem := (selected_mem _ _ _ _).2 ⟨hg, hr⟩
    obtain ⟨e, he, heq⟩ := List.getElem_of_mem hmem
    refine ⟨e, by show e < lm4.nelem; rw [e1, p1]; exact he, ?_⟩
    show lm4.globalElemIndex[e]? = some (g : Int)
    rw [e2, p2, List.getElem?_map, List.getElem?_eq_getElem he, heq]
    rfl
  · intro x hx
    change x ∈ lm4.globalElemIndex at hx
    rw [e2, p2] at hx
    obtain ⟨g, hg, rfl⟩ := List.mem_map.1 hx
    have := (selected_mem _ _ _ _).1 hg
    exact ⟨g, rfl, this.1, this.2⟩

end ReplicatedGlobalMeshPartitioner

/-! ## The matching face under the standard numbering -/

/-- Among the sides of a polygon with at least three sides, side `j` has both
its corners among the corners of side `f` only if `j = f`. -/
theorem side_index_unique (n f j k k' : Nat) (hn : 3 ≤ n) (hf : f < n) (hj : j < n)
    (hk : k < 2) (hk' : k' < 2) (h0 : (f + k) % n = (j + 0) % n)
    (h1 : (f + k') % n = (j + 1) % n) : j = f := by
  have m1 : ∀ x : Nat, x < n → (x + 1) % n = if x + 1 < n then x + 1 else 0 := by
    intro x hx
    split
    · rename_i h; exact Nat.mod_eq_of_lt h
    · have : x + 1 = n := by omega
      rw [this, Nat.mod_self]
  have m0 : ∀ x : Nat, x < n → (x + 0) % n = x := by
    intro x hx
    exact Nat.mod_eq_of_lt hx
  rw [m0 j hj] at h0
  rw [m1 j hj] at h1
  interval_cases k <;> interval_cases k'
  · rw [m0 f hf] at h0
    omega
  · rw [m0 f hf] at h0
    omega
  · rw [m1 f hf] at h0
    rw [m0 f hf] at h1
    split_ifs at h0 h1 <;> omega
  · rw [m1 f hf] at h0 h1
    split_ifs at h0 h1 <;> omega

namespace ReplicatedGlobalMeshPartitioner

/-- The index that the standard numbering gives to point `k` of face `f` of
an element with `n` nodes. -/
theorem StandardNumbering.index {R : Type} {api : MeshMethods R} (hnum : StandardNumbering api)
    (m : UMesh2dh R) (e f k n : Nat) (hn : m.nnode[e]? = some (n : Int)) :
    api.getNodeEIndex m (e : Int) (f : Int) (k : Int) = (((f + k) % n : Nat) : Int) := by
  rw [hnum m e f k, Int.toNat_natCast, List.getD_eq_getElem?_getD, hn]
  simp

/-- For an element with at least three pairwise distinct nodes, numbered in
the standard way on the local and on the global mesh, the only face of the
global element all of whose points occur among the global indices of the
points of the local face `f` is face `f` itself. -/
theorem globalFaceAmong_iff_same {R : Type} (api : MeshMethods R) (gm lm : UMesh2dh R)
    (l2g : List Int) (e g n : Nat) (hnum : StandardNumbering api) (hn3 : 3 ≤ n)
    (hnf : gm.nnofa = 2) (hlf : lm.nnofa = 2)
    (hgn : gm.nnode[g]? = some (n : Int)) (hln : lm.nnode[e]? = some (n : Int))
    (hinj : ∀ i : Nat, i < n → ∀ j : Nat, j < n →
      gm.inpoel.get g i = gm.inpoel.get g j → i = j)
    (hrt : ∀ j : Nat, j < n → (lm.inpoel.get e j >>= vecGet l2g) = gm.inpoel.get g j ∧
      (gm.inpoel.get g j).toBool = true)
    (f jgf : Nat) (hf : f < n) (hj : jgf < n) :
    GlobalFaceAmong api gm lm l2g e (f : Int) (g : Int) jgf ↔ jgf = f := by
  have hpos : 0 < n := by omega
  unfold GlobalFaceAmong
  rw [hnf, hlf]
  constructor
  · intro h
    obtain ⟨_, k, hk, e0⟩ := h 0 (by omega)
    obtain ⟨_, k', hk', e1⟩ := h 1 (by omega)
    rw [show ((0 : Nat) : Int) = ((0 : Nat) : Int) from rfl,
      StandardNumbering.index hnum gm g jgf 0 n hgn,
      StandardNumbering.index hnum lm e f k n hln,
      (hrt _ (Nat.mod_lt _ hpos)).1] at e0
    rw [StandardNumbering.index hnum gm g jgf 1 n hgn,
      StandardNumbering.index hnum lm e f k' n hln,
      (hrt _ (Nat.mod_lt _ hpos)).1] at e1
    have q0 := hinj _ (Nat.mod_lt _ hpos) _ (Nat.mod_lt _ hpos) e0
    have q1 := hinj _ (Nat.mod_lt _ hpos) _ (Nat.mod_lt _ hpos) e1
    exact side_index_unique n f jgf k k' hn3 hf hj hk hk' q0 q1
  · rintro rfl jn hjn
    rw [StandardNumbering.index hnum gm g jgf jn n hgn]
    refine ⟨(hrt _ (Nat.mod_lt _ hpos)).2, jn, hjn, ?_⟩
    rw [StandardNumbering.index hnum lm e jgf jn n hln]
    exact (hrt _ (Nat.mod_lt _ hpos)).1

/-! ## The record of a listed face under the standard numbering -/

/-- In a run on a sized mesh of polygons with the standard numbering, the
face of the global element that the record of a listed face `f` of the local
element `e` is taken from is face `f` of the global element `g` of `e`: the
record holds `e`, `f`, the rank of `gm.esuel(g, f)`, `gm.esuel(g, f)` and
`gm.elemface(g, f)`; and `lm.esuel(e, f)` is `-1`. -/
theorem RestrictStages.listed_face {R : Type} {api : MeshMethods R} {gm : UMesh2dh R}
    {elemdist : List Int} {rank junk : Int} {junkR : R} {lm5 : UMesh2dh R} {l2g : List Int}
    {g2l : StdMap} {isB : List Bool} {conn : List (List Int)} {lm : UMesh2dh R}
    (hst : RestrictStages api gm elemdist rank junk junkR lm5 l2g g2l isB conn lm)
    (hs : gm.ElemsSized) (hc : gm.CoordsSized) (hb : gm.NodesBounded)
    (hd : elemdist.length = gm.nelem) (hnum : StandardNumbering api)
    (hpoly : gm.ValidPolygons)
    (e i : Nat) (l : List Int) (f : Int) (hl : conn[e]? = some l) (hf : l[i]? = some f) :
    ∃ (g fN n : Nat) (nbr rk gf : Int), f = (fN : Int) ∧ e < lm5.nelem ∧ g < gm.nelem ∧
      elemdist[g]? = some rank ∧ lm5.globalElemIndex[e]? = some (g : Int) ∧
      gm.nfael[g]? = some (n : Int) ∧ lm5.nfael[e]? = some (n : Int) ∧ fN < n ∧
      lm5.esuel.get e fN = .ok (-1) ∧
      gm.esuel.get g fN = .ok nbr ∧ vecGet elemdist nbr = .ok rk ∧
      gm.gelemface g fN = .ok gf ∧
      lm.connface.get (connRowIndex conn e i) 0 = .ok (e : Int) ∧
      lm.connface.get (connRowIndex conn e i) 1 = .ok f ∧
      lm.connface.get (connRowIndex conn e i) 2 = .ok rk ∧
      lm.connface.get (connRowIndex conn e i) 3 = .ok nbr ∧
      lm.connface.get (connRowIndex conn e i) 4 = .ok gf := by
  obtain ⟨hlen, hn, _, _, hrec⟩ := hst.records
  obtain ⟨_, hlists⟩ := hst.lists
  obtain ⟨pn, pe, _, _⟩ := hst.points_facts hs hc hb hd
  have he : e < lm5.nelem := by
    rw [← hlen]; exact (List.getElem?_eq_some_iff.1 hl).1
  obtain ⟨l', nf, hl', hnf, _, hmemN, hiff⟩ := hlists e he
  rw [hl] at hl'
  have hll : l = l' := Option.some.inj hl'
  subst hll
  have hfm : f ∈ l := List.getElem?_mem hf
  obtain ⟨fN, hfe, hfN⟩ := hmemN f hfm
  subst hfe
  have hnl := ((hiff fN hfN).1 hfm).1
  obtain ⟨g, hg, hed, hgei, hnn, hnfa, hrt⟩ := pe e he
  obtain ⟨hnofa, hpg⟩ := hpoly
  obtain ⟨h3, hfn, hinj⟩ := hpg g hg
  have hnlen : g < gm.nnode.length := by rw [hs.1]; exact hg
  have hgn : gm.nnode[g]? = some (gm.nnode.getD g 0) := by
    rw [List.getD_eq_getElem?_getD, List.getElem?_eq_getElem hnlen]
    rfl
  obtain ⟨n, hnI⟩ : ∃ n : Nat, gm.nnode.getD g 0 = (n : Int) :=
    ⟨_, (Int.toNat_of_nonneg (by omega)).symm⟩
  rw [hnI] at hgn h3 hinj
  simp only [Int.toNat_natCast] at hinj
  have hn3 : 3 ≤ n := by exact_mod_cast h3
  have hgf : gm.nfael[g]? = some (n : Int) := by rw [hfn]; exact hgn
  have hlf : lm5.nfael[e]? = some (n : Int) := by rw [hnfa]; exact hgf
  have hnfn : nf = (n : Int) := by
    rw [hnf] at hlf
    exact Option.some.inj hlf
  subst hnfn
  have hfNn : fN < n := by exact_mod_cast hfN
  obtain ⟨gI, gf, nbr, rk, gnf, jgf, r1, r2, r3, r4, r5, _, r7, r8, _, k0, k1, k2, k3, k4⟩ :=
    hrec e i l fN hl hf
  have hgI : gI = (g : Int) := by
    have := (vecGet_nat_ok_iff _ _ _).1 r1
    rw [hgei] at this
    exact (Option.some.inj this).symm
  subst hgI
  have hgnf : gnf = (n : Int) := by
    have := (vecGet_nat_ok_iff _ _ _).1 r3
    rw [hgf] at this
    exact (Option.some.inj this).symm
  subst hgnf
  rw [Int.toNat_natCast] at r4
  have hsame := (globalFaceAmong_iff_same api gm lm5 l2g e g n hnum hn3 hnofa
    (by rw [pn]; exact hnofa) hgn (by rw [hnn]; exact hgn) hinj
    (fun j hj => hrt j n hgn (by exact_mod_cast hj)) fN jgf hfNn r4).1 r5
  subst hsame
  exact ⟨g, jgf, n, nbr, rk, gf, rfl, he, hg, hed, hgei, hgf, hlf, hfNn, hnl, r7, r8, r2,
    k0, k1, k2, k3, k4⟩

/-! ## Connectivity faces reference another process -/

/-- C14: for a sized global mesh of polygons with the standard numbering of
face points, every assignment and every rank, when the local adjacency of
step 5 is correct (a face without local neighbour does not have an element of
this rank across it in `gm.esuel`), each row of `lm.connface` of a successful
restriction holds in column 2 a rank different from this rank, which is the
entry of `elemdist` at column 3, and in column 3 a global element that is not
a value of `lm.globalElemIndex`. -/
theorem restrict_connface_references_other_rank {R : Type} (api : MeshMethods R)
    (gm : UMesh2dh R) (elemdist : List Int) (rank junk : Int) (junkR : R) (lm5 : UMesh2dh R)
    (l2g : List Int) (g2l : StdMap) (isB : List Bool) (conn : List (List Int))
    (lm : UMesh2dh R)
    (hst : RestrictStages api gm elemdist rank junk junkR lm5 l2g g2l isB conn lm)
    (hs : gm.ElemsSized) (hc : gm.CoordsSized) (hb : gm.NodesBounded)
    (hd : elemdist.length = gm.nelem) (hnum : StandardNumbering api)
    (hpoly : gm.ValidPolygons) (hadj : LocalAdjacencyCorrect gm elemdist rank lm) :
    restrictMeshToPartitions api gm elemdist rank junk junkR = .ok lm ∧
    ∀ r : Nat, r < lm.nconnface → ∃ c2 c3 : Int,
      lm.connface.get r 2 = .ok c2 ∧ lm.connface.get r 3 = .ok c3 ∧
      vecGet elemdist c3 = .ok c2 ∧ c2 ≠ rank ∧ c3 ∉ lm.globalElemIndex := by
  refine ⟨hst.result, ?_⟩
  obtain ⟨_, hn, _, _, _⟩ := hst.records
  obtain ⟨_, _, _, p4⟩ := hst.points_facts hs hc hb hd
  have hfr := hst.mesh_frame
  have e1 : lm.esuel = lm5.esuel := by rw [hfr]
  have e2 : lm.nelem = lm5.nelem := by rw [hfr]
  have e3 : lm.nfael = lm5.nfael := by rw [hfr]
  have e4 : lm.globalElemIndex = lm5.globalElemIndex := by rw [hfr]
  intro r hr
  rw [hn] at hr
  obtain ⟨e, i, l, hl, hi, rfl⟩ := connRowIndex_surj conn r hr
  obtain ⟨g, fN, n, nbr, rk, gf, hfe, he, hg, hed, hgei, hgf, hlf, hfNn, hnl, r7, r8, r2,
    k0, k1, k2, k3, k4⟩ :=
    hst.listed_face hs hc hb hd hnum hpoly e i l l[i] hl (List.getElem?_eq_getElem hi)
  have hrk : rk ≠ rank := by
    intro hEq
    refine hadj e (by rw [e2]; exact he) fN ?_ (by rw [e1]; exact hnl) ?_
    · rw [e3, List.getD_eq_getElem?_getD, hlf]
      simpa using hfNn
    · rw [e4, (vecGet_nat_ok_iff _ _ _).2 hgei]
      simp only [Res.ok_bind]
      rw [r7]
      simp only [Res.ok_bind]
      rw [r8, hEq]
  refine ⟨rk, nbr, k2, k3, r8, hrk, ?_⟩
  intro hmem
  rw [e4] at hmem
  obtain ⟨g', hx, _, hed'⟩ := p4 nbr hmem
  subst hx
  have := (vecGet_nat_ok_iff _ _ _).1 r8
  rw [hed'] at this
  exact hrk (Option.some.inj this).symm

set_option maxRecDepth 100000 in
/-- C14 on the two-by-two block of quadrilaterals split as `[0, 0, 1, 1]`, on
rank 0: the two rows of `connface` reference rank 1. -/
theorem restrict_connface_references_other_rank_witness :
    restrictMeshToPartitions api2d quadBlock [0, 0, 1, 1] 0 77 88
      = .ok (evalLocal quadBlock [0, 0, 1, 1] 0) ∧
    ∀ r : Nat, r < (evalLocal quadBlock [0, 0, 1, 1] 0).nconnface → ∃ c2 c3 : Int,
      (evalLocal quadBlock [0, 0, 1, 1] 0).connface.get r 2 = .ok c2 ∧
      (evalLocal quadBlock [0, 0, 1, 1] 0).connface.get r 3 = .ok c3 ∧
      vecGet [0, 0, 1, 1] c3 = .ok c2 ∧ c2 ≠ 0 ∧
      c3 ∉ (evalLocal quadBlock [0, 0, 1, 1] 0).globalElemIndex :=
  restrict_connface_references_other_rank api2d quadBlock [0, 0, 1, 1] 0 77 88 _ _ _ _ _ _
    quadBlock_stages_rank0 (by decide!) (by decide!) (by decide!) (by decide!)
    (fun _ _ _ _ => rfl) (by decide!) (by decide!)

/-! ## Connectivity rows on the two sides of a face -/

set_option maxRecDepth 100000 in
/-- The run of the restriction of the strip of triangles on rank 1. -/
theorem triStrip_stages_rank1 : RestrictStages api2d triStrip [0, 1, 2, 0] 1 77 88
    (evalLocal5 triStrip [0, 1, 2, 0] 1) (evalPoints triStrip [0, 1, 2, 0] 1).2.1
    (evalPoints triStrip [0, 1, 2, 0] 1).2.2 (evalFlags triStrip [0, 1, 2, 0] 1)
    (evalConn triStrip [0, 1, 2, 0] 1) (evalLocal triStrip [0, 1, 2, 0] 1) :=
  ⟨(evalPoints triStrip [0, 1, 2, 0] 1).1,
    evalLocal4 triStrip [0, 1, 2, 0] 1,
    by decide!, by decide!, rfl, by decide!, by decide!, by decide!⟩

set_option maxRecDepth 100000 in
/-- The run of the restriction of the strip of triangles on rank 2. -/
theorem triStrip_stages_rank2 : RestrictStages api2d triStrip [0, 1, 2, 0] 2 77 88
    (evalLocal5 triStrip [0, 1, 2, 0] 2) (evalPoints triStrip [0, 1, 2, 0] 2).2.1
    (evalPoints triStrip [0, 1, 2, 0] 2).2.2 (evalFlags triStrip [0, 1, 2, 0] 2)
    (evalConn triStrip [0, 1, 2, 0] 2) (evalLocal triStrip [0, 1, 2, 0] 2) :=
  ⟨(evalPoints triStrip [0, 1, 2, 0] 2).1,
    evalLocal4 triStrip [0, 1, 2, 0] 2,
    by decide!, by decide!, rfl, by decide!, by decide!, by decide!⟩

set_option maxRecDepth 100000 in
/-- C18: the code diverges from the claim. On the strip of four triangles, a
sized mesh of polygons with symmetric adjacency, assigned as `[0, 1, 2, 0]`,
the restriction succeeds on ranks 2 and 0 with correct local adjacency. Rank
2 has the connectivity row of its element 2 with neighbour element 3 on rank
0 and global face 8, so the claim requires the mirror row on rank 0. On rank
0 the face of element 3 towards element 2 has no local neighbour, but both of
its points are nodes of retained boundary faces, so rank 0 has no
connectivity row at all, in particular none for element 3 with neighbour 2
on rank 2 and global face 8. -/
theorem restrict_connface_one_sided :
    triStrip.ElemsSized ∧ triStrip.CoordsSized ∧ triStrip.NodesBounded ∧
    triStrip.ValidPolygons ∧ triStrip.SymmetricAdjacency ∧
    restrictMeshToPartitions api2d triStrip [0, 1, 2, 0] 2 77 88
      = .ok (evalLocal triStrip [0, 1, 2, 0] 2) ∧
    restrictMeshToPartitions api2d triStrip [0, 1, 2, 0] 0 77 88
      = .ok (evalLocal triStrip [0, 1, 2, 0] 0) ∧
    LocalAdjacencyCorrect triStrip [0, 1, 2, 0] 2 (evalLocal triStrip [0, 1, 2, 0] 2) ∧
    LocalAdjacencyCorrect triStrip [0, 1, 2, 0] 0 (evalLocal triStrip [0, 1, 2, 0] 0) ∧
    HasConnRow (evalLocal triStrip [0, 1, 2, 0] 2) 2 3 0 8 ∧
    (evalLocal triStrip [0, 1, 2, 0] 0).globalElemIndex = [0, 3] ∧
    (evalLocal triStrip [0, 1, 2, 0] 0).esuel.get 1 2 = .ok (-1) ∧
    triStrip.esuel.get 3 2 = .ok 2 ∧
    (evalLocal triStrip [0, 1, 2, 0] 0).nconnface = 0 ∧
    ¬ HasConnRow (evalLocal triStrip [0, 1, 2, 0] 0) 3 2 2 8 :=
  ⟨by decide!, by decide!, by decide!, by decide!, by decide!, by decide!, by decide!,
    by decide!, by decide!, by decide!, by decide!, by decide!, by decide!, by decide!,
    by decide!⟩

/-- The records that do mirror each other: for a sized global mesh of
polygons with the standard numbering of face points and symmetric adjacency,
and successful restrictions on the ranks `r` and `s`: whenever the mesh of rank `r` has a connectivity row
with owning global element `a`, neighbour global element `b`, neighbour rank
`s` and global face index `G`, the element `b` is a local element `e` of rank
`s` and has a face `f` with `gm.esuel(b, f) = a` and `gm.elemface(b, f) = G`;
and if `getConnectivityFaceEIndices` on rank `s` lists the face `f` of `e`,
the mesh of rank `s` has the connectivity row with owning global element `b`,
neighbour global element `a`, neighbour rank `r` and the same `G`. -/
theorem restrict_connface_mirror {R : Type} (api : MeshMethods R) (gm : UMesh2dh R)
    (elemdist : List Int) (r s junk : Int) (junkR : R)
    (lm5 : UMesh2dh R) (l2g : List Int) (g2l : StdMap) (isB : List Bool)
    (conn : List (List Int)) (lm : UMesh2dh R)
    (lm5s : UMesh2dh R) (l2gs : List Int) (g2ls : StdMap) (isBs : List Bool)
    (conns : List (List Int)) (lms : UMesh2dh R)
    (hst : RestrictStages api gm elemdist r junk junkR lm5 l2g g2l isB conn lm)
    (hsts : RestrictStages api gm elemdist s junk junkR lm5s l2gs g2ls isBs conns lms)
    (hs : gm.ElemsSized) (hc : gm.CoordsSized) (hb : gm.NodesBounded)
    (hd : elemdist.length = gm.nelem) (hnum : StandardNumbering api)
    (hpoly : gm.ValidPolygons) (hsym : gm.SymmetricAdjacency)
    (a b G : Int) (hrow : HasConnRow lm a b s G) :
    restrictMeshToPartitions api gm elemdist r junk junkR = .ok lm ∧
    restrictMeshToPartitions api gm elemdist s junk junkR = .ok lms ∧
    ∃ e f : Nat, e < lms.nelem ∧ lms.globalElemIndex[e]? = some b ∧
      gm.esuel.get b f = .ok a ∧ gm.gelemface b f = .ok G ∧
      ((∃ l : List Int, conns[e]? = some l ∧ (f : Int) ∈ l) → HasConnRow lms b a r G) := by
  refine ⟨hst.result, hsts.result, ?_⟩
  obtain ⟨_, hn, _, _, _⟩ := hst.records
  obtain ⟨_, hns, _, _, _⟩ := hsts.records
  obtain ⟨_, _, ps3, _⟩ := hsts.points_facts hs hc hb hd
  have hfr := hst.mesh_frame
  have e4 : lm.globalElemIndex = lm5.globalElemIndex := by rw [hfr]
  have hfrs := hsts.mesh_frame
  have s2 : lms.nelem = lm5s.nelem := by rw [hfrs]
  have s4 : lms.globalElemIndex = lm5s.globalElemIndex := by rw [hfrs]
  obtain ⟨r0, hr0, c0, c2, c3, c4⟩ := hrow
  rw [hn] at hr0
  obtain ⟨e, i, l, hl, hi, rfl⟩ := connRowIndex_surj conn r0 hr0
  obtain ⟨g, fN, n, nbr, rk, gf, hfe, he, hg, hed, hgei, hgf, hlf, hfNn, hnl, r7, r8, r2,
    k0, k1, k2, k3, k4⟩ :=
    hst.listed_face hs hc hb hd hnum hpoly e i l l[i] hl (List.getElem?_eq_getElem hi)
  -- the cells of the row
  have hs' : rk = s := by
    rw [k2] at c2; exact Except.ok.inj c2
  have hb' : nbr = b := by
    rw [k3] at c3; exact Except.ok.inj c3
  have hG : gf = G := by
    rw [k4] at c4; exact Except.ok.inj c4
  have ha : (g : Int) = a := by
    rw [k0] at c0
    simp only [Res.ok_bind] at c0
    rw [e4, (vecGet_nat_ok_iff _ _ _).2 hgei] at c0
    exact Except.ok.inj c0
  subst hs' hb' hG ha
  -- the neighbour is a real element
  obtain ⟨hb0, hbe⟩ := (vecGet_ok_iff _ _ _).1 r8
  obtain ⟨bN, hbN⟩ : ∃ bN : Nat, nbr = (bN : Int) := ⟨_, (Int.toNat_of_nonneg hb0).symm⟩
  subst hbN
  rw [Int.toNat_natCast] at hbe
  have hbl : bN < gm.nelem := by
    rw [← hd]; exact (List.getElem?_eq_some_iff.1 hbe).1
  obtain ⟨f', hf', q1, _, q3⟩ := hsym g hg fN
    (by rw [List.getD_eq_getElem?_getD, hgf]; simpa using hfNn) bN hbl r7
  rw [r2] at q3
  obtain ⟨e', he', hgei'⟩ := ps3 bN hbl hbe
  refine ⟨e', f', by rw [s2]; exact he', by rw [s4]; exact hgei', q1, q3, ?_⟩
  rintro ⟨l', hl', hfm⟩
  obtain ⟨i', hi', hfi⟩ := List.getElem_of_mem hfm
  have hfi' : l'[i']? = some (f' : Int) := by rw [List.getElem?_eq_getElem hi', hfi]
  obtain ⟨g2, fN2, n2, nbr2, rk2, gf2, hfe2, _, _, _, hgei2, _, _, _, _, t7, t8, t2,
    m0, _, m2, m3, m4⟩ :=
    hsts.listed_face hs hc hb hd hnum hpoly e' i' l' f' hl' hfi'
  have hff : fN2 = f' := by exact_mod_cast hfe2.symm
  subst hff
  have hg2 : g2 = bN := by
    rw [hgei'] at hgei2
    exact_mod_cast (Option.some.inj hgei2).symm
  subst hg2
  have hn2 : nbr2 = (g : Int) := by
    rw [q1] at t7; exact (Except.ok.inj t7).symm
  subst hn2
  have hr2 : rk2 = r := by
    have := (vecGet_nat_ok_iff _ _ _).1 t8
    rw [hed] at this
    exact (Option.some.inj this).symm
  subst hr2
  have hgf2 : gf2 = gf := by
    rw [q3] at t2; exact (Except.ok.inj t2).symm
  subst hgf2
  refine ⟨connRowIndex conns e' i', ?_, ?_, m2, m3, m4⟩
  · rw [hns]; exact connRowIndex_lt conns e' i' l' hl' hi'
  · rw [m0]
    simp only [Res.ok_bind]
    rw [s4]
    exact (vecGet_nat_ok_iff _ _ _).2 hgei'

set_option maxRecDepth 100000 in
/-- Mirror rows on the strip of four triangles assigned as `[0, 1, 2, 0]`:
rank 2 has the row of its element 2 with neighbour element 1 on rank 1 and
global face 7, and rank 1 has the mirror row. -/
theorem restrict_connface_mirror_witness :
    HasConnRow (evalLocal triStrip [0, 1, 2, 0] 2) 2 1 1 7 ∧
    evalConn triStrip [0, 1, 2, 0] 1 = [[0, 2]] ∧
    HasConnRow (evalLocal triStrip [0, 1, 2, 0] 1) 1 2 2 7 ∧
    (restrictMeshToPartitions api2d triStrip [0, 1, 2, 0] 2 77 88
      = .ok (evalLocal triStrip [0, 1, 2, 0] 2) ∧
    restrictMeshToPartitions api2d triStrip [0, 1, 2, 0] 1 77 88
      = .ok (evalLocal triStrip [0, 1, 2, 0] 1) ∧
    ∃ e f : Nat, e < (evalLocal triStrip [0, 1, 2, 0] 1).nelem ∧
      (evalLocal triStrip [0, 1, 2, 0] 1).globalElemIndex[e]? = some 1 ∧
      triStrip.esuel.get 1 f = .ok 2 ∧ triStrip.gelemface 1 f = .ok 7 ∧
      ((∃ l : List Int, (evalConn triStrip [0, 1, 2, 0] 1)[e]? = some l ∧ (f : Int) ∈ l) →
        HasConnRow (evalLocal triStrip [0, 1, 2, 0] 1) 1 2 2 7)) :=
  ⟨by decide!, by decide!, by decide!,
    restrict_connface_mirror api2d triStrip [0, 1, 2, 0] 2 1 77 88 _ _ _ _ _ _ _ _ _ _ _ _
      triStrip_stages_rank2 triStrip_stages_rank1 (by decide!) (by decide!) (by decide!)
      (by decide!) (fun _ _ _ _ => rfl) (by decide!) (by decide!) 2 1 7 (by decide!)⟩

end ReplicatedGlobalMeshPartitioner

/-! ## Symmetry of the element adjacency -/

theorem flatten_map_range_length {α : Type} (c : Nat) (v : Nat → Nat → α) (n : Nat) :
    (((List.range n).map (fun e => (List.range c).map (fun f => v e f))).flatten).length
      = n * c := by
  induction n with
  | zero => simp
  | succ n ih =>
    rw [List.range_succ, List.map_append, List.flatten_append, List.length_append, ih]
    simp [Nat.succ_mul]

/-- The cell `(e, f)` of an array built row by row. -/
theorem flatten_map_range_get {α : Type} (c : Nat) (v : Nat → Nat → α) (n e f : Nat)
    (he : e < n) (hf : f < c) :
    (((List.range n).map (fun e => (List.range c).map (fun f => v e f))).flatten)[e * c + f]?
      = some (v e f) := by
  induction n with
  | zero => omega
  | succ n ih =>
    rw [List.range_succ, List.map_append, List.flatten_append]
    by_cases hen : e < n
    · rw [List.getElem?_append_left (by
        rw [flatten_map_range_length]; exact flat_lt hen hf)]
      exact ih hen
    · have : e = n := by omega
      subst this
      rw [List.getElem?_append_right (by rw [flatten_map_range_length]; omega),
        flatten_map_range_length]
      simp [hf]

/-- A read of `inpoel` fails in one way only, so the points that
`facePoints` keeps determine the results of the reads. -/
theorem Array2d.get_toOption_inj {α : Type} (a : Array2d α) (i j i' j' : Int)
    (h : (a.get i j).toOption = (a.get i' j').toOption) : a.get i j = a.get i' j' := by
  have key : ∀ x : Int, (∃ y, vecGet a.elems x = .ok y) ∨
      vecGet a.elems x = .error .outOfBounds := by
    intro x
    unfold vecGet
    split
    · split
      · exact Or.inl ⟨_, rfl⟩
      · exact Or.inr rfl
    · exact Or.inr rfl
  unfold Array2d.get at h ⊢
  rcases key (i * a.ncols + j) with ⟨y, hy⟩ | hy <;>
    rcases key (i' * a.ncols + j') with ⟨y', hy'⟩ | hy' <;>
    rw [hy, hy'] at h ⊢ <;> simp [Except.toOption] at h ⊢
  exact h

theorem succ_mod_ne (n f : Nat) (hn : 2 ≤ n) (hf : f < n) : (f + 0) % n ≠ (f + 1) % n := by
  rw [Nat.add_zero, Nat.mod_eq_of_lt hf]
  by_cases h : f + 1 < n
  · rw [Nat.mod_eq_of_lt h]; omega
  · have : f + 1 = n := by omega
    rw [this, Nat.mod_self]; omega

/-- The value that `esuelBrute` stores for face `f` of element `e`. -/
theorem esuelBrute_get (m : UMesh2dh Int) (e f : Nat) (he : e < m.nelem)
    (hf : f < m.maxnfael) :
    (esuelBrute m).get e f =
      .ok (((List.range m.nelem).find? (sharesFace m e f)).elim (-1) (fun e' => (e' : Int))) := by
  rw [Array2d.get_nat_ok_iff]
  unfold esuelBrute Array2d.ofRows
  simp only []
  rw [flatten_map_range_get _ _ _ e f he hf]
  congr 1
  show _ = Option.elim (List.find? (fun e' => sharesFace m e f e') _) _ _
  unfold sharesFace facePoints
  cases List.find? _ (List.range m.nelem) <;> rfl

theorem esuelBrute_get_iff (m : UMesh2dh Int) (e f B : Nat) (he : e < m.nelem)
    (hf : f < m.maxnfael) :
    (esuelBrute m).get e f = .ok (B : Int) ↔
      (List.range m.nelem).find? (sharesFace m e f) = some B := by
  rw [esuelBrute_get m e f he hf]
  cases (List.range m.nelem).find? (sharesFace m e f) with
  | none =>
    simp only [Option.elim, Except.ok.injEq]
    constructor
    · intro h; omega
    · intro h; cases h
  | some e' =>
    simp only [Option.elim, Except.ok.injEq, Option.some.injEq]
    exact Nat.cast_inj

/-- Every value of `esuelBrute` is `-1` or the index of an element. -/
theorem esuelBrute_range (m : UMesh2dh Int) (e f : Nat) (he : e < m.nelem)
    (hf : f < m.maxnfael) (nb : Int) (h : (esuelBrute m).get e f = .ok nb) :
    nb = -1 ∨ ∃ B : Nat, B < m.nelem ∧ nb = (B : Int) := by
  rw [esuelBrute_get m e f he hf] at h
  cases hfind : (List.range m.nelem).find? (sharesFace m e f) with
  | none =>
    rw [hfind] at h
    exact Or.inl (Except.ok.inj h).symm
  | some e' =>
    rw [hfind] at h
    exact Or.inr ⟨e', List.mem_range.1 (List.mem_of_find?_eq_some hfind),
      (Except.ok.inj h).symm⟩

theorem sharesFace_iff (m : UMesh2dh Int) (e f e' : Nat) :
    sharesFace m e f e' = true ↔ e' ≠ e ∧ ∃ f' : Nat, f' < (m.nfael.getD e' 0).toNat ∧
      (facePoints m e f).all (fun p => (facePoints m e' f').contains p) = true := by
  unfold sharesFace
  rw [decide_eq_true_iff, List.any_eq_true]
  constructor
  · rintro ⟨h1, f', hf', h2⟩
    exact ⟨h1, f', List.mem_range.1 hf', h2⟩
  · rintro ⟨h1, f', hf', h2⟩
    exact ⟨h1, f', List.mem_range.2 hf', h2⟩

/-- A face of a polygon has two different points. -/
theorem facePoints_distinct (m : UMesh2dh Int) (hpoly : m.ValidPolygons) (e f : Nat)
    (he : e < m.nelem) (hf : f < (m.nfael.getD e 0).toNat) :
    ∃ a b : Option Int, facePoints m e f = [a, b] ∧ a ≠ b := by
  obtain ⟨hn, hp⟩ := hpoly
  obtain ⟨h3, hfn, hinj⟩ := hp e he
  have hfd : m.nfael.getD e 0 = m.nnode.getD e 0 := by
    rw [List.getD_eq_getElem?_getD, List.getD_eq_getElem?_getD, hfn]
  rw [hfd] at hf
  obtain ⟨n, hnI⟩ : ∃ n : Nat, m.nnode.getD e 0 = (n : Int) :=
    ⟨_, (Int.toNat_of_nonneg (by omega)).symm⟩
  rw [hnI] at h3 hinj hf
  simp only [Int.toNat_natCast] at hinj hf
  have hn3 : 3 ≤ n := by exact_mod_cast h3
  have hpos : 0 < n := by omega
  have hidx : ∀ k : Nat, getNodeEIndex2d m (e : Int) (f : Int) (k : Int)
      = (((f + k) % n : Nat) : Int) := by
    intro k
    unfold getNodeEIndex2d
    rw [Int.toNat_natCast, hnI]
    simp
  refine ⟨(m.inpoel.get e (getNodeEIndex2d m e f ((0 : Nat) : Int))).toOption,
    (m.inpoel.get e (getNodeEIndex2d m e f ((1 : Nat) : Int))).toOption, ?_, ?_⟩
  · unfold facePoints
    rw [hn]
    rfl
  · intro hab
    have h := Array2d.get_toOption_inj _ _ _ _ _ hab
    rw [hidx 0, hidx 1] at h
    exact succ_mod_ne n f (by omega) hf
      (hinj _ (Nat.mod_lt _ hpos) _ (Nat.mod_lt _ hpos) h)

theorem pair_within_symm (a b c d : Option Int) (hab : a ≠ b)
    (h : [a, b].all (fun p => [c, d].contains p) = true) :
    [c, d].all (fun p => [a, b].contains p) = true := by
  simp only [List.all_cons, List.all_nil, Bool.and_true, Bool.and_eq_true,
    List.contains_cons, List.contains_nil, Bool.or_false, Bool.or_eq_true, beq_iff_eq] at h ⊢
  obtain ⟨h1, h2⟩ := h
  rcases h1 with h1 | h1 <;> rcases h2 with h2 | h2
  · exact absurd (h1.trans h2.symm) hab
  · exact ⟨Or.inl h1.symm, Or.inr h2.symm⟩
  · exact ⟨Or.inr h2.symm, Or.inl h1.symm⟩
  · exact absurd (h1.trans h2.symm) hab

/-- In a mesh of polygons the test for a neighbour is symmetric: when `B`
shares face `k` of `A`, some face of `B` is shared by `A`. -/
theorem sharesFace_symm (m : UMesh2dh Int) (hpoly : m.ValidPolygons) (A k B : Nat)
    (hA : A < m.nelem) (hk : k < (m.nfael.getD A 0).toNat) (hB : B < m.nelem)
    (h : sharesFace m A k B = true) :
    ∃ k' : Nat, k' < (m.nfael.getD B 0).toNat ∧ sharesFace m B k' A = true := by
  obtain ⟨hne, k', hk', hw⟩ := (sharesFace_iff m A k B).1 h
  obtain ⟨a, b, e1, hab⟩ := facePoints_distinct m hpoly A k hA hk
  obtain ⟨c, d, e2, _⟩ := facePoints_distinct m hpoly B k' hB hk'
  refine ⟨k', hk', (sharesFace_iff m B k' A).2 ⟨fun h' => hne h'.symm, k, hk, ?_⟩⟩
  rw [e1, e2] at hw
  rw [e1, e2]
  exact pair_within_symm a b c d hab hw

theorem nfael_lt_maxnfael {R : Type} (m : UMesh2dh R) (hfb : m.FacesBounded) (e k : Nat)
    (hk : k < (m.nfael.getD e 0).toNat) : k < m.maxnfael := by
  rw [List.getD_eq_getElem?_getD] at hk
  cases hv : m.nfael[e]? with
  | none => rw [hv] at hk; simp at hk
  | some x =>
    rw [hv] at hk
    have := hfb x (List.getElem?_mem hv)
    simp only [Option.getD_some] at hk
    omega

/-- The adjacency of `esuelBrute` is symmetric on a manifold mesh of
polygons: when the neighbour of `A` across its face `k` is the element `B`,
exactly one face of `B` has the neighbour `A`. -/
theorem esuelBrute_symmetric (m : UMesh2dh Int) (hpoly : m.ValidPolygons)
    (hfb : m.FacesBounded) (hman : m.ManifoldFaces) (A k B : Nat) (hA : A < m.nelem)
    (hk : k < (m.nfael.getD A 0).toNat) (h : (esuelBrute m).get A k = .ok (B : Int)) :
    B < m.nelem ∧ B ≠ A ∧ ∃! k' : Nat, k' < (m.nfael.getD B 0).toNat ∧
      (esuelBrute m).get B k' = .ok (A : Int) := by
  have hfind := (esuelBrute_get_iff m A k B hA (nfael_lt_maxnfael m hfb A k hk)).1 h
  have hB : B < m.nelem := List.mem_range.1 (List.mem_of_find?_eq_some hfind)
  have hsh : sharesFace m A k B = true := List.find?_some hfind
  have hne : B ≠ A := ((sharesFace_iff m A k B).1 hsh).1
  obtain ⟨k', hk', hsh'⟩ := sharesFace_symm m hpoly A k B hA hk hB hsh
  refine ⟨hB, hne, k', ⟨hk', ?_⟩, ?_⟩
  · rw [esuelBrute_get_iff m B k' A hB (nfael_lt_maxnfael m hfb B k' hk')]
    cases hf : (List.range m.nelem).find? (sharesFace m B k') with
    | none =>
      rw [List.find?_eq_none] at hf
      exact absurd hsh' (hf A (List.mem_range.2 hA))
    | some A' =>
      have hA' : A' < m.nelem := List.mem_range.1 (List.mem_of_find?_eq_some hf)
      rw [hman.1 B hB k' hk' A' hA' A hA (List.find?_some hf) hsh']
  · rintro k1 ⟨hk1, hg1⟩
    have hf1 := (esuelBrute_get_iff m B k1 A hB (nfael_lt_maxnfael m hfb B k1 hk1)).1 hg1
    exact hman.2 B hB A hA k1 hk1 k' hk' (List.find?_some hf1) hsh'

/-! ## The unified face list -/

theorem foldl_invariant {σ β : Type} (P : σ → Prop) (step : σ → β → σ) (l : List β)
    (h : ∀ s x, x ∈ l → P s → P (step s x)) : ∀ s, P s → P (l.foldl step s) := by
  induction l with
  | nil => intro s hs; exact hs
  | cons x t ih =>
    intro s hs
    rw [List.foldl_cons]
    exact ih (fun s' y hy hs' => h s' y (List.mem_cons_of_mem _ hy) hs') _
      (h s x (List.mem_cons_self _ _) hs)

theorem mem_elementFaces {R : Type} (m : UMesh2dh R) (e f : Nat) :
    (e, f) ∈ elementFaces m ↔ e < m.nelem ∧ f < (m.nfael.getD e 0).toNat := by
  unfold elementFaces
  simp only [List.mem_flatten, List.mem_map, List.mem_range]
  constructor
  · rintro ⟨l, ⟨e', he', rfl⟩, hm⟩
    simp only [List.mem_map, List.mem_range, Prod.mk.injEq] at hm
    obtain ⟨f', hf', rfl, rfl⟩ := hm
    exact ⟨he', hf'⟩
  · rintro ⟨he, hf⟩
    exact ⟨_, ⟨e, he, rfl⟩, List.mem_map.2 ⟨f, List.mem_range.2 hf, rfl⟩⟩

/-- Every row of the unified face list comes from a face `f` of a real
element `e`, its left element, and holds the points of that face; its right
element is the neighbour of `e` across `f`, a real element with a larger
index, or it is a sentinel and `e` has no neighbour across `f`. -/
theorem unifiedFaceList_rows (m : UMesh2dh Int) (hfb : m.FacesBounded) :
    ∀ row ∈ unifiedFaceList m, ∃ e f : Nat, e < m.nelem ∧ f < (m.nfael.getD e 0).toNat ∧
      row.1 = (e : Int) ∧ row.2.2 = facePoints m e f ∧
      ((∃ B : Nat, e < B ∧ B < m.nelem ∧ row.2.1 = (B : Int) ∧
          (esuelBrute m).get e f = .ok (B : Int)) ∨
        ((m.nelem : Int) ≤ row.2.1 ∧ (esuelBrute m).get e f = .ok (-1))) := by
  unfold unifiedFaceList
  refine foldl_invariant
    (fun st => ∀ row ∈ st.1, ∃ e f : Nat, e < m.nelem ∧ f < (m.nfael.getD e 0).toNat ∧
      row.1 = (e : Int) ∧ row.2.2 = facePoints m e f ∧
      ((∃ B : Nat, e < B ∧ B < m.nelem ∧ row.2.1 = (B : Int) ∧
          (esuelBrute m).get e f = .ok (B : Int)) ∨
        ((m.nelem : Int) ≤ row.2.1 ∧ (esuelBrute m).get e f = .ok (-1))))
    (faceConnectivityStep m) (elementFaces m) ?_ ([], 0) (by intro row hrow; cases hrow)
  rintro st ⟨e, f⟩ hef hst
  obtain ⟨he, hf⟩ := (mem_elementFaces m e f).1 hef
  have hfm := nfael_lt_maxnfael m hfb e f hf
  unfold faceConnectivityStep
  cases hg : (esuelBrute m).get (e : Int) (f : Int) with
  | error err => exact hst
  | ok nb =>
    simp only []
    split
    · rename_i hneg
      intro row hrow
      rcases List.mem_append.1 hrow with h1 | h1
      · exact hst row h1
      · rw [List.mem_singleton] at h1
        subst h1
        refine ⟨e, f, he, hf, rfl, rfl, Or.inr ⟨?_, by rw [hg, hneg]⟩⟩
        show (m.nelem : Int) ≤ (m.nelem : Int) + (st.2 : Int)
        omega
    · split
      · rename_i hlt
        intro row hrow
        rcases List.mem_append.1 hrow with h1 | h1
        · exact hst row h1
        · rw [List.mem_singleton] at h1
          subst h1
          rcases esuelBrute_range m e f he hfm nb hg with hneg | ⟨B, hB, hnb⟩
          · subst hneg
            omega
          · subst hnb
            exact ⟨e, f, he, hf, rfl, rfl,
              Or.inl ⟨B, by exact_mod_cast hlt, hB, rfl, hg⟩⟩
      · exact hst

/-- C20: for every manifold mesh of polygons (each element has at least
three pairwise distinct nodes and as many faces as nodes, at most `maxnfael`;
a face is shared with at most one other element and two elements have at most
one face in common), the adjacency that the topology builder computes is
symmetric: if `esuel(A, k)` is the real element `B`, then `B` is another
element than `A` and exactly one face `k'` of `B` has `esuel(B, k') = A`.
Consequently every face of the unified face list has one or two real
elements: its left element `e` is real, and its right element is either a
sentinel not below `nelem`, or a real element `B` with a larger index that is
the neighbour of `e` across a face of `e` and has exactly one face across
which `e` is its neighbour. -/
theorem adjacency_symmetric_faces_resolved (m : UMesh2dh Int) (hpoly : m.ValidPolygons)
    (hfb : m.FacesBounded) (hman : m.ManifoldFaces) :
    (∀ A k B : Nat, A < m.nelem → k < (m.nfael.getD A 0).toNat → B < m.nelem →
      (esuelBrute m).get A k = .ok (B : Int) →
        B ≠ A ∧ ∃! k' : Nat, k' < (m.nfael.getD B 0).toNat ∧
          (esuelBrute m).get B k' = .ok (A : Int)) ∧
    (∀ row ∈ unifiedFaceList m, ∃ e : Nat, e < m.nelem ∧ row.1 = (e : Int) ∧
      ((m.nelem : Int) ≤ row.2.1 ∨
        ∃ B : Nat, e < B ∧ B < m.nelem ∧ row.2.1 = (B : Int) ∧
          (∃ k : Nat, k < (m.nfael.getD e 0).toNat ∧
            (esuelBrute m).get e k = .ok (B : Int)) ∧
          ∃! k' : Nat, k' < (m.nfael.getD B 0).toNat ∧
            (esuelBrute m).get B k' = .ok (e : Int))) := by
  constructor
  · intro A k B hA hk _ h
    exact (esuelBrute_symmetric m hpoly hfb hman A k B hA hk h).2
  · intro row hrow
    obtain ⟨e, f, he, hf, h1, _, h2⟩ := unifiedFaceList_rows m hfb row hrow
    refine ⟨e, he, h1, ?_⟩
    rcases h2 with ⟨B, heB, hB, hr, hg⟩ | ⟨hs, _⟩
    · exact Or.inr ⟨B, heB, hB, hr, ⟨f, hf, hg⟩,
        (esuelBrute_symmetric m hpoly hfb hman e f B he hf hg).2.2⟩
    · exact Or.inl hs

set_option maxRecDepth 100000 in
/-- C20 on the two-by-two block of quadrilaterals, which has four interior
and eight boundary faces. -/
theorem adjacency_symmetric_faces_resolved_witness :
    quadBlock.ValidPolygons ∧ quadBlock.FacesBounded ∧ quadBlock.ManifoldFaces ∧
    (esuelBrute quadBlock).get 0 1 = .ok 1 ∧ (esuelBrute quadBlock).get 1 3 = .ok 0 ∧
    (unifiedFaceList quadBlock).map (fun row => (row.1, row.2.1)) =
      [(0, 4), (0, 1), (0, 2), (0, 5), (1, 6), (1, 7), (1, 3), (2, 3), (2, 8), (2, 9),
        (3, 10), (3, 11)] ∧
    ((∀ A k B : Nat, A < quadBlock.nelem → k < (quadBlock.nfael.getD A 0).toNat →
      B < quadBlock.nelem → (esuelBrute quadBlock).get A k = .ok (B : Int) →
        B ≠ A ∧ ∃! k' : Nat, k' < (quadBlock.nfael.getD B 0).toNat ∧
          (esuelBrute quadBlock).get B k' = .ok (A : Int)) ∧
    (∀ row ∈ unifiedFaceList quadBlock, ∃ e : Nat, e < quadBlock.nelem ∧ row.1 = (e : Int) ∧
      ((quadBlock.nelem : Int) ≤ row.2.1 ∨
        ∃ B : Nat, e < B ∧ B < quadBlock.nelem ∧ row.2.1 = (B : Int) ∧
          (∃ k : Nat, k < (quadBlock.nfael.getD e 0).toNat ∧
            (esuelBrute quadBlock).get e k = .ok (B : Int)) ∧
          ∃! k' : Nat, k' < (quadBlock.nfael.getD B 0).toNat ∧
            (esuelBrute quadBlock).get B k' = .ok (e : Int)))) :=
  ⟨by decide!, by decide!, by decide!, by decide!, by decide!, by decide!,
    adjacency_symmetric_faces_resolved quadBlock (by decide!) (by decide!) (by decide!)⟩

/-! ## `Array2d` as a row-major store -/

/-- A value that fits a signed integer of `w` bits is stored as it is. -/
theorem aIntWrap_of_fits (w n : Nat) (hw : 0 < w) (h : n < 2 ^ (w - 1)) :
    aIntWrap w (n : Int) = (n : Int) := by
  unfold aIntWrap
  have e : (2 : Int) ^ w = 2 * 2 ^ (w - 1) := by
    have : w = (w - 1) + 1 := by omega
    conv_lhs => rw [this]
    rw [pow_succ]
    ring
  have hp : (0 : Int) < 2 ^ (w - 1) := by positivity
  have hn : (n : Int) < 2 ^ (w - 1) := by exact_mod_cast h
  rw [e, Int.emod_eq_of_lt (by omega) (by omega)]
  ring

namespace Array2d

/-- For sizes whose product fits `a_int`, `resizeAInt` returns the array of
`resize`. -/
theorem resizeAInt_of_fits {α : Type} (w : Nat) (a : Array2d α) (nr nc : Nat) (junk : α)
    (hw : 0 < w) (h : nr * nc < 2 ^ (w - 1)) :
    a.resizeAInt w nr nc junk = .ok (a.resize nr nc junk) := by
  unfold resizeAInt resize
  have e : ((nr : Int) * (nc : Int)) = ((nr * nc : Nat) : Int) := by push_cast; rfl
  have hwrap : aIntWrap w ((nr : Int) * (nc : Int)) = ((nr * nc : Nat) : Int) := by
    rw [e]
    exact aIntWrap_of_fits w (nr * nc) hw h
  simp only [hwrap]
  rw [if_neg (by omega), Int.toNat_ofNat]

/-- C29, counterexample: after `resize(65536, 65536)` with `a_int` of 32 bits,
`msize()` is `0` and not `65536 * 65536`; both sizes are values of `a_int`,
their product is not, and the source computes `size = nrows*ncols` in
`a_int`. The same happens with `a_int` of 64 bits for `resize(2^32, 2^32)`.
The array that is resized holds `nrows * ncols` entries. -/
theorem resize_msize_wraps_counterexample :
    (Array2d.ofRows 2 [[(0 : Int), 1], [2, 3], [4, 5]]).elems.length = 3 * 2 ∧
    (65536 : Nat) < 2 ^ 31 ∧
    (Array2d.ofRows 2 [[(0 : Int), 1], [2, 3], [4, 5]]).resizeAInt 32 65536 65536 77 =
      .ok ⟨65536, 65536, 0, []⟩ ∧
    (⟨65536, 65536, 0, []⟩ : Array2d Int).msize ≠ 65536 * 65536 ∧
    (4294967296 : Nat) < 2 ^ 63 ∧
    (Array2d.ofRows 2 [[(0 : Int), 1], [2, 3], [4, 5]]).resizeAInt 64 4294967296 4294967296 77 =
      .ok ⟨4294967296, 4294967296, 0, []⟩ ∧
    (⟨4294967296, 4294967296, 0, []⟩ : Array2d Int).msize ≠ 4294967296 * 4294967296 :=
  ⟨by decide, by decide, by decide, by decide, by decide, by decide, by decide⟩

/-- C29, amended: `Array2d` is a faithful row-major store. For an array that
holds `nrows * ncols` entries and a cell `(i, j)` with `i < nrows` and
`j < ncols`: `set(i, j, v)` succeeds, afterwards `get(i, j)` returns `v`,
every other cell `(i', j')` in range returns what it returned before and did
return a value, and `rows()`, `cols()` and `msize()` are unchanged; and
whenever the product `nr * nc` is a value of `a_int`, an integer of `w` bits,
`resize(nr, nc)` returns, and after it `rows()`, `cols()` and `msize()` are
`nr`, `nc` and `nr * nc`, and the array holds `nr * nc` entries. -/
theorem set_get_faithful {α : Type} (a : Array2d α) (i j : Nat) (v : α)
    (hlen : a.elems.length = a.nrows * a.ncols) (hi : i < a.nrows) (hj : j < a.ncols) :
    (∃ a', a.set i j v = .ok a' ∧ a'.get i j = .ok v ∧
      (∀ i' j' : Nat, i' < a.nrows → j' < a.ncols → (i', j') ≠ (i, j) →
        a'.get i' j' = a.get i' j' ∧ ∃ x, a.get i' j' = .ok x) ∧
      a'.rows = a.rows ∧ a'.cols = a.cols ∧ a'.msize = a.msize ∧
      a'.elems.length = a'.rows * a'.cols) ∧
    ∀ (w nr nc : Nat) (junk : α), 0 < w → nr * nc < 2 ^ (w - 1) →
      ∃ b, a.resizeAInt w nr nc junk = .ok b ∧ b.rows = nr ∧ b.cols = nc ∧
        b.msize = nr * nc ∧ b.elems.length = nr * nc := by
  have hb : i * a.ncols + j < a.elems.length := by
    rw [hlen]; exact flat_lt hi hj
  constructor
  · refine ⟨_, set_nat a i j v hb, ?_, ?_, rfl, rfl, rfl, ?_⟩
    · rw [get_nat_ok_iff]
      exact List.getElem?_set_self hb
    · intro i' j' hi' hj' hne
      have hb' : i' * a.ncols + j' < a.elems.length := by
        rw [hlen]; exact flat_lt hi' hj'
      have hidx : i * a.ncols + j ≠ i' * a.ncols + j' := by
        intro h
        obtain ⟨h1, h2⟩ := flat_inj hj hj' h
        exact hne (by rw [h1, h2])
      have hx : a.get (i' : Int) (j' : Int) = .ok a.elems[i' * a.ncols + j'] :=
        (get_nat_ok_iff _ _ _ _).2 (List.getElem?_eq_getElem hb')
      refine ⟨?_, _, hx⟩
      rw [hx, get_nat_ok_iff]
      show (a.elems.set (i * a.ncols + j) v)[i' * a.ncols + j']? = _
      rw [List.getElem?_set_ne hidx]
      exact List.getElem?_eq_getElem hb'
    · show (a.elems.set (i * a.ncols + j) v).length = a.nrows * a.ncols
      rw [List.length_set]; exact hlen
  · intro w nr nc junk hw hfit
    exact ⟨_, resizeAInt_of_fits w a nr nc junk hw hfit, rfl, rfl, rfl, by simp [resize]⟩

/-- C29, amended, on the three-by-two array of the coordinates `0 .. 5`: the
cell `(1, 1)` is set to `9`, and `resize(4, 5)` with `a_int` of 32 bits gives
an array of 20 entries. -/
theorem set_get_faithful_witness :
    ((Array2d.ofRows 2 [[(0 : Int), 1], [2, 3], [4, 5]]).elems.length = 3 * 2 ∧
      1 < 3 ∧ 1 < 2) ∧
    (Array2d.ofRows 2 [[(0 : Int), 1], [2, 3], [4, 5]]).set 1 1 9 =
      .ok (Array2d.ofRows 2 [[(0 : Int), 1], [2, 9], [4, 5]]) ∧
    (Array2d.ofRows 2 [[(0 : Int), 1], [2, 3], [4, 5]]).resizeAInt 32 4 5 77 =
      .ok ⟨4, 5, 20, List.replicate 20 77⟩ ∧
    ((∃ a', (Array2d.ofRows 2 [[(0 : Int), 1], [2, 3], [4, 5]]).set (1 : Nat) (1 : Nat) 9
        = .ok a' ∧ a'.get (1 : Nat) (1 : Nat) = .ok 9 ∧
      (∀ i' j' : Nat, i' < 3 → j' < 2 → (i', j') ≠ (1, 1) →
        a'.get i' j' = (Array2d.ofRows 2 [[(0 : Int), 1], [2, 3], [4, 5]]).get i' j' ∧
        ∃ x, (Array2d.ofRows 2 [[(0 : Int), 1], [2, 3], [4, 5]]).get i' j' = .ok x) ∧
      a'.rows = 3 ∧ a'.cols = 2 ∧ a'.msize = 6 ∧ a'.elems.length = a'.rows * a'.cols) ∧
    ∀ (w nr nc : Nat) (junk : Int), 0 < w → nr * nc < 2 ^ (w - 1) →
      ∃ b, (Array2d.ofRows 2 [[(0 : Int), 1], [2, 3], [4, 5]]).resizeAInt w nr nc junk
          = .ok b ∧ b.rows = nr ∧ b.cols = nc ∧
        b.msize = nr * nc ∧ b.elems.length = nr * nc) :=
  ⟨⟨by decide, by decide, by decide⟩, by decide, by decide,
    set_get_faithful (Array2d.ofRows 2 [[(0 : Int), 1], [2, 3], [4, 5]]) 1 1 9
      (by decide) (by decide) (by decide)⟩

end Array2d

/-! ## No rank is left without elements -/

namespace ReplicatedGlobalMeshPartitioner

/-- The loop of `extractInpoel` leaves `lm.nelem` as it is. -/
theorem extractInpoel_nelem {R : Type} (gm lm : UMesh2dh R) (elemdist : List Int) (rank : Int)
    (r : List Int × UMesh2dh R) (h : extractInpoel gm elemdist rank lm = .ok r) :
    r.2.nelem = lm.nelem := by
  unfold extractInpoel at h
  simp only [Res.bind_eq_ok, Res.pure_eq, Except.ok.injEq] at h
  obtain ⟨s, hs, rfl⟩ := h
  exact forLoop_partial (extractInpoelStep gm elemdist rank)
    (fun _ (s : Nat × List Int × UMesh2dh R) => s.2.2.nelem = lm.nelem)
    0 gm.nelem _ s (Nat.zero_le _) hs rfl
    (by
      intro k t t' _ _ ht hb
      unfold extractInpoelStep at hb
      simp only [Res.bind_eq_ok] at hb
      obtain ⟨d, _, hb⟩ := hb
      split at hb
      · simp only [Res.bind_eq_ok, Res.pure_eq, Except.ok.injEq] at hb
        obtain ⟨_, _, _, _, _, _, _, _, _, _, _, _, _, _, rfl⟩ := hb
        exact ht
      · simp only [Res.pure_eq, Except.ok.injEq] at hb
        rw [← hb]; exact ht)

/-- The mesh of lines 25 to 50 has the number of elements that the count
loop found. -/
theorem restrictElems_nelem {R : Type} (gm lm1 : UMesh2dh R) (elemdist : List Int)
    (rank junk : Int) (h : restrictElems gm elemdist rank junk = .ok lm1) :
    countLocalElems gm elemdist rank = .ok lm1.nelem := by
  unfold restrictElems at h
  simp only [Res.bind_eq_ok, Res.pure_eq, Except.ok.injEq] at h
  obtain ⟨n, hn, r, hr, rfl⟩ := h
  rw [hn]
  have := extractInpoel_nelem _ _ _ _ _ hr
  simp only at this
  show Except.ok n = Except.ok r.2.nelem
  rw [this]

end ReplicatedGlobalMeshPartitioner

namespace TrivialReplicatedGlobalMeshPartitioner

open ReplicatedGlobalMeshPartitioner in
/-- C24: under the precondition `N ≥ P ≥ 1` of the constructor, trivial
partitioning leaves no rank empty: `compute_partition` succeeds and, for
every rank `r < P`, some element `i < N` has `elemdist[i] == r`, the count
loop of the restriction on rank `r` returns at least one, and every local
mesh that the restriction on rank `r` returns has `lm.nelem ≥ 1`. -/
theorem compute_partition_no_empty_rank {R : Type} (p : ReplicatedGlobalMeshPartitioner R)
    (P : Nat) (hP : 1 ≤ P) (hN : P ≤ p.gm.gnelem) :
    ∃ p', compute_partition P p = .ok p' ∧ ∀ r : Nat, r < P →
      (∃ i : Nat, i < p.gm.gnelem ∧ p'.elemdist[i]? = some (r : Int)) ∧
      (∃ n : Nat, countLocalElems p.gm p'.elemdist r = .ok n ∧ 1 ≤ n) ∧
      ∀ (api : MeshMethods R) (junk : Int) (junkR : R) (lm : UMesh2dh R),
        restrictMeshToPartitions api p.gm p'.elemdist r junk junkR = .ok lm →
        1 ≤ lm.nelem := by
  obtain ⟨p', h, _, hl, hv⟩ := compute_partition_spec p P hP hN
  refine ⟨p', h, ?_⟩
  intro r hr
  have hq : 1 ≤ p.gm.gnelem / P := (Nat.one_le_div_iff (by omega)).2 hN
  have hPq : P * (p.gm.gnelem / P) ≤ p.gm.gnelem := Nat.mul_div_le _ _
  have hlt : r * (p.gm.gnelem / P) < P * (p.gm.gnelem / P) :=
    Nat.mul_lt_mul_of_pos_right hr (by omega)
  have hi : r * (p.gm.gnelem / P) < p.gm.gnelem := by omega
  have hval : p'.elemdist[r * (p.gm.gnelem / P)]? = some (r : Int) := by
    rw [hv _ hi, if_pos hlt, Nat.mul_div_cancel _ (by omega)]
  have hsel : r * (p.gm.gnelem / P) ∈ selected p'.elemdist (r : Int) p.gm.nelem :=
    (selected_mem _ _ _ _).2 ⟨hi, hval⟩
  have hlen : 1 ≤ (selected p'.elemdist (r : Int) p.gm.nelem).length :=
    List.length_pos_of_mem hsel
  have hcount := countLocalElems_eq p.gm p'.elemdist (r : Int) hl
  refine ⟨⟨_, hi, hval⟩, ⟨_, hcount, hlen⟩, ?_⟩
  intro api junk junkR lm hlm
  obtain ⟨lm3, l2g, g2l, h3, e1, _⟩ := restrictMeshToPartitions_frame _ _ _ _ _ _ _ hlm
  obtain ⟨lm1, lm2, h1, _, _, f2, f3⟩ := restrictPoints_frame _ _ _ _ _ _ _ _ h3
  have hc := restrictElems_nelem _ _ _ _ _ h1
  rw [hcount] at hc
  have hn1 : lm1.nelem = (selected p'.elemdist (r : Int) p.gm.nelem).length :=
    (Except.ok.inj hc).symm
  have : lm.nelem = lm1.nelem := by rw [e1, f3, f2]
  omega

set_option maxRecDepth 100000 in
/-- C24 for the two-by-two block of quadrilaterals on two processes: each
rank has two elements. -/
theorem compute_partition_no_empty_rank_witness :
    (1 ≤ 2 ∧ 2 ≤ quadBlock.gnelem) ∧
    compute_partition 2 ⟨quadBlock, []⟩ = .ok ⟨quadBlock, [0, 0, 1, 1]⟩ ∧
    (∃ lm, ReplicatedGlobalMeshPartitioner.restrictMeshToPartitions api2d quadBlock
      [0, 0, 1, 1] 1 77 88 = .ok lm ∧ lm.nelem = 2) ∧
    ∃ p', compute_partition 2 ⟨quadBlock, []⟩ = .ok p' ∧ ∀ r : Nat, r < 2 →
      (∃ i : Nat, i < quadBlock.gnelem ∧ p'.elemdist[i]? = some (r : Int)) ∧
      (∃ n : Nat, ReplicatedGlobalMeshPartitioner.countLocalElems quadBlock p'.elemdist r
        = .ok n ∧ 1 ≤ n) ∧
      ∀ (api : MeshMethods Int) (junk : Int) (junkR : Int) (lm : UMesh2dh Int),
        ReplicatedGlobalMeshPartitioner.restrictMeshToPartitions api quadBlock p'.elemdist r
          junk junkR = .ok lm → 1 ≤ lm.nelem :=
  ⟨⟨by decide, by decide⟩, by decide!,
    ⟨ReplicatedGlobalMeshPartitioner.evalLocal quadBlock [0, 0, 1, 1] 1, by decide!, by decide!⟩,
    compute_partition_no_empty_rank ⟨quadBlock, []⟩ 2 (by decide) (by decide)⟩

end TrivialReplicatedGlobalMeshPartitioner

/-! ## Failures of container accesses -/

theorem vecGet_error {α : Type} (v : List α) (i : Int) (e : Err)
    (h : vecGet v i = .error e) : e = .outOfBounds := by
  unfold vecGet at h
  split at h
  · split at h
    · cases h
    · exact (Except.error.inj h).symm
  · exact (Except.error.inj h).symm

theorem vecSet_error {α : Type} (v : List α) (i : Int) (x : α) (e : Err)
    (h : vecSet v i x = .error e) : e = .outOfBounds := by
  unfold vecSet at h
  split at h
  · cases h
  · exact (Except.error.inj h).symm

theorem Array2d.get_error {α : Type} (a : Array2d α) (i j : Int) (e : Err)
    (h : a.get i j = .error e) : e = .outOfBounds :=
  vecGet_error _ _ _ h

theorem Array2d.set_error {α : Type} (a : Array2d α) (i j : Int) (x : α) (e : Err)
    (h : a.set i j x = .error e) : e = .outOfBounds := by
  unfold Array2d.set at h
  split at h
  · cases h
  · rename_i e' he
    cases h
    exact vecSet_error _ _ _ _ he

theorem atKey_error (m : StdMap) (k : Int) (e : Err) (h : m.atKey k = .error e) :
    e = .outOfRange ∧ m.lookup k = none := by
  unfold StdMap.atKey at h
  split at h
  · cases h
  · rename_i hl
    exact ⟨(Except.error.inj h).symm, hl⟩

namespace ReplicatedGlobalMeshPartitioner

/-! ## Failure of `extractbfaces` -/

/-- The loop over the nodes of the global boundary face `b` fails with
`std::out_of_range` only at a node that `pointGlob2Loc` does not map. -/
theorem bfaceNodes_error {R : Type} (gm : UMesh2dh R) (g2l : StdMap) (b : Nat)
    (l0 : List Int)
    (h : forLoop 0 gm.nnofa (fun j (l : List Int) => do
      let g ← gm.bface.get b j
      let v ← g2l.atKey g
      vecSet l j v) l0 = .error .outOfRange) :
    ∃ (j : Nat) (g : Int), j < gm.nnofa ∧ gm.bface.get b j = .ok g ∧ g2l.lookup g = none := by
  obtain ⟨j, t, _, hj, _, hb⟩ := forLoop_error _ (fun _ _ => True) _ 0 gm.nnofa l0 h trivial
    (fun _ _ _ _ _ _ _ => trivial)
  simp only [Res.bind_eq_error] at hb
  rcases hb with hb | ⟨g, hg, hb | ⟨v, hv, hb⟩⟩
  · cases Array2d.get_error _ _ _ _ hb
  · exact ⟨j, g, hj, hg, (atKey_error _ _ _ hb).2⟩
  · cases vecSet_error _ _ _ _ hb

/-- The loop over the nodes of the face `b`, when its reads are in range and
the row has room, either maps every node or fails with `std::out_of_range`. -/
theorem bfaceNodes_okOrErr {R : Type} (gm : UMesh2dh R) (g2l : StdMap) (b : Nat)
    (l0 : List Int) (hl : l0.length = 6) (hn : gm.nnofa ≤ 6)
    (hr : ∀ j : Nat, j < gm.nnofa → (gm.bface.get b j).toBool = true) :
    (∃ l, forLoop 0 gm.nnofa (fun j (l : List Int) => do
        let g ← gm.bface.get b j
        let v ← g2l.atKey g
        vecSet l j v) l0 = .ok l ∧ l.length = 6 ∧
      ∀ j : Nat, j < gm.nnofa → ∃ g v, gm.bface.get b j = .ok g ∧ g2l.lookup g = some v) ∨
    forLoop 0 gm.nnofa (fun j (l : List Int) => do
        let g ← gm.bface.get b j
        let v ← g2l.atKey g
        vecSet l j v) l0 = .error .outOfRange := by
  rcases forLoop_okOrErr (fun j (l : List Int) => do
        let g ← gm.bface.get b j
        let v ← g2l.atKey g
        vecSet l j v)
      (fun k (l : List Int) => l.length = 6 ∧
        ∀ j : Nat, j < k → ∃ g v, gm.bface.get b j = .ok g ∧ g2l.lookup g = some v)
      .outOfRange 0 gm.nnofa l0 (Nat.zero_le _) ⟨hl, by intro j hj; omega⟩
      (by
        intro k t _ hk ⟨q1, q2⟩
        obtain ⟨g, hg⟩ := (toBool_eq_true_iff _).1 (hr k hk)
        simp only [hg, Res.ok_bind]
        cases hv : g2l.lookup g with
        | none =>
          right
          unfold StdMap.atKey
          rw [hv]
          rfl
        | some v =>
          left
          have hat : g2l.atKey g = .ok v := (atKey_ok_iff _ _ _).2 hv
          simp only [hat, Res.ok_bind]
          refine ⟨_, vecSet_nat t k v (by omega), by simpa using q1, ?_⟩
          intro j hj
          by_cases hjk : j = k
          · subst hjk; exact ⟨g, v, hg, hv⟩
          · exact q2 j (by omega)) with ⟨l, h1, h2, h3⟩ | h1
  · exact Or.inl ⟨l, h1, h2, h3⟩
  · exact Or.inr h1

/-- The loop over the tags of the face `b` succeeds when its reads are in
range and the row has room. -/
theorem bfaceTags_total {R : Type} (gm : UMesh2dh R) (b : Nat) (l0 : List Int)
    (hl : l0.length = 6) (hn : gm.nnofa + gm.nbtag ≤ 6)
    (hr : ∀ j : Nat, j < gm.nnofa + gm.nbtag → (gm.bface.get b j).toBool = true) :
    ∃ l, forLoop 0 gm.nbtag (fun j (l : List Int) => do
        let t ← gm.bface.get b ((gm.nnofa : Int) + j)
        vecSet l ((gm.nnofa : Int) + j) t) l0 = .ok l ∧ l.length = 6 := by
  refine forLoop_total _ (fun _ (l : List Int) => l.length = 6) 0 gm.nbtag l0 (Nat.zero_le _)
    hl ?_
  intro k t _ hk ht
  have hc : (gm.nnofa : Int) + (k : Int) = ((gm.nnofa + k : Nat) : Int) := by push_cast; rfl
  obtain ⟨x, hx⟩ := (toBool_eq_true_iff _).1 (hr (gm.nnofa + k) (by omega))
  rw [hc]
  simp only [hx, Res.ok_bind]
  exact ⟨_, vecSet_nat t _ x (by omega), by simpa using ht⟩

/-- The loop over the tags never fails with `std::out_of_range`. -/
theorem bfaceTags_error {R : Type} (gm : UMesh2dh R) (b : Nat) (l0 : List Int) (e : Err)
    (h : forLoop 0 gm.nbtag (fun j (l : List Int) => do
        let t ← gm.bface.get b ((gm.nnofa : Int) + j)
        vecSet l ((gm.nnofa : Int) + j) t) l0 = .error e) : e = .outOfBounds := by
  obtain ⟨j, t, _, _, _, hb⟩ := forLoop_error _ (fun _ _ => True) _ 0 gm.nbtag l0 h trivial
    (fun _ _ _ _ _ _ _ => trivial)
  simp only [Res.bind_eq_error] at hb
  rcases hb with hb | ⟨g, _, hb⟩
  · exact Array2d.get_error _ _ _ _ hb
  · exact vecSet_error _ _ _ _ hb

/-- The value of `keptBFace` once the left element and its rank are read. -/
theorem keptBFace_of_reads {R : Type} (api : MeshMethods R) (gm : UMesh2dh R)
    (elemdist : List Int) (irank : Int) (b : Nat) (ge d : Int)
    (hge : gm.gintfac ((b : Int) + api.gPhyBFaceStart gm) 0 = .ok ge)
    (hd : vecGet elemdist ge = .ok d) :
    keptBFace api gm elemdist irank b = decide (d = irank) := by
  unfold keptBFace
  rw [hge, Res.ok_bind, hd]
  simp

/-- An iteration of the first loop of `extractbfaces` fails with
`std::out_of_range` only for a face whose left element is on this rank and
that has a node without a local index. -/
theorem extractbfacesStep_error {R : Type} (api : MeshMethods R) (gm : UMesh2dh R)
    (elemdist : List Int) (irank junk : Int) (g2l : StdMap) (b : Nat)
    (s : List (List Int) × Nat)
    (h : extractbfacesStep api gm elemdist irank g2l junk b s = .error .outOfRange) :
    keptBFace api gm elemdist irank b = true ∧
    ∃ (j : Nat) (g : Int), j < gm.nnofa ∧ gm.bface.get b j = .ok g ∧ g2l.lookup g = none := by
  unfold extractbfacesStep at h
  simp only [Res.bind_eq_error] at h
  rcases h with h | ⟨ge, hge, h | ⟨d, hd, h⟩⟩
  · cases Array2d.get_error _ _ _ _ h
  · cases vecGet_error _ _ _ h
  · have hkeep := keptBFace_of_reads api gm elemdist irank b ge d hge hd
    split at h
    · rename_i hr
      simp only [Res.bind_eq_error] at h
      rcases h with h | ⟨l1, _, h | ⟨l2, _, h⟩⟩
      · exact ⟨by rw [hkeep]; simp [hr], bfaceNodes_error gm g2l b _ h⟩
      · cases bfaceTags_error gm b l1 _ h
      · cases h
    · cases h

/-- An iteration of the first loop of `extractbfaces` on the face `b`, when
the reads for `b` are in range: a face of another rank is skipped, a face of
this rank is appended if all of its nodes have a local index, and otherwise
the iteration fails with `std::out_of_range`. -/
theorem extractbfacesStep_okOrErr {R : Type} (api : MeshMethods R) (gm : UMesh2dh R)
    (elemdist : List Int) (irank junk : Int) (g2l : StdMap) (b : Nat)
    (s : List (List Int) × Nat) (hn : gm.nnofa + gm.nbtag ≤ 6)
    (hread : (gm.gintfac ((b : Int) + api.gPhyBFaceStart gm) 0 >>= vecGet elemdist).toBool
      = true)
    (hrow : keptBFace api gm elemdist irank b = true →
      ∀ j : Nat, j < gm.nnofa + gm.nbtag → (gm.bface.get b j).toBool = true) :
    (keptBFace api gm elemdist irank b = false ∧
      extractbfacesStep api gm elemdist irank g2l junk b s = .ok s) ∨
    (keptBFace api gm elemdist irank b = true ∧
      (∀ j : Nat, j < gm.nnofa → ∃ g v, gm.bface.get b j = .ok g ∧ g2l.lookup g = some v) ∧
      ∃ row : List Int, row.length = 6 ∧
        extractbfacesStep api gm elemdist irank g2l junk b s = .ok (s.1 ++ [row], s.2 + 1)) ∨
    (keptBFace api gm elemdist irank b = true ∧
      extractbfacesStep api gm elemdist irank g2l junk b s = .error .outOfRange) := by
  obtain ⟨d, hd⟩ := (toBool_eq_true_iff _).1 hread
  rw [Res.bind_eq_ok] at hd
  obtain ⟨ge, hge, hd⟩ := hd
  have hkeep := keptBFace_of_reads api gm elemdist irank b ge d hge hd
  unfold extractbfacesStep
  simp only [hge, hd, Res.ok_bind]
  by_cases hr : d = irank
  · have hk : keptBFace api gm elemdist irank b = true := by rw [hkeep]; simp [hr]
    rw [if_pos hr]
    right
    rcases bfaceNodes_okOrErr gm g2l b (List.replicate 6 junk) (by simp) (by omega)
      (fun j hj => hrow hk j (by omega)) with ⟨l1, h1, hl1, hm⟩ | h1
    · left
      obtain ⟨l2, h2, hl2⟩ := bfaceTags_total gm b l1 hl1 hn (hrow hk)
      refine ⟨hk, hm, l2, hl2, ?_⟩
      simp only [h1, h2, Res.ok_bind, Res.pure_eq]
    · right
      refine ⟨hk, ?_⟩
      simp only [h1, Res.error_bind]
  · left
    rw [if_neg hr]
    exact ⟨by rw [hkeep]; simp [hr], rfl⟩

/-- The copy of `tbfaces` into `bface` succeeds when the array has a row for
every entry of `tbfaces` and every entry has a cell for every column. -/
theorem fillBface_total (tb : List (List Int)) (nb w : Nat) (a0 : Array2d Int)
    (htb : tb.length = nb) (hrows : ∀ row ∈ tb, w ≤ row.length) (hw : a0.ncols = w)
    (hlen : a0.elems.length = nb * w) : ∃ a, fillBface tb nb w a0 = .ok a := by
  unfold fillBface
  obtain ⟨a, h, _⟩ := forLoop_total
    (fun iface (a : Array2d Int) =>
      forLoop 0 w (fun j (a : Array2d Int) => do
        let row ← vecGet tb iface
        let v ← vecGet row j
        a.set iface j v) a)
    (fun _ (a : Array2d Int) => a.ncols = w ∧ a.elems.length = nb * w)
    0 nb a0 (Nat.zero_le _) ⟨hw, hlen⟩
    (by
      intro k t _ hk ht
      refine forLoop_total _ (fun _ (a : Array2d Int) => a.ncols = w ∧ a.elems.length = nb * w)
        0 w t (Nat.zero_le _) ht ?_
      intro j u _ hj ⟨u1, u2⟩
      have hkl : k < tb.length := by omega
      have hrow := vecGet_of_lt tb k hkl
      have hjl : j < tb[k].length := by
        have := hrows tb[k] (List.getElem_mem hkl)
        omega
      have hv := vecGet_of_lt tb[k] j hjl
      simp only [hrow, hv, Res.ok_bind]
      have hb : k * u.ncols + j < u.elems.length := by
        rw [u1, u2]; exact flat_lt hk hj
      exact ⟨_, Array2d.set_nat u k j _ hb, u1, by simpa using u2⟩)
  exact ⟨a, h⟩

/-- The copy of `tbfaces` into `bface` fails only by an access outside a
container. -/
theorem fillBface_error (tb : List (List Int)) (nb w : Nat) (a0 : Array2d Int) (e : Err)
    (h : fillBface tb nb w a0 = .error e) : e = .outOfBounds := by
  unfold fillBface at h
  obtain ⟨k, t, _, _, _, hb⟩ := forLoop_error _ (fun _ _ => True) _ 0 nb a0 h trivial
    (fun _ _ _ _ _ _ _ => trivial)
  obtain ⟨j, u, _, _, _, hb⟩ := forLoop_error _ (fun _ _ => True) _ 0 w t hb trivial
    (fun _ _ _ _ _ _ _ => trivial)
  simp only [Res.bind_eq_error] at hb
  rcases hb with hb | ⟨_, _, hb | ⟨_, _, hb⟩⟩
  · exact vecGet_error _ _ _ hb
  · exact vecGet_error _ _ _ hb
  · exact Array2d.set_error _ _ _ _ _ hb

/-- A failure of `extractbfaces` with `std::out_of_range` comes from a global
boundary face whose left element is on this rank and a node of it that
`pointGlob2Loc` does not map. -/
theorem extractbfaces_error_unmapped {R : Type} (api : MeshMethods R)
    (gm lm : UMesh2dh R) (elemdist : List Int) (irank junk : Int) (pointGlob2Loc : StdMap)
    (h : extractbfaces api gm elemdist irank pointGlob2Loc lm junk = .error .outOfRange) :
    ∃ (b j : Nat) (g : Int), b < gm.nbface ∧ keptBFace api gm elemdist irank b = true ∧
      j < gm.nnofa ∧ gm.bface.get b j = .ok g ∧ pointGlob2Loc.lookup g = none := by
  unfold extractbfaces at h
  simp only [Res.bind_eq_error] at h
  rcases h with h | ⟨r, _, h | ⟨a, _, h⟩⟩
  · obtain ⟨b, t, _, hb, _, hstep⟩ := forLoop_error _ (fun _ _ => True) _ 0 gm.nbface _ h
      trivial (fun _ _ _ _ _ _ _ => trivial)
    obtain ⟨hk, j, g, hj, hg, hl⟩ :=
      extractbfacesStep_error api gm elemdist irank junk pointGlob2Loc b t hstep
    exact ⟨b, j, g, hb, hk, hj, hg, hl⟩
  · cases fillBface_error _ _ _ _ _ h
  · cases h

/-- When the reads of its first loop are inside their containers,
`extractbfaces` either returns a mesh, and then every node of every face of
this rank has a local index, or fails with `std::out_of_range`. -/
theorem extractbfaces_okOrErr {R : Type} (api : MeshMethods R)
    (gm lm : UMesh2dh R) (elemdist : List Int) (irank junk : Int) (pointGlob2Loc : StdMap)
    (hreads : BFaceReadsInRange api gm elemdist irank) (hnf : lm.nnofa = gm.nnofa)
    (hnt : lm.nbtag = gm.nbtag) :
    (∃ lm', extractbfaces api gm elemdist irank pointGlob2Loc lm junk = .ok lm' ∧
      ∀ b : Nat, b < gm.nbface → keptBFace api gm elemdist irank b = true →
        ∀ j : Nat, j < gm.nnofa →
          ∃ g v, gm.bface.get b j = .ok g ∧ pointGlob2Loc.lookup g = some v) ∨
    extractbfaces api gm elemdist irank pointGlob2Loc lm junk = .error .outOfRange := by
  obtain ⟨hn, hreads⟩ := hreads
  have key := forLoop_okOrErr (extractbfacesStep api gm elemdist irank pointGlob2Loc junk)
    (fun k (s : List (List Int) × Nat) => s.1.length = s.2 ∧
      (∀ row ∈ s.1, row.length = 6) ∧
      ∀ b : Nat, b < k → keptBFace api gm elemdist irank b = true →
        ∀ j : Nat, j < gm.nnofa →
          ∃ g v, gm.bface.get b j = .ok g ∧ pointGlob2Loc.lookup g = some v)
    .outOfRange 0 gm.nbface ([], 0) (Nat.zero_le _)
    ⟨rfl, (by intro row hrow; cases hrow), (by intro b hb; omega)⟩
    (by
      intro k s _ hk ⟨q1, q2, q3⟩
      rcases extractbfacesStep_okOrErr api gm elemdist irank junk pointGlob2Loc k s hn
        (hreads k hk).1 (hreads k hk).2 with ⟨hkf, hs⟩ | ⟨hkt, hm, row, hrl, hs⟩ | ⟨_, hs⟩
      · left
        refine ⟨s, hs, q1, q2, ?_⟩
        intro b hb hkb
        by_cases hbk : b = k
        · subst hbk; rw [hkf] at hkb; cases hkb
        · exact q3 b (by omega) hkb
      · left
        refine ⟨_, hs, by simp [q1], ?_, ?_⟩
        · intro row' hrow'
          rcases List.mem_append.1 hrow' with h1 | h1
          · exact q2 row' h1
          · rw [List.mem_singleton] at h1
            rw [h1]; exact hrl
        · intro b hb hkb
          by_cases hbk : b = k
          · subst hbk; exact hm
          · exact q3 b (by omega) hkb
      · exact Or.inr hs)
  unfold extractbfaces
  rcases key with ⟨s, hs, q1, q2, q3⟩ | herr
  · left
    obtain ⟨a, ha⟩ := fillBface_total s.1 s.2 (lm.nnofa + lm.nbtag)
      (lm.bface.resize s.2 (lm.nnofa + lm.nbtag) junk) q1
      (by intro row hrow; rw [q2 row hrow, hnf, hnt]; exact hn) rfl (by simp [Array2d.resize])
    refine ⟨{ lm with nbface := s.2, bface := a }, ?_, q3⟩
    simp only [hs, ha, Res.ok_bind, Res.pure_eq]
  · right
    simp only [herr, Res.error_bind]

/-- C23: `extractbfaces` fails with `std::out_of_range`, the failed lookup in
`pointGlob2Loc`, only if some global boundary face whose left element is
assigned to this rank has a node that is not a key of `pointGlob2Loc`; a face
whose left element is on another rank never causes it. When the reads of the
loop are inside their containers (and `lm` has the `nnofa` and `nbtag` of the
global mesh, as in `restrictMeshToPartitions`) the converse holds: such a
face makes `extractbfaces` fail with `std::out_of_range`, and without such a
face `extractbfaces` returns a mesh. -/
theorem extractbfaces_fails_iff_unmapped_node {R : Type} (api : MeshMethods R)
    (gm lm : UMesh2dh R) (elemdist : List Int) (irank junk : Int) (pointGlob2Loc : StdMap) :
    (extractbfaces api gm elemdist irank pointGlob2Loc lm junk = .error .outOfRange →
      ∃ (b j : Nat) (g : Int), b < gm.nbface ∧ keptBFace api gm elemdist irank b = true ∧
        j < gm.nnofa ∧ gm.bface.get b j = .ok g ∧ pointGlob2Loc.lookup g = none) ∧
    (BFaceReadsInRange api gm elemdist irank → lm.nnofa = gm.nnofa → lm.nbtag = gm.nbtag →
      ((∃ (b j : Nat) (g : Int), b < gm.nbface ∧ keptBFace api gm elemdist irank b = true ∧
          j < gm.nnofa ∧ gm.bface.get b j = .ok g ∧ pointGlob2Loc.lookup g = none) →
        extractbfaces api gm elemdist irank pointGlob2Loc lm junk = .error .outOfRange) ∧
      ((¬ ∃ (b j : Nat) (g : Int), b < gm.nbface ∧ keptBFace api gm elemdist irank b = true ∧
          j < gm.nnofa ∧ gm.bface.get b j = .ok g ∧ pointGlob2Loc.lookup g = none) →
        ∃ lm', extractbfaces api gm elemdist irank pointGlob2Loc lm junk = .ok lm')) := by
  refine ⟨extractbfaces_error_unmapped api gm lm elemdist irank junk pointGlob2Loc, ?_⟩
  intro hreads hnf hnt
  have key := extractbfaces_okOrErr api gm lm elemdist irank junk pointGlob2Loc hreads hnf hnt
  constructor
  · rintro ⟨b, j, g, hb, hkb, hj, hg, hl⟩
    rcases key with ⟨lm', _, q3⟩ | herr
    · obtain ⟨g', v, hg', hv⟩ := q3 b hb hkb j hj
      rw [hg] at hg'
      cases hg'
      rw [hl] at hv
      cases hv
    · exact herr
  · intro hno
    rcases key with ⟨lm', hlm', _⟩ | herr
    · exact ⟨lm', hlm'⟩
    · exact absurd
        (extractbfaces_error_unmapped api gm lm elemdist irank junk pointGlob2Loc herr) hno

set_option maxRecDepth 100000 in
/-- C23 on the two-by-two block of quadrilaterals split as `[0, 0, 1, 1]`, on
rank 1: with the map of the restriction `extractbfaces` returns a mesh; with
an empty map the boundary face 3, whose left element 3 is on rank 1, has the
unmapped node 5, and `extractbfaces` fails with `std::out_of_range`. -/
theorem extractbfaces_fails_iff_unmapped_node_witness :
    (BFaceReadsInRange api2d quadBlock [0, 0, 1, 1] 1 ∧
      (evalPoints quadBlock [0, 0, 1, 1] 1).1.nnofa = quadBlock.nnofa ∧
      (evalPoints quadBlock [0, 0, 1, 1] 1).1.nbtag = quadBlock.nbtag ∧
      extractbfaces api2d quadBlock [0, 0, 1, 1] 1 (evalPoints quadBlock [0, 0, 1, 1] 1).2.2
        (evalPoints quadBlock [0, 0, 1, 1] 1).1 77 = .ok (evalLocal4 quadBlock [0, 0, 1, 1] 1) ∧
      ∃ (b j : Nat) (g : Int), b < quadBlock.nbface ∧
        keptBFace api2d quadBlock [0, 0, 1, 1] 1 b = true ∧ j < quadBlock.nnofa ∧
        quadBlock.bface.get b j = .ok g ∧ ([] : StdMap).lookup g = none) ∧
    extractbfaces api2d quadBlock [0, 0, 1, 1] 1 [] (evalPoints quadBlock [0, 0, 1, 1] 1).1 77
      = .error .outOfRange :=
  ⟨⟨by decide!, by decide!, by decide!, by decide!,
      3, 0, 5, by decide!, by decide!, by decide!, by decide!, rfl⟩,
    ((extractbfaces_fails_iff_unmapped_node api2d quadBlock
      (evalPoints quadBlock [0, 0, 1, 1] 1).1 [0, 0, 1, 1] 1 77 []).2
        (by decide!) (by decide!) (by decide!)).1
      ⟨3, 0, 5, by decide!, by decide!, by decide!, by decide!, rfl⟩⟩

/-! ## The boundary faces of all ranks -/

/-- When `extractbfaces` succeeds, `lm.nbface` is the number of global
boundary faces whose left element is on this rank. -/
theorem extractbfaces_nbface {R : Type} (api : MeshMethods R) (gm lm lm' : UMesh2dh R)
    (elemdist : List Int) (irank junk : Int) (g2l : StdMap)
    (h : extractbfaces api gm elemdist irank g2l lm junk = .ok lm') :
    lm'.nbface = ((List.range gm.nbface).filter (keptBFace api gm elemdist irank)).length := by
  unfold extractbfaces at h
  simp only [Res.bind_eq_ok, Res.pure_eq, Except.ok.injEq] at h
  obtain ⟨⟨tb, nb⟩, h1, a, _, rfl⟩ := h
  exact forLoop_partial _
    (fun k (s : List (List Int) × Nat) =>
      s.2 = ((List.range k).filter (keptBFace api gm elemdist irank)).length)
    0 gm.nbface ([], 0) (tb, nb) (Nat.zero_le _) h1 (by simp)
    (by
      intro k s s' _ _ q1 hs
      rcases extractbfacesStep_partial api gm elemdist irank junk g2l k s s' hs with
        ⟨hkeep, rfl⟩ | ⟨hkeep, row, rfl, _, _⟩
      · rw [filter_range_succ, hkeep]
        simpa using q1
      · rw [filter_range_succ, hkeep]
        simp only [if_true, List.length_append, List.length_singleton]
        rw [q1])

/-- C27: boundary faces are partitioned across the ranks. For an assignment
of the elements of the global mesh with entries in `[0, P)` and a global mesh
in which the left element of every boundary face is a real element, every
global boundary face has its left element on exactly one rank `r < P`, which
is the only rank on which `extractbfaces` retains it; and when
`extractbfaces` succeeds on every rank, each `lm.nbface` is the number of
faces retained on that rank and their sum over the ranks is `gm.nbface`. -/
theorem bfaces_partitioned {R : Type} (api : MeshMethods R) (gm : UMesh2dh R)
    (elemdist : List Int) (P : Nat) (junk : Int)
    (hd : elemdist.length = gm.nelem)
    (hrange : ∀ d ∈ elemdist, 0 ≤ d ∧ d < (P : Int))
    (hleft : ∀ b : Nat, b < gm.nbface → ∃ g : Nat, g < gm.nelem ∧
      gm.gintfac ((b : Int) + api.gPhyBFaceStart gm) 0 = .ok (g : Int)) :
    (∀ b : Nat, b < gm.nbface →
      ∃! r : Nat, r < P ∧ keptBFace api gm elemdist (r : Int) b = true) ∧
    ∀ (g2l : Nat → StdMap) (lm lm' : Nat → UMesh2dh R),
      (∀ r : Nat, r < P →
        extractbfaces api gm elemdist (r : Int) (g2l r) (lm r) junk = .ok (lm' r)) →
      (∀ r : Nat, r < P → (lm' r).nbface =
        ((List.range gm.nbface).filter (keptBFace api gm elemdist (r : Int))).length) ∧
      (∑ r in Finset.range P, (lm' r).nbface) = gm.nbface := by
  -- the rank of the left element of a boundary face
  have howner : ∀ b : Nat, b < gm.nbface → ∃ d : Nat, d < P ∧
      (gm.gintfac ((b : Int) + api.gPhyBFaceStart gm) 0 >>= vecGet elemdist)
        = .ok (d : Int) := by
    intro b hb
    obtain ⟨g, hg, hgi⟩ := hleft b hb
    have hgl : g < elemdist.length := by omega
    obtain ⟨h0, h1⟩ := hrange elemdist[g] (List.getElem_mem hgl)
    refine ⟨elemdist[g].toNat, by omega, ?_⟩
    rw [hgi, Res.ok_bind, vecGet_of_lt elemdist g hgl, Int.toNat_of_nonneg h0]
  have hkept : ∀ (b d : Nat) (r : Int),
      (gm.gintfac ((b : Int) + api.gPhyBFaceStart gm) 0 >>= vecGet elemdist)
        = .ok (d : Int) → (keptBFace api gm elemdist r b = true ↔ (d : Int) = r) := by
    intro b d r h
    unfold keptBFace
    rw [h]
    simp
  constructor
  · intro b hb
    obtain ⟨d, hdP, hdo⟩ := howner b hb
    refine ⟨d, ⟨hdP, (hkept b d d hdo).2 rfl⟩, ?_⟩
    rintro r ⟨_, hr⟩
    have := (hkept b d r hdo).1 hr
    exact_mod_cast this.symm
  · intro g2l lm lm' hall
    have hnb : ∀ r : Nat, r < P → (lm' r).nbface =
        ((List.range gm.nbface).filter (keptBFace api gm elemdist (r : Int))).length :=
      fun r hr => extractbfaces_nbface api gm (lm r) (lm' r) elemdist r junk (g2l r) (hall r hr)
    refine ⟨hnb, ?_⟩
    let owner : Nat → Int := fun b =>
      ((gm.gintfac ((b : Int) + api.gPhyBFaceStart gm) 0 >>= vecGet elemdist).toOption).getD (-1)
    have hown : ∀ b : Nat, b < gm.nbface → ∃ d : Nat, d < P ∧ owner b = (d : Int) ∧
        ∀ r : Int, (keptBFace api gm elemdist r b = true ↔ owner b = r) := by
      intro b hb
      obtain ⟨d, hdP, hdo⟩ := howner b hb
      have : owner b = (d : Int) := by
        show (Except.toOption _).getD (-1) = _
        rw [hdo]; rfl
      exact ⟨d, hdP, this, fun r => by rw [this]; exact hkept b d r hdo⟩
    have hcount : ∀ r : Nat, ((List.range gm.nbface).filter
        (keptBFace api gm elemdist (r : Int))).length
          = ((List.range gm.nbface).map owner).count (r : Int) := by
      intro r
      rw [← List.countP_eq_length_filter, List.count, List.countP_map]
      apply List.countP_congr
      intro b hb
      obtain ⟨d, _, _, hiff⟩ := hown b (List.mem_range.1 hb)
      rw [hiff (r : Int)]
      simp
    have hsum := sum_count_range ((List.range gm.nbface).map owner) P (by
      intro d hdm
      obtain ⟨b, hb, rfl⟩ := List.mem_map.1 hdm
      obtain ⟨d', hd', he, _⟩ := hown b (List.mem_range.1 hb)
      rw [he]
      omega)
    rw [List.length_map, List.length_range] at hsum
    rw [← hsum]
    apply Finset.sum_congr rfl
    intro r hr
    rw [hnb r (Finset.mem_range.1 hr), hcount r]

set_option maxRecDepth 100000 in
/-- C27 on the two-by-two block of quadrilaterals split as `[0, 0, 1, 1]`:
each rank retains four of the eight boundary faces. -/
theorem bfaces_partitioned_witness :
    (([0, 0, 1, 1] : List Int).length = quadBlock.nelem ∧
      (∀ d ∈ ([0, 0, 1, 1] : List Int), 0 ≤ d ∧ d < ((2 : Nat) : Int)) ∧
      (∀ r : Nat, r < 2 → extractbfaces api2d quadBlock [0, 0, 1, 1] (r : Int)
        (evalPoints quadBlock [0, 0, 1, 1] (r : Int)).2.2
        (evalPoints quadBlock [0, 0, 1, 1] (r : Int)).1 77
          = .ok (evalLocal4 quadBlock [0, 0, 1, 1] (r : Int))) ∧
      (∀ r : Nat, r < 2 → (evalLocal4 quadBlock [0, 0, 1, 1] (r : Int)).nbface = 4)) ∧
    ((∀ b : Nat, b < quadBlock.nbface →
      ∃! r : Nat, r < 2 ∧ keptBFace api2d quadBlock [0, 0, 1, 1] (r : Int) b = true) ∧
    ∀ (g2l : Nat → StdMap) (lm lm' : Nat → UMesh2dh Int),
      (∀ r : Nat, r < 2 →
        extractbfaces api2d quadBlock [0, 0, 1, 1] (r : Int) (g2l r) (lm r) 77 = .ok (lm' r)) →
      (∀ r : Nat, r < 2 → (lm' r).nbface =
        ((List.range quadBlock.nbface).filter
          (keptBFace api2d quadBlock [0, 0, 1, 1] (r : Int))).length) ∧
      (∑ r in Finset.range 2, (lm' r).nbface) = quadBlock.nbface) :=
  ⟨⟨by decide, by decide, by decide!, by decide!⟩,
    bfaces_partitioned api2d quadBlock [0, 0, 1, 1] 2 77 (by decide) (by decide)
      (by
        intro b hb
        have h8 : b < 8 := hb
        interval_cases b
        · exact ⟨0, by decide, by decide!⟩
        · exact ⟨1, by decide, by decide!⟩
        · exact ⟨1, by decide, by decide!⟩
        · exact ⟨3, by decide, by decide!⟩
        · exact ⟨3, by decide, by decide!⟩
        · exact ⟨2, by decide, by decide!⟩
        · exact ⟨2, by decide, by decide!⟩
        · exact ⟨0, by decide, by decide!⟩)⟩

/-! ## The coordinates of the local points -/

/-- The entries of a strictly increasing list increase with the position. -/
theorem pairwise_lt_getElem (lp : List Int) (hpw : lp.Pairwise (· < ·)) (a b : Nat)
    (x y : Int) (hab : a < b) (ha : lp[a]? = some x) (hb : lp[b]? = some y) : x < y := by
  obtain ⟨ha1, rfl⟩ := List.getElem?_eq_some_iff.1 ha
  obtain ⟨hb1, rfl⟩ := List.getElem?_eq_some_iff.1 hb
  exact (List.pairwise_iff_getElem.1 hpw) a b ha1 hb1 hab

/-- The `while` loop of `extractPointCoords`, started at the global pointer
`g` and the local pointer `l` with enough fuel to reach the end of the global
points, when the local points from `l` on are global points not below `g`:
the rows before `l` are left as they are, and every row from `l` on receives
the coordinates of its global point. -/
theorem copyCoords_content {R : Type} (gm : UMesh2dh R) (lp : List Int) (n : Nat)
    (hc : gm.CoordsSized) (hl : lp.length = n) (hpw : lp.Pairwise (· < ·))
    (hin : ∀ k : Nat, k < n → ∃ p : Nat, lp[k]? = some (p : Int) ∧ p < gm.npoin) :
    ∀ (fuel g l : Nat) (c : Array2d R), c.ncols = NDIM → c.elems.length = n * NDIM →
      gm.npoin ≤ fuel + g →
      (∀ k p : Nat, l ≤ k → lp[k]? = some (p : Int) → g ≤ p) →
      ∃ c', copyCoords gm lp n fuel g l c = .ok c' ∧
        (∀ q : Nat, q < l * NDIM → c'.elems[q]? = c.elems[q]?) ∧
        (∀ k p d : Nat, l ≤ k → lp[k]? = some (p : Int) → d < NDIM →
          c'.elems[k * NDIM + d]? = gm.coords.elems[p * NDIM + d]?) := by
  have hkn : ∀ (k : Nat) (x : Int), lp[k]? = some x → k < n := by
    intro k x hk
    rw [← hl]; exact (List.getElem?_eq_some_iff.1 hk).1
  have hlt : ∀ k p : Nat, lp[k]? = some (p : Int) → p < gm.npoin := by
    intro k p hk
    obtain ⟨p', h1, h2⟩ := hin k (hkn k _ hk)
    rw [hk] at h1
    have : p = p' := by exact_mod_cast Option.some.inj h1
    omega
  intro fuel
  induction fuel with
  | zero =>
    intro g l c _ _ hfuel hge
    refine ⟨c, rfl, fun _ _ => rfl, ?_⟩
    intro k p d hk hp _
    have := hge k p hk hp
    have := hlt k p hp
    omega
  | succ fuel ih =>
    intro g l c h1 h2 hfuel hge
    unfold copyCoords
    by_cases hg : g < gm.npoin ∧ l < n
    · rw [if_pos hg]
      obtain ⟨pl, hpl, hplt⟩ := hin l hg.2
      have hvl : vecGet lp (l : Int) = .ok (pl : Int) := (vecGet_nat_ok_iff _ _ _).2 hpl
      simp only [hvl, Res.ok_bind]
      by_cases he : (g : Int) = (pl : Int)
      · rw [if_pos he]
        have hgp : g = pl := by exact_mod_cast he
        obtain ⟨c1, hc1, a1, a2, a3, a4, a5, a6⟩ := copyRow_spec gm.coords c NDIM g l
          (by rw [hc.1, hc.2]; exact flat_row_le hg.1)
          (by rw [h1, h2]; exact flat_row_le hg.2)
        simp only [hc1, Res.ok_bind]
        obtain ⟨c', hc', b1, b2⟩ := ih (g + 1) (l + 1) c1 (a2.trans h1) (a4.trans h2)
          (by omega)
          (by
            intro k p hk hp
            have := pairwise_lt_getElem lp hpw l k _ _ (by omega) hpl hp
            omega)
        refine ⟨c', hc', ?_, ?_⟩
        · intro q hq
          rw [b1 q (by rw [Nat.add_mul]; omega)]
          exact a6 q (Or.inl (by rw [h1]; exact hq))
        · intro k p d hk hp hd
          by_cases hkl : k = l
          · subst hkl
            rw [hpl] at hp
            have hpp : pl = p := by exact_mod_cast Option.some.inj hp
            subst hpp
            rw [b1 _ (by rw [Nat.add_mul]; omega)]
            have := a5 d hd
            rw [h1, hc.1] at this
            rw [this, hgp]
          · exact b2 k p d (by omega) hp hd
      · rw [if_neg he]
        have hgl := hge l pl (Nat.le_refl _) hpl
        have hne : g ≠ pl := fun h => he (by rw [h])
        exact ih (g + 1) l c h1 h2 (by omega)
          (by
            intro k p hk hp
            by_cases hkl : k = l
            · subst hkl
              rw [hpl] at hp
              have : pl = p := by exact_mod_cast Option.some.inj hp
              omega
            · have := pairwise_lt_getElem lp hpw l k _ _ (by omega) hpl hp
              omega)
    · rw [if_neg hg]
      refine ⟨c, rfl, fun _ _ => rfl, ?_⟩
      intro k p d hk hp _
      have h3 := hge k p hk hp
      have h4 := hlt k p hp
      have h5 := hkn k _ hp
      exfalso
      apply hg
      exact ⟨by omega, by omega⟩

/-- The coordinates that `extractPointCoords` leaves in the local mesh, when
the list of local points is strictly increasing and holds points of the
global mesh: row `l` holds the coordinates of the global point
`locpoints[l]`. -/
theorem extractPointCoords_coords {R : Type} (gm lm lm' : UMesh2dh R) (junkR : R)
    (m : StdMap) (lp : List Int) (hc : gm.CoordsSized)
    (h : extractPointCoords gm lm [] junkR = .ok (m, lp, lm'))
    (hin : ∀ k : Nat, k < lp.length → ∃ p : Nat, lp[k]? = some (p : Int) ∧ p < gm.npoin) :
    lm'.npoin = lp.length ∧
    ∀ l p d : Nat, lp[l]? = some (p : Int) → d < NDIM →
      lm'.coords.elems[l * NDIM + d]? = gm.coords.elems[p * NDIM + d]? ∧
      l * NDIM + d < lm'.coords.elems.length ∧ lm'.coords.ncols = NDIM := by
  unfold extractPointCoords at h
  simp only [Res.bind_eq_ok, Res.pure_eq, Except.ok.injEq, Prod.mk.injEq] at h
  obtain ⟨pushed, _, glb, _, c, hcopy, _, rfl, rfl⟩ := h
  have hpw : (stdUnique (stdSort pushed)).Pairwise (· < ·) :=
    pairwise_stdUnique _ (pairwise_stdSort _)
  obtain ⟨c0, hc0, k1, k2, k3, k4⟩ := copyCoords_ok gm (stdUnique (stdSort pushed))
    (stdUnique (stdSort pushed)).length hc rfl gm.npoin 0 0
    (lm.coords.resize (stdUnique (stdSort pushed)).length NDIM junkR) rfl
    (by simp [Array2d.resize])
  obtain ⟨c', hc', _, b2⟩ := copyCoords_content gm (stdUnique (stdSort pushed))
    (stdUnique (stdSort pushed)).length hc rfl hpw hin gm.npoin 0 0
    (lm.coords.resize (stdUnique (stdSort pushed)).length NDIM junkR) rfl
    (by simp [Array2d.resize]) (by omega) (by intro k p _ _; omega)
  rw [hcopy] at hc' hc0
  cases hc'
  cases hc0
  refine ⟨rfl, ?_⟩
  intro l p d hl hd
  have hll : l < (stdUnique (stdSort pushed)).length := (List.getElem?_eq_some_iff.1 hl).1
  refine ⟨b2 l p d (Nat.zero_le _) hl hd, ?_, k2⟩
  show l * NDIM + d < c.elems.length
  rw [k4]
  exact flat_lt hll hd

/-- C22: `extractPointCoords` copies the right coordinates. On a well-formed
global mesh, when every point index referenced by the elements of this rank
is a point of the global mesh, `extractPointCoords` (run after
`extractInpoel`, as in `restrictMeshToPartitions`) succeeds, and for every
local point `l < lm.npoin` and every dimension `d < NDIM` the cell
`lm.coords(l, d)` holds the value of `gm.coords(pointLoc2Glob[l], d)`: no
local point is left without coordinates. The mesh that
`restrictMeshToPartitions` returns has those coordinates. -/
theorem extractPointCoords_copies_coords {R : Type} (gm : UMesh2dh R) (elemdist : List Int)
    (rank junk : Int) (junkR : R) (hs : gm.ElemsSized) (hc : gm.CoordsSized)
    (hb : gm.NodesBounded) (hd : elemdist.length = gm.nelem)
    (hpts : SelectedPointsInRange gm elemdist rank) :
    ∃ lm1 pointGlob2Loc pointLoc2Glob lm2,
      restrictElems gm elemdist rank junk = .ok lm1 ∧
      extractPointCoords gm lm1 [] junkR = .ok (pointGlob2Loc, pointLoc2Glob, lm2) ∧
      lm2.npoin = pointLoc2Glob.length ∧
      (∀ l d : Nat, l < lm2.npoin → d < NDIM → ∃ (p : Int) (x : R),
        vecGet pointLoc2Glob l = .ok p ∧ gm.coords.get p d = .ok x ∧
        lm2.coords.get l d = .ok x) ∧
      ∀ (api : MeshMethods R) (lm : UMesh2dh R),
        restrictMeshToPartitions api gm elemdist rank junk junkR = .ok lm →
        lm.npoin = lm2.npoin ∧ lm.coords = lm2.coords := by
  obtain ⟨lm1, g2l, l2g, lm2, h1, h2, _, _, _, hpw, hmem, _, _, hf, _⟩ :=
    localPoints_spec gm elemdist rank junk junkR hs hc hb hd
  have hin : ∀ k : Nat, k < l2g.length → ∃ p : Nat, l2g[k]? = some (p : Int) ∧
      p < gm.npoin := by
    intro k hk
    obtain ⟨g, j, n, hg, hed, hn, hj, hp⟩ := (hmem l2g[k]).1 (List.getElem_mem hk)
    have hn0 : gm.nnode.getD g 0 = n := by
      rw [List.getD_eq_getElem?_getD, hn]; rfl
    obtain ⟨p, hp1, hp2⟩ := hpts g hg hed j (by rw [hn0]; omega)
    rw [hp] at hp2
    refine ⟨p, ?_, hp1⟩
    rw [List.getElem?_eq_getElem hk, Except.ok.inj hp2]
  obtain ⟨hnp, hco⟩ := extractPointCoords_coords gm lm1 lm2 junkR g2l l2g hc h2 hin
  refine ⟨lm1, g2l, l2g, lm2, h1, h2, hnp, ?_, ?_⟩
  · intro l d hl hdm
    rw [hnp] at hl
    obtain ⟨p, hp, hplt⟩ := hin l hl
    obtain ⟨e1, e2, e3⟩ := hco l p d hp hdm
    have hsrc : p * NDIM + d < gm.coords.elems.length := by
      rw [hc.2]; exact flat_lt hplt hdm
    refine ⟨(p : Int), gm.coords.elems[p * NDIM + d], (vecGet_nat_ok_iff _ _ _).2 hp, ?_, ?_⟩
    · rw [Array2d.get_nat_ok_iff, hc.1]
      exact List.getElem?_eq_getElem hsrc
    · rw [Array2d.get_nat_ok_iff, e3, e1]
      exact List.getElem?_eq_getElem hsrc
  · intro api lm hlm
    obtain ⟨lm3, l2g', g2l', h3, _, _, _, _, _, e6, e7, _⟩ :=
      restrictMeshToPartitions_frame _ _ _ _ _ _ _ hlm
    obtain ⟨lm1', lm2', h1', h2', _, _, f3⟩ := restrictPoints_frame _ _ _ _ _ _ _ _ h3
    rw [h1] at h1'
    cases h1'
    rw [h2] at h2'
    cases h2'
    rw [e6, e7, f3]
    exact ⟨rfl, rfl⟩

set_option maxRecDepth 100000 in
/-- C22 on the two-by-two block of quadrilaterals split as `[0, 0, 1, 1]`, on
rank 1, whose local points are the global points `3 .. 8`. -/
theorem extractPointCoords_copies_coords_witness :
    (quadBlock.ElemsSized ∧ quadBlock.CoordsSized ∧ quadBlock.NodesBounded ∧
      ([0, 0, 1, 1] : List Int).length = quadBlock.nelem ∧
      SelectedPointsInRange quadBlock [0, 0, 1, 1] 1 ∧
      (evalPoints quadBlock [0, 0, 1, 1] 1).2.1 = [3, 4, 5, 6, 7, 8] ∧
      (evalLocal quadBlock [0, 0, 1, 1] 1).coords.elems
        = [0, 1, 1, 1, 2, 1, 0, 2, 1, 2, 2, 2]) ∧
    ∃ lm1 pointGlob2Loc pointLoc2Glob lm2,
      restrictElems quadBlock [0, 0, 1, 1] 1 77 = .ok lm1 ∧
      extractPointCoords quadBlock lm1 [] 88 = .ok (pointGlob2Loc, pointLoc2Glob, lm2) ∧
      lm2.npoin = pointLoc2Glob.length ∧
      (∀ l d : Nat, l < lm2.npoin → d < NDIM → ∃ (p : Int) (x : Int),
        vecGet pointLoc2Glob l = .ok p ∧ quadBlock.coords.get p d = .ok x ∧
        lm2.coords.get l d = .ok x) ∧
      ∀ (api : MeshMethods Int) (lm : UMesh2dh Int),
        restrictMeshToPartitions api quadBlock [0, 0, 1, 1] 1 77 88 = .ok lm →
        lm.npoin = lm2.npoin ∧ lm.coords = lm2.coords :=
  ⟨⟨by decide!, by decide!, by decide!, by decide!, by decide!, by decide!, by decide!⟩,
    extractPointCoords_copies_coords quadBlock [0, 0, 1, 1] 1 77 88 (by decide!) (by decide!)
      (by decide!) (by decide!) (by decide!)⟩

end ReplicatedGlobalMeshPartitioner

namespace SteadyBackwardEulerSolver

/-! ## The CFL ramp stays inside its bounds -/

/-- C30, counterexample: with the bounds `1 <= 100`, a previous CFL number
that is NaN, the residual ratio `1` and the exponents `0.25` and `0.3` of the
solver, the unclamped value is NaN whatever `std::pow` returns; both
comparisons of the clamp are false for NaN, so the ramp returns NaN, which is
neither at least `cflmin` nor at most `cflmax`. -/
theorem expResidualRamp_nan_counterexample :
    (AReal.num 1).le (.num 100) = true ∧
    (∀ pow : AReal → AReal → AReal,
      expResidualRampRaw pow .nan (.num 1) (.num (1 / 4)) (.num (3 / 10)) = .nan ∧
      expResidualRamp pow (.num 1) (.num 100) .nan (.num 1) (.num (1 / 4)) (.num (3 / 10))
        = .nan) ∧
    (AReal.num 1).le .nan = false ∧ AReal.nan.le (.num 100) = false :=
  ⟨by decide, fun _ => ⟨rfl, rfl⟩, rfl, rfl⟩

/-- C30, amended: for bounds `cflmin <= cflmax` and every `prevcfl`,
`resratio`, `paramup`, `paramdown` and `std::pow` for which the unclamped
value `prevcfl * pow(resratio, p)` is a number (not NaN), where `p` is
`paramup` if `resratio > 1` and `paramdown` otherwise, the result `r` of
`expResidualRamp` satisfies `cflmin <= r <= cflmax`; it is `cflmin` when the
unclamped value is below `cflmin`, in particular when `prevcfl` is `0`, the
power is a number and `cflmin > 0`; it is `cflmax` when the unclamped value
is above `cflmax`; and it is the unclamped value otherwise. -/
theorem expResidualRamp_clamps (pow : AReal → AReal → AReal)
    (cflmin cflmax prevcfl resratio paramup paramdown : AReal)
    (hle : cflmin.le cflmax = true)
    (hnum : expResidualRampRaw pow prevcfl resratio paramup paramdown ≠ .nan) :
    expResidualRampRaw pow prevcfl resratio paramup paramdown =
      prevcfl.mul (pow resratio (if resratio.gt (.num 1) then paramup else paramdown)) ∧
    cflmin.le (expResidualRamp pow cflmin cflmax prevcfl resratio paramup paramdown) = true ∧
    (expResidualRamp pow cflmin cflmax prevcfl resratio paramup paramdown).le cflmax = true ∧
    ((expResidualRampRaw pow prevcfl resratio paramup paramdown).lt cflmin = true →
      expResidualRamp pow cflmin cflmax prevcfl resratio paramup paramdown = cflmin) ∧
    ((expResidualRampRaw pow prevcfl resratio paramup paramdown).gt cflmax = true →
      expResidualRamp pow cflmin cflmax prevcfl resratio paramup paramdown = cflmax) ∧
    ((expResidualRampRaw pow prevcfl resratio paramup paramdown).lt cflmin = false →
      (expResidualRampRaw pow prevcfl resratio paramup paramdown).gt cflmax = false →
      expResidualRamp pow cflmin cflmax prevcfl resratio paramup paramdown =
        expResidualRampRaw pow prevcfl resratio paramup paramdown) ∧
    (prevcfl = .num 0 → (AReal.num 0).lt cflmin = true →
      expResidualRamp pow cflmin cflmax prevcfl resratio paramup paramdown = cflmin) := by
  have hraw : expResidualRampRaw pow prevcfl resratio paramup paramdown =
      prevcfl.mul (pow resratio (if resratio.gt (.num 1) then paramup else paramdown)) := by
    unfold expResidualRampRaw
    split <;> rfl
  cases hlo : cflmin with
  | nan => rw [hlo] at hle; cases hle
  | num lo =>
    cases hhi : cflmax with
    | nan => rw [hlo, hhi] at hle; cases hle
    | num hi =>
      rw [hlo, hhi] at hle
      have hlh : lo ≤ hi := of_decide_eq_true hle
      cases hv : expResidualRampRaw pow prevcfl resratio paramup paramdown with
      | nan => exact absurd hv hnum
      | num v =>
        have hr : expResidualRamp pow (.num lo) (.num hi) prevcfl resratio paramup paramdown =
            if v < lo then .num lo else if hi < v then .num hi else .num v := by
          unfold expResidualRamp
          simp only [hv, AReal.lt, AReal.gt, decide_eq_true_eq]
        refine ⟨by rw [← hv]; exact hraw, ?_, ?_, ?_, ?_, ?_, ?_⟩
        · rw [hr]
          split
          · simp [AReal.le]
          · split
            · simpa [AReal.le] using hlh
            · rename_i h1 _
              simpa [AReal.le] using not_lt.1 h1
        · rw [hr]
          split
          · simpa [AReal.le] using hlh
          · split
            · simp [AReal.le]
            · rename_i _ h2
              simpa [AReal.le] using not_lt.1 h2
        · intro h
          have hvl : v < lo := by simpa [AReal.lt] using h
          rw [hr, if_pos hvl]
        · intro h
          have hvh : hi < v := by simpa [AReal.lt, AReal.gt] using h
          have : ¬ v < lo := not_lt.2 (le_trans hlh (le_of_lt hvh))
          rw [hr, if_neg this, if_pos hvh]
        · intro h1 h2
          have hvl : ¬ v < lo := by simpa [AReal.lt] using h1
          have hvh : ¬ hi < v := by simpa [AReal.lt, AReal.gt] using h2
          rw [hr, if_neg hvl, if_neg hvh]
        · intro hp h0
          have h0lo : (0 : ℚ) < lo := by simpa [AReal.lt] using h0
          have hv0 : v = 0 := by
            rw [hraw, hp] at hv
            cases hpw : pow resratio (if resratio.gt (.num 1) then paramup else paramdown) with
            | nan => rw [hpw] at hv; cases hv
            | num w =>
              rw [hpw] at hv
              simp only [AReal.mul, zero_mul, AReal.num.injEq] at hv
              exact hv.symm
          rw [hr, if_pos (by rw [hv0]; exact h0lo)]

/-- C30, amended, on the first step of the solver: the previous CFL number is
`0` and the residual ratio is `1`, for which `std::pow` returns `1`; with the
bounds `1 <= 100` the unclamped value is `0` and the ramp returns `cflmin`. -/
theorem expResidualRamp_clamps_witness :
    ((AReal.num 1).le (.num 100) = true ∧
      expResidualRampRaw (fun _ _ => .num 1) (.num 0) (.num 1) (.num (1 / 4)) (.num (3 / 10))
        = .num 0 ∧
      expResidualRamp (fun _ _ => .num 1) (.num 1) (.num 100) (.num 0) (.num 1) (.num (1 / 4))
        (.num (3 / 10)) = .num 1) ∧
    (AReal.num 1).le (expResidualRamp (fun _ _ => .num 1) (.num 1) (.num 100) (.num 0)
      (.num 1) (.num (1 / 4)) (.num (3 / 10))) = true ∧
    (expResidualRamp (fun _ _ => .num 1) (.num 1) (.num 100) (.num 0) (.num 1)
      (.num (1 / 4)) (.num (3 / 10))).le (.num 100) = true :=
  ⟨⟨by decide, by decide!, by decide!⟩,
    (expResidualRamp_clamps (fun _ _ => .num 1) (.num 1) (.num 100) (.num 0) (.num 1)
      (.num (1 / 4)) (.num (3 / 10)) (by decide) (by decide!)).2.1,
    (expResidualRamp_clamps (fun _ _ => .num 1) (.num 1) (.num 100) (.num 0) (.num 1)
      (.num (1 / 4)) (.num (3 / 10)) (by decide) (by decide!)).2.2.1⟩

end SteadyBackwardEulerSolver

namespace ReplicatedGlobalMeshPartitioner

/-! ## The stages before the connectivity records -/

/-- The rows of `lm.bface` after a successful `extractbfaces` on a local mesh
with the `nnofa` and `nbtag` of the global mesh: row `k` belongs to the
`k`-th global boundary face whose left element is on this rank, and holds the
local indices of its nodes. -/
theorem extractbfaces_rows {R : Type} (api : MeshMethods R) (gm lm lm' : UMesh2dh R)
    (elemdist : List Int) (irank junk : Int) (pointGlob2Loc : StdMap)
    (hnf : lm.nnofa = gm.nnofa) (hnt : lm.nbtag = gm.nbtag)
    (h : extractbfaces api gm elemdist irank pointGlob2Loc lm junk = .ok lm') :
    lm'.nbface = ((List.range gm.nbface).filter (keptBFace api gm elemdist irank)).length ∧
    (∀ (k b : Nat),
      ((List.range gm.nbface).filter (keptBFace api gm elemdist irank))[k]? = some b →
      (∀ j : Nat, j < gm.nnofa → ∃ g v, gm.bface.get b j = .ok g ∧
        pointGlob2Loc.atKey g = .ok v ∧ lm'.bface.get k j = .ok v) ∧
      (∀ j : Nat, j < gm.nbtag → ∃ t,
        gm.bface.get b ((gm.nnofa + j : Nat) : Int) = .ok t ∧
        lm'.bface.get k ((gm.nnofa + j : Nat) : Int) = .ok t)) := by
  unfold extractbfaces at h
  simp only [Res.bind_eq_ok, Res.pure_eq, Except.ok.injEq] at h
  obtain ⟨⟨tb, nb⟩, h1, a, h2, rfl⟩ := h
  simp only at h2
  obtain ⟨i1, i2, i3⟩ := forLoop_partial _
    (fun k (s : List (List Int) × Nat) =>
      s.2 = ((List.range k).filter (keptBFace api gm elemdist irank)).length ∧
      s.1.length = ((List.range k).filter (keptBFace api gm elemdist irank)).length ∧
      ∀ (i b : Nat), ((List.range k).filter (keptBFace api gm elemdist irank))[i]? = some b →
        ∃ row : List Int, s.1[i]? = some row ∧
          (∀ j : Nat, j < gm.nnofa → ∃ g v, gm.bface.get b j = .ok g ∧
            pointGlob2Loc.atKey g = .ok v ∧ row[j]? = some v) ∧
          (∀ j : Nat, j < gm.nbtag → ∃ t,
            gm.bface.get b ((gm.nnofa + j : Nat) : Int) = .ok t ∧
            row[gm.nnofa + j]? = some t))
    0 gm.nbface ([], 0) (tb, nb) (Nat.zero_le _) h1
    ⟨by simp, by simp, by intro i b hb; simp at hb⟩
    (by
      intro k s s' _ hk ⟨q1, q2, q3⟩ hs
      rcases extractbfacesStep_partial api gm elemdist irank junk pointGlob2Loc k s s' hs with
        ⟨hkeep, rfl⟩ | ⟨hkeep, row, rfl, hr1, hr2⟩
      · rw [filter_range_succ, hkeep]
        simp only [Bool.false_eq_true, if_false, List.append_nil]
        exact ⟨q1, q2, q3⟩
      · rw [filter_range_succ, hkeep]
        simp only [if_true, List.length_append, List.length_singleton]
        refine ⟨by rw [q1], by rw [q2], ?_⟩
        intro i b hb
        by_cases hi : i < ((List.range k).filter (keptBFace api gm elemdist irank)).length
        · rw [List.getElem?_append_left hi] at hb
          obtain ⟨row0, e1, e2, e3⟩ := q3 i b hb
          exact ⟨row0, by rw [List.getElem?_append_left (by omega)]; exact e1, e2, e3⟩
        · rw [List.getElem?_append_right (by omega)] at hb
          have hi0 : i - ((List.range k).filter (keptBFace api gm elemdist irank)).length = 0 := by
            by_contra hne
            rw [List.getElem?_eq_none (by simp; omega)] at hb
            cases hb
          rw [hi0] at hb
          simp at hb
          subst hb
          refine ⟨row, ?_, hr1, hr2⟩
          have : i = s.1.length := by omega
          subst this
          simp)
  simp only at i1 i2 i3
  obtain ⟨f1, f2, _, _, f5⟩ := fillBface_partial tb nb (lm.nnofa + lm.nbtag) _ a rfl h2
  rw [hnf, hnt] at f1 f5
  refine ⟨i1, ?_⟩
  · intro k b hb
    obtain ⟨row, e1, e2, e3⟩ := i3 k b hb
    have hk : k < nb := by
      rw [i1]
      by_contra hcn
      rw [List.getElem?_eq_none (by omega)] at hb
      cases hb
    refine ⟨?_, ?_⟩
    · intro j hj
      obtain ⟨g, v, c1, c2, c3⟩ := e2 j hj
      obtain ⟨row', v', d1, d2, d3⟩ := f5 k j hk (by omega)
      rw [e1] at d1
      cases d1
      rw [c3] at d2
      cases d2
      exact ⟨g, v, c1, c2, by rw [Array2d.get_nat_ok_iff, f1]; exact d3⟩
    · intro j hj
      obtain ⟨t, c1, c2⟩ := e3 j hj
      obtain ⟨row', v', d1, d2, d3⟩ := f5 k (gm.nnofa + j) hk (by omega)
      rw [e1] at d1
      cases d1
      rw [c2] at d2
      cases d2
      exact ⟨t, c1, by rw [Array2d.get_nat_ok_iff, f1]; exact d3⟩

/-- A run that returns a mesh went through the stages before the records. -/
theorem RestrictStages.pre {R : Type} {api : MeshMethods R} {gm : UMesh2dh R}
    {elemdist : List Int} {rank junk : Int} {junkR : R} {lm5 : UMesh2dh R} {l2g : List Int}
    {g2l : StdMap} {isB : List Bool} {conn : List (List Int)} {lm : UMesh2dh R}
    (hst : RestrictStages api gm elemdist rank junk junkR lm5 l2g g2l isB conn lm) :
    PreConnStages api gm elemdist rank junk junkR lm5 l2g g2l isB conn := by
  obtain ⟨lm3, lm4, h3, h4, h5, h6, h7, _⟩ := hst
  exact ⟨lm3, lm4, h3, h4, h5, h6, h7⟩

/-- The classification that `getConnectivityFaceEIndices` made. -/
theorem PreConnStages.face_lists {R : Type} {api : MeshMethods R} {gm : UMesh2dh R}
    {elemdist : List Int} {rank junk : Int} {junkR : R} {lm5 : UMesh2dh R} {l2g : List Int}
    {g2l : StdMap} {isB : List Bool} {conn : List (List Int)}
    (hpre : PreConnStages api gm elemdist rank junk junkR lm5 l2g g2l isB conn) :
    conn.length = lm5.nelem ∧
    ∀ e : Nat, e < lm5.nelem → ∃ (l : List Int) (nf : Int),
      conn[e]? = some l ∧ lm5.nfael[e]? = some nf ∧ l.Pairwise (· < ·) ∧
      (∀ x ∈ l, ∃ f : Nat, x = (f : Int) ∧ (f : Int) < nf) ∧
      (∀ f : Nat, (f : Int) < nf →
        ((f : Int) ∈ l ↔ NeighbourlessNotAllBoundary api lm5 isB e f)) := by
  obtain ⟨lm3, lm4, h3, h4, rfl, h5, h6⟩ := hpre
  exact getConnectivityFaceEIndices_partial api _ isB conn h6

/-- The flags that `markLocalPhysicalBoundaryPoints` computed. -/
theorem PreConnStages.point_flags {R : Type} {api : MeshMethods R} {gm : UMesh2dh R}
    {elemdist : List Int} {rank junk : Int} {junkR : R} {lm5 : UMesh2dh R} {l2g : List Int}
    {g2l : StdMap} {isB : List Bool} {conn : List (List Int)}
    (hpre : PreConnStages api gm elemdist rank junk junkR lm5 l2g g2l isB conn) :
    isB.length = lm5.npoin ∧
    (∀ b j : Nat, b < lm5.nbface → j < lm5.nnofa →
      ∃ p : Int, lm5.bface.get b j = .ok p ∧ vecGet isB p = .ok true) ∧
    (∀ q : Nat, isB[q]? = some true →
      ∃ b j : Nat, b < lm5.nbface ∧ j < lm5.nnofa ∧ lm5.bface.get b j = .ok (q : Int)) := by
  obtain ⟨lm3, lm4, h3, h4, rfl, h5, h6⟩ := hpre
  exact markLocalPhysicalBoundaryPoints_partial _ isB h5

/-- The local elements and their nodes in the mesh of step 5: the local
element `e` is the global element `g` of this rank with the same node and
face counts, and each of its nodes is the local index, under
`pointGlob2Loc`, of the node of `g`, which `pointLoc2Glob` maps back. -/
theorem PreConnStages.points {R : Type} {api : MeshMethods R} {gm : UMesh2dh R}
    {elemdist : List Int} {rank junk : Int} {junkR : R} {lm5 : UMesh2dh R} {l2g : List Int}
    {g2l : StdMap} {isB : List Bool} {conn : List (List Int)}
    (hpre : PreConnStages api gm elemdist rank junk junkR lm5 l2g g2l isB conn)
    (hs : gm.ElemsSized) (hc : gm.CoordsSized) (hb : gm.NodesBounded)
    (hd : elemdist.length = gm.nelem) :
    lm5.nnofa = gm.nnofa ∧
    (∀ e : Nat, e < lm5.nelem → ∃ g : Nat, g < gm.nelem ∧ elemdist[g]? = some rank ∧
      lm5.globalElemIndex[e]? = some (g : Int) ∧
      lm5.nnode[e]? = gm.nnode[g]? ∧ lm5.nfael[e]? = gm.nfael[g]? ∧
      ∀ (j : Nat) (n : Int), gm.nnode[g]? = some n → (j : Int) < n →
        ∃ (v : Nat) (p : Int), lm5.inpoel.get e j = .ok (v : Int) ∧
          gm.inpoel.get g j = .ok p ∧ l2g[v]? = some p ∧ g2l.lookup p = some (v : Int)) ∧
    (∀ g : Nat, g < gm.nelem → elemdist[g]? = some rank →
      ∃ e : Nat, e < lm5.nelem ∧ lm5.globalElemIndex[e]? = some (g : Int)) := by
  obtain ⟨lm3, lm4, h3, h4, rfl, h5, h6⟩ := hpre
  obtain ⟨p1, p2, p3, p4, p5⟩ :=
    restrictPoints_facts gm elemdist rank junk junkR hs hc hb hd lm3 l2g g2l h3
  have f4 := extractbfaces_frame _ _ _ _ _ _ _ _ h4
  have e1 : lm4.nelem = lm3.nelem := by rw [f4]
  have e2 : lm4.globalElemIndex = lm3.globalElemIndex := by rw [f4]
  have e3 : lm4.nnofa = lm3.nnofa := by rw [f4]
  have e4 : lm4.nnode = lm3.nnode := by rw [f4]
  have e5 : lm4.nfael = lm3.nfael := by rw [f4]
  have e6 : lm4.inpoel = lm3.inpoel := by rw [f4]
  refine ⟨by show lm4.nnofa = gm.nnofa; rw [e3, p3], ?_, ?_⟩
  · intro e he
    change e < lm4.nelem at he
    rw [e1, p1] at he
    have hsel := List.getElem?_eq_getElem he
    have hmem := (selected_mem _ _ _ _).1 (List.getElem_mem he)
    generalize (selected elemdist rank gm.nelem)[e] = g at hsel hmem
    obtain ⟨q1, q2, q3⟩ := p5 e g hsel
    refine ⟨g, hmem.1, hmem.2, ?_, ?_, ?_, ?_⟩
    · show lm4.globalElemIndex[e]? = some (g : Int)
      rw [e2, p2, List.getElem?_map, hsel]
      rfl
    · show lm4.nnode[e]? = gm.nnode[g]?
      rw [e4]; exact q1
    · show lm4.nfael[e]? = gm.nfael[g]?
      rw [e5]; exact q2
    · intro j n hn hj
      obtain ⟨v, p, hv, hp, hl, hg⟩ := q3 j n hn hj
      refine ⟨v, p, ?_, hp, hl, hg⟩
      show lm4.inpoel.get e j = _
      rw [e6]; exact hv
  · intro g hg hr
    have hmem : g ∈ selected elemdist rank gm.nelem := (selected_mem _ _ _ _).2 ⟨hg, hr⟩
    obtain ⟨e, he, heq⟩ := List.getElem_of_mem hmem
    refine ⟨e, by show e < lm4.nelem; rw [e1, p1]; exact he, ?_⟩
    show lm4.globalElemIndex[e]? = some (g : Int)
    rw [e2, p2, List.getElem?_map, List.getElem?_eq_getElem he, heq]
    rfl

/-- The rows of `lm.bface` in the mesh of step 5. -/
theorem PreConnStages.bface_rows {R : Type} {api : MeshMethods R} {gm : UMesh2dh R}
    {elemdist : List Int} {rank junk : Int} {junkR : R} {lm5 : UMesh2dh R} {l2g : List Int}
    {g2l : StdMap} {isB : List Bool} {conn : List (List Int)}
    (hpre : PreConnStages api gm elemdist rank junk junkR lm5 l2g g2l isB conn)
    (hs : gm.ElemsSized) (hd : elemdist.length = gm.nelem) :
    lm5.nbtag = gm.nbtag ∧
    lm5.nbface = ((List.range gm.nbface).filter (keptBFace api gm elemdist rank)).length ∧
    (∀ (k b : Nat),
      ((List.range gm.nbface).filter (keptBFace api gm elemdist rank))[k]? = some b →
      (∀ j : Nat, j < gm.nnofa → ∃ g v, gm.bface.get b j = .ok g ∧
        g2l.atKey g = .ok v ∧ lm5.bface.get k j = .ok v) ∧
      (∀ j : Nat, j < gm.nbtag → ∃ t,
        gm.bface.get b ((gm.nnofa + j : Nat) : Int) = .ok t ∧
        lm5.bface.get k ((gm.nnofa + j : Nat) : Int) = .ok t)) := by
  obtain ⟨lm3, lm4, h3, h4, rfl, h5, h6⟩ := hpre
  obtain ⟨lm1, lm2, h1, _, _, f2, f3⟩ := restrictPoints_frame _ _ _ _ _ _ _ _ h3
  obtain ⟨lm1', h1', _, _, _, q1, q2, _⟩ := restrictElems_spec gm elemdist rank junk hs hd
  rw [h1] at h1'
  cases h1'
  have hnf : lm3.nnofa = gm.nnofa := by rw [f3, f2]; exact q1
  have hnt : lm3.nbtag = gm.nbtag := by rw [f3, f2]; exact q2
  have f4 := extractbfaces_frame _ _ _ _ _ _ _ _ h4
  obtain ⟨r1, r2⟩ := extractbfaces_rows api gm lm3 lm4 elemdist rank junk g2l hnf hnt h4
  exact ⟨by show lm4.nbtag = gm.nbtag; rw [f4]; exact hnt, r1, r2⟩

/-! ## The scan for the matching global face -/

/-- A face that `getConnectivityFaceEIndices` lists, on a sized mesh of
polygons with the standard numbering: it is face `f < n` of a local element
`e` whose global element `g` has `n` nodes and faces, it has no local
neighbour and a point that is not flagged, each of its two points is the
local index of the corresponding point of face `f` of `g`, and among the
faces of `g` exactly face `f` has all of its points among the global indices
of its points. -/
theorem PreConnStages.listed_face_matches {R : Type} {api : MeshMethods R} {gm : UMesh2dh R}
    {elemdist : List Int} {rank junk : Int} {junkR : R} {lm5 : UMesh2dh R} {l2g : List Int}
    {g2l : StdMap} {isB : List Bool} {conn : List (List Int)}
    (hpre : PreConnStages api gm elemdist rank junk junkR lm5 l2g g2l isB conn)
    (hs : gm.ElemsSized) (hc : gm.CoordsSized) (hb : gm.NodesBounded)
    (hd : elemdist.length = gm.nelem) (hnum : StandardNumbering api)
    (hpoly : gm.ValidPolygons)
    (e : Nat) (l : List Int) (f : Int) (hl : conn[e]? = some l) (hf : f ∈ l) :
    ∃ (g fN n : Nat), f = (fN : Int) ∧ e < lm5.nelem ∧ g < gm.nelem ∧
      elemdist[g]? = some rank ∧ lm5.globalElemIndex[e]? = some (g : Int) ∧
      gm.nfael[g]? = some (n : Int) ∧ lm5.nfael[e]? = some (n : Int) ∧ fN < n ∧
      NeighbourlessNotAllBoundary api lm5 isB e fN ∧
      (∀ jgf : Nat, jgf < n →
        (GlobalFaceAmong api gm lm5 l2g e (fN : Int) (g : Int) jgf ↔ jgf = fN)) ∧
      (∀ k : Nat, k < 2 → ∃ (v : Nat) (p : Int),
        lm5.inpoel.get e (api.getNodeEIndex lm5 e fN k) = .ok (v : Int) ∧
        gm.inpoel.get g (api.getNodeEIndex gm g fN k) = .ok p ∧
        l2g[v]? = some p ∧ g2l.lookup p = some (v : Int)) := by
  obtain ⟨hlen, hlists⟩ := hpre.face_lists
  obtain ⟨pn, pe, _⟩ := hpre.points hs hc hb hd
  have he : e < lm5.nelem := by
    rw [← hlen]; exact (List.getElem?_eq_some_iff.1 hl).1
  obtain ⟨l', nf, hl', hnf, _, hmemN, hiff⟩ := hlists e he
  rw [hl] at hl'
  have hll : l = l' := Option.some.inj hl'
  subst hll
  obtain ⟨fN, hfe, hfN⟩ := hmemN f hf
  subst hfe
  have hnl := (hiff fN hfN).1 hf
  obtain ⟨g, hg, hed, hgei, hnn, hnfa, hrt⟩ := pe e he
  obtain ⟨hnofa, hpg⟩ := hpoly
  obtain ⟨h3, hfn, hinj⟩ := hpg g hg
  have hnlen : g < gm.nnode.length := by rw [hs.1]; exact hg
  have hgn : gm.nnode[g]? = some (gm.nnode.getD g 0) := by
    rw [List.getD_eq_getElem?_getD, List.getElem?_eq_getElem hnlen]
    rfl
  obtain ⟨n, hnI⟩ : ∃ n : Nat, gm.nnode.getD g 0 = (n : Int) :=
    ⟨_, (Int.toNat_of_nonneg (by omega)).symm⟩
  rw [hnI] at hgn h3 hinj
  simp only [Int.toNat_natCast] at hinj
  have hn3 : 3 ≤ n := by exact_mod_cast h3
  have hpos : 0 < n := by omega
  have hgf : gm.nfael[g]? = some (n : Int) := by rw [hfn]; exact hgn
  have hlf : lm5.nfael[e]? = some (n : Int) := by rw [hnfa]; exact hgf
  have hln : lm5.nnode[e]? = some (n : Int) := by rw [hnn]; exact hgn
  have hnfn : nf = (n : Int) := by
    rw [hnf] at hlf
    exact Option.some.inj hlf
  subst hnfn
  have hfNn : fN < n := by exact_mod_cast hfN
  have hrt' : ∀ j : Nat, j < n → (lm5.inpoel.get e j >>= vecGet l2g) = gm.inpoel.get g j ∧
      (gm.inpoel.get g j).toBool = true := by
    intro j hj
    obtain ⟨v, p, hv, hp, hlv, _⟩ := hrt j n hgn (by exact_mod_cast hj)
    rw [hv, hp, Res.ok_bind, vecGet_nat _ _ _ hlv]
    exact ⟨rfl, rfl⟩
  refine ⟨g, fN, n, rfl, he, hg, hed, hgei, hgf, hlf, hfNn, hnl, ?_, ?_⟩
  · intro jgf hj
    exact globalFaceAmong_iff_same api gm lm5 l2g e g n hnum hn3 hnofa
      (by rw [pn]; exact hnofa) hgn hln hinj hrt' fN jgf hfNn hj
  · intro k hk
    rw [StandardNumbering.index hnum lm5 e fN k n hln,
      StandardNumbering.index hnum gm g fN k n hgn]
    exact hrt _ n hgn (by exact_mod_cast Nat.mod_lt _ hpos)

/-- C25: on a sized global mesh in which the first `nnode` nodes of
every element are pairwise distinct, `nfael == nnode >= 3`, `nnofa == 2`, and
with point `k` of face `f` of an element its node `(f + k) mod nnode`: for
every connectivity face `f` of a local element `e`, the faces `jgf` of the
global element `g = globalElemIndex[e]` whose points all occur among the
global indices of the points of `f` are exactly `jgf = f`, so the scan stops
at `f`; hence, the entries of `elemdist` being ranks, which are non-negative
as `compute_partition` writes them, the error 'Could not find connectivity
face!' is unreachable; and in the mesh that a
restriction returns, the row of the face holds `gm.esuel(g, f)` in column 3
and `gm.elemface(g, f)` in column 4, the neighbour and the global face of the
same face `f` of `g`. -/
theorem scan_stops_at_same_face {R : Type} (api : MeshMethods R) (gm : UMesh2dh R)
    (elemdist : List Int) (rank junk : Int) (junkR : R)
    (hs : gm.ElemsSized) (hc : gm.CoordsSized) (hb : gm.NodesBounded)
    (hd : elemdist.length = gm.nelem) (hnum : StandardNumbering api)
    (hpoly : gm.ValidPolygons) :
    (∀ (lm5 : UMesh2dh R) (l2g : List Int) (g2l : StdMap) (isB : List Bool)
        (conn : List (List Int)),
      PreConnStages api gm elemdist rank junk junkR lm5 l2g g2l isB conn →
      ∀ (e : Nat) (l : List Int) (f : Int), conn[e]? = some l → f ∈ l →
        ∃ (g fN n : Nat), f = (fN : Int) ∧ lm5.globalElemIndex[e]? = some (g : Int) ∧
          gm.nfael[g]? = some (n : Int) ∧ fN < n ∧
          ∀ jgf : Nat, jgf < n →
            (GlobalFaceAmong api gm lm5 l2g e f (g : Int) jgf ↔ jgf = fN)) ∧
    ((∀ d ∈ elemdist, 0 ≤ d) → ∀ m : String,
      restrictMeshToPartitions api gm elemdist rank junk junkR ≠ .error (.logicError m)) ∧
    (∀ (lm5 : UMesh2dh R) (l2g : List Int) (g2l : StdMap) (isB : List Bool)
        (conn : List (List Int)) (lm : UMesh2dh R),
      RestrictStages api gm elemdist rank junk junkR lm5 l2g g2l isB conn lm →
      ∀ (e i : Nat) (l : List Int) (f : Int), conn[e]? = some l → l[i]? = some f →
        ∃ (g : Nat) (nbr gf : Int), lm5.globalElemIndex[e]? = some (g : Int) ∧
          gm.esuel.get g f = .ok nbr ∧ gm.gelemface g f = .ok gf ∧
          lm.connface.get (connRowIndex conn e i) 0 = .ok (e : Int) ∧
          lm.connface.get (connRowIndex conn e i) 1 = .ok f ∧
          lm.connface.get (connRowIndex conn e i) 3 = .ok nbr ∧
          lm.connface.get (connRowIndex conn e i) 4 = .ok gf) := by
  refine ⟨?_, ?_, ?_⟩
  · intro lm5 l2g g2l isB conn hpre e l f hl hf
    obtain ⟨g, fN, n, hfe, _, _, _, hgei, hgf, _, hfNn, _, hiff, _⟩ :=
      hpre.listed_face_matches hs hc hb hd hnum hpoly e l f hl hf
    subst hfe
    exact ⟨g, fN, n, rfl, hgei, hgf, hfNn, hiff⟩
  · intro hnn m h
    obtain ⟨lm5, l2g, g2l, isB, conn, hpre, hbuild⟩ :=
      restrictMeshToPartitions_error api gm elemdist rank junk junkR m h
    obtain ⟨_, e, l, f, hl, hf, hcase⟩ :=
      buildConnface_error api gm lm5 elemdist l2g conn junk m hbuild
    rcases hcase with ⟨g', gnf, hg', hgnf, hno⟩ | ⟨nbr, r, hr, hneg⟩
    · obtain ⟨g, fN, n, hfe, _, _, _, hgei, hgf, _, hfNn, _, hiff, _⟩ :=
        hpre.listed_face_matches hs hc hb hd hnum hpoly e l f hl hf
      subst hfe
      have e1 : g' = (g : Int) := by
        have := (vecGet_nat_ok_iff _ _ _).1 hg'
        rw [hgei] at this
        exact (Option.some.inj this).symm
      subst e1
      have e2 : gnf = (n : Int) := by
        have := (vecGet_nat_ok_iff _ _ _).1 hgnf
        rw [hgf] at this
        exact (Option.some.inj this).symm
      subst e2
      exact hno fN (by rw [Int.toNat_natCast]; exact hfNn) ((hiff fN hfNn).2 rfl)
    · rw [vecGet_ok_iff] at hr
      have := hnn r (List.getElem?_mem hr.2)
      omega
  · intro lm5 l2g g2l isB conn lm hst e i l f hl hf
    obtain ⟨g, fN, n, nbr, rk, gf, hfe, _, _, _, hgei, _, _, _, _, r7, _, r2, k0, k1, _, k3,
      k4⟩ := hst.listed_face hs hc hb hd hnum hpoly e i l f hl hf
    subst hfe
    exact ⟨g, nbr, gf, hgei, r7, r2, k0, k1, k3, k4⟩

set_option maxRecDepth 100000 in
/-- C25 on the two-by-two block of quadrilaterals split as
`[0, 0, 1, 1]`, on rank 0: the restriction returns a mesh, and the row of
face 2 of the local element 0 holds the neighbour 2 and the global face 9. -/
theorem scan_stops_at_same_face_witness :
    ((∀ d ∈ ([0, 0, 1, 1] : List Int), 0 ≤ d) ∧
      evalConn quadBlock [0, 0, 1, 1] 0 = [[2], [2]] ∧
      (evalLocal quadBlock [0, 0, 1, 1] 0).connface.elems = [0, 2, 1, 2, 9, 1, 2, 1, 3, 10] ∧
      quadBlock.esuel.get 0 2 = .ok 2 ∧ quadBlock.gelemface 0 2 = .ok 9) ∧
    (∀ m : String,
      restrictMeshToPartitions api2d quadBlock [0, 0, 1, 1] 0 77 88 ≠ .error (.logicError m)) ∧
    ∃ (g : Nat) (nbr gf : Int),
      (evalLocal5 quadBlock [0, 0, 1, 1] 0).globalElemIndex[0]? = some (g : Int) ∧
      quadBlock.esuel.get g 2 = .ok nbr ∧ quadBlock.gelemface g 2 = .ok gf ∧
      (evalLocal quadBlock [0, 0, 1, 1] 0).connface.get
        (connRowIndex (evalConn quadBlock [0, 0, 1, 1] 0) 0 0) 0 = .ok ((0 : Nat) : Int) ∧
      (evalLocal quadBlock [0, 0, 1, 1] 0).connface.get
        (connRowIndex (evalConn quadBlock [0, 0, 1, 1] 0) 0 0) 1 = .ok 2 ∧
      (evalLocal quadBlock [0, 0, 1, 1] 0).connface.get
        (connRowIndex (evalConn quadBlock [0, 0, 1, 1] 0) 0 0) 3 = .ok nbr ∧
      (evalLocal quadBlock [0, 0, 1, 1] 0).connface.get
        (connRowIndex (evalConn quadBlock [0, 0, 1, 1] 0) 0 0) 4 = .ok gf :=
  ⟨⟨by decide, by decide!, by decide!, by decide!, by decide!⟩,
    (scan_stops_at_same_face api2d quadBlock [0, 0, 1, 1] 0 77 88 (by decide!) (by decide!)
      (by decide!) (by decide!) (fun _ _ _ _ => rfl) (by decide!)).2.1 (by decide),
    (scan_stops_at_same_face api2d quadBlock [0, 0, 1, 1] 0 77 88 (by decide!) (by decide!)
      (by decide!) (by decide!) (fun _ _ _ _ => rfl) (by decide!)).2.2 _ _ _ _ _ _
      quadBlock_stages_rank0 0 0 [2] 2 (by decide!) (by decide!)⟩

/-! ## The neighbour of a connectivity face is a real element -/

/-- C26: the lookup `elemdist[gm.esuel(g, jgf)]` of the connectivity records
is in bounds. On a sized global mesh of polygons with the standard numbering
whose adjacency is consistent with its boundary faces (an entry of `esuel`
not below `nelem` belongs to a physical boundary face, a global boundary face
whose left element owns it and whose nodes are the points of the face), after
the stages up to `getConnectivityFaceEIndices` have run: for every face `f`
that is classified as a connectivity face of a local element `e`, the first
face of the global element `g` of `e` that matches is `jgf = f`, it is not a
global physical boundary face, and `gm.esuel(g, jgf)` is an element index
`nb` with `0 <= nb < gm.nelem`, at which `elemdist` is read in range. -/
theorem neighbour_lookup_in_bounds {R : Type} (api : MeshMethods R) (gm : UMesh2dh R)
    (elemdist : List Int) (rank junk : Int) (junkR : R) (lm5 : UMesh2dh R) (l2g : List Int)
    (g2l : StdMap) (isB : List Bool) (conn : List (List Int))
    (hpre : PreConnStages api gm elemdist rank junk junkR lm5 l2g g2l isB conn)
    (hs : gm.ElemsSized) (hc : gm.CoordsSized) (hb : gm.NodesBounded)
    (hd : elemdist.length = gm.nelem) (hnum : StandardNumbering api)
    (hpoly : gm.ValidPolygons) (hcons : gm.BoundaryFacesConsistent api) :
    ∀ (e : Nat) (l : List Int) (f : Int), conn[e]? = some l → f ∈ l →
      ∃ (g jgf nb : Nat) (r : Int), f = (jgf : Int) ∧
        lm5.globalElemIndex[e]? = some (g : Int) ∧
        GlobalFaceAmong api gm lm5 l2g e f (g : Int) jgf ∧
        (∀ j : Nat, j < jgf → ¬ GlobalFaceAmong api gm lm5 l2g e f (g : Int) j) ∧
        gm.esuel.get g jgf = .ok (nb : Int) ∧ nb < gm.nelem ∧
        vecGet elemdist (nb : Int) = .ok r := by
  intro e l f hl hf
  obtain ⟨g, fN, n, hfe, he, hg, hed, hgei, hgf, hlf, hfNn, hnl, hiff, hpts⟩ :=
    hpre.listed_face_matches hs hc hb hd hnum hpoly e l f hl hf
  subst hfe
  obtain ⟨pn, _, _⟩ := hpre.points hs hc hb hd
  obtain ⟨_, hnbf, hrows⟩ := hpre.bface_rows hs hd
  obtain ⟨_, hflag, _⟩ := hpre.point_flags
  obtain ⟨nb, _, hnbr, hsent⟩ := hcons g hg fN (by
    rw [List.getD_eq_getElem?_getD, hgf]; simpa using hfNn)
  have hreal : nb < gm.nelem := by
    by_contra hge
    obtain ⟨b, hbl, hleft, hnodes⟩ := hsent (by omega)
    -- the boundary face is retained on this rank
    have hkept : keptBFace api gm elemdist rank b = true := by
      unfold keptBFace
      rw [hleft, Res.ok_bind, (vecGet_nat_ok_iff _ _ _).2 hed]
      simp
    have hmem : b ∈ (List.range gm.nbface).filter (keptBFace api gm elemdist rank) :=
      List.mem_filter.2 ⟨List.mem_range.2 hbl, hkept⟩
    obtain ⟨kk, hkk, hkb⟩ := List.getElem_of_mem hmem
    have hrow := (hrows kk b (by rw [List.getElem?_eq_getElem hkk, hkb])).1
    -- a point of the face that is not flagged
    obtain ⟨_, k, hk, p, hp, hunflagged⟩ := hnl
    have hk2 : k < 2 := by
      have := hpoly.1
      omega
    obtain ⟨v, P, hv, hP, _, hlook⟩ := hpts k hk2
    rw [hv] at hp
    have hpv : p = (v : Int) := (Except.ok.inj hp).symm
    subst hpv
    obtain ⟨j, hj, hbj⟩ := hnodes k (by rw [← pn]; exact hk)
    obtain ⟨gp, w, hgp, hw, hcell⟩ := hrow j hj
    rw [hbj, hP] at hgp
    have hgP : gp = P := (Except.ok.inj hgp).symm
    subst hgP
    have hwv : w = (v : Int) := by
      have := (atKey_ok_iff _ _ _).1 hw
      rw [hlook] at this
      exact (Option.some.inj this).symm
    subst hwv
    obtain ⟨p', hp', hfl⟩ := hflag kk j (by rw [hnbf]; exact hkk) (by rw [pn]; exact hj)
    rw [hcell] at hp'
    have : p' = (v : Int) := (Except.ok.inj hp').symm
    subst this
    rw [hunflagged] at hfl
    cases hfl
  have hnbl : nb < elemdist.length := by omega
  refine ⟨g, fN, nb, elemdist[nb], rfl, hgei, (hiff fN hfNn).2 rfl, ?_, hnbr, hreal,
    vecGet_of_lt elemdist nb hnbl⟩
  intro j hj hamong
  have := (hiff j (by omega)).1 hamong
  omega

set_option maxRecDepth 100000 in
/-- C26 on the two-by-two block of quadrilaterals split as `[0, 0, 1, 1]`, on
rank 0: the connectivity faces are face 2 of the local elements 0 and 1, with
the neighbours 2 and 3. -/
theorem neighbour_lookup_in_bounds_witness :
    (quadBlock.BoundaryFacesConsistent api2d ∧
      evalConn quadBlock [0, 0, 1, 1] 0 = [[2], [2]] ∧
      quadBlock.esuel.get 0 2 = .ok 2 ∧ quadBlock.esuel.get 1 2 = .ok 3) ∧
    ∀ (e : Nat) (l : List Int) (f : Int),
      (evalConn quadBlock [0, 0, 1, 1] 0)[e]? = some l → f ∈ l →
      ∃ (g jgf nb : Nat) (r : Int), f = (jgf : Int) ∧
        (evalLocal5 quadBlock [0, 0, 1, 1] 0).globalElemIndex[e]? = some (g : Int) ∧
        GlobalFaceAmong api2d quadBlock (evalLocal5 quadBlock [0, 0, 1, 1] 0)
          (evalPoints quadBlock [0, 0, 1, 1] 0).2.1 e f (g : Int) jgf ∧
        (∀ j : Nat, j < jgf → ¬ GlobalFaceAmong api2d quadBlock
          (evalLocal5 quadBlock [0, 0, 1, 1] 0) (evalPoints quadBlock [0, 0, 1, 1] 0).2.1
          e f (g : Int) j) ∧
        quadBlock.esuel.get g jgf = .ok (nb : Int) ∧ nb < quadBlock.nelem ∧
        vecGet ([0, 0, 1, 1] : List Int) (nb : Int) = .ok r :=
  ⟨⟨by decide!, by decide!, by decide!, by decide!⟩,
    neighbour_lookup_in_bounds api2d quadBlock [0, 0, 1, 1] 0 77 88 _ _ _ _ _
      quadBlock_stages_rank0.pre (by decide!) (by decide!) (by decide!) (by decide!)
      (fun _ _ _ _ => rfl) (by decide!) (by decide!)⟩

end ReplicatedGlobalMeshPartitioner

/-- A strictly increasing list of integers whose members are the numbers
`0 .. n - 1` is the list of these numbers in order. -/
theorem pairwise_lt_eq_range (l : List Int) (n : Nat) (hpw : l.Pairwise (· < ·))
    (hmem : ∀ p : Int, p ∈ l ↔ 0 ≤ p ∧ p < (n : Int)) :
    l = (List.range n).map (fun (i : Nat) => (i : Int)) := by
  have hpw2 : ((List.range n).map (fun (i : Nat) => (i : Int))).Pairwise (· < ·) := by
    rw [List.pairwise_map]
    exact (List.pairwise_lt_range n).imp (fun h => by exact_mod_cast h)
  have hperm : l.Perm ((List.range n).map (fun (i : Nat) => (i : Int))) := by
    apply (List.perm_ext_iff_of_nodup (hpw.imp (fun h => ne_of_lt h))
      (hpw2.imp (fun h => ne_of_lt h))).2
    intro a
    rw [hmem a, List.mem_map]
    constructor
    · rintro ⟨h0, h1⟩
      exact ⟨a.toNat, List.mem_range.2 (by omega), by omega⟩
    · rintro ⟨i, hi, rfl⟩
      have := List.mem_range.1 hi
      omega
  exact List.eq_of_perm_of_sorted hperm hpw hpw2

namespace ReplicatedGlobalMeshPartitioner

/-- When every entry of `elemdist` is `rank`, every element is selected. -/
theorem selected_all (elemdist : List Int) (rank : Int) (n : Nat) (hd : elemdist.length = n)
    (h0 : ∀ d ∈ elemdist, d = rank) : selected elemdist rank n = List.range n := by
  unfold selected
  apply List.filter_eq_self.2
  intro i hi
  have hil : i < elemdist.length := by rw [hd]; exact List.mem_range.1 hi
  rw [List.getElem?_eq_getElem hil, h0 _ (List.getElem_mem hil)]
  simp

/-- Steps 1 to 3 of the restriction return when the storage of the global
mesh matches its counts; the values are those of `localPoints_spec`. -/
theorem restrictPoints_total {R : Type} (gm : UMesh2dh R) (elemdist : List Int)
    (rank junk : Int) (junkR : R) (hs : gm.ElemsSized) (hc : gm.CoordsSized)
    (hb : gm.NodesBounded) (hd : elemdist.length = gm.nelem) :
    ∃ lm1 lm2 lm3 l2g g2l,
      restrictElems gm elemdist rank junk = .ok lm1 ∧
      extractPointCoords gm lm1 [] junkR = .ok (g2l, l2g, lm2) ∧
      restrictPoints gm elemdist rank junk junkR = .ok (lm3, l2g, g2l) ∧
      lm3 = { lm2 with inpoel := lm3.inpoel } ∧
      lm2 = { lm1 with npoin := l2g.length, coords := lm2.coords } ∧
      l2g.Pairwise (· < ·) ∧
      (∀ p : Int, p ∈ l2g ↔ ∃ (g j : Nat) (n : Int), g < gm.nelem ∧
        elemdist[g]? = some rank ∧ gm.nnode[g]? = some n ∧ (j : Int) < n ∧
        gm.inpoel.get g j = .ok p) ∧
      (∀ (i : Nat) (p : Int), l2g[i]? = some p → g2l.lookup p = some (i : Int)) := by
  obtain ⟨lm1, g2l, l2g, lm2, h1, h2, hn, hg, hrows, hpw, hmem, hm1, hm2, hf, _⟩ :=
    localPoints_spec gm elemdist rank junk junkR hs hc hb hd
  obtain ⟨r1, r2, r3, r4, r5, r6, r7, r8⟩ := hrows
  obtain ⟨g1, g2, g3, g4, g5⟩ := hs
  have fi : lm2.inpoel = lm1.inpoel := by rw [hf]
  have fn : lm2.nnode = lm1.nnode := by rw [hf]
  have fe : lm2.nelem = lm1.nelem := by rw [hf]
  have hcell : ∀ (i j : Nat) (n : Int), lm1.nnode[i]? = some n → (j : Int) < n →
      ∃ (g : Nat) (p : Int), (selected elemdist rank gm.nelem)[i]? = some g ∧
        lm1.inpoel.elems[i * lm1.inpoel.ncols + j]? = some p ∧
        gm.inpoel.get g j = .ok p ∧ p ∈ l2g := by
    intro i j n hni hj
    have hil : i < (selected elemdist rank gm.nelem).length := by
      by_contra hcn
      rw [List.getElem?_eq_none (by omega)] at hni
      cases hni
    have hgi := List.getElem?_eq_getElem hil
    have hsel := (selected_mem _ _ _ _).1 (List.getElem_mem hil)
    generalize (selected elemdist rank gm.nelem)[i] = g at hgi hsel
    obtain ⟨q1, q2, _⟩ := r8 i g hgi
    have hng : gm.nnode[g]? = some n := by rw [← q2]; exact hni
    have hnb := hb n (List.getElem?_mem hng)
    have hjm : j < gm.maxnnode := by omega
    have hlt : g * gm.maxnnode + j < gm.inpoel.elems.length := by
      rw [g4]; exact flat_lt hsel.1 hjm
    have hget : gm.inpoel.get (g : Int) (j : Int) = .ok gm.inpoel.elems[g * gm.maxnnode + j] := by
      rw [Array2d.get_nat_ok_iff, g3]; exact List.getElem?_eq_getElem hlt
    refine ⟨g, gm.inpoel.elems[g * gm.maxnnode + j], hgi, ?_, hget, ?_⟩
    · rw [r2, q1 j hjm]; exact List.getElem?_eq_getElem hlt
    · exact (hmem _).2 ⟨g, j, n, hsel.1, hsel.2, hng, hj, hget⟩
  obtain ⟨a, h3, _⟩ := convertInpoel_spec lm2 g2l
    (by rw [fi, fe, r2, r3]) (by rw [fn, fe, r6])
    (by
      intro n hn'
      rw [fn] at hn'
      obtain ⟨i, hi⟩ := List.mem_iff_getElem?.1 hn'
      rw [fi, r2]
      by_cases hz : 0 ≤ n - 1
      · obtain ⟨g, p, hgi, _, _, _⟩ := hcell i 0 n hi (by omega)
        rw [(r8 i g hgi).2.1] at hi
        exact hb n (List.getElem?_mem hi)
      · omega)
    (by
      intro i j n hni hj
      rw [fn] at hni
      rw [fi]
      obtain ⟨g, p, _, hp, _, hpm⟩ := hcell i j n hni hj
      obtain ⟨idx, hidx⟩ := List.mem_iff_getElem?.1 hpm
      exact ⟨p, idx, hp, hm1 idx p hidx⟩)
  refine ⟨lm1, lm2, { lm2 with inpoel := a }, l2g, g2l, h1, h2, ?_, rfl, hf, hpw, hmem, hm1⟩
  unfold restrictPoints
  simp only [h1, h2, h3, Res.ok_bind, Res.pure_eq]

/-- The loop of `markLocalPhysicalBoundaryPoints` returns when every node of
every boundary face of the local mesh is a local point. -/
theorem markLocalPhysicalBoundaryPoints_total {R : Type} (lm : UMesh2dh R)
    (h : ∀ b : Nat, b < lm.nbface → ∀ j : Nat, j < lm.nnofa →
      ∃ p : Nat, p < lm.npoin ∧ lm.bface.get b j = .ok (p : Int)) :
    ∃ isB, markLocalPhysicalBoundaryPoints lm = .ok isB := by
  unfold markLocalPhysicalBoundaryPoints
  obtain ⟨isB, hisB, _⟩ := forLoop_total
    (fun iface (isBounPoin : List Bool) =>
      forLoop 0 lm.nnofa (fun inode (isBounPoin : List Bool) => do
        let p ← lm.bface.get iface inode
        vecSet isBounPoin p true) isBounPoin)
    (fun _ (t : List Bool) => t.length = lm.npoin) 0 lm.nbface
    (List.replicate lm.npoin false) (Nat.zero_le _) (by simp)
    (by
      intro b t _ hb ht
      exact forLoop_total
        (fun inode (isBounPoin : List Bool) => do
          let p ← lm.bface.get b inode
          vecSet isBounPoin p true)
        (fun _ (t : List Bool) => t.length = lm.npoin) 0 lm.nnofa t (Nat.zero_le _) ht
        (by
          intro j u _ hj hu
          obtain ⟨p, hp, hget⟩ := h b hb j hj
          refine ⟨u.set p true, ?_, by simp [hu]⟩
          show (lm.bface.get b j >>= fun p => vecSet u p true) = _
          rw [hget, Res.ok_bind, vecSet_nat u p true (by omega)]))
  exact ⟨isB, hisB⟩

/-- Steps 1 to 3 on a single process: when every entry of `elemdist` is `0`
and the points of the mesh are exactly the nodes of its elements, rank 0
keeps every element and every point under its own index. -/
theorem restrictPoints_single {R : Type} (gm : UMesh2dh R) (elemdist : List Int)
    (junk : Int) (junkR : R) (hs : gm.ElemsSized) (hc : gm.CoordsSized)
    (hb : gm.NodesBounded) (hd : elemdist.length = gm.nelem)
    (h0 : ∀ d ∈ elemdist, d = 0) (hpts : gm.PointsReferenced) :
    ∃ lm3 g2l, restrictPoints gm elemdist 0 junk junkR =
        .ok (lm3, (List.range gm.npoin).map (fun (i : Nat) => (i : Int)), g2l) ∧
      lm3.nelem = gm.nelem ∧ lm3.npoin = gm.npoin ∧ lm3.nnofa = gm.nnofa ∧
      lm3.nbtag = gm.nbtag ∧ lm3.maxnnode = gm.maxnnode ∧ lm3.maxnfael = gm.maxnfael ∧
      lm3.nnode = gm.nnode ∧ lm3.nfael = gm.nfael ∧
      lm3.globalElemIndex = (List.range gm.nelem).map (fun (i : Nat) => (i : Int)) ∧
      (∀ e : Nat, e < gm.nelem → ∀ j : Nat, j < (gm.nnode.getD e 0).toNat →
        ∃ p : Nat, p < gm.npoin ∧ gm.inpoel.get e j = .ok (p : Int) ∧
          lm3.inpoel.get e j = .ok (p : Int)) ∧
      (∀ p : Nat, p < gm.npoin → g2l.lookup (p : Int) = some (p : Int)) ∧
      (∀ p : Nat, p < gm.npoin → ∀ d : Nat, d < NDIM →
        ∃ x, gm.coords.get p d = .ok x ∧ lm3.coords.get p d = .ok x) := by
  obtain ⟨lm1, lm2, lm3, l2g, g2l, h1, h2, h3, f3, f2, hpw, hmem, hm1⟩ :=
    restrictPoints_total gm elemdist 0 junk junkR hs hc hb hd
  obtain ⟨lm1', h1', hn, hg, hrows, q1, q2, q3, q4, _⟩ :=
    restrictElems_spec gm elemdist 0 junk hs hd
  rw [h1] at h1'
  cases h1'
  have hsel := selected_all elemdist 0 gm.nelem hd h0
  rw [hsel] at hn hg hrows
  rw [List.length_range] at hn
  obtain ⟨r1, r2, r3, r4, r5, r6, r7, r8⟩ := hrows
  have hsl := hs.1
  have hed : ∀ g : Nat, g < gm.nelem → elemdist[g]? = some 0 := by
    intro g hg'
    have hgl : g < elemdist.length := by omega
    rw [List.getElem?_eq_getElem hgl, h0 _ (List.getElem_mem hgl)]
  have hnode : ∀ g : Nat, g < gm.nelem → gm.nnode[g]? = some (gm.nnode.getD g 0) := by
    intro g hg'
    have hgl : g < gm.nnode.length := by omega
    rw [List.getD_eq_getElem?_getD, List.getElem?_eq_getElem hgl]
    rfl
  have hl2g : l2g = (List.range gm.npoin).map (fun (i : Nat) => (i : Int)) := by
    apply pairwise_lt_eq_range l2g gm.npoin hpw
    intro p
    rw [hmem p]
    constructor
    · rintro ⟨g, j, n, hg', _, hn', hj, hget⟩
      have hnd := hnode g hg'
      rw [hn'] at hnd
      have hnv : gm.nnode.getD g 0 = n := (Option.some.inj hnd).symm
      obtain ⟨p', hp', hget'⟩ := hpts.1 g hg' j (by rw [hnv]; omega)
      rw [hget] at hget'
      have := Except.ok.inj hget'
      omega
    · rintro ⟨hp0, hp1⟩
      obtain ⟨g, hg', j, hj, hget⟩ := hpts.2 p.toNat (by omega)
      refine ⟨g, j, gm.nnode.getD g 0, hg', hed g hg', hnode g hg', by omega, ?_⟩
      rw [hget]
      congr 1
      omega
  subst hl2g
  have hidx : ∀ (v : Nat) (p : Int),
      ((List.range gm.npoin).map (fun (i : Nat) => (i : Int)))[v]? = some p →
        v < gm.npoin ∧ p = (v : Int) := by
    intro v p hv
    rw [List.getElem?_map] at hv
    by_cases hvl : v < gm.npoin
    · rw [List.getElem?_range hvl] at hv
      exact ⟨hvl, (Option.some.inj hv).symm⟩
    · rw [List.getElem?_eq_none (by rw [List.length_range]; omega)] at hv
      cases hv
  obtain ⟨p1, p2, p3, p4, p5⟩ :=
    restrictPoints_facts gm elemdist 0 junk junkR hs hc hb hd lm3 _ g2l h3
  rw [hsel] at p1 p2 p5
  rw [List.length_range] at p1
  rw [List.length_map, List.length_range] at p4
  have k5 : lm3.nnode = lm1.nnode := by rw [f3, f2]
  have k6 : lm3.nfael = lm1.nfael := by rw [f3, f2]
  have k7 : lm3.nbtag = lm1.nbtag := by rw [f3, f2]
  have k8 : lm3.maxnnode = lm1.maxnnode := by rw [f3, f2]
  have k9 : lm3.maxnfael = lm1.maxnfael := by rw [f3, f2]
  have k10 : lm3.coords = lm2.coords := by rw [f3]
  have hrange : ∀ e : Nat, e < gm.nelem → (List.range gm.nelem)[e]? = some e :=
    fun e he => List.getElem?_range he
  refine ⟨lm3, g2l, h3, p1, p4, p3, by rw [k7, q2], by rw [k8, q3], by rw [k9, q4], ?_, ?_,
    p2, ?_, ?_, ?_⟩
  · rw [k5]
    apply List.ext_getElem?
    intro e
    by_cases he : e < gm.nelem
    · exact (r8 e e (hrange e he)).2.1
    · rw [List.getElem?_eq_none (by omega), List.getElem?_eq_none (by omega)]
  · rw [k6]
    apply List.ext_getElem?
    intro e
    by_cases he : e < gm.nelem
    · exact (r8 e e (hrange e he)).2.2
    · rw [List.getElem?_eq_none (by omega), List.getElem?_eq_none (by have := hs.2.1; omega)]
  · intro e he j hj
    obtain ⟨_, _, hcells⟩ := p5 e e (hrange e he)
    obtain ⟨v, p, hv, hp, hvp, _⟩ := hcells j (gm.nnode.getD e 0) (hnode e he) (by omega)
    obtain ⟨hvl, rfl⟩ := hidx v p hvp
    exact ⟨v, hvl, hp, hv⟩
  · intro p hp
    apply hm1 p
    rw [List.getElem?_map, List.getElem?_range hp]
    rfl
  · intro p hp d hdm
    obtain ⟨_, hco⟩ := extractPointCoords_coords gm lm1 lm2 junkR g2l _ hc h2 (by
      intro k hk
      rw [List.length_map, List.length_range] at hk
      refine ⟨k, ?_, hk⟩
      rw [List.getElem?_map, List.getElem?_range hk]
      rfl)
    obtain ⟨c1, c2, c3⟩ := hco p p d (by
      rw [List.getElem?_map, List.getElem?_range hp]
      rfl) hdm
    refine ⟨lm2.coords.elems[p * NDIM + d], ?_, ?_⟩
    · rw [Array2d.get_nat_ok_iff, hc.1, ← c1]
      exact List.getElem?_eq_getElem c2
    · rw [k10, Array2d.get_nat_ok_iff, c3]
      exact List.getElem?_eq_getElem c2

/-- Step 4 on a single process: when every entry of `elemdist` is `0`, the
boundary faces of the mesh are consistent with its elements and points, and
`pointGlob2Loc` maps every point to itself, `extractbfaces` keeps every
boundary face with its nodes and tags. -/
theorem extractbfaces_single {R : Type} (api : MeshMethods R) (gm lm3 : UMesh2dh R)
    (elemdist : List Int) (junk : Int) (g2l : StdMap) (hd : elemdist.length = gm.nelem)
    (h0 : ∀ d ∈ elemdist, d = 0) (hbf : gm.BFacesInRange api)
    (hnf : lm3.nnofa = gm.nnofa) (hnt : lm3.nbtag = gm.nbtag)
    (hmap : ∀ p : Nat, p < gm.npoin → g2l.lookup (p : Int) = some (p : Int)) :
    ∃ lm4, extractbfaces api gm elemdist 0 g2l lm3 junk = .ok lm4 ∧
      lm4 = { lm3 with nbface := gm.nbface, bface := lm4.bface } ∧
      (∀ b : Nat, b < gm.nbface → ∀ j : Nat, j < gm.nnofa →
        ∃ p : Nat, p < gm.npoin ∧ gm.bface.get b j = .ok (p : Int) ∧
          lm4.bface.get b j = .ok (p : Int)) ∧
      (∀ b : Nat, b < gm.nbface → ∀ j : Nat, j < gm.nbtag → ∃ t,
        gm.bface.get b ((gm.nnofa + j : Nat) : Int) = .ok t ∧
        lm4.bface.get b ((gm.nnofa + j : Nat) : Int) = .ok t) := by
  obtain ⟨h6, hbf⟩ := hbf
  have hkept : ∀ b : Nat, b < gm.nbface → keptBFace api gm elemdist 0 b = true := by
    intro b hb
    obtain ⟨⟨g, hg, hgi⟩, _, _⟩ := hbf b hb
    have hgl : g < elemdist.length := by omega
    rw [keptBFace_of_reads api gm elemdist 0 b g 0 hgi
      (by rw [vecGet_nat_ok_iff, List.getElem?_eq_getElem hgl, h0 _ (List.getElem_mem hgl)])]
    rfl
  have hreads : BFaceReadsInRange api gm elemdist 0 := by
    refine ⟨h6, ?_⟩
    intro b hb
    obtain ⟨⟨g, hg, hgi⟩, hnodes, htags⟩ := hbf b hb
    have hgl : g < elemdist.length := by omega
    constructor
    · rw [hgi, Res.ok_bind, vecGet_of_lt elemdist g hgl]
      rfl
    · intro _ j hj
      by_cases hjn : j < gm.nnofa
      · obtain ⟨p, _, hp⟩ := hnodes j hjn
        rw [hp]
        rfl
      · have := htags (j - gm.nnofa) (by omega)
        have e : gm.nnofa + (j - gm.nnofa) = j := by omega
        rw [e] at this
        exact this
  have hfilter : (List.range gm.nbface).filter (keptBFace api gm elemdist 0) =
      List.range gm.nbface :=
    List.filter_eq_self.2 (fun b hb => hkept b (List.mem_range.1 hb))
  rcases extractbfaces_okOrErr api gm lm3 elemdist 0 junk g2l hreads hnf hnt with
    ⟨lm4, h4, _⟩ | herr
  · obtain ⟨hnb, hrows⟩ := extractbfaces_rows api gm lm3 lm4 elemdist 0 junk g2l hnf hnt h4
    rw [hfilter] at hnb hrows
    rw [List.length_range] at hnb
    have f4 := extractbfaces_frame _ _ _ _ _ _ _ _ h4
    refine ⟨lm4, h4, by rw [← hnb]; exact f4, ?_, ?_⟩
    · intro b hb j hj
      obtain ⟨p, hp, hget⟩ := (hbf b hb).2.1 j hj
      obtain ⟨g, v, hg, hv, hl⟩ := (hrows b b (List.getElem?_range hb)).1 j hj
      rw [hget] at hg
      cases hg
      rw [atKey_ok_iff, hmap p hp] at hv
      cases hv
      exact ⟨p, hp, hget, hl⟩
    · intro b hb j hj
      exact (hrows b b (List.getElem?_range hb)).2 j hj
  · exfalso
    obtain ⟨b, j, g, hb, _, hj, hg, hl⟩ :=
      extractbfaces_error_unmapped api gm lm3 elemdist 0 junk g2l herr
    obtain ⟨p, hp, hget⟩ := (hbf b hb).2.1 j hj
    rw [hget] at hg
    cases hg
    rw [hmap p hp] at hl
    cases hl

end ReplicatedGlobalMeshPartitioner

/-- The first element found does not change when the test is replaced by one
that agrees with it on the members of the list. -/
theorem find_congr_mem {α : Type} (p q : α → Bool) :
    ∀ l : List α, (∀ x ∈ l, p x = q x) → l.find? p = l.find? q := by
  intro l
  induction l with
  | nil => intro _; rfl
  | cons a t ih =>
    intro h
    rw [List.find?_cons, List.find?_cons, h a (List.mem_cons_self a t),
      ih (fun x hx => h x (List.mem_cons_of_mem a hx))]

/-- The adjacency `esuelBrute` reads only the element data: in a mesh with the
element data of `gm` it has the entries that it has in `gm`. -/
theorem esuelBrute_get_congr (gm m : UMesh2dh Int) (hsame : gm.SameElementData m)
    (hlen : gm.nnode.length = gm.nelem) (hpos : ∀ n ∈ gm.nnode, 0 < n)
    (e f : Nat) (he : e < gm.nelem) (hf : f < gm.maxnfael) :
    (esuelBrute m).get e f = (esuelBrute gm).get e f := by
  obtain ⟨s1, _, s3, _, _, s6, s7, s8, s9, _⟩ := hsame
  have hpts : ∀ (a g : Nat), a < gm.nelem → facePoints m a g = facePoints gm a g := by
    intro a g ha
    unfold facePoints
    rw [s3]
    apply List.map_congr_left
    intro k _
    have hal : a < gm.nnode.length := by omega
    have hn : 0 < gm.nnode.getD a 0 := by
      rw [List.getD_eq_getElem?_getD, List.getElem?_eq_getElem hal]
      exact hpos _ (List.getElem_mem hal)
    have e1 : getNodeEIndex2d m a g k = getNodeEIndex2d gm a g k := by
      unfold getNodeEIndex2d
      rw [s7]
    rw [e1]
    unfold getNodeEIndex2d
    simp only [Int.toNat_ofNat]
    have h0 := Int.emod_nonneg ((g : Int) + (k : Int)) (ne_of_gt hn)
    have h1 := Int.emod_lt_of_pos ((g : Int) + (k : Int)) hn
    have e2 : ((g : Int) + (k : Int)) % gm.nnode.getD a 0 =
        ((((g : Int) + (k : Int)) % gm.nnode.getD a 0).toNat : Int) := by omega
    rw [e2, s9 a ha _ (by omega)]
  have hsh : ∀ e' : Nat, e' ∈ List.range gm.nelem →
      sharesFace m e f e' = sharesFace gm e f e' := by
    intro e' he'
    have he'' := List.mem_range.1 he'
    unfold sharesFace
    rw [s8, hpts e f he]
    congr 2
    apply propext
    rw [List.any_eq_true, List.any_eq_true]
    constructor
    · rintro ⟨g, hg, h⟩
      exact ⟨g, hg, by rw [← hpts e' g he'']; exact h⟩
    · rintro ⟨g, hg, h⟩
      exact ⟨g, hg, by rw [hpts e' g he'']; exact h⟩
  rw [esuelBrute_get m e f (by omega) (by omega), esuelBrute_get gm e f he hf, s1,
    find_congr_mem _ _ _ hsh]

namespace ReplicatedGlobalMeshPartitioner

/-- C28: on a single process, that is, when every entry of `elemdist` is `0`,
for a consistent global mesh in which every point is a node of some element,
`restrictMeshToPartitions` on rank 0 returns a local mesh `lm` whose
`globalElemIndex` and whose `pointLoc2Glob` are the identity, with the
number of elements, of points and of boundary faces of the global mesh, its
`nnode` and `nfael`, the same first `nnode` entries of every row of `inpoel`,
the same rows of `bface` with their tags, the same coordinates, and with
`lm.nconnface = 0`. The mesh is consistent when its storage matches its
counts, every element has a node, the boundary faces have elements of the
mesh on their left and points of the mesh as nodes, faces are numbered as in
the comment on `gesuel`, and `esuelOf` gives `-1` only to faces whose points
are all nodes of boundary faces. -/
theorem restrict_single_process_identity {R : Type} (api : MeshMethods R) (gm : UMesh2dh R)
    (elemdist : List Int) (junk : Int) (junkR : R)
    (hs : gm.ElemsSized) (hc : gm.CoordsSized) (hb : gm.NodesBounded)
    (hd : elemdist.length = gm.nelem) (h0 : ∀ d ∈ elemdist, d = 0)
    (hpos : ∀ n ∈ gm.nnode, 0 < n) (hpts : gm.PointsReferenced)
    (hbf : gm.BFacesInRange api) (hnum : StandardNumbering api)
    (hadj : gm.NeighbourlessFacesOnBoundary api) :
    ∃ lm, restrictMeshToPartitions api gm elemdist 0 junk junkR = .ok lm ∧
      lm.globalElemIndex = (List.range gm.nelem).map (fun (i : Nat) => (i : Int)) ∧
      (∃ lm3 g2l, restrictPoints gm elemdist 0 junk junkR =
        .ok (lm3, (List.range gm.npoin).map (fun (i : Nat) => (i : Int)), g2l)) ∧
      lm.nelem = gm.nelem ∧ lm.npoin = gm.npoin ∧ lm.nbface = gm.nbface ∧
      lm.nnode = gm.nnode ∧ lm.nfael = gm.nfael ∧
      (∀ e : Nat, e < gm.nelem → ∀ j : Nat, j < (gm.nnode.getD e 0).toNat →
        ∃ p, gm.inpoel.get e j = .ok p ∧ lm.inpoel.get e j = .ok p) ∧
      (∀ b : Nat, b < gm.nbface → ∀ j : Nat, j < gm.nnofa + gm.nbtag →
        ∃ v, gm.bface.get b j = .ok v ∧ lm.bface.get b j = .ok v) ∧
      (∀ p : Nat, p < gm.npoin → ∀ d : Nat, d < NDIM →
        ∃ x, gm.coords.get p d = .ok x ∧ lm.coords.get p d = .ok x) ∧
      lm.nconnface = 0 := by
  obtain ⟨lm3, g2l, h3, a1, a2, a3, a4, a5, a6, a7, a8, a9, a10, a11, a12⟩ :=
    restrictPoints_single gm elemdist junk junkR hs hc hb hd h0 hpts
  obtain ⟨lm4, h4, f4, b1, b2⟩ :=
    extractbfaces_single api gm lm3 elemdist junk g2l hd h0 hbf a3 a4 a11
  have c1 : lm4.nelem = gm.nelem := by rw [f4]; exact a1
  have c2 : lm4.npoin = gm.npoin := by rw [f4]; exact a2
  have c3 : lm4.nnofa = gm.nnofa := by rw [f4]; exact a3
  have c4 : lm4.nbface = gm.nbface := by rw [f4]
  have c5 : lm4.maxnnode = gm.maxnnode := by rw [f4]; exact a5
  have c6 : lm4.maxnfael = gm.maxnfael := by rw [f4]; exact a6
  have c7 : lm4.nnode = gm.nnode := by rw [f4]; exact a7
  have c8 : lm4.nfael = gm.nfael := by rw [f4]; exact a8
  have c9 : lm4.inpoel = lm3.inpoel := by rw [f4]
  have c10 : lm4.globalElemIndex = lm3.globalElemIndex := by rw [f4]
  have c11 : lm4.coords = lm3.coords := by rw [f4]
  have hsame : gm.SameElementData lm4 := by
    refine ⟨c1, c2, c3, c4, c5, c6, c7, c8, ?_, ?_⟩
    · intro e he j hj
      obtain ⟨p, _, hp, hl⟩ := a10 e he j hj
      rw [c9, hp, hl]
    · intro b hb j hj
      obtain ⟨p, _, hp, hl⟩ := b1 b hb j hj
      rw [hp, hl]
  have hidx : ∀ (m : UMesh2dh R), m.nnode = gm.nnode → ∀ e f k : Nat, e < gm.nelem →
      ∃ j : Nat, j < (gm.nnode.getD e 0).toNat ∧
        api.getNodeEIndex m e f k = (j : Int) := by
    intro m hm e f k he
    have hal : e < gm.nnode.length := by rw [hs.1]; exact he
    have hn : 0 < gm.nnode.getD e 0 := by
      rw [List.getD_eq_getElem?_getD, List.getElem?_eq_getElem hal]
      exact hpos _ (List.getElem_mem hal)
    rw [hnum m e f k, hm]
    simp only [Int.toNat_ofNat]
    have h0 := Int.emod_nonneg ((f : Int) + (k : Int)) (ne_of_gt hn)
    have h1 := Int.emod_lt_of_pos ((f : Int) + (k : Int)) hn
    exact ⟨(((f : Int) + (k : Int)) % gm.nnode.getD e 0).toNat, by omega, by omega⟩
  obtain ⟨isB, h5⟩ := markLocalPhysicalBoundaryPoints_total
    { lm4 with esuel := api.esuelOf lm4 } (by
      intro b hb j hj
      have hb' : b < gm.nbface := by rw [← c4]; exact hb
      have hj' : j < gm.nnofa := by rw [← c3]; exact hj
      obtain ⟨p, hp, _, hl⟩ := b1 b hb' j hj'
      exact ⟨p, by show p < lm4.npoin; omega, hl⟩)
  obtain ⟨m1, m2, _⟩ := markLocalPhysicalBoundaryPoints_partial _ isB h5
  have hlenB : isB.length = gm.npoin := by rw [m1]; exact c2
  have hreads : ConnReadsInRange api { lm4 with esuel := api.esuelOf lm4 } isB := by
    refine ⟨by show lm4.nfael.length = lm4.nelem; rw [c8, c1]; exact hs.2.1, ?_⟩
    intro e he f hf
    have he' : e < gm.nelem := by rw [← c1]; exact he
    have hf' : f < (gm.nfael.getD e 0).toNat := by rw [← c8]; exact hf
    refine ⟨(hadj lm4 hsame e he' f hf').1, ?_⟩
    intro k _
    obtain ⟨j, hj, hjx⟩ := hidx { lm4 with esuel := api.esuelOf lm4 } c7 e f k he'
    obtain ⟨p, hp, _, hl⟩ := a10 e he' j hj
    rw [hjx]
    show (lm4.inpoel.get e j >>= vecGet isB).toBool = true
    rw [c9, hl, Res.ok_bind, vecGet_of_lt isB p (by omega)]
    rfl
  obtain ⟨conn, h6⟩ := getConnectivityFaceEIndices_total api _ isB hreads
  obtain ⟨hlen, hlists⟩ := getConnectivityFaceEIndices_partial api _ isB conn h6
  have hempty : ∀ l ∈ conn, l = [] := by
    intro l hl
    obtain ⟨e, he, hle⟩ := List.getElem_of_mem hl
    have he5 : e < lm4.nelem := by rw [← hlen]; exact he
    have he' : e < gm.nelem := by rw [← c1]; exact he5
    obtain ⟨l0, nf, hl0, hnf, _, hrange, hiff⟩ := hlists e he5
    rw [List.getElem?_eq_getElem he, hle] at hl0
    cases hl0
    apply List.eq_nil_iff_forall_not_mem.2
    intro x hx
    obtain ⟨f, rfl, hf⟩ := hrange x hx
    obtain ⟨hes, k, hk, p, hp, hfalse⟩ := (hiff f hf).1 hx
    have hnf' : gm.nfael[e]? = some nf := by rw [← c8]; exact hnf
    have hf' : f < (gm.nfael.getD e 0).toNat := by
      rw [List.getD_eq_getElem?_getD, hnf']
      simp only [Option.getD_some]
      omega
    have hk' : k < gm.nnofa := by rw [← c3]; exact hk
    obtain ⟨b, hb, j, hj, hbj⟩ := (hadj lm4 hsame e he' f hf').2 hes k hk'
    obtain ⟨i1, hi1, hx1⟩ := hidx { lm4 with esuel := api.esuelOf lm4 } c7 e f k he'
    obtain ⟨i2, hi2, hx2⟩ := hidx gm rfl e f k he'
    have hii : i1 = i2 := by
      have : (i1 : Int) = (i2 : Int) := by
        rw [← hx1, ← hx2, hnum, hnum]
        show _ % (lm4.nnode.getD _ 0) = _
        rw [c7]
      exact_mod_cast this
    subst hii
    obtain ⟨q, _, hq, hlq⟩ := a10 e he' i1 hi1
    rw [hx1] at hp
    have hp' : lm4.inpoel.get e i1 = .ok p := hp
    rw [c9, hlq] at hp'
    cases hp'
    rw [hx2, hq] at hbj
    obtain ⟨q', _, hq', hlq'⟩ := b1 b hb j hj
    rw [hbj] at hq'
    cases hq'
    obtain ⟨p', hp1, hp2⟩ := m2 b j (by show b < lm4.nbface; omega) (by show j < lm4.nnofa; omega)
    have hp1' : lm4.bface.get b j = .ok p' := hp1
    rw [hlq'] at hp1'
    cases hp1'
    rw [hfalse] at hp2
    cases hp2
  rcases buildConnface_okOrLogic api gm _ elemdist _ conn junk hlen (by
      intro e l f hl hf
      rw [hempty l (List.getElem?_mem hl)] at hf
      cases hf) with ⟨lm, h7⟩ | herr
  · have hst : RestrictStages api gm elemdist 0 junk junkR _ _ g2l isB conn lm :=
      ⟨lm3, lm4, h3, h4, rfl, h5, h6, h7⟩
    obtain ⟨_, hn, _⟩ := hst.records
    have hsum : (conn.map List.length).sum = 0 := by
      apply List.sum_eq_zero
      intro n hn'
      obtain ⟨l, hl, rfl⟩ := List.mem_map.1 hn'
      rw [hempty l hl]
      rfl
    have hf := hst.mesh_frame
    have d1 : lm.globalElemIndex = lm4.globalElemIndex := by rw [hf]
    have d2 : lm.nelem = lm4.nelem := by rw [hf]
    have d3 : lm.npoin = lm4.npoin := by rw [hf]
    have d4 : lm.nbface = lm4.nbface := by rw [hf]
    have d5 : lm.nnode = lm4.nnode := by rw [hf]
    have d6 : lm.nfael = lm4.nfael := by rw [hf]
    have d7 : lm.inpoel = lm4.inpoel := by rw [hf]
    have d8 : lm.bface = lm4.bface := by rw [hf]
    have d9 : lm.coords = lm4.coords := by rw [hf]
    refine ⟨lm, ?_, by rw [d1, c10, a9], ⟨lm3, g2l, h3⟩, by rw [d2, c1], by rw [d3, c2],
      by rw [d4, c4], by rw [d5, c7], by rw [d6, c8], ?_, ?_, ?_, by rw [hn, hsum]⟩
    · rw [restrictMeshToPartitions_of_stages api gm lm3 lm4 elemdist _ g2l isB conn 0 junk
        junkR h3 h4 h5 h6]
      exact h7
    · intro e he j hj
      obtain ⟨p, _, hp, hl⟩ := a10 e he j hj
      exact ⟨p, hp, by rw [d7, c9]; exact hl⟩
    · intro b hb j hj
      rw [d8]
      by_cases hjn : j < gm.nnofa
      · obtain ⟨p, _, hp, hl⟩ := b1 b hb j hjn
        exact ⟨p, hp, hl⟩
      · have := b2 b hb (j - gm.nnofa) (by omega)
        have e : gm.nnofa + (j - gm.nnofa) = j := by omega
        rw [e] at this
        exact this
    · intro p hp d hdm
      rw [d9, c11]
      exact a12 p hp d hdm
  · exfalso
    obtain ⟨_, e, l, f, hl, hf, _⟩ := buildConnface_error api gm _ elemdist _ conn junk _ herr
    rw [hempty l (List.getElem?_mem hl)] at hf
    cases hf

set_option synthInstance.maxSize 512 in
set_option synthInstance.maxHeartbeats 200000 in
set_option maxRecDepth 100000 in
/-- C28 on the two-by-two block of quadrilaterals with every element on
rank 0 and the adjacency `esuelBrute`. -/
theorem restrict_single_process_identity_witness :
    quadBlock.ElemsSized ∧ quadBlock.CoordsSized ∧ quadBlock.NodesBounded ∧
    ([0, 0, 0, 0] : List Int).length = quadBlock.nelem ∧
    (∀ d ∈ ([0, 0, 0, 0] : List Int), d = 0) ∧ (∀ n ∈ quadBlock.nnode, 0 < n) ∧
    quadBlock.PointsReferenced ∧ quadBlock.BFacesInRange api2d ∧ StandardNumbering api2d ∧
    quadBlock.NeighbourlessFacesOnBoundary api2d ∧
    ∃ lm, restrictMeshToPartitions api2d quadBlock [0, 0, 0, 0] 0 77 88 = .ok lm ∧
      lm.globalElemIndex = (List.range quadBlock.nelem).map (fun (i : Nat) => (i : Int)) ∧
      (∃ lm3 g2l, restrictPoints quadBlock [0, 0, 0, 0] 0 77 88 =
        .ok (lm3, (List.range quadBlock.npoin).map (fun (i : Nat) => (i : Int)), g2l)) ∧
      lm.nelem = quadBlock.nelem ∧ lm.npoin = quadBlock.npoin ∧
      lm.nbface = quadBlock.nbface ∧
      lm.nnode = quadBlock.nnode ∧ lm.nfael = quadBlock.nfael ∧
      (∀ e : Nat, e < quadBlock.nelem → ∀ j : Nat, j < (quadBlock.nnode.getD e 0).toNat →
        ∃ p, quadBlock.inpoel.get e j = .ok p ∧ lm.inpoel.get e j = .ok p) ∧
      (∀ b : Nat, b < quadBlock.nbface → ∀ j : Nat, j < quadBlock.nnofa + quadBlock.nbtag →
        ∃ v, quadBlock.bface.get b j = .ok v ∧ lm.bface.get b j = .ok v) ∧
      (∀ p : Nat, p < quadBlock.npoin → ∀ d : Nat, d < NDIM →
        ∃ x, quadBlock.coords.get p d = .ok x ∧ lm.coords.get p d = .ok x) ∧
      lm.nconnface = 0 := by
  have hnum : StandardNumbering api2d := fun _ _ _ _ => rfl
  have key : ∀ e : Nat, e < quadBlock.nelem → ∀ f : Nat,
      f < (quadBlock.nfael.getD e 0).toNat → f < quadBlock.maxnfael ∧
      ((esuelBrute quadBlock).get e f).toBool = true ∧
      ((esuelBrute quadBlock).get e f = .ok (-1) →
        ∀ k : Nat, k < quadBlock.nnofa → ∃ b : Nat, b < quadBlock.nbface ∧
          ∃ j : Nat, j < quadBlock.nnofa ∧
            quadBlock.bface.get b j =
              quadBlock.inpoel.get e (api2d.getNodeEIndex quadBlock e f k)) := by
    decide!
  have hadj : quadBlock.NeighbourlessFacesOnBoundary api2d := by
    intro m hm e he f hf
    obtain ⟨hfm, k1, k2⟩ := key e he f hf
    have hcg := esuelBrute_get_congr quadBlock m hm (by decide) (by decide) e f he hfm
    show ((esuelBrute m).get e f).toBool = true ∧ ((esuelBrute m).get e f = .ok (-1) → _)
    rw [hcg]
    exact ⟨k1, k2⟩
  exact ⟨by decide, by decide, by decide, by decide, by decide, by decide, by decide!,
    by decide!, hnum, hadj,
    restrict_single_process_identity api2d quadBlock [0, 0, 0, 0] 77 88 (by decide)
      (by decide) (by decide) (by decide) (by decide) (by decide) (by decide!) (by decide!)
      hnum hadj⟩

end ReplicatedGlobalMeshPartitioner

/-- The match of two centroids is symmetric when the comparison of two
coordinates is. -/
theorem centroidsMatch_symm {R : Type} (near : R → R → Bool) (axis : Int) (cf cg : List R)
    (hsym : ∀ x y, near x y = near y x) :
    centroidsMatch near axis cf cg = centroidsMatch near axis cg cf := by
  unfold centroidsMatch
  congr 1
  funext d
  congr 1
  cases cf[d]? <;> cases cg[d]? <;> simp [hsym]

namespace UMesh2dh

/-- The test of `IsPeriodicPartner` when the centroid of the first face is
known. -/
theorem isPeriodicPartner_iff {R : Type} (m : UMesh2dh R) (intfacbtags : Array2d Int)
    (mid : R → R → R) (near : R → R → Bool) (bcm axis : Int) (f g : Nat) (cf : List R)
    (hcf : m.faceCentroid mid f = .ok cf) :
    m.IsPeriodicPartner intfacbtags mid near bcm axis f g ↔
      g < m.naface ∧ g ≠ f ∧ intfacbtags.get g 0 = .ok bcm ∧
        ∃ cg, m.faceCentroid mid g = .ok cg ∧ centroidsMatch near axis cf cg = true := by
  unfold IsPeriodicPartner
  rw [hcf, Res.ok_bind, Res.bind_eq_ok]
  simp only [Res.pure_eq, Except.ok.injEq]

/-- A partner of a face has a readable centroid, and so has the face. -/
theorem IsPeriodicPartner.centroids {R : Type} {m : UMesh2dh R} {intfacbtags : Array2d Int}
    {mid : R → R → R} {near : R → R → Bool} {bcm axis : Int} {f g : Nat}
    (h : m.IsPeriodicPartner intfacbtags mid near bcm axis f g) :
    ∃ cf cg, m.faceCentroid mid f = .ok cf ∧ m.faceCentroid mid g = .ok cg ∧
      centroidsMatch near axis cf cg = true := by
  obtain ⟨_, _, _, h⟩ := h
  rw [Res.bind_eq_ok] at h
  obtain ⟨cf, hcf, h⟩ := h
  rw [Res.bind_eq_ok] at h
  obtain ⟨cg, hcg, h⟩ := h
  simp only [Res.pure_eq, Except.ok.injEq] at h
  exact ⟨cf, cg, hcf, hcg, h⟩

/-- Being a partner is symmetric between two faces that carry the marker,
when the comparison of two coordinates is symmetric. -/
theorem IsPeriodicPartner.symm {R : Type} {m : UMesh2dh R} {intfacbtags : Array2d Int}
    {mid : R → R → R} {near : R → R → Bool} {bcm axis : Int} {f g : Nat}
    (hsym : ∀ x y, near x y = near y x)
    (h : m.IsPeriodicPartner intfacbtags mid near bcm axis f g) (hf : f < m.naface)
    (htf : intfacbtags.get f 0 = .ok bcm) :
    m.IsPeriodicPartner intfacbtags mid near bcm axis g f := by
  obtain ⟨cf, cg, hcf, hcg, hm⟩ := h.centroids
  rw [isPeriodicPartner_iff m intfacbtags mid near bcm axis g f cg hcg]
  exact ⟨hf, fun e => h.2.1 e.symm, htf, cf, hcf,
    by rw [centroidsMatch_symm near axis cg cf hsym]; exact hm⟩

/-- The list that `periodicPartners` returns for face `f` is increasing and
holds exactly the partners of `f`. -/
theorem periodicPartners_spec {R : Type} (m : UMesh2dh R) (intfacbtags : Array2d Int)
    (mid : R → R → R) (near : R → R → Bool) (bcm axis : Int) (f : Nat) (l : List Nat)
    (h : m.periodicPartners intfacbtags mid near bcm axis f = .ok l) :
    l.Pairwise (· < ·) ∧
    ∀ g : Nat, g ∈ l ↔ m.IsPeriodicPartner intfacbtags mid near bcm axis f g := by
  unfold periodicPartners at h
  rw [Res.bind_eq_ok] at h
  obtain ⟨cf, hcf, h⟩ := h
  obtain ⟨i1, i2, i3⟩ := forLoop_partial _
    (fun k (found : List Nat) => found.Pairwise (· < ·) ∧ (∀ g ∈ found, g < k) ∧
      ∀ g : Nat, g ∈ found ↔ g < k ∧ g ≠ f ∧ intfacbtags.get g 0 = .ok bcm ∧
        ∃ cg, m.faceCentroid mid g = .ok cg ∧ centroidsMatch near axis cf cg = true)
    0 m.naface _ l (Nat.zero_le _) h
    ⟨List.Pairwise.nil, (by intro g hg; cases hg), (by
      intro g
      constructor
      · intro hg; cases hg
      · rintro ⟨hg, _⟩; omega)⟩
    (by
      intro k t t' _ hk ⟨q1, q2, q3⟩ hb
      rw [Res.bind_eq_ok] at hb
      obtain ⟨tg, htg, hb⟩ := hb
      have hold : ∀ g : Nat, g ∈ t ↔ g < k + 1 ∧ g ≠ k ∧ g ≠ f ∧
          intfacbtags.get g 0 = .ok bcm ∧
          ∃ cg, m.faceCentroid mid g = .ok cg ∧ centroidsMatch near axis cf cg = true := by
        intro g
        rw [q3 g]
        constructor
        · rintro ⟨a, b⟩
          exact ⟨by omega, by omega, b⟩
        · rintro ⟨a, a', b⟩
          exact ⟨by omega, b⟩
      have keep : t' = t → (t'.Pairwise (· < ·) ∧ (∀ g ∈ t', g < k + 1) ∧
          ∀ g : Nat, g ∈ t' ↔ g < k + 1 ∧ g ≠ f ∧ intfacbtags.get g 0 = .ok bcm ∧
            ∃ cg, m.faceCentroid mid g = .ok cg ∧ centroidsMatch near axis cf cg = true) →
          (t'.Pairwise (· < ·) ∧ (∀ g ∈ t', g < k + 1) ∧
          ∀ g : Nat, g ∈ t' ↔ g < k + 1 ∧ g ≠ f ∧ intfacbtags.get g 0 = .ok bcm ∧
            ∃ cg, m.faceCentroid mid g = .ok cg ∧ centroidsMatch near axis cf cg = true) :=
        fun _ x => x
      by_cases hc : tg = bcm ∧ k ≠ f
      · rw [if_pos hc, Res.bind_eq_ok] at hb
        obtain ⟨cg, hcg, hb⟩ := hb
        simp only [Res.pure_eq, Except.ok.injEq] at hb
        by_cases hm : centroidsMatch near axis cf cg = true
        · rw [if_pos hm] at hb
          subst hb
          refine ⟨?_, ?_, ?_⟩
          · rw [List.pairwise_append]
            refine ⟨q1, List.pairwise_singleton _ _, ?_⟩
            intro a ha b hb'
            rw [List.mem_singleton] at hb'
            rw [hb']
            exact q2 a ha
          · intro g hg
            rcases List.mem_append.1 hg with h1 | h1
            · have := q2 g h1; omega
            · rw [List.mem_singleton] at h1; omega
          · intro g
            rw [List.mem_append, List.mem_singleton, hold g]
            constructor
            · rintro (⟨a, _, b⟩ | rfl)
              · exact ⟨a, b⟩
              · exact ⟨by omega, hc.2, by rw [htg, hc.1], cg, hcg, hm⟩
            · rintro ⟨a, b⟩
              by_cases hgk : g = k
              · exact Or.inr hgk
              · exact Or.inl ⟨a, hgk, b⟩
        · rw [if_neg hm] at hb
          subst hb
          refine ⟨q1, fun g hg => by have := q2 g hg; omega, ?_⟩
          intro g
          rw [hold g]
          constructor
          · rintro ⟨a, _, b⟩
            exact ⟨a, b⟩
          · rintro ⟨a, b⟩
            refine ⟨a, ?_, b⟩
            rintro rfl
            obtain ⟨_, _, cg', hcg', hm'⟩ := b
            rw [hcg] at hcg'
            cases hcg'
            exact hm hm'
      · rw [if_neg hc] at hb
        simp only [Res.pure_eq, Except.ok.injEq] at hb
        subst hb
        refine ⟨q1, fun g hg => by have := q2 g hg; omega, ?_⟩
        intro g
        rw [hold g]
        constructor
        · rintro ⟨a, _, b⟩
          exact ⟨a, b⟩
        · rintro ⟨a, b⟩
          refine ⟨a, ?_, b⟩
          rintro rfl
          obtain ⟨b1, b2, _⟩ := b
          rw [htg] at b2
          exact hc ⟨Except.ok.inj b2, b1⟩)
  refine ⟨i1, ?_⟩
  intro g
  rw [i3 g, isPeriodicPartner_iff m intfacbtags mid near bcm axis f g cf hcf]

/-- The search `periodicPartners` returns when the centroid of the face, the
markers of all faces and the centroids of the marked faces can be read. -/
theorem periodicPartners_total {R : Type} (m : UMesh2dh R) (intfacbtags : Array2d Int)
    (mid : R → R → R) (near : R → R → Bool) (bcm axis : Int) (f : Nat) (cf : List R)
    (hcf : m.faceCentroid mid f = .ok cf)
    (htags : ∀ g : Nat, g < m.naface → (intfacbtags.get g 0).toBool = true)
    (hcen : ∀ g : Nat, g < m.naface → intfacbtags.get g 0 = .ok bcm →
      (m.faceCentroid mid g).toBool = true) :
    ∃ l, m.periodicPartners intfacbtags mid near bcm axis f = .ok l := by
  unfold periodicPartners
  rw [hcf, Res.ok_bind]
  obtain ⟨l, hl, _⟩ := forLoop_total
    (fun g (found : List Nat) => do
      let t ← intfacbtags.get g 0
      if t = bcm ∧ g ≠ f then
        let cg ← m.faceCentroid mid g
        pure (if centroidsMatch near axis cf cg then found ++ [g] else found)
      else pure found)
    (fun _ _ => True) 0 m.naface [] (Nat.zero_le _) trivial
    (by
      intro k t _ hk _
      have h1 := htags k hk
      obtain ⟨tg, htg⟩ : ∃ tg, intfacbtags.get (k : Int) 0 = .ok tg := by
        cases h : intfacbtags.get (k : Int) 0 with
        | error e => rw [h] at h1; cases h1
        | ok tg => exact ⟨tg, rfl⟩
      simp only [htg, Res.ok_bind]
      by_cases hc : tg = bcm ∧ k ≠ f
      · rw [if_pos hc]
        have h2 := hcen k hk (by rw [htg, hc.1])
        obtain ⟨cg, hcg⟩ : ∃ cg, m.faceCentroid mid (k : Int) = .ok cg := by
          cases h : m.faceCentroid mid (k : Int) with
          | error e => rw [h] at h2; cases h2
          | ok cg => exact ⟨cg, rfl⟩
        simp only [hcg, Res.ok_bind, Res.pure_eq]
        exact ⟨_, rfl, trivial⟩
      · rw [if_neg hc]
        exact ⟨_, rfl, trivial⟩)
  exact ⟨l, hl⟩

/-- The state of `periodicmap` after a run of `compute_periodic_map`: an entry
per face, `-1` for a face without the marker and the single partner for a face
with the marker. -/
theorem compute_periodic_map_entries {R : Type} (m : UMesh2dh R) (intfacbtags : Array2d Int)
    (mid : R → R → R) (near : R → R → Bool) (bcm axis : Int) (pm : List Int)
    (h : m.compute_periodic_map intfacbtags mid near bcm axis = .ok pm) :
    pm.length = m.naface ∧
    ∀ f : Nat, f < m.naface → ∃ t, intfacbtags.get f 0 = .ok t ∧
      ((t ≠ bcm ∧ pm[f]? = some (-1)) ∨
       (t = bcm ∧ ∃ g : Nat,
          m.periodicPartners intfacbtags mid near bcm axis f = .ok [g] ∧
          pm[f]? = some (g : Int))) := by
  unfold compute_periodic_map at h
  obtain ⟨i1, i2, _⟩ := forLoop_partial _
    (fun k (t : List Int) => t.length = m.naface ∧
      (∀ f : Nat, f < k → ∃ tg, intfacbtags.get f 0 = .ok tg ∧
        ((tg ≠ bcm ∧ t[f]? = some (-1)) ∨
         (tg = bcm ∧ ∃ g : Nat,
            m.periodicPartners intfacbtags mid near bcm axis f = .ok [g] ∧
            t[f]? = some (g : Int)))) ∧
      (∀ f : Nat, k ≤ f → f < m.naface → t[f]? = some (-1)))
    0 m.naface _ pm (Nat.zero_le _) h
    ⟨by simp, (by intro f hf; omega), (by
      intro f _ hf
      rw [List.getElem?_replicate]
      simp [hf])⟩
    (by
      intro k t t' _ hk ⟨q1, q2, q3⟩ hb
      rw [Res.bind_eq_ok] at hb
      obtain ⟨tg, htg, hb⟩ := hb
      by_cases hc : tg = bcm
      · rw [if_pos hc, Res.bind_eq_ok] at hb
        obtain ⟨l, hl, hb⟩ := hb
        match l, hl, hb with
        | [], _, hb => cases hb
        | [g], hl, hb =>
          have hset : t' = t.set k (g : Int) := by
            have := (vecSet_ok_iff t t' (k : Int) (g : Int)).1 hb
            simpa using this.2.2
          subst hset
          refine ⟨by simp [q1], ?_, ?_⟩
          · intro f hf
            by_cases hfk : f = k
            · subst hfk
              refine ⟨tg, htg, Or.inr ⟨hc, g, hl, ?_⟩⟩
              rw [List.getElem?_set_self (by omega)]
            · obtain ⟨tf, htf, hcase⟩ := q2 f (by omega)
              refine ⟨tf, htf, ?_⟩
              rw [List.getElem?_set_ne (fun e => hfk e.symm)]
              exact hcase
          · intro f hf1 hf2
            rw [List.getElem?_set_ne (by omega)]
            exact q3 f (by omega) hf2
        | _ :: _ :: _, _, hb => cases hb
      · rw [if_neg hc] at hb
        simp only [Res.pure_eq, Except.ok.injEq] at hb
        subst hb
        refine ⟨q1, ?_, fun f hf1 hf2 => q3 f (by omega) hf2⟩
        intro f hf
        by_cases hfk : f = k
        · subst hfk
          exact ⟨tg, htg, Or.inl ⟨hc, q3 f (Nat.le_refl _) hk⟩⟩
        · exact q2 f (by omega))
  exact ⟨i1, i2⟩

/-- C21: the periodic face-pairing map is an involution on the paired faces.
After a run of `compute_periodic_map`, `periodicmap` has an entry for every
face `f` of the unified face list, and either `f` does not carry the periodic
marker and `periodicmap[f] = -1`, or `f` carries it, `periodicmap[f]` is a
face `g` that is a partner of `f`, and `periodicmap[g] = f`. The comparison
of two centre coordinates is assumed symmetric, as a comparison of their
distance with a tolerance is. The run returns a map when every face with the
marker has precisely one partner. -/
theorem compute_periodic_map_involution {R : Type} (m : UMesh2dh R)
    (intfacbtags : Array2d Int) (mid : R → R → R) (near : R → R → Bool) (bcm axis : Int)
    (hsym : ∀ x y, near x y = near y x) :
    (∀ periodicmap : List Int,
      m.compute_periodic_map intfacbtags mid near bcm axis = .ok periodicmap →
      periodicmap.length = m.naface ∧
      ∀ f : Nat, f < m.naface →
        (intfacbtags.get f 0 ≠ .ok bcm ∧ periodicmap[f]? = some (-1)) ∨
        (intfacbtags.get f 0 = .ok bcm ∧ ∃ g : Nat, g < m.naface ∧
          m.IsPeriodicPartner intfacbtags mid near bcm axis f g ∧
          periodicmap[f]? = some (g : Int) ∧ periodicmap[g]? = some (f : Int))) ∧
    (m.PeriodicFacesMatched intfacbtags mid near bcm axis →
      ∃ periodicmap, m.compute_periodic_map intfacbtags mid near bcm axis = .ok periodicmap) := by
  constructor
  · intro pm h
    obtain ⟨hlen, hent⟩ := compute_periodic_map_entries m intfacbtags mid near bcm axis pm h
    refine ⟨hlen, ?_⟩
    intro f hf
    obtain ⟨t, ht, hcase⟩ := hent f hf
    rcases hcase with ⟨hne, hpm⟩ | ⟨rfl, g, hg, hpm⟩
    · left
      refine ⟨?_, hpm⟩
      rw [ht]
      intro e
      exact hne (Except.ok.inj e)
    · right
      obtain ⟨_, hmem⟩ := periodicPartners_spec m intfacbtags mid near t axis f [g] hg
      have hfg : m.IsPeriodicPartner intfacbtags mid near t axis f g :=
        (hmem g).1 (List.mem_singleton.2 rfl)
      have hgf := hfg.symm hsym hf ht
      refine ⟨ht, g, hfg.1, hfg, hpm, ?_⟩
      obtain ⟨t', ht', hcase'⟩ := hent g hfg.1
      rcases hcase' with ⟨hne', _⟩ | ⟨_, g', hg', hpm'⟩
      · rw [hfg.2.2.1] at ht'
        exact absurd (Except.ok.inj ht').symm hne'
      · obtain ⟨_, hmem'⟩ := periodicPartners_spec m intfacbtags mid near t axis g [g'] hg'
        have := (hmem' f).2 hgf
        rw [List.mem_singleton] at this
        rw [hpm', this]
  · intro hpre
    unfold compute_periodic_map
    obtain ⟨pm, hpm, _⟩ := forLoop_total
      (fun f (periodicmap : List Int) => do
        let t ← intfacbtags.get f 0
        if t = bcm then
          let partners ← m.periodicPartners intfacbtags mid near bcm axis f
          match partners with
          | [g] => vecSet periodicmap f (g : Int)
          | _ => throw (.runtimeError "TopologyError")
        else pure periodicmap)
      (fun _ (t : List Int) => t.length = m.naface) 0 m.naface
      (List.replicate m.naface (-1)) (Nat.zero_le _) (by simp)
      (by
        intro k t _ hk hlen
        obtain ⟨h1, h2⟩ := hpre k hk
        obtain ⟨tg, htg⟩ : ∃ tg, intfacbtags.get (k : Int) 0 = .ok tg := by
          cases h : intfacbtags.get (k : Int) 0 with
          | error e => rw [h] at h1; cases h1
          | ok tg => exact ⟨tg, rfl⟩
        simp only [htg, Res.ok_bind]
        by_cases hc : tg = bcm
        · rw [if_pos hc]
          subst hc
          obtain ⟨h3, g, hg, hpg, huniq⟩ := h2 htg
          obtain ⟨cf, hcf⟩ : ∃ cf, m.faceCentroid mid (k : Int) = .ok cf := by
            cases h : m.faceCentroid mid (k : Int) with
            | error e => rw [h] at h3; cases h3
            | ok cf => exact ⟨cf, rfl⟩
          obtain ⟨l, hl⟩ := periodicPartners_total m intfacbtags mid near tg axis k cf hcf
            (fun g hg => (hpre g hg).1) (fun g hg hgt => ((hpre g hg).2 hgt).1)
          obtain ⟨hpw, hmem⟩ := periodicPartners_spec m intfacbtags mid near tg axis k l hl
          have hl1 : l = [g] := by
            have hall : ∀ x ∈ l, x = g := fun x hx =>
              huniq x ((hmem x).1 hx).1 ((hmem x).1 hx)
            have hgl : g ∈ l := (hmem g).2 hpg
            match l, hpw, hall, hgl with
            | [a], _, hall, _ => rw [hall a (List.mem_singleton.2 rfl)]
            | a :: b :: r, hpw, hall, _ =>
              have ha := hall a (List.mem_cons_self _ _)
              have hb := hall b (List.mem_cons_of_mem _ (List.mem_cons_self _ _))
              have hlt := (List.pairwise_cons.1 hpw).1 b (List.mem_cons_self _ _)
              omega
          subst hl1
          simp only [hl, Res.ok_bind]
          refine ⟨t.set k (g : Int), ?_, by simp [hlen]⟩
          exact vecSet_nat t k (g : Int) (by omega)
        · rw [if_neg hc]
          exact ⟨t, rfl, hlen⟩)
    exact ⟨pm, hpm⟩

end UMesh2dh

/-- The comparison with a tolerance in exact arithmetic is symmetric. -/
theorem nearRat_symm (tol x y : ℚ) : nearRat tol x y = nearRat tol y x := by
  unfold nearRat
  rw [abs_sub_comm]

/-- C21 on the two-by-two block of unit squares whose left and right sides
carry the periodic marker 5 and are identified along `x` (axis 0), with the
tolerance `1/1000`: the run pairs face 2 with face 7 and face 3 with face
6. -/
theorem compute_periodic_map_involution_witness :
    (∀ x y, nearRat (1 / 1000) x y = nearRat (1 / 1000) y x) ∧
    periodicSquare.PeriodicFacesMatched periodicSquareTags midRat (nearRat (1 / 1000)) 5 0 ∧
    periodicSquare.compute_periodic_map periodicSquareTags midRat (nearRat (1 / 1000)) 5 0 =
      .ok [-1, -1, 7, 6, -1, -1, 3, 2, -1, -1, -1, -1] ∧
    ((∀ periodicmap : List Int,
      periodicSquare.compute_periodic_map periodicSquareTags midRat (nearRat (1 / 1000)) 5 0 =
        .ok periodicmap →
      periodicmap.length = periodicSquare.naface ∧
      ∀ f : Nat, f < periodicSquare.naface →
        (periodicSquareTags.get f 0 ≠ .ok 5 ∧ periodicmap[f]? = some (-1)) ∨
        (periodicSquareTags.get f 0 = .ok 5 ∧ ∃ g : Nat, g < periodicSquare.naface ∧
          periodicSquare.IsPeriodicPartner periodicSquareTags midRat (nearRat (1 / 1000)) 5 0
            f g ∧
          periodicmap[f]? = some (g : Int) ∧ periodicmap[g]? = some (f : Int))) ∧
    (periodicSquare.PeriodicFacesMatched periodicSquareTags midRat (nearRat (1 / 1000)) 5 0 →
      ∃ periodicmap,
        periodicSquare.compute_periodic_map periodicSquareTags midRat (nearRat (1 / 1000)) 5 0 =
          .ok periodicmap)) :=
  ⟨nearRat_symm _, by decide!, by decide!,
    UMesh2dh.compute_periodic_map_involution periodicSquare periodicSquareTags midRat
      (nearRat (1 / 1000)) 5 0 (nearRat_symm _)⟩

end fvens
